import Mathlib

/-!
# Tail-sampling trace collector: quota allocation, shared buffer, batch sampling

A shallow embedding of the Go sources of the tail-sampling processor
(`quota_allocator.go`, `buffer.go`, `group_sampler.go`, `group_sampler_simple.go`,
`group_sampler_advanced.go`, `optimizer_advanced.go`, `processor.go`) together with theorems
about `AllocateQuota`, `SharedBuffer.SwapAndClear` and `runBatchSampling`.

Conventions of the embedding.

* Go `int` values are mathematical integers (`Int`); `uint64` counters are naturals, reduced
  modulo `2 ^ 64` where the source increments them.
* A `float64` value is the rational it stands for, with `none` standing for `+Inf` (type
  `F64`) or for `NaN` (type `Flt`). The function `fl64` rounds a rational to the nearest
  `float64` (ties to even, subnormal range included; the quantities of the development stay
  far below the overflow threshold `2 ^ 1024`, which is not modelled). The definitions whose
  name ends in `64` apply `fl64` after every arithmetic operation of the source, in the order
  in which Go evaluates it without fused multiply-add; the definitions without the suffix
  compute the same expressions without rounding and are used where the rounding has no
  influence on the statement.
* A Go `map[string]V` is an association list read with `List.lookup`; the order in which Go
  enumerates the keys inside `AllocateQuota` is an explicit argument (`codes`).
* A call that returns `(value, error)` has a `GoResult`; a runtime panic is the outcome
  `crash` (or `none` for functions without an error value).
* Calls of `math/rand` read from an explicit stream of draws (`Rng`); the run of the genetic
  algorithm of the library `eaopt` is an explicit outcome (`GAOutcome`).
-/

namespace TraceCollector

/-! ## Go maps -/

/-- A Go `map[string]int`, as an association list. -/
abbrev GoMap := List (String × Int)

/-- The Go expression `m[k]`: the stored value, or the zero value when `k` is absent. -/
def mapGet (m : GoMap) (k : String) : Int := (m.lookup k).getD 0

/-- The `ok` of the Go expression `_, ok := m[k]`. -/
def mapHas (m : GoMap) (k : String) : Bool := (m.lookup k).isSome

/-! ## Rounding to `float64` -/

/-- The power `2 ^ e` for an integer exponent. -/
def pow2 (e : Int) : ℚ :=
  if 0 ≤ e then ((2 ^ e.toNat : Nat) : ℚ) else 1 / ((2 ^ (-e).toNat : Nat) : ℚ)

/-- The number `⌊log₂ n⌋` for `1 ≤ n ≤ fuel`, by repeated halving. -/
def log2Nat : Nat → Nat → Nat
  | 0, _ => 0
  | fuel + 1, n => if n < 2 then 0 else log2Nat fuel (n / 2) + 1

/-- The binary exponent `⌊log₂ q⌋` of a positive rational: the difference of the exponents of
numerator and denominator, lowered by one when `2 ^ e` is still above `q`. -/
def log2Floor (q : ℚ) : Int :=
  if pow2 ((log2Nat q.num.toNat q.num.toNat : Int) - (log2Nat q.den q.den : Int)) ≤ q then
    (log2Nat q.num.toNat q.num.toNat : Int) - (log2Nat q.den q.den : Int)
  else (log2Nat q.num.toNat q.num.toNat : Int) - (log2Nat q.den q.den : Int) - 1

/-- Rounding to the nearest integer, a tie going to the even neighbour. -/
def roundHalfEven (m : ℚ) : Int :=
  if m - ⌊m⌋ < 1 / 2 then ⌊m⌋
  else if 1 / 2 < m - ⌊m⌋ then ⌊m⌋ + 1
  else if ⌊m⌋ % 2 = 0 then ⌊m⌋ else ⌊m⌋ + 1

/-- The exponent of the spacing of the `float64` values around `q ≠ 0`: 52 below the binary
exponent of `q` (a significand of 53 bits), and `-1074` throughout the subnormal range. -/
def ulpExp (q : ℚ) : Int := max (log2Floor |q| - 52) (-1074)

/-- The `float64` nearest to the rational `q` (IEEE 754 binary64, round to nearest, ties to
even), as a rational. Results of `2 ^ 1024` and more, which the hardware turns into `±Inf`,
are returned as they are. -/
def fl64 (q : ℚ) : ℚ :=
  if q = 0 then 0 else (roundHalfEven (q / pow2 (ulpExp q)) : ℚ) * pow2 (ulpExp q)

/-! ## quota_allocator.go -/

/-- A `float64` cell of the DP table: an exact rational or `+Inf` (`none`). -/
abbrev F64 := Option ℚ

/-- The Go `math.Min` on cells that are finite or `+Inf`. -/
def fmin : F64 → F64 → F64
  | none, b => b
  | some a, none => some a
  | some a, some b => some (if b < a then b else a)

/-- Float addition on cells that are finite or `+Inf`. -/
def fadd : F64 → F64 → F64
  | some a, some b => some (a + b)
  | _, _ => none

/-- The Go expression `math.Pow(float64(x+bases[i-1])-average, 2)` without rounding
(`costAt64` rounds). -/
def costAt (x b : Int) (average : ℚ) : ℚ := (((x + b : Int) : ℚ) - average) ^ 2

/-- Number of iterations of `for x := 0; x <= min(upperBounds[i-1], s); x++`. -/
def loopBound (ub : Int) (s : Nat) : Nat := (min ub (s : Int) + 1).toNat

/-- The cell `dp[i][s]` computed from the previous row `dp[i-1]`: it starts as `+Inf` and is
lowered by `math.Min(dp[i][s], dp[i-1][s-x]+cost)` for every `x` of the inner loop. -/
def dpCell (ub b : Int) (average : ℚ) (prev : List F64) (s : Nat) : F64 :=
  (List.range (loopBound ub s)).foldl
    (fun acc x => fmin acc (fadd (prev.getD (s - x) none) (some (costAt x b average)))) none

/-- The row `dp[i]` (cells `0 .. totalQuota`) computed from the row `dp[i-1]`. -/
def dpRow (ub b : Int) (average : ℚ) (Q : Nat) (prev : List F64) : List F64 :=
  (List.range (Q + 1)).map (dpCell ub b average prev)

/-- The row `dp[0]`: `dp[0][0] = 0` and `+Inf` elsewhere. -/
def dpInit (Q : Nat) : List F64 := some 0 :: List.replicate Q none

/-- The DP table, last row first: for the types `t_1 .. t_i` given in reverse order
(`t_i` first) the result is `[dp[i], dp[i-1], .., dp[0]]`. -/
def dpRows (average : ℚ) (Q : Nat) : List (Int × Int) → List (List F64)
  | [] => [dpInit Q]
  | t :: rest =>
    let tab := dpRows average Q rest
    dpRow t.1 t.2 average Q (tab.headD []) :: tab

/-- The test `math.Abs(dp[i][s]-(dp[i-1][s-x]+cost)) < 1e-9`. With an infinite operand the
difference is `±Inf` or `NaN` and the comparison is false. -/
def closeTo (a b : F64) : Bool :=
  match a, b with
  | some a, some b => decide (|a - b| < 1 / 1000000000)
  | _, _ => false

/-- The inner loop of the reconstruction: the first `x` in `0 .. min(upperBounds[i-1], s)`
that passes the test, if any (`break` leaves the loop there). -/
def pickX (cur prev : List F64) (ub b : Int) (average : ℚ) (s : Nat) : Option Nat :=
  (List.range (loopBound ub s)).find?
    (fun x => closeTo (cur.getD s none) (fadd (prev.getD (s - x) none) (some (costAt x b average))))

/-- The reconstruction loop `for i := n; i > 0; i--`, walking the table from its last row:
the result lists `solution[i-1], solution[i-2], .., solution[0]`. An entry that no `x` passes
keeps its initial value `0` and leaves `s` unchanged. -/
def recon (average : ℚ) : List (Int × Int) → List (List F64) → Nat → List Nat
  | t :: rest, cur :: prev :: tab, s =>
    let x := (pickX cur prev t.1 t.2 average s).getD 0
    x :: recon average rest (prev :: tab) (s - x)
  | _, _, _ => []

/-- The `solution` slice of `AllocateQuota` for the upper bounds and bases of the
enumerated codes (defined for `totalQuota > 0` and at least one code). -/
def solveQuota (upperBounds bases : List Int) (totalQuota : Int) : List Nat :=
  let n := upperBounds.length
  let totalBase := bases.sum
  let average : ℚ := ((totalQuota + totalBase : Int) : ℚ) / (n : ℚ)
  let rev := (upperBounds.zip bases).reverse
  let dp := dpRows average totalQuota.toNat rev
  (recon average rev dp totalQuota.toNat).reverse

/-- The final loop of `AllocateQuota`: keep `code ↦ solution[i]` when `solution[i] > 0` and
`code` is a key of `typeCounts`. -/
def buildQuotas (typeCounts : GoMap) (codes : List String) (solution : List Nat) : GoMap :=
  (codes.zip solution).filterMap
    (fun p => if 0 < p.2 ∧ mapHas typeCounts p.1 = true then some (p.1, (p.2 : Int)) else none)

/-- The function `AllocateQuota` in exact arithmetic (`AllocateQuota64` rounds as `float64`
does). `codes` is the order in which Go enumerates the set of all keys of the two maps (the
slice `codes` of the source). -/
def AllocateQuota (codes : List String) (typeCounts historicalCounts : GoMap)
    (totalQuota : Int) : GoMap :=
  if totalQuota ≤ 0 then []
  else
    let upperBounds := codes.map (mapGet typeCounts)
    let bases := codes.map (mapGet historicalCounts)
    if codes.length = 0 then []
    else buildQuotas typeCounts codes (solveQuota upperBounds bases totalQuota)

/-- The newest row of the table: `dp[i]` for the `i` types listed (last type first). -/
def rowOf (average : ℚ) (Q : Nat) (ts : List (Int × Int)) : List F64 :=
  (dpRows average Q ts).headD []

/-- The cost `Σ (x + b − avg)²` of an allocation `xs` for the types `ts = (u, b)`. -/
def allocCost (average : ℚ) : List (Int × Int) → List Nat → ℚ
  | t :: ts, x :: xs => costAt x t.2 average + allocCost average ts xs
  | _, _ => 0

/-- The integer `Σ (x + b)²` of an allocation `xs` for the types `ts = (u, b)`. -/
def sqSum : List (Int × Int) → List Nat → Int
  | t :: ts, x :: xs => ((x : Int) + t.2) ^ 2 + sqSum ts xs
  | _, _ => 0

/-- An allocation stays within the upper bounds: `x[i] ≤ u[i]` position by position. -/
def Within (ts : List (Int × Int)) (xs : List Nat) : Prop :=
  List.Forall₂ (fun (t : Int × Int) (x : Nat) => (x : Int) ≤ t.1) ts xs

/-- The pairs `(upperBounds[i], bases[i])` of the enumerated codes. -/
def typesOf (codes : List String) (typeCounts historicalCounts : GoMap) : List (Int × Int) :=
  codes.map (fun c => (mapGet typeCounts c, mapGet historicalCounts c))

/-- The list `codes` is an enumeration of the union of the keys of the two maps, each key
once (what the loops over `allCodesSet` produce, in some order). -/
def EnumeratesKeys (codes : List String) (typeCounts historicalCounts : GoMap) : Prop :=
  codes.Nodup
    ∧ (∀ c ∈ codes, mapHas typeCounts c = true ∨ mapHas historicalCounts c = true)
    ∧ (∀ p ∈ typeCounts, p.1 ∈ codes) ∧ (∀ p ∈ historicalCounts, p.1 ∈ codes)

instance (codes : List String) (typeCounts historicalCounts : GoMap) :
    Decidable (EnumeratesKeys codes typeCounts historicalCounts) := by
  unfold EnumeratesKeys
  infer_instance

/-- The keys of a Go map are pairwise distinct. -/
def KeysNodup {α : Type} (m : List (String × α)) : Prop := (m.map Prod.fst).Nodup

instance {α : Type} (m : List (String × α)) : Decidable (KeysNodup m) := by
  unfold KeysNodup
  infer_instance

/-- Sum of the values of a map whose keys are pairwise distinct. -/
def mapSum (m : GoMap) : Int := (m.map Prod.snd).sum

/-- The average `(Q + T) / n` used by `AllocateQuota`. -/
def quotaAverage (codes : List String) (historicalCounts : GoMap) (totalQuota : Int) : ℚ :=
  ((totalQuota + (codes.map (mapGet historicalCounts)).sum : Int) : ℚ) / (codes.length : ℚ)

/-- The objective `Σ (x[i] + b[i] − avg)²` of an allocation `x` over the enumerated codes. -/
def objective (codes : List String) (historicalCounts : GoMap) (totalQuota : Int)
    (x : String → Int) : ℚ :=
  (codes.map (fun c => costAt (x c) (mapGet historicalCounts c)
    (quotaAverage codes historicalCounts totalQuota))).sum

/-! ## quota_allocator.go in `float64` -/

/-- The Go expression `math.Pow(float64(x+bases[i-1])-average, 2)` in `float64`: the
conversion of the integer, the difference and the square are rounded (`math.Pow` with the
exponent 2 multiplies the significand by itself once; the `average` passed is a `float64`). -/
def costAt64 (x b : Int) (average : ℚ) : ℚ :=
  fl64 (fl64 (fl64 ((x + b : Int) : ℚ) - average) ^ 2)

/-- The `float64` sum `dp[i-1][s-x]+cost` of a cell that is finite or `+Inf` and a finite
cost. -/
def fadd64 : F64 → F64 → F64
  | some a, some b => some (fl64 (a + b))
  | _, _ => none

/-- The cell `dp[i][s]` computed in `float64` from the previous row `dp[i-1]`. -/
def dpCell64 (ub b : Int) (average : ℚ) (prev : List F64) (s : Nat) : F64 :=
  (List.range (loopBound ub s)).foldl
    (fun acc x => fmin acc (fadd64 (prev.getD (s - x) none) (some (costAt64 x b average)))) none

/-- The row `dp[i]` (cells `0 .. totalQuota`) computed in `float64` from the row `dp[i-1]`. -/
def dpRow64 (ub b : Int) (average : ℚ) (Q : Nat) (prev : List F64) : List F64 :=
  (List.range (Q + 1)).map (dpCell64 ub b average prev)

/-- The DP table in `float64`, last row first (as `dpRows`). -/
def dpRows64 (average : ℚ) (Q : Nat) : List (Int × Int) → List (List F64)
  | [] => [dpInit Q]
  | t :: rest =>
    let tab := dpRows64 average Q rest
    dpRow64 t.1 t.2 average Q (tab.headD []) :: tab

/-- The test `math.Abs(dp[i][s]-(dp[i-1][s-x]+cost)) < 1e-9` in `float64`: the difference is
rounded and compared with the `float64` nearest to `1e-9`. With an infinite operand the
difference is `±Inf` or `NaN` and the comparison is false. -/
def closeTo64 (a b : F64) : Bool :=
  match a, b with
  | some a, some b => decide (|fl64 (a - b)| < fl64 (1 / 1000000000))
  | _, _ => false

/-- The inner loop of the reconstruction in `float64`: the first `x` that passes the test. -/
def pickX64 (cur prev : List F64) (ub b : Int) (average : ℚ) (s : Nat) : Option Nat :=
  (List.range (loopBound ub s)).find?
    (fun x => closeTo64 (cur.getD s none)
      (fadd64 (prev.getD (s - x) none) (some (costAt64 x b average))))

/-- The reconstruction loop `for i := n; i > 0; i--` in `float64` (as `recon`). -/
def recon64 (average : ℚ) : List (Int × Int) → List (List F64) → Nat → List Nat
  | t :: rest, cur :: prev :: tab, s =>
    let x := (pickX64 cur prev t.1 t.2 average s).getD 0
    x :: recon64 average rest (prev :: tab) (s - x)
  | _, _, _ => []

/-- The `float64` value `average := float64(totalQuota+totalBase) / float64(n)`. -/
def average64 (bases : List Int) (n : Nat) (totalQuota : Int) : ℚ :=
  fl64 (fl64 ((totalQuota + bases.sum : Int) : ℚ) / fl64 (n : ℚ))

/-- The `solution` slice of `AllocateQuota` computed in `float64` (defined for
`totalQuota > 0` and at least one code). -/
def solveQuota64 (upperBounds bases : List Int) (totalQuota : Int) : List Nat :=
  let average := average64 bases upperBounds.length totalQuota
  let rev := (upperBounds.zip bases).reverse
  let dp := dpRows64 average totalQuota.toNat rev
  (recon64 average rev dp totalQuota.toNat).reverse

/-- The function `AllocateQuota` with its `float64` arithmetic. `codes` is the order in which
Go enumerates the set of all keys of the two maps (the slice `codes` of the source). -/
def AllocateQuota64 (codes : List String) (typeCounts historicalCounts : GoMap)
    (totalQuota : Int) : GoMap :=
  if totalQuota ≤ 0 then []
  else
    let upperBounds := codes.map (mapGet typeCounts)
    let bases := codes.map (mapGet historicalCounts)
    if codes.length = 0 then []
    else buildQuotas typeCounts codes (solveQuota64 upperBounds bases totalQuota)

/-- The newest row of the `float64` table: `dp[i]` for the `i` types listed. -/
def rowOf64 (average : ℚ) (Q : Nat) (ts : List (Int × Int)) : List F64 :=
  (dpRows64 average Q ts).headD []

/-! ## buffer.go -/

/-- One span of `ptrace`, with the attributes the processor reads: `spanID` and
`parentSpanID` are the 8-byte ids read as numbers (`0` is the empty id), `serviceName` is the
span attribute `service.name` when present, the timestamps are `uint64` nanoseconds and
`statusError` says whether the status code is `StatusCodeError`. -/
structure Span where
  spanID : Nat
  parentSpanID : Nat
  name : String
  serviceName : Option String
  startTimestamp : Nat
  endTimestamp : Nat
  statusError : Bool
  deriving DecidableEq

/-- One `ResourceSpans` entry: the resource attribute `service.name` when present and the
spans of its scopes. -/
structure ResourceSpans where
  serviceName : Option String
  scopeSpans : List (List Span)
  deriving DecidableEq

/-- A `ptrace.Traces` value: its resource spans in order. -/
abbrev Traces := List ResourceSpans

/-- The struct `SharedBuffer` (without its mutex). -/
structure SharedBuffer where
  limit : Nat
  typeMap : List (String × List Traces)
  abnormalTraces : List Traces
  count : Nat

/-- The function `NewSharedBuffer`. -/
def NewSharedBuffer (limit : Nat) : SharedBuffer :=
  { limit := limit, typeMap := [], abnormalTraces := [], count := 0 }

/-- The Go expression `m[k]` for a map of trace lists (`nil` when `k` is absent). -/
def tracesOf (m : List (String × List Traces)) (k : String) : List Traces :=
  (m.lookup k).getD []

/-- The statement `b.typeMap[typeID] = append(b.typeMap[typeID], trace)`. -/
def typeMapAppend (m : List (String × List Traces)) (typeID : String) (trace : Traces) :
    List (String × List Traces) :=
  match m with
  | [] => [(typeID, [trace])]
  | (k, ts) :: rest =>
    if k = typeID then (k, ts ++ [trace]) :: rest
    else (k, ts) :: typeMapAppend rest typeID trace

/-- The method `SharedBuffer.Add`; `count++` wraps at `2 ^ 64`. -/
def SharedBuffer.Add (b : SharedBuffer) (typeID : String) (trace : Traces) (isAbnormal : Bool) :
    SharedBuffer :=
  if isAbnormal then
    { b with abnormalTraces := b.abnormalTraces ++ [trace], count := (b.count + 1) % 2 ^ 64 }
  else
    { b with typeMap := typeMapAppend b.typeMap typeID trace, count := (b.count + 1) % 2 ^ 64 }

/-- The method `SharedBuffer.IsFull`. -/
def SharedBuffer.IsFull (b : SharedBuffer) : Bool := decide (b.count ≥ b.limit)

/-- The method `SharedBuffer.IsEmpty`. -/
def SharedBuffer.IsEmpty (b : SharedBuffer) : Bool := decide (b.count = 0)

/-- The method `SharedBuffer.Count`. -/
def SharedBuffer.Count (b : SharedBuffer) : Nat := b.count

/-- The method `SharedBuffer.SwapAndClear`: the three returned values and the buffer left
behind. -/
def SharedBuffer.SwapAndClear (b : SharedBuffer) :
    (List (String × List Traces) × List Traces × Nat) × SharedBuffer :=
  ((b.typeMap, b.abnormalTraces, b.count),
    { b with typeMap := [], abnormalTraces := [], count := 0 })

/-! ## Outcomes of Go calls and random draws -/

/-- What a Go call that returns `(value, error)` does: it returns a value, returns an error,
or is stopped by a runtime panic (`crash`). -/
inductive GoResult (α : Type) where
  | ok (val : α) : GoResult α
  | error (msg : String) : GoResult α
  | crash : GoResult α

/-- The state of `math/rand`: the stream of raw draws still to come. -/
abbrev Rng := Nat → Nat

/-- The call `rand.Intn(n)` (made with `n > 0` only): a number below `n` and the stream that
is left. Every outcome of the generator is the image of some stream. -/
def Intn (rng : Rng) (n : Nat) : Nat × Rng := (rng 0 % n, fun k => rng (k + 1))

/-- The statement `p[i], p[j] = p[j], p[i]`. -/
def swapAt (p : List Int) (i j : Nat) : List Int :=
  (p.set i (p.getD j 0)).set j (p.getD i 0)

/-- The Fisher-Yates loop `for i := top; i > 0; i-- { j := rand.Intn(i + 1); swap i j }`. -/
def shuffleDown (p : List Int) : Nat → Rng → List Int × Rng
  | 0, rng => (p, rng)
  | i + 1, rng => shuffleDown (swapAt p (i + 1) (Intn rng (i + 2)).1) i (Intn rng (i + 2)).2

/-! ## group_sampler.go -/

/-- A cell of a latency matrix: a whole number of milliseconds, or `NaN` (`none`). -/
abbrev Cell := Option Int

/-- The function `randomSample(start, end, n)`: `none` when it panics (the explicit panic for
`n > end-start`, a negative length for `make`, or the slice `population[:n]` with `n < 0`). -/
def randomSample (start stop n : Int) (rng : Rng) : Option (List Int × Rng) :=
  if n > stop - start ∨ n < 0 then none
  else
    let population := (List.range (stop - start).toNat).map (fun (i : Nat) => start + (i : Int))
    let shuffled := shuffleDown population (population.length - 1) rng
    some (shuffled.1.take n.toNat, shuffled.2)

/-- The function `NewCombination`: a copy of the index list. -/
def NewCombination (comb : List Int) : List Int := comb

/-- The loop `for i, base := range bases { sum += base; sp.Splits[i] = sum }`. -/
def cumSums : Int → List Int → List Int
  | _, [] => []
  | acc, b :: bs => (acc + b) :: cumSums (acc + b) bs

/-- The loop `for i, quota := range quotas` that fills one row `AllCombs[combIdx]`, from
position `i` on; `none` when `Splits[i]` is out of range or `randomSample` panics. -/
def buildCombRow (splits : List Int) : Nat → List Int → Rng → Option (List (List Int) × Rng)
  | _, [], rng => some ([], rng)
  | i, quota :: rest, rng =>
    match splits[i]? with
    | none => none
    | some stop =>
      match randomSample (if i = 0 then 0 else splits.getD (i - 1) 0) stop quota rng with
      | none => none
      | some (indices, rng1) =>
        match buildCombRow splits (i + 1) rest rng1 with
        | none => none
        | some (row, rng2) => some (NewCombination indices :: row, rng2)

/-- The loop `for combIdx := 0; combIdx < combCount; combIdx++` that fills `AllCombs`. -/
def buildAllCombs (quotas splits : List Int) : Nat → Rng → Option (List (List (List Int)) × Rng)
  | 0, rng => some ([], rng)
  | k + 1, rng =>
    match buildCombRow splits 0 quotas rng with
    | none => none
    | some (row, rng1) =>
      match buildAllCombs quotas splits k rng1 with
      | none => none
      | some (rows, rng2) => some (row :: rows, rng2)

/-- The struct `SampleProblem`, with the fields that decide which indices a genome selects.
The constant fields `Name`, `MaxOrMins`, `VarTypes`, `Lbin`, `Ubin` and the percentile data
`Ps`, `OriginP`, `MaxV`, `MinV`, `Np` (functions of `RawDist` and `AbDist`) are left out. -/
structure SampleProblem where
  Quotas : List Int
  Bases : List Int
  RawDist : List (List Cell)
  AbDist : List (List Cell)
  Splits : List Int
  C : Int
  NumLabel : Nat
  AllCombs : List (List (List Int))
  M : Int
  Dim : Nat
  Lb : List Int
  Ub : List Int

/-- The function `NewSampleProblem`. It returns an error for `combCount < 2`; it panics when
`rawDist` has no row (`len(rawDist[0])`), when a combination cannot be drawn, or when a row of
`rawDist ++ abDist` is shorter than the first one (`transpose` reads `matrix[j][i]`). -/
def NewSampleProblem (rawDist abDist : List (List Cell)) (quotas bases : List Int)
    (combCount M : Int) (rng : Rng) : GoResult (SampleProblem × Rng) :=
  if combCount < 2 then GoResult.error "combCount must be larger than 2"
  else
    match rawDist with
    | [] => GoResult.crash
    | row0 :: _ =>
      match buildAllCombs quotas (cumSums 0 bases) combCount.toNat rng with
      | none => GoResult.crash
      | some (allCombs, rng1) =>
        if (rawDist ++ abDist).all (fun r => decide (row0.length ≤ r.length)) then
          GoResult.ok
            ({ Quotas := quotas, Bases := bases, RawDist := rawDist, AbDist := abDist,
               Splits := cumSums 0 bases, C := quotas.sum, NumLabel := row0.length,
               AllCombs := allCombs, M := M, Dim := quotas.length,
               Lb := List.replicate quotas.length 0,
               Ub := List.replicate quotas.length (combCount - 1) }, rng1)
        else GoResult.crash

/-- The loop of `SampleProblem.GetIdxsByVar` from position `j` on: `none` when
`sp.AllCombs[val][j]` is out of range. -/
def getIdxsFrom (allCombs : List (List (List Int))) : Nat → List Int → Option (List Int)
  | _, [] => some []
  | j, val :: rest =>
    if val < 0 then none
    else
      match allCombs[val.toNat]? with
      | none => none
      | some row =>
        match row[j]? with
        | none => none
        | some comb =>
          match getIdxsFrom allCombs (j + 1) rest with
          | none => none
          | some more => some (comb ++ more)

/-- The method `SampleProblem.GetIdxsByVar`. -/
def SampleProblem.GetIdxsByVar (sp : SampleProblem) (varVal : List Int) : Option (List Int) :=
  getIdxsFrom sp.AllCombs 0 varVal

/-! ## group_sampler_simple.go -/

/-- The loop of `NewSampleVectorSimple` over the positions `i` of the genome. -/
def initGenesSimple (lb ub : List Int) : List Nat → Rng → List Int × Rng
  | [], rng => ([], rng)
  | i :: rest, rng =>
    match lb[i]?, ub[i]? with
    | some l, some u =>
      if u > l then
        ((l + ((Intn rng (u - l + 1).toNat).1 : Int))
            :: (initGenesSimple lb ub rest (Intn rng (u - l + 1).toNat).2).1,
          (initGenesSimple lb ub rest (Intn rng (u - l + 1).toNat).2).2)
      else (l :: (initGenesSimple lb ub rest rng).1, (initGenesSimple lb ub rest rng).2)
    | _, _ => (0 :: (initGenesSimple lb ub rest rng).1, (initGenesSimple lb ub rest rng).2)

/-- The function `NewSampleVectorSimple` for a non-nil problem: the genes of the new vector. -/
def NewSampleVectorSimple (problem : SampleProblem) (rng : Rng) : List Int × Rng :=
  if problem.Dim = 0 then ([1], rng)
  else initGenesSimple problem.Lb problem.Ub (List.range problem.Dim) rng

/-- How the run of the genetic algorithm of the library `eaopt` ends: `NewGA` fails,
`Minimize` fails, the hall of fame is empty, its best genome has another type, or it holds a
best genome with the given genes. -/
inductive GAOutcome where
  | createFailed : GAOutcome
  | minimizeFailed : GAOutcome
  | emptyHallOfFame : GAOutcome
  | wrongType : GAOutcome
  | best (genes : List Int) : GAOutcome

/-- The method `OptimizeSimple` for a non-nil problem, given how the run of the library ends. -/
def OptimizeSimple (ga : GAOutcome) : GoResult (List Int) :=
  match ga with
  | GAOutcome.createFailed => GoResult.error "failed to create GA"
  | GAOutcome.minimizeFailed => GoResult.error "GA minimize failed"
  | GAOutcome.emptyHallOfFame => GoResult.error "no individuals in hall of fame"
  | GAOutcome.wrongType => GoResult.error "unexpected genome type"
  | GAOutcome.best genes => GoResult.ok genes

/-- The method `OptimizeWithSimpleFallback`: the fallback vector is built first; an error of
`OptimizeSimple` is replaced by `(fallback, nil)`. -/
def OptimizeWithSimpleFallback (problem : SampleProblem) (rng : Rng) (ga : GAOutcome) :
    GoResult (List Int) × Rng :=
  match OptimizeSimple ga with
  | GoResult.ok result => (GoResult.ok result, (NewSampleVectorSimple problem rng).2)
  | _ => (GoResult.ok (NewSampleVectorSimple problem rng).1, (NewSampleVectorSimple problem rng).2)

/-! ## group_sampler_advanced.go and optimizer_advanced.go -/

/-- The loop `for i := 0; i < n; i++ { j := i + rand.Intn(len(population)-i); swap i j }` of
`randomSampleRange`, with `todo` iterations left. -/
def partialShuffle (p : List Int) : Nat → Nat → Rng → List Int × Rng
  | 0, _, rng => (p, rng)
  | todo + 1, i, rng =>
    partialShuffle (swapAt p i (i + (Intn rng (p.length - i)).1)) todo (i + 1)
      (Intn rng (p.length - i)).2

/-- The function `randomSampleRange(start, end, n)`: `none` when it panics. -/
def randomSampleRange (start stop n : Int) (rng : Rng) : Option (List Int × Rng) :=
  if n > stop - start ∨ n < 0 then none
  else
    let population := (List.range (stop - start).toNat).map (fun (i : Nat) => start + (i : Int))
    let shuffled := partialShuffle population n.toNat 0 rng
    some (shuffled.1.take n.toNat, shuffled.2)

/-- The inner loop of `initCombinations` from position `codeIdx` on, with the running
`start`. -/
def initCombRowAdvanced (splits : List Int) :
    Nat → Int → List Int → Rng → GoResult (List (List Int) × Rng)
  | _, _, [], rng => GoResult.ok ([], rng)
  | codeIdx, start, quota :: rest, rng =>
    match splits[codeIdx]? with
    | none => GoResult.crash
    | some stop =>
      if stop - start < quota then GoResult.error "not enough data for code"
      else
        match randomSampleRange start stop quota rng with
        | none => GoResult.crash
        | some (comb, rng1) =>
          match initCombRowAdvanced splits (codeIdx + 1) stop rest rng1 with
          | GoResult.ok (row, rng2) => GoResult.ok (NewCombination comb :: row, rng2)
          | GoResult.error msg => GoResult.error msg
          | GoResult.crash => GoResult.crash

/-- The method `initCombinations`: the rows `AllCombs[0 .. combCount)`. -/
def initCombinations (quotas splits : List Int) :
    Nat → Rng → GoResult (List (List (List Int)) × Rng)
  | 0, rng => GoResult.ok ([], rng)
  | k + 1, rng =>
    match initCombRowAdvanced splits 0 0 quotas rng with
    | GoResult.ok (row, rng1) =>
      match initCombinations quotas splits k rng1 with
      | GoResult.ok (rows, rng2) => GoResult.ok (row :: rows, rng2)
      | GoResult.error msg => GoResult.error msg
      | GoResult.crash => GoResult.crash
    | GoResult.error msg => GoResult.error msg
    | GoResult.crash => GoResult.crash

/-- The struct `SampleProblemAdvanced`, without its percentile data (`Ps`, `OriginP`,
`MaxV`, `MinV`, `Np`). -/
structure SampleProblemAdvanced where
  RawDist : List (List Cell)
  AbDist : List (List Cell)
  Quotas : List Int
  Bases : List Int
  AllCombs : List (List (List Int))
  CombCount : Int
  Splits : List Int
  C : Int
  NumLabel : Nat
  Dim : Nat
  Lb : List Int
  Ub : List Int

/-- The function `NewSampleProblemAdvanced`. -/
def NewSampleProblemAdvanced (rawDist abDist : List (List Cell)) (quotas bases : List Int)
    (combCount : Int) (rng : Rng) : GoResult (SampleProblemAdvanced × Rng) :=
  if combCount < 2 then GoResult.error "combCount must be larger than 2"
  else
    match rawDist with
    | [] => GoResult.crash
    | row0 :: _ =>
      match initCombinations quotas (cumSums 0 bases) combCount.toNat rng with
      | GoResult.error msg => GoResult.error msg
      | GoResult.crash => GoResult.crash
      | GoResult.ok (allCombs, rng1) =>
        if (rawDist ++ abDist).all (fun r => decide (row0.length ≤ r.length)) then
          GoResult.ok
            ({ RawDist := rawDist, AbDist := abDist, Quotas := quotas, Bases := bases,
               AllCombs := allCombs, CombCount := combCount, Splits := cumSums 0 bases,
               C := quotas.sum, NumLabel := row0.length, Dim := quotas.length,
               Lb := List.replicate quotas.length 0,
               Ub := List.replicate quotas.length (combCount - 1) }, rng1)
        else GoResult.crash

/-- The function `ConvertToSampleProblemAdvanced` for a non-nil problem. -/
def ConvertToSampleProblemAdvanced (oldProblem : SampleProblem) (combCount : Int) (rng : Rng) :
    GoResult (SampleProblemAdvanced × Rng) :=
  match NewSampleProblemAdvanced oldProblem.RawDist oldProblem.AbDist oldProblem.Quotas
      oldProblem.Bases (if combCount ≤ 0 then 10 else combCount) rng with
  | GoResult.ok r => GoResult.ok r
  | GoResult.error _ => GoResult.error "failed to create advanced problem"
  | GoResult.crash => GoResult.crash

/-- The loop of `NewSampleVectorAdvanced` over the positions `i` of the genome. -/
def initGenesAdvanced (lb ub : List Int) : List Nat → Rng → List Int × Rng
  | [], rng => ([], rng)
  | i :: rest, rng =>
    match ub[i]? with
    | some u =>
      ((((Intn rng (u - lb.getD i 0 + 1).toNat).1 : Int) + lb.getD i 0)
          :: (initGenesAdvanced lb ub rest (Intn rng (u - lb.getD i 0 + 1).toNat).2).1,
        (initGenesAdvanced lb ub rest (Intn rng (u - lb.getD i 0 + 1).toNat).2).2)
    | none => (0 :: (initGenesAdvanced lb ub rest rng).1, (initGenesAdvanced lb ub rest rng).2)

/-- The function `NewSampleVectorAdvanced` for a non-nil problem: the genes. -/
def NewSampleVectorAdvanced (problem : SampleProblemAdvanced) (rng : Rng) : List Int × Rng :=
  if problem.Dim = 0 then ([0], rng)
  else initGenesAdvanced problem.Lb problem.Ub (List.range problem.Dim) rng

/-- The method `OptimizeAdvanced` for a non-nil problem, given how the run of the library
ends. -/
def OptimizeAdvanced (ga : GAOutcome) : GoResult (List Int) :=
  match ga with
  | GAOutcome.createFailed => GoResult.error "failed to create GA"
  | GAOutcome.minimizeFailed => GoResult.error "GA minimize failed"
  | GAOutcome.emptyHallOfFame => GoResult.error "no individuals in hall of fame"
  | GAOutcome.wrongType => GoResult.error "unexpected genome type"
  | GAOutcome.best genes => GoResult.ok genes

/-- The method `OptimizeWithAdvancedFallback`. -/
def OptimizeWithAdvancedFallback (problem : SampleProblemAdvanced) (rng : Rng) (ga : GAOutcome) :
    GoResult (List Int) × Rng :=
  match OptimizeAdvanced ga with
  | GoResult.ok result => (GoResult.ok result, (NewSampleVectorAdvanced problem rng).2)
  | _ =>
    (GoResult.ok (NewSampleVectorAdvanced problem rng).1, (NewSampleVectorAdvanced problem rng).2)

/-- The loop of `SampleProblemAdvanced.GetIdxsByVar` from position `codeIdx` on: a gene that
fails the range test is skipped. -/
def getIdxsAdvancedFrom (allCombs : List (List (List Int))) : Nat → List Int → List Int
  | _, [] => []
  | codeIdx, gene :: rest =>
    (if 0 ≤ gene then
      match allCombs[gene.toNat]? with
      | some row => (row[codeIdx]?).getD []
      | none => []
    else []) ++ getIdxsAdvancedFrom allCombs (codeIdx + 1) rest

/-- The method `SampleProblemAdvanced.GetIdxsByVar`. -/
def SampleProblemAdvanced.GetIdxsByVar (sp : SampleProblemAdvanced) (genes : List Int) :
    List Int :=
  getIdxsAdvancedFrom sp.AllCombs 0 genes

/-! ## processor.go -/

/-- Modelled from the spec: the struct `Config` (its declaration is not among the sources);
the fields are those set by `createDefaultConfig` and listed in the configuration table, with
`SampleRate` the rational value of the `float64` field and `DecisionWait` in nanoseconds. -/
structure Config where
  SampleRate : ℚ
  BufferSize : Nat
  PoolHeight : Nat
  CombinationCount : Int
  DecisionWait : Int

/-- The Go conversion `int(f)` of a float: truncation toward zero. -/
def truncToInt (q : ℚ) : Int := if 0 ≤ q then ⌊q⌋ else ⌈q⌉

/-- The spans of a trace in the order of the loops over resources, scopes and spans. -/
def spansOf (trace : Traces) : List Span :=
  trace.flatMap (fun rs => rs.scopeSpans.flatten)

/-- The function `getSpanLabel`: the label `service:operation`. -/
def getSpanLabel (span : Span) : String :=
  span.serviceName.getD "unknown.service" ++ ":" ++ span.name

/-- The conversion `Timestamp.AsTime`: `uint64` nanoseconds read as `int64`. -/
def asTimeNanos (ts : Nat) : Int :=
  if ts % 2 ^ 64 < 2 ^ 63 then ((ts % 2 ^ 64 : Nat) : Int) else ((ts % 2 ^ 64 : Nat) : Int) - 2 ^ 64

/-- The duration `span.EndTimestamp().AsTime().Sub(span.StartTimestamp().AsTime())` in
nanoseconds; `Sub` saturates at the bounds of `int64`. -/
def spanDuration (span : Span) : Int :=
  max (-(2 ^ 63)) (min (2 ^ 63 - 1) (asTimeNanos span.endTimestamp - asTimeNanos span.startTimestamp))

/-- The method `Duration.Milliseconds`: integer division that truncates toward zero. -/
def durationMilliseconds (d : Int) : Int := Int.tdiv d 1000000

/-- The call `sort.Strings`. -/
def sortStrings (l : List String) : List String := List.insertionSort (fun a b => a ≤ b) l

/-- The loop `for i, label := range labels { label2idx[label] = i }`, from index `i` on. -/
def indexFrom : Nat → List String → GoMap
  | _, [] => []
  | i, label :: rest => (label, (i : Int)) :: indexFrom (i + 1) rest

/-- The function `getAllLabelsAndMap`: the labels are collected from the normal traces; the
argument `abnormalTraces` is not read by the source. -/
def getAllLabelsAndMap (normalTraces : List (String × List Traces))
    (_abnormalTraces : List Traces) : List String × GoMap :=
  let labelSet := (normalTraces.flatMap
    (fun p => p.2.flatMap (fun trace => (spansOf trace).map getSpanLabel))).dedup
  (sortStrings labelSet, indexFrom 0 (sortStrings labelSet))

/-- The statement `latencies[idx] = v`: `none` when `idx` is out of range (a panic). -/
def setCell (row : List Cell) (idx : Int) (v : Cell) : Option (List Cell) :=
  if 0 ≤ idx ∧ idx < row.length then some (row.set idx.toNat v) else none

/-- The loops of `buildLatencyMatrix` over the spans of one trace. -/
def fillRow (label2idx : GoMap) : List Span → List Cell → Option (List Cell)
  | [], row => some row
  | span :: rest, row =>
    if mapHas label2idx (getSpanLabel span) = true then
      match setCell row (mapGet label2idx (getSpanLabel span))
          (some (durationMilliseconds (spanDuration span))) with
      | none => none
      | some row1 => fillRow label2idx rest row1
    else fillRow label2idx rest row

/-- The function `buildLatencyMatrix`: `none` when a write is out of range. -/
def buildLatencyMatrix (traces : List Traces) (label2idx : GoMap) (allLabels : List String) :
    Option (List (List Cell)) :=
  match traces with
  | [] => some []
  | trace :: rest =>
    match fillRow label2idx (spansOf trace) (List.replicate allLabels.length none),
        buildLatencyMatrix rest label2idx allLabels with
    | some row, some m => some (row :: m)
    | _, _ => none

/-- The Go expression `int(float64(count) * tsp.config.SampleRate)`: the count is converted to
`float64`, the product is rounded to `float64` and the result is truncated toward zero. -/
def sampleCount (cfg : Config) (count : Int) : Int :=
  truncToInt (fl64 (fl64 (count : ℚ) * cfg.SampleRate))

/-- The method `simpleRandomSampling`: the indices of `normalTraces ++ abnormalTraces` are
shuffled and the traces at the first `sampleCount` of them are returned. -/
def simpleRandomSampling (cfg : Config) (normalTraces abnormalTraces : List Traces)
    (totalTraces : Int) (rng : Rng) : List Traces × Rng :=
  if sampleCount cfg totalTraces ≤ 0 then ([], rng)
  else if ((normalTraces ++ abnormalTraces).length : Int) ≤ sampleCount cfg totalTraces then
    (normalTraces ++ abnormalTraces, rng)
  else
    (((shuffleDown ((List.range (normalTraces ++ abnormalTraces).length).map
          (fun (i : Nat) => (i : Int))) ((normalTraces ++ abnormalTraces).length - 1) rng).1.take
        (sampleCount cfg totalTraces).toNat).filterMap
          (fun i => (normalTraces ++ abnormalTraces)[i.toNat]?),
      (shuffleDown ((List.range (normalTraces ++ abnormalTraces).length).map
          (fun (i : Nat) => (i : Int))) ((normalTraces ++ abnormalTraces).length - 1) rng).2)

/-- The loop `for _, idx := range finalIndices { if idx < len(all) { append all[idx] } }`:
`none` when an index below the length is negative (a panic). -/
def pickTraces (all : List Traces) : List Int → Option (List Traces)
  | [] => some []
  | idx :: rest =>
    if idx < all.length then
      if idx < 0 then none
      else
        match all[idx.toNat]?, pickTraces all rest with
        | some t, some more => some (t :: more)
        | _, _ => none
    else pickTraces all rest

/-- The remaining quota `currentQuota := totalSampleCount - len(finalSampledTraces)` with
`totalSampleCount := int(float64(bufferCount) * tsp.config.SampleRate)`, the product taken
without rounding (`batchCurrentQuota64` rounds it). -/
def batchCurrentQuota (cfg : Config) (abnormalTraces : List Traces) (bufferCount : Nat) : Int :=
  truncToInt ((bufferCount : ℚ) * cfg.SampleRate) - (abnormalTraces.length : Int)

/-- The map `typeCounts`: `typeCounts[code] = len(traces)` for every entry of the batch. -/
def batchTypeCounts (normalTracesByType : List (String × List Traces)) : GoMap :=
  normalTracesByType.map (fun p => (p.1, (p.2.length : Int)))

/-- The slice `sortedTypes`: the keys of the batch after `sort.Strings`. -/
def batchSortedTypes (normalTracesByType : List (String × List Traces)) : List String :=
  sortStrings (normalTracesByType.map Prod.fst)

/-- The slice `bases`: `len(normalTracesByType[typeID])` for the sorted types. -/
def batchBases (normalTracesByType : List (String × List Traces)) : List Int :=
  (batchSortedTypes normalTracesByType).map
    (fun t => ((tracesOf normalTracesByType t).length : Int))

/-- The slice `allNormalTraces`: the traces of the sorted types, one type after the other. -/
def batchAllNormal (normalTracesByType : List (String × List Traces)) : List Traces :=
  (batchSortedTypes normalTracesByType).flatMap (tracesOf normalTracesByType)

/-- The slice `quotas`: `quotaMap[typeID]` for the sorted types. -/
def batchQuotas (normalTracesByType : List (String × List Traces)) (quotaMap : GoMap) :
    List Int :=
  (batchSortedTypes normalTracesByType).map (mapGet quotaMap)

/-- The method `runBatchSampling`, as the list handed to `exportTraces`; `none` when the call
ends before the export (the `return` after a failed `NewSampleProblem`, or a panic).
`codes` is the enumeration order of the keys inside `AllocateQuota`, `rng` the stream of
random draws and `ga`, `gaAdvanced` the ways the two runs of the genetic algorithm end.
The update of `pathCounter` (step 6) does not change the exported list. The sample count and
the quotas are computed without rounding (`runBatchSampling64` rounds them as `float64`
does). -/
def runBatchSampling (cfg : Config) (pathCounter : GoMap)
    (normalTracesByType : List (String × List Traces)) (abnormalTraces : List Traces)
    (bufferCount : Nat) (codes : List String) (rng : Rng) (ga gaAdvanced : GAOutcome) :
    Option (List Traces) :=
  if 0 < batchCurrentQuota cfg abnormalTraces bufferCount ∧ 0 < normalTracesByType.length then
    match buildLatencyMatrix (batchAllNormal normalTracesByType)
          (getAllLabelsAndMap normalTracesByType abnormalTraces).2
          (getAllLabelsAndMap normalTracesByType abnormalTraces).1,
        buildLatencyMatrix abnormalTraces
          (getAllLabelsAndMap normalTracesByType abnormalTraces).2
          (getAllLabelsAndMap normalTracesByType abnormalTraces).1 with
    | some rawDist, some abDist =>
      match NewSampleProblem rawDist abDist
          (batchQuotas normalTracesByType
            (AllocateQuota codes (batchTypeCounts normalTracesByType) pathCounter
              (batchCurrentQuota cfg abnormalTraces bufferCount)))
          (batchBases normalTracesByType) cfg.CombinationCount 1 rng with
      | GoResult.error _ => none
      | GoResult.crash => none
      | GoResult.ok (problem, rng1) =>
        match OptimizeWithSimpleFallback problem rng1 ga with
        | (GoResult.ok bestSimple, _) =>
          match problem.GetIdxsByVar bestSimple with
          | none => none
          | some finalIndices =>
            match pickTraces (batchAllNormal normalTracesByType) finalIndices with
            | none => none
            | some sampled => some (abnormalTraces ++ sampled)
        | (GoResult.crash, _) => none
        | (GoResult.error _, rng2) =>
          match ConvertToSampleProblemAdvanced problem cfg.CombinationCount rng2 with
          | GoResult.crash => none
          | GoResult.error _ =>
            some (simpleRandomSampling cfg (batchAllNormal normalTracesByType) abnormalTraces
              bufferCount rng2).1
          | GoResult.ok (advancedProblem, rng3) =>
            match OptimizeWithAdvancedFallback advancedProblem rng3 gaAdvanced with
            | (GoResult.ok bestAdvanced, _) =>
              match pickTraces (batchAllNormal normalTracesByType)
                  (advancedProblem.GetIdxsByVar bestAdvanced) with
              | none => none
              | some sampled => some (abnormalTraces ++ sampled)
            | (GoResult.crash, _) => none
            | (GoResult.error _, rng4) =>
              some (simpleRandomSampling cfg (batchAllNormal normalTracesByType) abnormalTraces
                bufferCount rng4).1
    | _, _ => none
  else some abnormalTraces

/-- The traces handed to the next consumer by a call of `runBatchSampling`. -/
def exported (r : Option (List Traces)) : List Traces := r.getD []

/-- What a row of the table holds: for each type a combination of exactly `quota` indices,
all of them in `[0, total)`. -/
def RowSpec (quotas : List Int) (total : Int) (row : List (List Int)) : Prop :=
  List.Forall₂ (fun (q : Int) (comb : List Int) =>
    comb.length = q.toNat ∧ ∀ x ∈ comb, 0 ≤ x ∧ x < total) quotas row

/-- A trace with a single span of 5 ms, the concrete input of the scenarios below. -/
def oneSpanTrace (spanID : Nat) (statusError : Bool) : Traces :=
  [{ serviceName := some "svc",
     scopeSpans := [[{ spanID := spanID, parentSpanID := 0, name := "op",
                       serviceName := some "svc", startTimestamp := 0,
                       endTimestamp := 5000000, statusError := statusError }]] }]

/-- The number of normal traces of a batch: the sum of the lengths of its entries. -/
def normalCount (normalTracesByType : List (String × List Traces)) : Nat :=
  (normalTracesByType.map (fun p => p.2.length)).sum

/-- A genome the optimizer can return for a problem with `numTypes` types and `combCount`
combinations per type: one gene per type, each in `[0, combCount)`; a failed run returns
no genome. -/
def ValidOutcome (ga : GAOutcome) (numTypes : Nat) (combCount : Int) : Prop :=
  ∀ genes, ga = GAOutcome.best genes →
    genes.length = numTypes ∧ ∀ g ∈ genes, 0 ≤ g ∧ g < combCount

/-! ## Sequences of buffer calls -/

/-- One call of `Add`: its three arguments. -/
structure AddCall where
  typeID : String
  trace : Traces
  isAbnormal : Bool

/-- A sequence of `Add` calls applied to a buffer, in order. -/
def addAll (b : SharedBuffer) (calls : List AddCall) : SharedBuffer :=
  calls.foldl (fun b c => b.Add c.typeID c.trace c.isAbnormal) b

/-- The traces of the calls made with `isAbnormal = true`, in call order. -/
def abnormalAdded (calls : List AddCall) : List Traces :=
  (calls.filter (fun c => c.isAbnormal)).map (fun c => c.trace)

/-- The traces of the calls made with `isAbnormal = false` and the given type id, in call
order. -/
def normalAdded (calls : List AddCall) (typeID : String) : List Traces :=
  (calls.filter (fun c => !c.isAbnormal && decide (c.typeID = typeID))).map (fun c => c.trace)

/-- The number of traces a buffer holds: the length of `abnormalTraces` plus the sum of the
lengths of the entries of `typeMap`. -/
def totalHeld (b : SharedBuffer) : Nat :=
  b.abnormalTraces.length + normalCount b.typeMap

/-- A call on a buffer: `Add` with its arguments, or `SwapAndClear`. -/
inductive BufferCall where
  | add (typeID : String) (trace : Traces) (isAbnormal : Bool)
  | swapAndClear

/-- The buffer after one call. -/
def applyCall (b : SharedBuffer) : BufferCall → SharedBuffer
  | BufferCall.add typeID trace isAbnormal => b.Add typeID trace isAbnormal
  | BufferCall.swapAndClear => b.SwapAndClear.2

/-- The buffer reached from `NewSharedBuffer limit` by a sequence of calls. -/
def runCalls (limit : Nat) (calls : List BufferCall) : SharedBuffer :=
  calls.foldl applyCall (NewSharedBuffer limit)

/-! ## The latency history `HistPool` -/

/-- A float of the encoder: an exact rational, or `none` for `NaN` (the quotient `0 / 0` that
`recalculateAll` forms for an empty sample list). Arithmetic is exact; infinities do not
arise from durations in the `int64` range. -/
abbrev Flt := Option ℚ

/-- Float addition; `NaN` propagates. -/
def fltAdd (a b : Flt) : Flt :=
  match a, b with
  | some x, some y => some (x + y)
  | _, _ => none

/-- Float multiplication; `NaN` propagates. -/
def fltMul (a b : Flt) : Flt :=
  match a, b with
  | some x, some y => some (x * y)
  | _, _ => none

/-- The float comparison `a > b`; false when an operand is `NaN`. -/
def fltGt (a b : Flt) : Bool :=
  match a, b with
  | some x, some y => decide (x > y)
  | _, _ => false

/-- A node of the span tree as the traversal of `Encode` sees a span: its id, its parent id
(`0` is the empty id) and its label. -/
structure Node where
  id : Nat
  parent : Nat
  label : String
  deriving DecidableEq

/-- The library functions the encoder calls, parameters of the model: `math.Sqrt` on finite
floats, SHA-1 followed by hex encoding, and the rearrangement `sort.Slice` makes of a level
when it compares labels. -/
structure GoLib where
  sqrt : ℚ → ℚ
  sha1hex : String → String
  sortSlice : List Node → List Node

/-- What `sort.Slice` guarantees for the comparison `label i < label j`: the result is a
rearrangement of the input in which no element has a smaller label than an earlier one. The
order of elements with equal labels is left open (the sort is not stable). -/
def SortsByLabel (lib : GoLib) : Prop :=
  ∀ l : List Node, (lib.sortSlice l).Perm l
    ∧ (lib.sortSlice l).Pairwise (fun a b => a.label ≤ b.label)

/-- Type `stat`: mean and standard deviation. -/
structure stat where
  mu : Flt
  std : Flt
  deriving DecidableEq

/-- Type `HistPool` without its mutex: the samples of `data` are milliseconds in arrival
order (front first). -/
structure HistPool where
  limit : Int
  data : List (String × List ℚ)
  db : List (String × stat)
  recalcTh : Int
  count : Int
  deriving DecidableEq

/-- The conversion `int(height)` of a `uint64` on a 64-bit platform. -/
def intOfUint64 (u : Nat) : Int :=
  if u % 2 ^ 64 < 2 ^ 63 then ((u % 2 ^ 64 : Nat) : Int) else ((u % 2 ^ 64 : Nat) : Int) - 2 ^ 64

/-- The constructor `NewHistPool`. -/
def NewHistPool (height : Nat) : HistPool :=
  { limit := intOfUint64 height, data := [], db := [], recalcTh := 100, count := 0 }

/-- The stored value `duration.Seconds() * 1000` of a duration in nanoseconds. -/
def durationMs (duration : Int) : ℚ := (duration : ℚ) / 1000000

/-- The samples stored for a label, front first; empty when the label has no list. -/
def samplesOf (data : List (String × List ℚ)) (label : String) : List ℚ :=
  (data.lookup label).getD []

/-- The two list statements of `Add`: `PushBack`, then removal of the front element when the
length exceeds the limit. -/
def pushSample (limit : Int) (samples : List ℚ) (v : ℚ) : List ℚ :=
  if ((samples ++ [v]).length : Int) > limit then (samples ++ [v]).tail else samples ++ [v]

/-- The update of `p.data[label]` made by `Add`; a label without a list gets a new one. -/
def dataAdd (limit : Int) (data : List (String × List ℚ)) (label : String) (v : ℚ) :
    List (String × List ℚ) :=
  match data with
  | [] => [(label, pushSample limit [] v)]
  | (k, l) :: rest =>
    if k = label then (k, pushSample limit l v) :: rest
    else (k, l) :: dataAdd limit rest label v

/-- The body of the loop of `recalculateAll` for one sample list. -/
def statOf (lib : GoLib) (l : List ℚ) : stat :=
  if l = [] then { mu := none, std := none }
  else
    let sum := l.sum
    let sumSq := (l.map (fun val => val * val)).sum
    let count := (l.length : ℚ)
    let mu := sum / count
    let variance := sumSq / count - mu * mu
    let variance := if variance < 0 then 0 else variance
    { mu := some mu, std := some (lib.sqrt variance) }

/-- The assignment `p.db[label] = s`. -/
def dbSet (db : List (String × stat)) (label : String) (s : stat) : List (String × stat) :=
  match db with
  | [] => [(label, s)]
  | (k, old) :: rest => if k = label then (k, s) :: rest else (k, old) :: dbSet rest label s

/-- The method `recalculateAll`: the statistics of every label of `data` are recomputed. -/
def HistPool.recalculateAll (lib : GoLib) (p : HistPool) : HistPool :=
  { p with db := p.data.foldl (fun db e => dbSet db e.1 (statOf lib e.2)) p.db }

/-- The method `Add` with a duration in nanoseconds. -/
def HistPool.Add (lib : GoLib) (p : HistPool) (label : String) (duration : Int) : HistPool :=
  let p1 : HistPool :=
    { p with data := dataAdd p.limit p.data label (durationMs duration), count := p.count + 1 }
  if p1.count ≥ p1.recalcTh then
    { p1.recalculateAll lib with
      count := 0,
      recalcTh := if p1.recalcTh < 2000 then p1.recalcTh + 100 else p1.recalcTh }
  else p1

/-- The method `getMuStd`: the cached statistics of a label, `(0, 0)` when there are none. -/
def HistPool.getMuStd (p : HistPool) (label : String) : Flt × Flt :=
  match p.db.lookup label with
  | some s => (s.mu, s.std)
  | none => (some 0, some 0)

/-- A sequence of `Add` calls on a pool, each a label and a duration in nanoseconds. -/
def HistPool.addAll (lib : GoLib) (p : HistPool) (calls : List (String × Int)) : HistPool :=
  calls.foldl (fun p c => p.Add lib c.1 c.2) p

/-- The durations added for a label, as the stored milliseconds, in arrival order. -/
def addedFor (calls : List (String × Int)) (label : String) : List ℚ :=
  (calls.filter (fun c => decide (c.1 = label))).map (fun c => durationMs c.2)

/-! ## The encoder `BFSEncoder` -/

/-- The first loop's `span.Attributes().PutStr("service.name", serviceName)`: every span gets
the service name of its resource, `unknown.service` when the resource has none. -/
def putServiceNames (trace : Traces) : Traces :=
  trace.map (fun rs =>
    { rs with
      scopeSpans := rs.scopeSpans.map (fun sps =>
        sps.map (fun span =>
          { span with serviceName := some (rs.serviceName.getD "unknown.service") })) })

/-- The slice `spans` built by the first loop of `Encode`: all spans in traversal order, after
the service name was written. -/
def encSpans (trace : Traces) : List Span := spansOf (putServiceNames trace)

/-- The span as the traversal sees it. -/
def nodeOf (span : Span) : Node :=
  { id := span.spanID, parent := span.parentSpanID, label := getSpanLabel span }

/-- The lookup `spanMap[id]`: the last span written under that id. -/
def spanMapGet (nodes : List Node) (id : Nat) : Option Node :=
  nodes.reverse.find? (fun n => decide (n.id = id))

/-- The lookup `childrenMap[id]`: the ids of the spans whose parent is `id`, in traversal
order. Spans with an empty parent id are not in the map. -/
def childrenOf (nodes : List Node) (id : Nat) : List Nat :=
  if id = 0 then [] else (nodes.filter (fun n => decide (n.parent = id))).map (fun n => n.id)

/-- The variable `rootID` after the first loop: the id of the last span with an empty parent
id, the empty id when there is none. -/
def rootIDOf (nodes : List Node) : Nat :=
  match (nodes.filter (fun n => decide (n.parent = 0))).getLast? with
  | some n => n.id
  | none => 0

/-- The loop `for len(queue) > 0` of `Encode`, one level per iteration, run for at most `fuel`
levels; `none` when the queue is not empty after `fuel` levels. -/
def bfsLoop (lib : GoLib) (nodes : List Node) : Nat → List Nat → List String → Option (List String)
  | _, [], path => some path
  | 0, _ :: _, _ => none
  | fuel + 1, q :: queue, path =>
    let levelNodes := lib.sortSlice ((q :: queue).filterMap (spanMapGet nodes))
    bfsLoop lib nodes fuel (levelNodes.flatMap (fun node => childrenOf nodes node.id))
      (path ++ levelNodes.map (fun node => node.label))

/-- The slice `path` when the traversal ends. The traversal is given as many levels as there
are spans: a level beyond that has a span that is its own ancestor, and the Go loop never
ends (`none`). -/
def labelPath (lib : GoLib) (nodes : List Node) : Option (List String) :=
  bfsLoop lib nodes nodes.length [rootIDOf nodes] []

/-- The type id computed by the second part of `Encode`; `none` when the loop never ends. -/
def typeIDOf (lib : GoLib) (nodes : List Node) : Option String :=
  if rootIDOf nodes = 0 then some "empty_root"
  else (labelPath lib nodes).map (fun path => lib.sha1hex (String.intercalate "->" path))

/-- The variables of the anomaly loop of `Encode` together with the pool it updates. -/
structure Detect where
  pool : HistPool
  expectedDurationMs : Flt
  trueDurationMs : ℚ
  hasError : Bool
  deriving DecidableEq

/-- One iteration of the anomaly loop. -/
def detectStep (lib : GoLib) (st : Detect) (span : Span) : Detect :=
  let label := getSpanLabel span
  let duration := spanDuration span
  let pool := st.pool.Add lib label duration
  { pool := pool,
    expectedDurationMs :=
      fltAdd st.expectedDurationMs
        (fltAdd (pool.getMuStd label).1 (fltMul (some 5) (pool.getMuStd label).2)),
    trueDurationMs := st.trueDurationMs + (durationMilliseconds duration : ℚ),
    hasError := st.hasError || span.statusError }

/-- The anomaly loop over the spans. -/
def detect (lib : GoLib) (pool : HistPool) (spans : List Span) : Detect :=
  spans.foldl (detectStep lib)
    { pool := pool, expectedDurationMs := some 0, trueDurationMs := 0, hasError := false }

/-- The assignment `isAbnormal = hasError || (trueDurationMs > expectedDurationMs &&
expectedDurationMs > 0)`. -/
def isAbnormalOf (st : Detect) : Bool :=
  st.hasError
    || (fltGt (some st.trueDurationMs) st.expectedDurationMs
        && fltGt st.expectedDurationMs (some 0))

/-- Type `BFSEncoder`: the encoder holds the pool. -/
structure BFSEncoder where
  pool : HistPool
  deriving DecidableEq

/-- The constructor `NewBFSEncoder`. -/
def NewBFSEncoder (pool : HistPool) : BFSEncoder := { pool := pool }

/-- What a call of `Encode` does: the returned pair (`none` when the traversal never ends and
nothing is returned), the encoder with the updated pool, and the trace with the service names
written into its spans. -/
structure EncodeOutcome where
  result : Option (String × Bool)
  encoder : BFSEncoder
  trace : Traces
  deriving DecidableEq

/-- The method `Encode`. -/
def BFSEncoder.Encode (lib : GoLib) (e : BFSEncoder) (trace : Traces) : EncodeOutcome :=
  let spans := encSpans trace
  let st := detect lib e.pool spans
  { result := (typeIDOf lib (spans.map nodeOf)).map (fun typeID => (typeID, isAbnormalOf st)),
    encoder := { pool := st.pool },
    trace := putServiceNames trace }

/-- Newton iteration for the integer square root. -/
def sqrtIter (n : Nat) : Nat → Nat → Nat
  | 0, x => x
  | fuel + 1, x => if (x + n / x) / 2 < x then sqrtIter n fuel ((x + n / x) / 2) else x

/-- The integer square root of a natural number below `2 ^ 128`. -/
def natSqrt (n : Nat) : Nat := if n = 0 then 0 else sqrtIter n 200 n

/-- A square root that is exact on squares of rationals, as `math.Sqrt` is. -/
def exactSqrt (q : ℚ) : ℚ := (natSqrt q.num.toNat : ℚ) / (natSqrt q.den : ℚ)

/-- Library functions used to evaluate the model on concrete inputs: a square root exact on
squares, insertion sort on labels for `sort.Slice`, and the joined label path itself in place
of its SHA-1 digest. -/
def exactLib : GoLib :=
  { sqrt := exactSqrt,
    sha1hex := fun s => s,
    sortSlice := fun l => List.insertionSort (fun a b => a.label ≤ b.label) l }

/-- The nodes of a trace, in the order of the first loop of `Encode`. -/
def nodesOf (trace : Traces) : List Node := (encSpans trace).map nodeOf

/-- Span ids are pairwise distinct. -/
def DistinctIDs (nodes : List Node) : Prop := (nodes.map (fun n => n.id)).Nodup

instance (nodes : List Node) : Decidable (DistinctIDs nodes) := by
  unfold DistinctIDs; exact inferInstance

/-- Exactly one span has an empty parent id. -/
def OneRoot (nodes : List Node) : Prop :=
  (nodes.filter (fun n => decide (n.parent = 0))).length = 1

instance (nodes : List Node) : Decidable (OneRoot nodes) := by
  unfold OneRoot; exact inferInstance

/-- A node with its ids renamed. -/
def renameNode (f : Nat → Nat) (n : Node) : Node :=
  { id := f n.id, parent := f n.parent, label := n.label }

/-- Two span trees are isomorphic under label equality, children unordered: a renaming of the
span ids that keeps the empty id carries the spans of the first onto the spans of the second,
in any order, with parents and labels kept. -/
def TreeIso (a b : List Node) : Prop :=
  ∃ f : Nat → Nat, Function.Injective f ∧ f 0 = 0 ∧ b.Perm (a.map (renameNode f))

/-- A span with the given ids, name and duration in milliseconds. -/
def mkSpan (spanID parentSpanID : Nat) (name : String) (ms : Nat) (statusError : Bool) : Span :=
  { spanID := spanID, parentSpanID := parentSpanID, name := name, serviceName := none,
    startTimestamp := 0, endTimestamp := ms * 1000000, statusError := statusError }

/-- A trace with one resource of service `svc` and one scope holding the given spans. -/
def mkTrace (spans : List Span) : Traces :=
  [{ serviceName := some "svc", scopeSpans := [spans] }]

/-- An encoder whose pool has seen 98 durations of 1 ms for the label `svc:op`: two calls short
of the first recomputation of the statistics. -/
def encoderBeforeRecalc : BFSEncoder :=
  NewBFSEncoder ((NewHistPool 1000).addAll exactLib (List.replicate 98 ("svc:op", 1000000)))

/-- A trace with the single root span `op` of 100 ms and no error status. -/
def slowTrace : Traces := mkTrace [mkSpan 1 0 "op" 100 false]

/-- An encoder whose pool has seen 100 durations of 10 ms for the label `svc:op`: the cached
mean is 10 ms and the cached standard deviation 0. -/
def encoderSteadyHistory : BFSEncoder :=
  NewBFSEncoder ((NewHistPool 1000).addAll exactLib (List.replicate 100 ("svc:op", 10000000)))

/-- A trace whose root `r` has the children `b` and `a`, and `b` has the child `c`. -/
def siblingTrace : Traces :=
  mkTrace [mkSpan 1 0 "r" 5 false, mkSpan 2 1 "b" 5 false, mkSpan 3 1 "a" 5 false,
    mkSpan 4 2 "c" 5 false]

/-- The trace `siblingTrace` with the siblings `a` and `b` exchanged in the input. -/
def siblingTraceReordered : Traces :=
  mkTrace [mkSpan 1 0 "r" 5 false, mkSpan 3 1 "a" 5 false, mkSpan 4 2 "c" 5 false,
    mkSpan 2 1 "b" 5 false]

/-- The trace `siblingTrace` with other span ids and another span order. -/
def siblingTraceRenamed : Traces :=
  mkTrace [mkSpan 30 10 "a" 5 false, mkSpan 40 20 "c" 5 false, mkSpan 10 0 "r" 5 false,
    mkSpan 20 10 "b" 5 false]

/-- A chain: the root `r` has the child `a`, which has the child `b`. -/
def chainTrace : Traces :=
  mkTrace [mkSpan 1 0 "r" 5 false, mkSpan 2 1 "a" 5 false, mkSpan 3 2 "b" 5 false]

/-- A star: the root `r` has the two children `a` and `b`. -/
def starTrace : Traces :=
  mkTrace [mkSpan 1 0 "r" 5 false, mkSpan 2 1 "a" 5 false, mkSpan 3 1 "b" 5 false]

/-- The lower end of the index range of type `i`: the sum of `bases[k]` for `k < i`. -/
def rangeLo (bases : List Int) (i : Nat) : Int := (bases.take i).sum

/-- The upper end (excluded) of the index range of type `i`: the sum of `bases[k]` for
`k ≤ i`. -/
def rangeHi (bases : List Int) (i : Nat) : Int := (bases.take (i + 1)).sum

/-- What a combination of a type holds: exactly `quota` pairwise distinct indices, all in
`[lo, hi)`. -/
def CombSpec (quota lo hi : Int) (comb : List Int) : Prop :=
  (comb.length : Int) = quota ∧ comb.Nodup ∧ ∀ x ∈ comb, lo ≤ x ∧ x < hi

/-- What a row of the combination table holds: one combination per type, the one of type `i`
with `quotas[i]` distinct indices of the range of type `i`. -/
def RowSpecRanges (quotas bases : List Int) (row : List (List Int)) : Prop :=
  row.length = quotas.length
    ∧ ∀ (i : Nat) (q : Int) (comb : List Int), quotas[i]? = some q → row[i]? = some comb →
        CombSpec q (rangeLo bases i) (rangeHi bases i) comb

/-- What the combination table holds: `combCount` rows, each as `RowSpecRanges` says. -/
def TableSpec (quotas bases : List Int) (combCount : Int) (allCombs : List (List (List Int))) :
    Prop :=
  (allCombs.length : Int) = combCount ∧ ∀ row ∈ allCombs, RowSpecRanges quotas bases row

/-- The ranges of the types are disjoint and cover `[0, sum(bases))`: every index of that
interval lies in the range of exactly one type. -/
def RangesPartition (bases : List Int) : Prop :=
  ∀ x : Int, 0 ≤ x → x < bases.sum →
    ∃ i : Nat, (i < bases.length ∧ rangeLo bases i ≤ x ∧ x < rangeHi bases i)
      ∧ ∀ j : Nat, (j < bases.length ∧ rangeLo bases j ≤ x ∧ x < rangeHi bases j) → j = i

/-- The test of `Add` after `p.count++`: whether the next `Add` recomputes the statistics. -/
def HistPool.recalcOnAdd (p : HistPool) : Bool := decide (p.count + 1 ≥ p.recalcTh)

/-- The number of `Add` calls of a sequence that recompute the statistics. -/
def recalcCount (lib : GoLib) : HistPool → List (String × Int) → Nat
  | _, [] => 0
  | p, c :: rest => (if p.recalcOnAdd = true then 1 else 0) + recalcCount lib (p.Add lib c.1 c.2) rest

/-- Spec-side definition of the `Add` number of the `j`-th recompute: the sum of
`min(100·k, 2000)` for `k = 1 .. j`. -/
def recomputeAt (j : Nat) : Nat :=
  ((List.range j).map (fun k => min (100 * (k + 1)) 2000)).sum

/-- A sequence of `Encode` calls on the same encoder, one trace after the other: what each
call does. -/
def encodeAll (lib : GoLib) : BFSEncoder → List Traces → List EncodeOutcome
  | _, [] => []
  | e, trace :: rest => e.Encode lib trace :: encodeAll lib (e.Encode lib trace).encoder rest

/-- A trace of 100 spans of 10 ms without error status: the root `op` and 99 children `op`. -/
def wideTrace : Traces :=
  mkTrace (mkSpan 1 0 "op" 10 false
    :: (List.range 99).map (fun i => mkSpan (i + 2) 1 "op" 10 false))

/-- Spec-side definition of the depth of a span: depth 0 is the root (empty parent id); a span
is at depth `d + 1` when its parent id is not empty and is the id of a span at depth `d`. A
span that is not reachable from the root is at no depth. -/
def atDepth (nodes : List Node) : Nat → Node → Bool
  | 0, n => decide (n.parent = 0)
  | d + 1, n =>
    decide (n.parent ≠ 0) && nodes.any (fun m => decide (m.id = n.parent) && atDepth nodes d m)

/-- Spec-side definition of one level of the label path: the labels of all spans at depth `d`,
sorted ascending. -/
def specLevel (nodes : List Node) (d : Nat) : List String :=
  sortStrings ((nodes.filter (atDepth nodes d)).map (fun n => n.label))

/-- Spec-side definition of the label path: the levels for depth `0, 1, 2, …` one after the
other (a tree of `n` spans has no span at depth `n` or more). -/
def specPath (nodes : List Node) : List String :=
  (List.range nodes.length).flatMap (specLevel nodes)

/-- A trace whose only span is a root with the empty span id. -/
def emptyIdTrace : Traces := mkTrace [mkSpan 0 0 "op" 5 false]

/-! ## Percentiles -/

/-- The call `sort.Float64s` on finite floats. -/
def sortFloat64s (l : List ℚ) : List ℚ := List.insertionSort (fun a b => a ≤ b) l

/-- The index expression `s[i]` with an `int` index: `none` when it is out of range (a
panic). -/
def sliceGet (s : List ℚ) (i : Int) : Option ℚ := if i < 0 then none else s[i.toNat]?

/-- The function `percentile` on finite floats as exact rationals: the result is `NaN` for an
empty slice; `none` when an index is out of range (a panic). -/
def percentile (data : List ℚ) (p : ℚ) : Option Flt :=
  if data = [] then some none
  else if p = 0 then (sliceGet (sortFloat64s data) 0).map some
  else if p = 100 then
    (sliceGet (sortFloat64s data) (((sortFloat64s data).length : Int) - 1)).map some
  else if ⌊p / 100 * (((sortFloat64s data).length : ℚ) - 1)⌋
      = ⌈p / 100 * (((sortFloat64s data).length : ℚ) - 1)⌉ then
    (sliceGet (sortFloat64s data) ⌊p / 100 * (((sortFloat64s data).length : ℚ) - 1)⌋).map some
  else
    match sliceGet (sortFloat64s data) ⌊p / 100 * (((sortFloat64s data).length : ℚ) - 1)⌋,
        sliceGet (sortFloat64s data) ⌈p / 100 * (((sortFloat64s data).length : ℚ) - 1)⌉ with
    | some lo, some hi =>
      some (some
        (lo * (1 - (p / 100 * (((sortFloat64s data).length : ℚ) - 1)
                - (⌊p / 100 * (((sortFloat64s data).length : ℚ) - 1)⌋ : ℚ)))
          + hi * (p / 100 * (((sortFloat64s data).length : ℚ) - 1)
                - (⌊p / 100 * (((sortFloat64s data).length : ℚ) - 1)⌋ : ℚ))))
    | _, _ => none

/-- The inner loop `for j := 0; j < k; j++ { if sorted[j] > sorted[j+1] { swap } }` of the
bubble sort, on a list: the element carried along is compared with the next one. -/
def bubblePass : Nat → List ℚ → List ℚ
  | k + 1, a :: b :: rest =>
    if a > b then b :: bubblePass k (a :: rest) else a :: bubblePass k (b :: rest)
  | _, l => l

/-- The bubble sort of `calculatePercentile`: pass `i` makes `len - 1 - i` comparisons. -/
def bubbleSort (l : List ℚ) : List ℚ :=
  (List.range l.length).foldl (fun s i => bubblePass (l.length - 1 - i) s) l

/-- The function `calculatePercentile` on finite floats as exact rationals: `0` for an empty
slice; `none` when an index is out of range (a panic). -/
def calculatePercentile (data : List ℚ) (p : ℚ) : Option ℚ :=
  if data = [] then some 0
  else if p ≤ 0 then sliceGet (bubbleSort data) 0
  else if p ≥ 100 then sliceGet (bubbleSort data) (((bubbleSort data).length : Int) - 1)
  else if truncToInt (p / 100 * ((((bubbleSort data).length : Int) - 1 : Int) : ℚ)) + 1
      ≥ ((bubbleSort data).length : Int) then
    sliceGet (bubbleSort data) (truncToInt (p / 100 * ((((bubbleSort data).length : Int) - 1 : Int) : ℚ)))
  else
    match sliceGet (bubbleSort data)
          (truncToInt (p / 100 * ((((bubbleSort data).length : Int) - 1 : Int) : ℚ))),
        sliceGet (bubbleSort data)
          (truncToInt (p / 100 * ((((bubbleSort data).length : Int) - 1 : Int) : ℚ)) + 1) with
    | some lo, some hi =>
      some
        (lo * (1 - (p / 100 * ((((bubbleSort data).length : Int) - 1 : Int) : ℚ)
                - (truncToInt (p / 100 * ((((bubbleSort data).length : Int) - 1 : Int) : ℚ)) : ℚ)))
          + hi * (p / 100 * ((((bubbleSort data).length : Int) - 1 : Int) : ℚ)
                - (truncToInt (p / 100 * ((((bubbleSort data).length : Int) - 1 : Int) : ℚ)) : ℚ)))
    | _, _ => none

/-- The linear interpolation both percentile functions compute at a position `x` of a sorted
slice. -/
def interp (s : List ℚ) (x : ℚ) : ℚ :=
  s.getD ⌊x⌋.toNat 0 * (1 - (x - (⌊x⌋ : ℚ))) + s.getD (⌊x⌋.toNat + 1) 0 * (x - (⌊x⌋ : ℚ))

/-! ## The history counter `pathCounter` -/

/-- The statement `m[k] = v` on a Go map, and `Store(k, v)` on the `sync.Map`. -/
def mapStore : GoMap → String → Int → GoMap
  | [], k, v => [(k, v)]
  | (k2, v2) :: rest, k, v =>
    if k2 = k then (k2, v) :: rest else (k2, v2) :: mapStore rest k v

/-- Every trace of the batch is filed under the type id that `Encode` gives it, which is how
`ConsumeTraces` fills the buffer. -/
def WellTyped (lib : GoLib) (normalTracesByType : List (String × List Traces)) : Prop :=
  ∀ (t : String), ∀ tr ∈ tracesOf normalTracesByType t, typeIDOf lib (nodesOf tr) = some t

/-- The first two statements of `ConsumeTraces`: `typeID, isAbnormal :=
tsp.encoder.Encode(td)` and `tsp.buffer.Add(typeID, td, isAbnormal)`, where `td` carries the
service names `Encode` wrote into it; `none` when `Encode` never returns. -/
def consumeTrace (lib : GoLib) (s : BFSEncoder × SharedBuffer) (td : Traces) :
    Option (BFSEncoder × SharedBuffer) :=
  match (s.1.Encode lib td).result with
  | none => none
  | some r =>
    some ((s.1.Encode lib td).encoder, s.2.Add r.1 (s.1.Encode lib td).trace r.2)

/-- A sequence of calls of `ConsumeTraces` that do not fill the buffer. -/
def consumeAll (lib : GoLib) :
    BFSEncoder × SharedBuffer → List Traces → Option (BFSEncoder × SharedBuffer)
  | s, [] => some s
  | s, td :: rest =>
    match consumeTrace lib s td with
    | none => none
    | some s1 => consumeAll lib s1 rest

/-- The loop `for len(queue) > 0` of `Encode` once more, keeping the spans whose labels it
appends to `path` instead of the labels: the spans visited, in the order of the visits. -/
def bfsVisited (lib : GoLib) (nodes : List Node) : Nat → List Nat → List Node → Option (List Node)
  | _, [], seen => some seen
  | 0, _ :: _, _ => none
  | fuel + 1, q :: queue, seen =>
    let levelNodes := lib.sortSlice ((q :: queue).filterMap (spanMapGet nodes))
    bfsVisited lib nodes fuel (levelNodes.flatMap (fun node => childrenOf nodes node.id))
      (seen ++ levelNodes)

/-! ## The cells of the latency matrix -/

/-- Spec-side definition of a cell of the latency matrix: the whole-millisecond duration of
the last span, in traversal order, whose label maps to column `j`; `NaN` when the trace has no
such span. -/
def specCell (label2idx : GoMap) (spans : List Span) (j : Nat) : Cell :=
  ((spans.filter (fun s => mapHas label2idx (getSpanLabel s)
      && decide (mapGet label2idx (getSpanLabel s) = (j : Int)))).getLast?).map
    (fun s => durationMilliseconds (spanDuration s))

/-- Spec-side definition of the latency matrix: one row per trace, one cell per label. -/
def specMatrix (traces : List Traces) (label2idx : GoMap) (allLabels : List String) :
    List (List Cell) :=
  traces.map (fun trace =>
    (List.range allLabels.length).map (specCell label2idx (spansOf trace)))

/-- A trace, as the buffer holds it after `Encode`, whose root `a` has the children `b` and a
second span `a`: the label `svc:a` occurs twice. -/
def repeatedLabelTrace : Traces :=
  putServiceNames
    (mkTrace [mkSpan 1 0 "a" 5 false, mkSpan 2 1 "b" 7 false, mkSpan 3 1 "a" 9 false])

/-- A trace, as the buffer holds it after `Encode`, with the single span `c` of 20 ms and an
error status. -/
def errorTrace : Traces := putServiceNames (mkTrace [mkSpan 1 0 "c" 20 true])

/-- The labels of all spans of the normal traces of a batch. -/
def normalLabels (normalTraces : List (String × List Traces)) : List String :=
  normalTraces.flatMap (fun p => p.2.flatMap (fun trace => (spansOf trace).map getSpanLabel))

/-- The labels of all spans of the abnormal traces of a batch. -/
def abnormalLabels (abnormalTraces : List Traces) : List String :=
  abnormalTraces.flatMap (fun trace => (spansOf trace).map getSpanLabel)


/-! ## Percentiles of data that may hold `NaN` -/

/-- The entries of a slice that are not `NaN`. -/
def finiteEntries (data : List Flt) : List ℚ := data.filterMap id

/-- The number of `NaN` entries of a slice. -/
def nanCount (data : List Flt) : Nat := (data.filter (fun x => x.isNone)).length

/-- The call `sort.Float64s` on floats that may be `NaN`: package `sort` treats `NaN` as less
than every other value, so the `NaN` entries come first and the other entries follow in
increasing order. -/
def sortFloat64sFlt (l : List Flt) : List Flt :=
  List.replicate (nanCount l) none ++ (sortFloat64s (finiteEntries l)).map some

/-- The index expression `s[i]` with an `int` index on floats that may be `NaN`: `none` when
it is out of range (a panic). -/
def sliceGetFlt (s : List Flt) (i : Int) : Option Flt := if i < 0 then none else s[i.toNat]?

/-- The function `percentile` of `group_sampler.go` on data that may hold `NaN` entries, which
is what the columns of a latency matrix are; `NaN` propagates through the interpolation, which
is computed without rounding (`percentile64` rounds). `none` when an index is out of range (a
panic). -/
def percentileFlt (data : List Flt) (p : ℚ) : Option Flt :=
  if data = [] then some none
  else if p = 0 then sliceGetFlt (sortFloat64sFlt data) 0
  else if p = 100 then
    sliceGetFlt (sortFloat64sFlt data) (((sortFloat64sFlt data).length : Int) - 1)
  else if ⌊p / 100 * (((sortFloat64sFlt data).length : ℚ) - 1)⌋
      = ⌈p / 100 * (((sortFloat64sFlt data).length : ℚ) - 1)⌉ then
    sliceGetFlt (sortFloat64sFlt data) ⌊p / 100 * (((sortFloat64sFlt data).length : ℚ) - 1)⌋
  else
    match sliceGetFlt (sortFloat64sFlt data)
          ⌊p / 100 * (((sortFloat64sFlt data).length : ℚ) - 1)⌋,
        sliceGetFlt (sortFloat64sFlt data)
          ⌈p / 100 * (((sortFloat64sFlt data).length : ℚ) - 1)⌉ with
    | some lo, some hi =>
      some (fltAdd
        (fltMul lo (some (1 - (p / 100 * (((sortFloat64sFlt data).length : ℚ) - 1)
                - (⌊p / 100 * (((sortFloat64sFlt data).length : ℚ) - 1)⌋ : ℚ)))))
        (fltMul hi (some (p / 100 * (((sortFloat64sFlt data).length : ℚ) - 1)
                - (⌊p / 100 * (((sortFloat64sFlt data).length : ℚ) - 1)⌋ : ℚ)))))
    | _, _ => none

/-! ## The realised sample of a genome -/

/-- Spec-side definition of the combinations a genome selects, for the types from position
`j` on: `AllCombs[g[j]][j]` for every type `j` (an entry that does not exist counts as
empty). -/
def genomeCombs (allCombs : List (List (List Int))) (j : Nat) (genes : List Int) :
    List (List Int) :=
  (genes.enumFrom j).map (fun (p : Nat × Int) => (allCombs.getD p.2.toNat []).getD p.1 [])

/-- Spec-side definition of the realised sample of a genome: the concatenation over the types
`j` of the combinations `AllCombs[g[j]][j]`. -/
def realisedSample (allCombs : List (List (List Int))) (genes : List Int) : List Int :=
  (genomeCombs allCombs 0 genes).flatten

/-- Whether an index lies in the range of type `i`. -/
def inTypeRange (bases : List Int) (i : Nat) (x : Int) : Bool :=
  decide (rangeLo bases i ≤ x ∧ x < rangeHi bases i)

/-- What a realised sample holds: it is the concatenation of the selected combinations, has
exactly `sum(quotas)` pairwise distinct indices, all in `[0, sum(bases))`, and exactly
`quotas[i]` of them lie in the range of type `i`. -/
def SelectionSpec (quotas bases : List Int) (allCombs : List (List (List Int)))
    (genes idxs : List Int) : Prop :=
  idxs = realisedSample allCombs genes
    ∧ (idxs.length : Int) = quotas.sum
    ∧ idxs.Nodup
    ∧ (∀ x ∈ idxs, 0 ≤ x ∧ x < bases.sum)
    ∧ ∀ (i : Nat) (q : Int), quotas[i]? = some q →
        ((idxs.filter (inTypeRange bases i)).length : Int) = q

/-! ## The genetic operators -/

/-- The method `SampleVectorSimple.Mutate` for a non-nil problem: the genes and the random
stream after the call; `none` when `rng.Intn` panics (an argument that is not positive). -/
def SampleVectorSimple.Mutate (problem : SampleProblem) (genes : List Int) (rng : Rng) :
    Option (List Int × Rng) :=
  if genes.length = 0 then some (genes, rng)
  else
    match problem.Lb[(Intn rng genes.length).1]?, problem.Ub[(Intn rng genes.length).1]? with
    | some l, some u =>
      if u - l + 1 ≤ 0 then none
      else
        some (genes.set (Intn rng genes.length).1
            (l + ((Intn (Intn rng genes.length).2 (u - l + 1).toNat).1 : Int)),
          (Intn (Intn rng genes.length).2 (u - l + 1).toNat).2)
    | _, _ => some (genes, (Intn rng genes.length).2)

/-- The method `SampleVector.Mutate` for a non-nil problem; `none` when `Ub[idx]` or `Lb[idx]`
is out of range or `rng.Intn` panics. -/
def SampleVector.Mutate (problem : SampleProblem) (genes : List Int) (rng : Rng) :
    Option (List Int × Rng) :=
  if genes.length > 0 then
    match problem.Lb[(Intn rng genes.length).1]?, problem.Ub[(Intn rng genes.length).1]? with
    | some l, some u =>
      if u - l + 1 ≤ 0 then none
      else
        some (genes.set (Intn rng genes.length).1
            (((Intn (Intn rng genes.length).2 (u - l + 1).toNat).1 : Int) + l),
          (Intn (Intn rng genes.length).2 (u - l + 1).toNat).2)
    | _, _ => none
  else some (genes, rng)

/-- The loop `for i := crossPoint; i < len(sv.Genes); i++ { sv.Genes[i], other.Genes[i] =
other.Genes[i], sv.Genes[i] }` with `todo` iterations left. -/
def crossLoop (a b : List Int) : Nat → Nat → List Int × List Int
  | 0, _ => (a, b)
  | todo + 1, i => crossLoop (a.set i (b.getD i 0)) (b.set i (a.getD i 0)) todo (i + 1)

/-- The method `Crossover` of `SampleVectorSimple` and of `SampleVector` (the two bodies are
the same) when the other genome has the same Go type: the genes of both genomes and the
random stream after the call. -/
def Crossover (genes other : List Int) (rng : Rng) : (List Int × List Int) × Rng :=
  if genes.length ≠ other.length then ((genes, other), rng)
  else if genes.length > 1 then
    (crossLoop genes other (genes.length - (Intn rng genes.length).1)
        (Intn rng genes.length).1,
      (Intn rng genes.length).2)
  else ((genes, other), rng)

/-- A genome of a problem with `numTypes` types and `combCount` combinations per type: one
gene per type, each in `[0, combCount)`. -/
def ValidGenome (numTypes : Nat) (combCount : Int) (genes : List Int) : Prop :=
  genes.length = numTypes ∧ ∀ g ∈ genes, 0 ≤ g ∧ g < combCount

/-- Two genomes differ in at most one coordinate. -/
def DifferAtMostOne (a b : List Int) : Prop :=
  a.length = b.length ∧ ∃ idx : Nat, ∀ k : Nat, k ≠ idx → a[k]? = b[k]?

/-! ## Fitness: `SampleVectorSimple.Evaluate` and `SampleProblem.EvalVars` -/

/-- The loop `for i, gene := range sv.Genes` of `SampleVectorSimple.Evaluate` that adds the
penalties, from position `i` on. -/
def penaltyFrom (lb ub : List Int) : Nat → List Int → ℚ
  | _, [] => 0
  | i, gene :: rest =>
    (match lb[i]? with
      | some l => if gene < l then 10 else 0
      | none => 0)
    + (match ub[i]? with
      | some u => if gene > u then 10 else 0
      | none => 0)
    + penaltyFrom lb ub (i + 1) rest

/-- The method `SampleVectorSimple.Evaluate` for a non-nil problem: the fitness it returns
(the error is `nil`), in exact arithmetic. -/
def SampleVectorSimple.Evaluate (problem : SampleProblem) (genes : List Int) : ℚ :=
  if genes.length = 0 then -999
  else (genes.map (fun (gene : Int) => (gene : ℚ))).sum - penaltyFrom problem.Lb problem.Ub 0 genes

/-- Float subtraction; `NaN` propagates. -/
def fltSub (a b : Flt) : Flt :=
  match a, b with
  | some x, some y => some (x - y)
  | _, _ => none

/-- Float division by a divisor that is not zero; `NaN` propagates. The divisors of this file
are `max - min + 1e-7`, which is positive or `NaN`. -/
def fltDiv (a b : Flt) : Flt :=
  match a, b with
  | some x, some y => some (x / y)
  | _, _ => none

/-- The float comparison `a < b`; false when an operand is `NaN`. -/
def fltLt (a b : Flt) : Bool :=
  match a, b with
  | some x, some y => decide (x < y)
  | _, _ => false

/-- A list of results of steps that can panic: `none` when one of them is `none`. -/
def allSome {α : Type} : List (Option α) → Option (List α)
  | [] => some []
  | none :: _ => none
  | some a :: rest =>
    match allSome rest with
    | none => none
    | some l => some (a :: l)

/-- A cell of a latency matrix as a float. -/
def cellFlt (c : Cell) : Flt := c.map (fun (v : Int) => (v : ℚ))

/-- The function `transpose`: `none` when a row is shorter than the first one (a panic). -/
def transpose (matrix : List (List Cell)) : Option (List (List Flt)) :=
  match matrix with
  | [] => some []
  | row0 :: _ =>
    allSome ((List.range row0.length).map
      (fun i => allSome (matrix.map (fun row => (row[i]?).map cellFlt))))

/-- The function `max` of `group_sampler.go`: a comparison with `NaN` is false. -/
def maxFlt (data : List Flt) : Flt :=
  match data with
  | [] => none
  | d0 :: rest => rest.foldl (fun maxVal v => if fltGt v maxVal then v else maxVal) d0

/-- The function `minFloat` of `group_sampler.go`. -/
def minFloat (data : List Flt) : Flt :=
  match data with
  | [] => none
  | d0 :: rest => rest.foldl (fun minVal v => if fltLt v minVal then v else minVal) d0

/-- The field `Ps` set by `NewSampleProblem`. -/
def Ps : List ℚ := [0, 25, 50, 75, 90, 95, 99, 100]

/-- The expression `(x - MinV) / (MaxV - MinV + 1e-7)`. -/
def normalise (x minV maxV : Flt) : Flt :=
  fltDiv (fltSub x minV) (fltAdd (fltSub maxV minV) (some (1 / 10000000)))

/-- The percentiles `percentile(data, p)` for `p` in `Ps`; `none` when a call panics. -/
def percentiles (data : List Flt) : Option (List Flt) :=
  allSome (Ps.map (percentileFlt data))

/-- The matrix `originT` of `NewSampleProblem`: the transposed rows of `rawDist`, followed by
those of `abDist` when there are any. -/
def originT (sp : SampleProblem) : Option (List (List Flt)) :=
  transpose (if sp.AbDist.length > 0 then sp.RawDist ++ sp.AbDist else sp.RawDist)

/-- The field `MinV[j]` as `NewSampleProblem` computes it; `none` when the constructor panics
or `j` is out of range. -/
def SampleProblem.MinV (sp : SampleProblem) (j : Nat) : Option Flt :=
  match originT sp with
  | none => none
  | some t => (t[j]?).map minFloat

/-- The field `MaxV[j]` as `NewSampleProblem` computes it. -/
def SampleProblem.MaxV (sp : SampleProblem) (j : Nat) : Option Flt :=
  match originT sp with
  | none => none
  | some t => (t[j]?).map maxFlt

/-- The field `OriginP[j]` as `NewSampleProblem` computes it: the percentiles of column `j` of
all traces, normalised with `MinV[j]` and `MaxV[j]`. -/
def SampleProblem.OriginP (sp : SampleProblem) (j : Nat) : Option (List Flt) :=
  match originT sp with
  | none => none
  | some t =>
    match t[j]? with
    | none => none
    | some col =>
      (percentiles col).map (fun ps => ps.map (fun x => normalise x (minFloat col) (maxFlt col)))

/-- The row `sampleData[j]` built by `EvalVars` for one genome: `RawDist[idx][j]` for the
selected indices, in a row of `C` zeros; `none` when an index is out of range. -/
def sampleRow (sp : SampleProblem) (selectIdxs : List Int) (j : Nat) : Option (List Flt) :=
  if sp.C < (selectIdxs.length : Int) then none
  else
    match allSome (selectIdxs.map (fun idx =>
        if idx < 0 then none
        else (sp.RawDist[idx.toNat]?).bind (fun row => (row[j]?).map cellFlt))) with
    | none => none
    | some vals => some (vals ++ List.replicate (sp.C.toNat - vals.length) (some 0))

/-- The part of `Consistency` for label `j` of one genome: the row is extended by column `j`
of `AbDist`, its percentiles are normalised and compared with `OriginP[j]`; the result is the
mean of the 8 squared differences. -/
def labelError (sp : SampleProblem) (row : List Flt) (j : Nat) : Option Flt :=
  match (if sp.AbDist.length > 0 then
      (transpose sp.AbDist).bind (fun t => (t[j]?).map (fun col => row ++ col))
    else some row) with
  | none => none
  | some sample =>
    match percentiles sample, sp.OriginP j, sp.MinV j, sp.MaxV j with
    | some sampleP, some originP, some minV, some maxV =>
      some (fltDiv
        (((sampleP.map (fun x => normalise x minV maxV)).zip originP).foldl
          (fun sum p => fltAdd sum (fltMul (fltSub p.1 p.2) (fltSub p.1 p.2))) (some 0))
        (some 8))
    | _, _, _, _ => none

/-- The value `EvalVars` computes for one genome: the sum over the labels of the mean squared
differences; `none` when the call panics. -/
def evalGenome (sp : SampleProblem) (genes : List Int) : Option Flt :=
  match getIdxsFrom sp.AllCombs 0 genes with
  | none => none
  | some selectIdxs =>
    match allSome ((List.range sp.NumLabel).map
        (fun j => (sampleRow sp selectIdxs j).bind (fun row => labelError sp row j))) with
    | none => none
    | some errors => some (errors.foldl fltAdd (some 0))

/-- The method `SampleProblem.EvalVars`: one value per genome. -/
def SampleProblem.EvalVars (sp : SampleProblem) (vars : List (List Int)) :
    Option (List Flt) :=
  allSome (vars.map (evalGenome sp))

/-- The problem `NewSampleProblem` builds for two normal traces with one label and the latency
5 ms each, one type with quota 1, two combinations and draws that are all `0`. -/
def flatProblem : SampleProblem :=
  { Quotas := [1], Bases := [2], RawDist := [[some 5], [some 5]], AbDist := [],
    Splits := [2], C := 1, NumLabel := 1, AllCombs := [[[1]], [[1]]], M := 1,
    Dim := 1, Lb := [0], Ub := [1] }

/-- The problem `NewSampleProblem` builds for two normal traces with one label and the
latencies 0 ms and 10 ms, one type with quota 1, two combinations and draws that are all `0`:
both rows of the table select the trace of 10 ms. -/
def spreadProblem : SampleProblem :=
  { Quotas := [1], Bases := [2], RawDist := [[some 0], [some 10]], AbDist := [],
    Splits := [2], C := 1, NumLabel := 1, AllCombs := [[[1]], [[1]]], M := 1,
    Dim := 1, Lb := [0], Ub := [1] }

/-! ## Percentiles in `float64` -/

/-- The index `p / 100 * (n - 1)` of `percentile` with `n := float64(len(sorted))`: the
quotient, the conversion, the difference and the product are rounded to `float64`. -/
def index64 (p : ℚ) (len : Nat) : ℚ :=
  fl64 (fl64 (p / 100) * fl64 (fl64 (len : ℚ) - 1))

/-- The index `p / 100.0 * float64(len(sorted)-1)` of `calculatePercentile` in `float64`. -/
def indexAdvanced64 (p : ℚ) (len : Nat) : ℚ :=
  fl64 (fl64 (p / 100) * fl64 ((((len : Int) - 1 : Int)) : ℚ))

/-- The weight `index - float64(lower)` in `float64`. -/
def weight64 (index : ℚ) (lower : Int) : ℚ := fl64 (index - fl64 (lower : ℚ))

/-- The `float64` product of two floats; `NaN` propagates. -/
def fltMul64 (a b : Flt) : Flt :=
  match a, b with
  | some x, some y => some (fl64 (x * y))
  | _, _ => none

/-- The `float64` sum of two floats; `NaN` propagates. -/
def fltAdd64 (a b : Flt) : Flt :=
  match a, b with
  | some x, some y => some (fl64 (x + y))
  | _, _ => none

/-- The Go expression `sorted[lower]*(1-weight) + sorted[upper]*weight` in `float64`. -/
def interpolate64 (lo hi : Flt) (weight : ℚ) : Flt :=
  fltAdd64 (fltMul64 lo (some (fl64 (1 - weight)))) (fltMul64 hi (some weight))

/-- The function `percentile` of `group_sampler.go` with its `float64` arithmetic, on data
that may hold `NaN` entries (`sort.Float64s` puts them first); `NaN` for an empty slice, `none`
when an index is out of range (a panic). -/
def percentile64 (data : List Flt) (p : ℚ) : Option Flt :=
  if data = [] then some none
  else if p = 0 then sliceGetFlt (sortFloat64sFlt data) 0
  else if p = 100 then
    sliceGetFlt (sortFloat64sFlt data) (((sortFloat64sFlt data).length : Int) - 1)
  else if ⌊index64 p (sortFloat64sFlt data).length⌋
      = ⌈index64 p (sortFloat64sFlt data).length⌉ then
    sliceGetFlt (sortFloat64sFlt data) ⌊index64 p (sortFloat64sFlt data).length⌋
  else
    match sliceGetFlt (sortFloat64sFlt data) ⌊index64 p (sortFloat64sFlt data).length⌋,
        sliceGetFlt (sortFloat64sFlt data) ⌈index64 p (sortFloat64sFlt data).length⌉ with
    | some lo, some hi =>
      some (interpolate64 lo hi
        (weight64 (index64 p (sortFloat64sFlt data).length)
          ⌊index64 p (sortFloat64sFlt data).length⌋))
    | _, _ => none

/-- The inner loop of the bubble sort of `calculatePercentile` on floats that may be `NaN`:
the comparison `sorted[j] > sorted[j+1]` is false when an operand is `NaN`. -/
def bubblePassFlt : Nat → List Flt → List Flt
  | k + 1, a :: b :: rest =>
    if fltGt a b = true then b :: bubblePassFlt k (a :: rest)
    else a :: bubblePassFlt k (b :: rest)
  | _, l => l

/-- The bubble sort of `calculatePercentile` on floats that may be `NaN`. -/
def bubbleSortFlt (l : List Flt) : List Flt :=
  (List.range l.length).foldl (fun s i => bubblePassFlt (l.length - 1 - i) s) l

/-- The function `calculatePercentile` of `group_sampler_advanced.go` with its `float64`
arithmetic, on data that may hold `NaN` entries: `0` for an empty slice, `none` when an index
is out of range (a panic). The test `lower == upper` of the source never holds, `upper` being
`lower + 1`. -/
def calculatePercentile64 (data : List Flt) (p : ℚ) : Option Flt :=
  if data = [] then some (some 0)
  else if p ≤ 0 then sliceGetFlt (bubbleSortFlt data) 0
  else if p ≥ 100 then
    sliceGetFlt (bubbleSortFlt data) (((bubbleSortFlt data).length : Int) - 1)
  else if truncToInt (indexAdvanced64 p (bubbleSortFlt data).length) + 1
      ≥ ((bubbleSortFlt data).length : Int) then
    sliceGetFlt (bubbleSortFlt data) (truncToInt (indexAdvanced64 p (bubbleSortFlt data).length))
  else
    match sliceGetFlt (bubbleSortFlt data)
          (truncToInt (indexAdvanced64 p (bubbleSortFlt data).length)),
        sliceGetFlt (bubbleSortFlt data)
          (truncToInt (indexAdvanced64 p (bubbleSortFlt data).length) + 1) with
    | some lo, some hi =>
      some (interpolate64 lo hi
        (weight64 (indexAdvanced64 p (bubbleSortFlt data).length)
          (truncToInt (indexAdvanced64 p (bubbleSortFlt data).length))))
    | _, _ => none

/-! # Theorems -/

/-! ## Cells of the DP table -/

theorem fmin_eq_some {a b : F64} {v : ℚ} (h : fmin a b = some v) : a = some v ∨ b = some v := by
  cases a with
  | none => right; simpa [fmin] using h
  | some a =>
    cases b with
    | none => left; simpa [fmin] using h
    | some b =>
      simp only [fmin, Option.some.injEq] at h
      by_cases hlt : b < a
      · right; simp [← h, hlt]
      · left; simp [← h, hlt]

theorem fmin_le_left {a b : F64} {w : ℚ} (h : a = some w) : ∃ v, fmin a b = some v ∧ v ≤ w := by
  subst h
  cases b with
  | none => exact ⟨w, rfl, le_refl _⟩
  | some b =>
    by_cases hlt : b < w
    · exact ⟨b, by simp [fmin, hlt], le_of_lt hlt⟩
    · exact ⟨w, by simp [fmin, hlt], le_refl _⟩

theorem fmin_le_right {a b : F64} {w : ℚ} (h : b = some w) : ∃ v, fmin a b = some v ∧ v ≤ w := by
  subst h
  cases a with
  | none => exact ⟨w, rfl, le_refl _⟩
  | some a =>
    by_cases hlt : w < a
    · exact ⟨w, by simp [fmin, hlt], le_refl _⟩
    · exact ⟨a, by simp [fmin, hlt], not_lt.mp hlt⟩

theorem fadd_some_iff {p : F64} {c v : ℚ} : fadd p (some c) = some v ↔ ∃ w, p = some w ∧ v = w + c := by
  cases p with
  | none => simp [fadd]
  | some w =>
    simp only [fadd, Option.some.injEq, exists_eq_left']
    exact eq_comm

theorem fmin_foldl_attained (f : Nat → F64) (l : List Nat) (init : F64) (v : ℚ)
    (h : l.foldl (fun acc x => fmin acc (f x)) init = some v) :
    init = some v ∨ ∃ x ∈ l, f x = some v := by
  induction l generalizing init with
  | nil => left; simpa using h
  | cons a l ih =>
    simp only [List.foldl_cons] at h
    rcases ih _ h with h1 | ⟨x, hx, hfx⟩
    · rcases fmin_eq_some h1 with h2 | h2
      · exact Or.inl h2
      · exact Or.inr ⟨a, List.mem_cons_self _ _, h2⟩
    · exact Or.inr ⟨x, List.mem_cons_of_mem _ hx, hfx⟩

theorem fmin_foldl_le (f : Nat → F64) (l : List Nat) (init : F64) (w : ℚ)
    (h : init = some w ∨ ∃ x ∈ l, f x = some w) :
    ∃ v, l.foldl (fun acc x => fmin acc (f x)) init = some v ∧ v ≤ w := by
  induction l generalizing init w with
  | nil =>
    rcases h with h | ⟨x, hx, _⟩
    · exact ⟨w, by simpa using h, le_refl _⟩
    · simp at hx
  | cons a l ih =>
    simp only [List.foldl_cons]
    rcases h with h | ⟨x, hx, hfx⟩
    · obtain ⟨v1, hv1, hle1⟩ := fmin_le_left (b := f a) h
      obtain ⟨v, hv, hle⟩ := ih (fmin init (f a)) v1 (Or.inl hv1)
      exact ⟨v, hv, le_trans hle hle1⟩
    · rcases List.mem_cons.mp hx with rfl | hx
      · obtain ⟨v1, hv1, hle1⟩ := fmin_le_right (a := init) hfx
        obtain ⟨v, hv, hle⟩ := ih (fmin init (f x)) v1 (Or.inl hv1)
        exact ⟨v, hv, le_trans hle hle1⟩
      · exact ih _ w (Or.inr ⟨x, hx, hfx⟩)

theorem dpCell_attained {ub b : Int} {average : ℚ} {prev : List F64} {s : Nat} {v : ℚ}
    (h : dpCell ub b average prev s = some v) :
    ∃ x, x < loopBound ub s ∧ ∃ w, prev.getD (s - x) none = some w ∧ v = w + costAt x b average := by
  unfold dpCell at h
  rcases fmin_foldl_attained _ _ _ _ h with h0 | ⟨x, hx, hfx⟩
  · simp at h0
  · exact ⟨x, List.mem_range.mp hx, fadd_some_iff.mp hfx⟩

theorem dpCell_le {ub b : Int} {average : ℚ} {prev : List F64} {s x : Nat} {w : ℚ}
    (hx : x < loopBound ub s) (hw : prev.getD (s - x) none = some w) :
    ∃ v, dpCell ub b average prev s = some v ∧ v ≤ w + costAt x b average := by
  unfold dpCell
  exact fmin_foldl_le _ _ _ _ (Or.inr ⟨x, List.mem_range.mpr hx, fadd_some_iff.mpr ⟨w, hw, rfl⟩⟩)

theorem loopBound_lt_iff {ub : Int} {s x : Nat} : x < loopBound ub s ↔ (x : Int) ≤ ub ∧ x ≤ s := by
  unfold loopBound
  omega

theorem dpRow_getD {ub b : Int} {average : ℚ} {Q : Nat} {prev : List F64} {s : Nat} (hs : s ≤ Q) :
    (dpRow ub b average Q prev).getD s none = dpCell ub b average prev s := by
  unfold dpRow
  rw [List.getD_eq_getElem?_getD, List.getElem?_map, List.getElem?_range (by omega)]
  rfl

theorem dpInit_getD_some {Q s : Nat} {v : ℚ} (h : (dpInit Q).getD s none = some v) :
    s = 0 ∧ v = 0 := by
  unfold dpInit at h
  cases s with
  | zero => simp at h; exact ⟨rfl, h.symm⟩
  | succ s =>
    rw [List.getD_eq_getElem?_getD] at h
    simp only [List.getElem?_cons_succ] at h
    rcases hq : (List.replicate Q (none : F64))[s]? with _ | a
    · rw [hq] at h; simp at h
    · have hmem : a ∈ List.replicate Q (none : F64) := by
        rw [List.getElem?_eq_some] at hq
        obtain ⟨hlt, heq⟩ := hq
        exact heq ▸ List.getElem_mem hlt
      rw [List.mem_replicate] at hmem
      rw [hq, hmem.2] at h; simp at h

theorem dpRows_cons (average : ℚ) (Q : Nat) (t : Int × Int) (rest : List (Int × Int)) :
    dpRows average Q (t :: rest)
      = dpRow t.1 t.2 average Q (rowOf average Q rest) :: dpRows average Q rest := rfl

theorem dpRows_eq_rowOf_cons (average : ℚ) (Q : Nat) (ts : List (Int × Int)) :
    ∃ tab, dpRows average Q ts = rowOf average Q ts :: tab := by
  cases ts with
  | nil => exact ⟨[], rfl⟩
  | cons t rest => exact ⟨dpRows average Q rest, rfl⟩

theorem rowOf_nil (average : ℚ) (Q : Nat) : rowOf average Q [] = dpInit Q := rfl

theorem rowOf_cons (average : ℚ) (Q : Nat) (t : Int × Int) (rest : List (Int × Int)) :
    rowOf average Q (t :: rest) = dpRow t.1 t.2 average Q (rowOf average Q rest) := rfl

theorem recon_cons (average : ℚ) (Q : Nat) (t : Int × Int) (rest : List (Int × Int)) (s : Nat) :
    recon average (t :: rest) (dpRows average Q (t :: rest)) s
      = (pickX (rowOf average Q (t :: rest)) (rowOf average Q rest) t.1 t.2 average s).getD 0
        :: recon average rest (dpRows average Q rest)
            (s - (pickX (rowOf average Q (t :: rest)) (rowOf average Q rest) t.1 t.2 average s).getD 0) := by
  obtain ⟨tab, htab⟩ := dpRows_eq_rowOf_cons average Q rest
  rw [dpRows_cons, htab]
  rfl

theorem recon_nil (average : ℚ) (tab : List (List F64)) (s : Nat) :
    recon average [] tab s = [] := by
  unfold recon
  rfl

/-! ## The DP table holds the minimum cost of the feasible allocations -/

theorem rowOf_le_of_within (average : ℚ) (Q : Nat) {ts : List (Int × Int)} {xs : List Nat}
    (h : Within ts xs) : xs.sum ≤ Q →
    ∃ v, (rowOf average Q ts).getD xs.sum none = some v ∧ v ≤ allocCost average ts xs := by
  unfold Within at h
  induction h with
  | nil =>
    intro _
    exact ⟨0, rfl, le_refl _⟩
  | @cons t x ts xs htx _ ih =>
    intro hs
    simp only [List.sum_cons] at hs ⊢
    obtain ⟨w, hw, hle⟩ := ih (by omega)
    have hx : x < loopBound t.1 (x + xs.sum) := loopBound_lt_iff.mpr ⟨htx, by omega⟩
    have hw2 : (rowOf average Q ts).getD (x + xs.sum - x) none = some w := by
      rw [Nat.add_sub_cancel_left]; exact hw
    obtain ⟨v, hv, hvle⟩ := @dpCell_le t.1 t.2 average _ _ _ _ hx hw2
    refine ⟨v, ?_, ?_⟩
    · rw [rowOf_cons, dpRow_getD hs]; exact hv
    · simp only [allocCost]
      linarith

theorem rowOf_attained (average : ℚ) (Q : Nat) (ts : List (Int × Int)) :
    ∀ (s : Nat) (v : ℚ), s ≤ Q → (rowOf average Q ts).getD s none = some v →
      ∃ xs, Within ts xs ∧ xs.sum = s ∧ allocCost average ts xs = v := by
  induction ts with
  | nil =>
    intro s v _ h
    rw [rowOf_nil] at h
    obtain ⟨hs, hv⟩ := dpInit_getD_some h
    exact ⟨[], List.Forall₂.nil, by simp [hs], by simp [allocCost, hv]⟩
  | cons t rest ih =>
    intro s v hs h
    rw [rowOf_cons, dpRow_getD hs] at h
    obtain ⟨x, hx, w, hw, hv⟩ := dpCell_attained h
    obtain ⟨hxu, hxs⟩ := loopBound_lt_iff.mp hx
    obtain ⟨xs, hwi, hsum, hcost⟩ := ih (s - x) w (by omega) hw
    refine ⟨x :: xs, List.Forall₂.cons hxu hwi, ?_, ?_⟩
    · simp only [List.sum_cons, hsum]; omega
    · simp only [allocCost, hcost, hv]; ring

theorem allocCost_eq_sqSum (average : ℚ) {ts : List (Int × Int)} {xs : List Nat}
    (h : Within ts xs) :
    allocCost average ts xs
      = (sqSum ts xs : ℚ) - 2 * average * ((xs.sum : ℚ) + ((ts.map Prod.snd).sum : ℚ))
        + (ts.length : ℚ) * average ^ 2 := by
  unfold Within at h
  induction h with
  | nil => simp [allocCost, sqSum]
  | @cons t x ts xs _ _ ih =>
    simp only [allocCost, sqSum, ih, costAt, List.sum_cons, List.map_cons, List.length_cons]
    push_cast
    ring

theorem allocCost_eq_of_close (average : ℚ) {ts : List (Int × Int)} {xs ys : List Nat}
    (hx : Within ts xs) (hy : Within ts ys) (hsum : xs.sum = ys.sum)
    (hclose : |allocCost average ts xs - allocCost average ts ys| < 1 / 1000000000) :
    allocCost average ts xs = allocCost average ts ys := by
  rw [allocCost_eq_sqSum average hx, allocCost_eq_sqSum average hy, hsum] at hclose ⊢
  have hz : ((sqSum ts xs : ℚ) - 2 * average * ((ys.sum : ℚ) + ((ts.map Prod.snd).sum : ℚ))
        + (ts.length : ℚ) * average ^ 2)
      - ((sqSum ts ys : ℚ) - 2 * average * ((ys.sum : ℚ) + ((ts.map Prod.snd).sum : ℚ))
        + (ts.length : ℚ) * average ^ 2) = ((sqSum ts xs - sqSum ts ys : Int) : ℚ) := by
    push_cast; ring
  rw [hz] at hclose
  have h0 : sqSum ts xs - sqSum ts ys = 0 := by
    by_contra hne
    have h1 : (1 : Int) ≤ |sqSum ts xs - sqSum ts ys| := Int.one_le_abs hne
    have h2 : (1 : ℚ) ≤ |((sqSum ts xs - sqSum ts ys : Int) : ℚ)| := by
      rw [← Int.cast_abs]; exact_mod_cast h1
    linarith
  have h3 : (sqSum ts xs : ℚ) = (sqSum ts ys : ℚ) := by
    have : sqSum ts xs = sqSum ts ys := by omega
    rw [this]
  rw [h3]

theorem closeTo_iff {a b : F64} :
    closeTo a b = true ↔ ∃ v w, a = some v ∧ b = some w ∧ |v - w| < 1 / 1000000000 := by
  cases a with
  | none => simp [closeTo]
  | some a =>
    cases b with
    | none => simp [closeTo]
    | some b => simp [closeTo]

theorem closeTo_self (v : ℚ) : closeTo (some v) (some v) = true := by
  simp [closeTo]

theorem pickX_lt {cur prev : List F64} {ub b : Int} {average : ℚ} {s x : Nat}
    (h : pickX cur prev ub b average s = some x) : (x : Int) ≤ ub ∧ x ≤ s := by
  unfold pickX at h
  exact loopBound_lt_iff.mp (List.mem_range.mp (List.mem_of_find?_eq_some h))

theorem recon_spec (average : ℚ) (Q : Nat) (ts : List (Int × Int)) :
    ∀ (s : Nat) (v : ℚ), s ≤ Q → (rowOf average Q ts).getD s none = some v →
      Within ts (recon average ts (dpRows average Q ts) s)
        ∧ (recon average ts (dpRows average Q ts) s).sum = s
        ∧ allocCost average ts (recon average ts (dpRows average Q ts) s) = v := by
  induction ts with
  | nil =>
    intro s v _ h
    rw [rowOf_nil] at h
    obtain ⟨hs, hv⟩ := dpInit_getD_some h
    rw [recon_nil]
    exact ⟨List.Forall₂.nil, by simp [hs], by simp [allocCost, hv]⟩
  | cons t rest ih =>
    intro s v hs h
    rw [recon_cons]
    -- the optimum is attained by some `x`, so the scan stops
    have hcell := h
    rw [rowOf_cons, dpRow_getD hs] at hcell
    obtain ⟨x0, hx0, w0, hw0, hv0⟩ := dpCell_attained hcell
    have hfound : pickX (rowOf average Q (t :: rest)) (rowOf average Q rest) t.1 t.2 average s
        ≠ none := by
      unfold pickX
      intro hnone
      rw [List.find?_eq_none] at hnone
      apply hnone x0 (List.mem_range.mpr hx0)
      rw [h, fadd_some_iff.mpr ⟨w0, hw0, rfl⟩, ← hv0]
      exact closeTo_self v
    obtain ⟨x, hpick⟩ := Option.ne_none_iff_exists'.mp hfound
    have hclose := List.find?_some (by unfold pickX at hpick; exact hpick)
    obtain ⟨hxu, hxs⟩ := pickX_lt hpick
    rw [hpick, Option.getD_some]
    rw [h] at hclose
    obtain ⟨v1, w1, hv1, hw1, habs⟩ := closeTo_iff.mp hclose
    obtain ⟨w, hw, hw1eq⟩ := fadd_some_iff.mp hw1
    have hv1eq : v1 = v := (Option.some.inj hv1).symm
    subst hv1eq
    obtain ⟨hwi, hsum, hcost⟩ := ih (s - x) w (by omega) hw
    -- both values are costs of allocations of `s` units: they differ by an integer
    obtain ⟨ys, hyw, hysum, hycost⟩ := rowOf_attained average Q (t :: rest) s v1 hs h
    have hxw : Within (t :: rest) (x :: recon average rest (dpRows average Q rest) (s - x)) :=
      List.Forall₂.cons hxu hwi
    have hxsum : (x :: recon average rest (dpRows average Q rest) (s - x)).sum = s := by
      simp only [List.sum_cons, hsum]; omega
    have hxcost : allocCost average (t :: rest)
        (x :: recon average rest (dpRows average Q rest) (s - x)) = w1 := by
      simp only [allocCost, hcost, hw1eq]; ring
    have heq := allocCost_eq_of_close average hyw hxw (by rw [hysum, hxsum])
      (by rw [hycost, hxcost]; exact habs)
    exact ⟨hxw, hxsum, by rw [← heq, hycost]⟩

theorem recon_bounded (average : ℚ) (Q : Nat) (ts : List (Int × Int)) :
    ∀ s : Nat, List.Forall₂ (fun (t : Int × Int) (x : Nat) => x = 0 ∨ (x : Int) ≤ t.1) ts
      (recon average ts (dpRows average Q ts) s) := by
  induction ts with
  | nil => intro s; rw [recon_nil]; exact List.Forall₂.nil
  | cons t rest ih =>
    intro s
    rw [recon_cons]
    refine List.Forall₂.cons ?_ (ih _)
    cases h : pickX (rowOf average Q (t :: rest)) (rowOf average Q rest) t.1 t.2 average s with
    | none => left; rfl
    | some x => right; simpa using (pickX_lt h).1

/-! ## A quota above the supply: every cell on the way is `+Inf` -/

theorem within_sum_le {ts : List (Int × Int)} {xs : List Nat} (h : Within ts xs) :
    (xs.sum : Int) ≤ (ts.map Prod.fst).sum := by
  unfold Within at h
  induction h with
  | nil => simp
  | @cons t x ts xs htx _ ih =>
    simp only [List.sum_cons, List.map_cons, Nat.cast_add]
    omega

theorem rowOf_none_of_gt (average : ℚ) (Q : Nat) (ts : List (Int × Int)) (s : Nat)
    (hs : s ≤ Q) (hgt : (ts.map Prod.fst).sum < (s : Int)) :
    (rowOf average Q ts).getD s none = none := by
  cases h : (rowOf average Q ts).getD s none with
  | none => rfl
  | some v =>
    obtain ⟨xs, hwi, hsum, _⟩ := rowOf_attained average Q ts s v hs h
    have := within_sum_le hwi
    rw [hsum] at this
    omega

theorem pickX_none_of_none {cur prev : List F64} {ub b : Int} {average : ℚ} {s : Nat}
    (h : cur.getD s none = none) : pickX cur prev ub b average s = none := by
  unfold pickX
  rw [List.find?_eq_none]
  intro x _
  rw [h]
  simp [closeTo]

theorem recon_zero_of_gt (average : ℚ) (Q : Nat) (ts : List (Int × Int)) (s : Nat)
    (hs : s ≤ Q) (hnn : ∀ t ∈ ts, 0 ≤ t.1) (hgt : (ts.map Prod.fst).sum < (s : Int)) :
    recon average ts (dpRows average Q ts) s = List.replicate ts.length 0 := by
  induction ts with
  | nil => rw [recon_nil]; rfl
  | cons t rest ih =>
    rw [recon_cons, pickX_none_of_none (rowOf_none_of_gt average Q (t :: rest) s hs hgt)]
    simp only [Option.getD_none, Nat.sub_zero, List.length_cons, List.replicate_succ]
    have h0 : 0 ≤ t.1 := hnn t (List.mem_cons_self _ _)
    simp only [List.map_cons, List.sum_cons] at hgt
    rw [ih (fun t ht => hnn t (List.mem_cons_of_mem _ ht)) (by omega)]

/-! ## From the reversed table back to the enumeration order -/

theorem allocCost_append (average : ℚ) {ts : List (Int × Int)} {xs : List Nat}
    (h : Within ts xs) (ts2 : List (Int × Int)) (xs2 : List Nat) :
    allocCost average (ts ++ ts2) (xs ++ xs2)
      = allocCost average ts xs + allocCost average ts2 xs2 := by
  unfold Within at h
  induction h with
  | nil => simp [allocCost]
  | @cons t x ts xs _ _ ih =>
    show costAt x t.2 average + allocCost average (ts ++ ts2) (xs ++ xs2)
      = costAt x t.2 average + allocCost average ts xs + allocCost average ts2 xs2
    rw [ih]
    ring

theorem allocCost_reverse (average : ℚ) {ts : List (Int × Int)} {xs : List Nat}
    (h : Within ts xs) :
    allocCost average ts.reverse xs.reverse = allocCost average ts xs := by
  have h2 := h
  unfold Within at h2
  induction h2 with
  | nil => rfl
  | @cons t x ts xs htx hrest ih =>
    have hr : Within ts.reverse xs.reverse := List.forall₂_reverse_iff.mpr hrest
    rw [List.reverse_cons, List.reverse_cons, allocCost_append average hr, ih hrest]
    simp only [allocCost]
    ring

theorem zip_typesOf (codes : List String) (typeCounts historicalCounts : GoMap) :
    (codes.map (mapGet typeCounts)).zip (codes.map (mapGet historicalCounts))
      = typesOf codes typeCounts historicalCounts := by
  unfold typesOf
  exact List.zip_map' _ _ _

theorem typesOf_map_fst (codes : List String) (typeCounts historicalCounts : GoMap) :
    (typesOf codes typeCounts historicalCounts).map Prod.fst = codes.map (mapGet typeCounts) := by
  unfold typesOf
  simp [List.map_map, Function.comp_def]

theorem typesOf_map_snd (codes : List String) (typeCounts historicalCounts : GoMap) :
    (typesOf codes typeCounts historicalCounts).map Prod.snd
      = codes.map (mapGet historicalCounts) := by
  unfold typesOf
  simp [List.map_map, Function.comp_def]

theorem solveQuota_eq (codes : List String) (typeCounts historicalCounts : GoMap)
    (totalQuota : Int) :
    solveQuota (codes.map (mapGet typeCounts)) (codes.map (mapGet historicalCounts)) totalQuota
      = (recon (quotaAverage codes historicalCounts totalQuota)
          (typesOf codes typeCounts historicalCounts).reverse
          (dpRows (quotaAverage codes historicalCounts totalQuota) totalQuota.toNat
            (typesOf codes typeCounts historicalCounts).reverse) totalQuota.toNat).reverse := by
  unfold solveQuota quotaAverage
  simp only [zip_typesOf, List.length_map]

theorem solveQuota_bounded (codes : List String) (typeCounts historicalCounts : GoMap)
    (totalQuota : Int) :
    List.Forall₂ (fun (c : String) (x : Nat) => x = 0 ∨ (x : Int) ≤ mapGet typeCounts c) codes
      (solveQuota (codes.map (mapGet typeCounts)) (codes.map (mapGet historicalCounts))
        totalQuota) := by
  rw [solveQuota_eq]
  have h := recon_bounded (quotaAverage codes historicalCounts totalQuota) totalQuota.toNat
    (typesOf codes typeCounts historicalCounts).reverse totalQuota.toNat
  have h2 := List.forall₂_reverse_iff.mpr h
  rw [List.reverse_reverse] at h2
  unfold typesOf at h2
  rw [List.forall₂_map_left_iff] at h2
  exact h2

theorem solveQuota_optimal (codes : List String) (typeCounts historicalCounts : GoMap)
    (totalQuota : Int) (ys : List Nat)
    (hy : Within (typesOf codes typeCounts historicalCounts) ys)
    (hsum : ys.sum = totalQuota.toNat) :
    Within (typesOf codes typeCounts historicalCounts)
        (solveQuota (codes.map (mapGet typeCounts)) (codes.map (mapGet historicalCounts))
          totalQuota)
      ∧ (solveQuota (codes.map (mapGet typeCounts)) (codes.map (mapGet historicalCounts))
          totalQuota).sum = totalQuota.toNat
      ∧ allocCost (quotaAverage codes historicalCounts totalQuota)
          (typesOf codes typeCounts historicalCounts)
          (solveQuota (codes.map (mapGet typeCounts)) (codes.map (mapGet historicalCounts))
            totalQuota)
        ≤ allocCost (quotaAverage codes historicalCounts totalQuota)
          (typesOf codes typeCounts historicalCounts) ys := by
  rw [solveQuota_eq]
  have hyr : Within (typesOf codes typeCounts historicalCounts).reverse ys.reverse :=
    List.forall₂_reverse_iff.mpr hy
  have hle := rowOf_le_of_within (quotaAverage codes historicalCounts totalQuota)
    totalQuota.toNat hyr (by rw [List.sum_reverse, hsum])
  rw [List.sum_reverse, hsum] at hle
  obtain ⟨v, hv, hvle⟩ := hle
  obtain ⟨hwi, hs, hcost⟩ := recon_spec (quotaAverage codes historicalCounts totalQuota)
    totalQuota.toNat (typesOf codes typeCounts historicalCounts).reverse totalQuota.toNat v
    (le_refl _) hv
  have hwi2 := List.forall₂_reverse_iff.mpr hwi
  rw [List.reverse_reverse] at hwi2
  refine ⟨hwi2, by rw [List.sum_reverse, hs], ?_⟩
  have hc := allocCost_reverse (quotaAverage codes historicalCounts totalQuota) hwi
  rw [List.reverse_reverse] at hc
  rw [hc, hcost]
  rw [allocCost_reverse (quotaAverage codes historicalCounts totalQuota) hy] at hvle
  exact hvle

theorem solveQuota_zero_of_gt (codes : List String) (typeCounts historicalCounts : GoMap)
    (totalQuota : Int) (hnn : ∀ c ∈ codes, 0 ≤ mapGet typeCounts c)
    (hgt : (codes.map (mapGet typeCounts)).sum < totalQuota) :
    solveQuota (codes.map (mapGet typeCounts)) (codes.map (mapGet historicalCounts)) totalQuota
      = List.replicate codes.length 0 := by
  rw [solveQuota_eq, recon_zero_of_gt _ _ _ _ (le_refl _)]
  · simp [typesOf]
  · intro t ht
    rw [List.mem_reverse] at ht
    unfold typesOf at ht
    rw [List.mem_map] at ht
    obtain ⟨c, hc, rfl⟩ := ht
    exact hnn c hc
  · rw [List.map_reverse, List.sum_reverse, typesOf_map_fst]
    have h0 : (0 : Int) ≤ (codes.map (mapGet typeCounts)).sum :=
      List.sum_nonneg (by
        intro x hx
        rw [List.mem_map] at hx
        obtain ⟨c, hc, rfl⟩ := hx
        exact hnn c hc)
    omega

/-! ## The map returned by `AllocateQuota` -/

theorem mapGet_nil (k : String) : mapGet [] k = 0 := rfl

theorem mapGet_cons (k k2 : String) (v : Int) (m : GoMap) :
    mapGet ((k2, v) :: m) k = if k = k2 then v else mapGet m k := by
  unfold mapGet
  rw [List.lookup_cons]
  by_cases h : k = k2
  · subst h; simp
  · have hb : (k == k2) = false := by simpa using h
    simp [hb, h]

theorem mapHas_cons (k k2 : String) (v : Int) (m : GoMap) :
    mapHas ((k2, v) :: m) k = if k = k2 then true else mapHas m k := by
  unfold mapHas
  rw [List.lookup_cons]
  by_cases h : k = k2
  · subst h; simp
  · have hb : (k == k2) = false := by simpa using h
    simp [hb, h]

theorem mapHas_iff_mem_keys (m : GoMap) (k : String) :
    mapHas m k = true ↔ k ∈ m.map Prod.fst := by
  induction m with
  | nil => simp [mapHas]
  | cons p m ih =>
    obtain ⟨k2, v⟩ := p
    rw [mapHas_cons]
    by_cases h : k = k2
    · simp [h]
    · simp [h, ih]

theorem mapGet_of_not_has {m : GoMap} {k : String} (h : mapHas m k = false) : mapGet m k = 0 := by
  unfold mapHas at h
  unfold mapGet
  cases hl : m.lookup k with
  | none => rfl
  | some v => rw [hl] at h; simp at h

theorem mapHas_of_pos {m : GoMap} {k : String} (h : 0 < mapGet m k) : mapHas m k = true := by
  by_contra hn
  have := mapGet_of_not_has (Bool.eq_false_iff.mpr hn)
  omega

theorem mapGet_nonneg {m : GoMap} (hnn : ∀ p ∈ m, 0 ≤ p.2) (k : String) : 0 ≤ mapGet m k := by
  induction m with
  | nil => simp [mapGet_nil]
  | cons p m ih =>
    obtain ⟨k2, v⟩ := p
    rw [mapGet_cons]
    by_cases h : k = k2
    · simp only [h, if_true]
      exact hnn (k2, v) (List.mem_cons_self _ _)
    · simp only [h, if_false]
      exact ih (fun p hp => hnn p (List.mem_cons_of_mem _ hp))

theorem buildQuotas_nil_left (typeCounts : GoMap) (solution : List Nat) :
    buildQuotas typeCounts [] solution = [] := by
  simp [buildQuotas]

theorem buildQuotas_cons (typeCounts : GoMap) (c : String) (cs : List String) (x : Nat)
    (xs : List Nat) :
    buildQuotas typeCounts (c :: cs) (x :: xs)
      = if 0 < x ∧ mapHas typeCounts c = true then (c, (x : Int)) :: buildQuotas typeCounts cs xs
        else buildQuotas typeCounts cs xs := by
  unfold buildQuotas
  rw [List.zip_cons_cons, List.filterMap_cons]
  by_cases h : 0 < x ∧ mapHas typeCounts c = true
  · simp [h]
  · simp only [h, if_false]

theorem mem_buildQuotas {typeCounts : GoMap} {codes : List String} {solution : List Nat}
    {k : String} {q : Int} (h : (k, q) ∈ buildQuotas typeCounts codes solution) :
    mapHas typeCounts k = true ∧ ∃ x : Nat, 0 < x ∧ q = x ∧ (k, x) ∈ codes.zip solution := by
  unfold buildQuotas at h
  rw [List.mem_filterMap] at h
  obtain ⟨⟨c, x⟩, hmem, hsome⟩ := h
  by_cases hc : 0 < x ∧ mapHas typeCounts c = true
  · simp only [hc, and_self, if_true, Option.some.injEq, Prod.mk.injEq] at hsome
    obtain ⟨rfl, rfl⟩ := hsome
    exact ⟨hc.2, x, hc.1, rfl, hmem⟩
  · simp only [hc, if_false] at hsome
    exact absurd hsome (by simp)

theorem lookup_buildQuotas_of_not_mem {typeCounts : GoMap} {codes : List String}
    {solution : List Nat} {k : String} (h : k ∉ codes) :
    mapGet (buildQuotas typeCounts codes solution) k = 0 := by
  induction codes generalizing solution with
  | nil => rw [buildQuotas_nil_left]; rfl
  | cons c cs ih =>
    cases solution with
    | nil => simp [buildQuotas, mapGet]
    | cons x xs =>
      have hkc : k ≠ c := fun e => h (e ▸ List.mem_cons_self _ _)
      have hk : k ∉ cs := fun e => h (List.mem_cons_of_mem _ e)
      rw [buildQuotas_cons]
      by_cases hc : 0 < x ∧ mapHas typeCounts c = true
      · simp only [hc, and_self, if_true]
        rw [mapGet_cons]
        simp only [hkc, if_false]
        exact ih hk
      · simp only [hc, if_false]
        exact ih hk

theorem mapSum_buildQuotas {typeCounts : GoMap} {codes : List String} {solution : List Nat}
    (h : List.Forall₂ (fun (c : String) (x : Nat) => x = 0 ∨ mapHas typeCounts c = true)
      codes solution) :
    mapSum (buildQuotas typeCounts codes solution) = (solution.sum : Nat) := by
  induction h with
  | nil => simp [buildQuotas, mapSum]
  | @cons c x cs xs hcx _ ih =>
    rw [buildQuotas_cons]
    by_cases hc : 0 < x ∧ mapHas typeCounts c = true
    · simp only [hc, and_self, if_true]
      unfold mapSum at ih ⊢
      simp only [List.map_cons, List.sum_cons, ih, Nat.cast_add]
    · simp only [hc, if_false, ih, List.sum_cons, Nat.cast_add]
      have hx : x = 0 := by
        rcases hcx with hx | hx
        · exact hx
        · by_contra hne
          exact hc ⟨Nat.pos_of_ne_zero hne, hx⟩
      simp [hx]

theorem map_mapGet_buildQuotas {typeCounts : GoMap} {codes : List String} {solution : List Nat}
    (hnd : codes.Nodup)
    (h : List.Forall₂ (fun (c : String) (x : Nat) => x = 0 ∨ mapHas typeCounts c = true)
      codes solution) :
    codes.map (mapGet (buildQuotas typeCounts codes solution))
      = solution.map (fun x : Nat => (x : Int)) := by
  induction h with
  | nil => rfl
  | @cons c x cs xs hcx _ ih =>
    rw [List.nodup_cons] at hnd
    obtain ⟨hc_notin, hnd2⟩ := hnd
    have htail : ∀ k ∈ cs, mapGet (buildQuotas typeCounts (c :: cs) (x :: xs)) k
        = mapGet (buildQuotas typeCounts cs xs) k := by
      intro k hk
      have hkc : k ≠ c := fun e => hc_notin (e ▸ hk)
      rw [buildQuotas_cons]
      by_cases hc : 0 < x ∧ mapHas typeCounts c = true
      · simp only [hc, and_self, if_true]
        rw [mapGet_cons]
        simp only [hkc, if_false]
      · simp only [hc, if_false]
    have hhead : mapGet (buildQuotas typeCounts (c :: cs) (x :: xs)) c = (x : Int) := by
      rw [buildQuotas_cons]
      by_cases hc : 0 < x ∧ mapHas typeCounts c = true
      · simp only [hc, and_self, if_true]
        rw [mapGet_cons]
        simp
      · simp only [hc, if_false]
        have hx : x = 0 := by
          rcases hcx with hx | hx
          · exact hx
          · by_contra hne
            exact hc ⟨Nat.pos_of_ne_zero hne, hx⟩
        rw [lookup_buildQuotas_of_not_mem hc_notin, hx]
        rfl
    rw [List.map_cons, List.map_cons, hhead, List.map_congr_left htail, ih hnd2]

theorem solveQuota_has (codes : List String) (typeCounts historicalCounts : GoMap)
    (totalQuota : Int) :
    List.Forall₂ (fun (c : String) (x : Nat) => x = 0 ∨ mapHas typeCounts c = true) codes
      (solveQuota (codes.map (mapGet typeCounts)) (codes.map (mapGet historicalCounts))
        totalQuota) := by
  refine List.Forall₂.imp ?_ (solveQuota_bounded codes typeCounts historicalCounts totalQuota)
  intro c x hcx
  rcases hcx with h | h
  · exact Or.inl h
  · by_cases hx : x = 0
    · exact Or.inl hx
    · right
      apply mapHas_of_pos
      have : 0 < x := Nat.pos_of_ne_zero hx
      omega

theorem AllocateQuota_eq_buildQuotas {codes : List String} (typeCounts historicalCounts : GoMap)
    {totalQuota : Int} (hQ : 0 < totalQuota) (hne : codes ≠ []) :
    AllocateQuota codes typeCounts historicalCounts totalQuota
      = buildQuotas typeCounts codes
          (solveQuota (codes.map (mapGet typeCounts)) (codes.map (mapGet historicalCounts))
            totalQuota) := by
  unfold AllocateQuota
  have h1 : ¬ totalQuota ≤ 0 := by omega
  have h2 : ¬ codes.length = 0 := by
    intro h
    exact hne (List.length_eq_zero.mp h)
  simp only [h1, h2, if_false]

theorem AllocateQuota_nil (typeCounts historicalCounts : GoMap) (totalQuota : Int) :
    AllocateQuota [] typeCounts historicalCounts totalQuota = [] := by
  unfold AllocateQuota
  simp

/-! ## Sums over the enumeration and over the map -/

theorem map_snd_eq_map_mapGet {m : GoMap} (h : KeysNodup m) :
    m.map Prod.snd = (m.map Prod.fst).map (mapGet m) := by
  unfold KeysNodup at h
  induction m with
  | nil => rfl
  | cons p m ih =>
    obtain ⟨k, v⟩ := p
    simp only [List.map_cons, List.nodup_cons] at h
    obtain ⟨hk, hnd⟩ := h
    have htail : ∀ k2 ∈ m.map Prod.fst, mapGet ((k, v) :: m) k2 = mapGet m k2 := by
      intro k2 hk2
      rw [mapGet_cons]
      have : k2 ≠ k := fun e => hk (e ▸ hk2)
      simp only [this, if_false]
    simp only [List.map_cons]
    rw [List.map_congr_left htail, ← ih hnd, mapGet_cons]
    simp

theorem sum_codes_eq_mapSum {codes : List String} {typeCounts : GoMap}
    (hnd : codes.Nodup) (hkeys : KeysNodup typeCounts) (hcov : ∀ p ∈ typeCounts, p.1 ∈ codes) :
    (codes.map (mapGet typeCounts)).sum = mapSum typeCounts := by
  unfold mapSum
  rw [map_snd_eq_map_mapGet hkeys, ← List.sum_toFinset _ hnd, ← List.sum_toFinset _ hkeys]
  symm
  apply Finset.sum_subset
  · intro k hk
    rw [List.mem_toFinset] at hk ⊢
    rw [List.mem_map] at hk
    obtain ⟨p, hp, rfl⟩ := hk
    exact hcov p hp
  · intro k _ hk
    rw [List.mem_toFinset] at hk
    apply mapGet_of_not_has
    rw [Bool.eq_false_iff]
    intro hhas
    exact hk ((mapHas_iff_mem_keys _ _).mp hhas)

theorem exists_within_sum (ts : List (Int × Int)) (hnn : ∀ t ∈ ts, 0 ≤ t.1) :
    ∀ s : Nat, (s : Int) ≤ (ts.map Prod.fst).sum → ∃ ys, Within ts ys ∧ ys.sum = s := by
  induction ts with
  | nil =>
    intro s hs
    simp only [List.map_nil, List.sum_nil] at hs
    exact ⟨[], List.Forall₂.nil, by simp; omega⟩
  | cons t rest ih =>
    intro s hs
    simp only [List.map_cons, List.sum_cons] at hs
    have ht : 0 ≤ t.1 := hnn t (List.mem_cons_self _ _)
    have hrest : ∀ t ∈ rest, 0 ≤ t.1 := fun t h => hnn t (List.mem_cons_of_mem _ h)
    have hrs : (0 : Int) ≤ (rest.map Prod.fst).sum :=
      List.sum_nonneg (by
        intro x hx
        rw [List.mem_map] at hx
        obtain ⟨t, ht, rfl⟩ := hx
        exact hrest t ht)
    obtain ⟨ys, hys, hsum⟩ := ih hrest (s - min t.1.toNat s) (by omega)
    refine ⟨min t.1.toNat s :: ys, List.Forall₂.cons (by omega) hys, ?_⟩
    simp only [List.sum_cons, hsum]
    omega

theorem sum_map_toNat (y : String → Int) (l : List String) (h : ∀ c ∈ l, 0 ≤ y c) :
    (((l.map (fun c => (y c).toNat)).sum : Nat) : Int) = (l.map y).sum := by
  induction l with
  | nil => rfl
  | cons c l ih =>
    have h0 := h c (List.mem_cons_self _ _)
    simp only [List.map_cons, List.sum_cons, Nat.cast_add,
      ih (fun c hc => h c (List.mem_cons_of_mem _ hc))]
    omega

theorem sum_costAt_eq_allocCost (average : ℚ) (typeCounts historicalCounts : GoMap)
    (x : String → Int) :
    ∀ (codes : List String) (sol : List Nat), codes.map x = sol.map (fun n : Nat => (n : Int)) →
      (codes.map (fun c => costAt (x c) (mapGet historicalCounts c) average)).sum
        = allocCost average (typesOf codes typeCounts historicalCounts) sol := by
  intro codes
  induction codes with
  | nil =>
    intro sol _
    simp [typesOf, allocCost]
  | cons c cs ih =>
    intro sol h
    cases sol with
    | nil => simp at h
    | cons n sol =>
      simp only [List.map_cons, List.cons.injEq] at h
      obtain ⟨h1, h2⟩ := h
      have := ih sol h2
      unfold typesOf at this ⊢
      simp only [List.map_cons, List.sum_cons, allocCost, this, h1]

/-! ## Claims about `AllocateQuota` -/

theorem allocate_sum_eq_quota (codes : List String) (typeCounts historicalCounts : GoMap)
    (totalQuota : Int) (henum : EnumeratesKeys codes typeCounts historicalCounts)
    (hkeys : KeysNodup typeCounts) (hnn : ∀ p ∈ typeCounts, 0 ≤ p.2)
    (hQ : 0 < totalQuota) (hle : totalQuota ≤ mapSum typeCounts) :
    mapSum (AllocateQuota codes typeCounts historicalCounts totalQuota) = totalQuota := by
  obtain ⟨hnd, _, hcov, _⟩ := henum
  have hsum := sum_codes_eq_mapSum hnd hkeys hcov
  have hne : codes ≠ [] := by
    rintro rfl
    simp only [List.map_nil, List.sum_nil] at hsum
    omega
  rw [AllocateQuota_eq_buildQuotas _ _ hQ hne, mapSum_buildQuotas (solveQuota_has _ _ _ _)]
  obtain ⟨ys, hys, hysum⟩ := exists_within_sum (typesOf codes typeCounts historicalCounts)
    (by
      intro t ht
      unfold typesOf at ht
      rw [List.mem_map] at ht
      obtain ⟨c, _, rfl⟩ := ht
      exact mapGet_nonneg hnn c)
    totalQuota.toNat (by rw [typesOf_map_fst, hsum]; omega)
  obtain ⟨_, hs, _⟩ := solveQuota_optimal codes typeCounts historicalCounts totalQuota ys hys hysum
  rw [hs]
  omega

/-- C4. For non-negative `typeCounts`, an enumeration `codes` of the keys and a quota
`0 < Q ≤ Σ typeCounts`, the quotas returned by `AllocateQuota` sum to exactly `Q`
(whatever the historical counts are). -/
theorem C4_allocate_sum_eq_quota (codes : List String) (typeCounts historicalCounts : GoMap)
    (totalQuota : Int) (henum : EnumeratesKeys codes typeCounts historicalCounts)
    (hkeys : KeysNodup typeCounts) (hnn : ∀ p ∈ typeCounts, 0 ≤ p.2)
    (hQ : 0 < totalQuota) (hle : totalQuota ≤ mapSum typeCounts) :
    mapSum (AllocateQuota codes typeCounts historicalCounts totalQuota) = totalQuota := by
  obtain ⟨hnd, _, hcov, _⟩ := henum
  have hsum := sum_codes_eq_mapSum hnd hkeys hcov
  have hne : codes ≠ [] := by
    rintro rfl
    simp only [List.map_nil, List.sum_nil] at hsum
    omega
  rw [AllocateQuota_eq_buildQuotas _ _ hQ hne, mapSum_buildQuotas (solveQuota_has _ _ _ _)]
  obtain ⟨ys, hys, hysum⟩ := exists_within_sum (typesOf codes typeCounts historicalCounts)
    (by
      intro t ht
      unfold typesOf at ht
      rw [List.mem_map] at ht
      obtain ⟨c, _, rfl⟩ := ht
      exact mapGet_nonneg hnn c)
    totalQuota.toNat (by rw [typesOf_map_fst, hsum]; omega)
  obtain ⟨_, hs, _⟩ := solveQuota_optimal codes typeCounts historicalCounts totalQuota ys hys hysum
  rw [hs]
  omega

theorem C4_allocate_sum_eq_quota_witness :
    EnumeratesKeys ["A", "B"] [("A", 2), ("B", 1)] [("A", 1)]
      ∧ mapSum (AllocateQuota ["A", "B"] [("A", 2), ("B", 1)] [("A", 1)] 2) = 2 :=
  ⟨by decide, C4_allocate_sum_eq_quota ["A", "B"] [("A", 2), ("B", 1)] [("A", 1)] 2
    (by decide) (by decide) (by decide) (by decide) (by decide)⟩

theorem allocate_entry_bounded (codes : List String) (typeCounts historicalCounts : GoMap)
    (totalQuota : Int) (k : String) (q : Int)
    (h : (k, q) ∈ AllocateQuota codes typeCounts historicalCounts totalQuota) :
    mapHas typeCounts k = true ∧ 1 ≤ q ∧ q ≤ mapGet typeCounts k := by
  by_cases hQ : 0 < totalQuota
  · by_cases hne : codes = []
    · subst hne
      rw [AllocateQuota_nil] at h
      simp at h
    · rw [AllocateQuota_eq_buildQuotas _ _ hQ hne] at h
      obtain ⟨hhas, x, hx, rfl, hmem⟩ := mem_buildQuotas h
      have hb := List.forall₂_zip
        (solveQuota_bounded codes typeCounts historicalCounts totalQuota) hmem
      refine ⟨hhas, by omega, ?_⟩
      rcases hb with hb | hb
      · omega
      · exact hb
  · unfold AllocateQuota at h
    have : totalQuota ≤ 0 := by omega
    simp [this] at h

/-- C5. Every entry `key ↦ q` of the map returned by `AllocateQuota` has `key` among the keys
of `typeCounts` and `1 ≤ q ≤ typeCounts[key]`, for all inputs and every enumeration order. -/
theorem C5_allocate_entries_bounded (codes : List String) (typeCounts historicalCounts : GoMap)
    (totalQuota : Int) (k : String) (q : Int)
    (h : (k, q) ∈ AllocateQuota codes typeCounts historicalCounts totalQuota) :
    mapHas typeCounts k = true ∧ 1 ≤ q ∧ q ≤ mapGet typeCounts k := by
  by_cases hQ : 0 < totalQuota
  · by_cases hne : codes = []
    · subst hne
      rw [AllocateQuota_nil] at h
      simp at h
    · rw [AllocateQuota_eq_buildQuotas _ _ hQ hne] at h
      obtain ⟨hhas, x, hx, rfl, hmem⟩ := mem_buildQuotas h
      have hb := List.forall₂_zip
        (solveQuota_bounded codes typeCounts historicalCounts totalQuota) hmem
      refine ⟨hhas, by omega, ?_⟩
      rcases hb with hb | hb
      · omega
      · exact hb
  · unfold AllocateQuota at h
    have : totalQuota ≤ 0 := by omega
    simp [this] at h

theorem C5_allocate_entries_bounded_witness :
    (("B", 1) : String × Int) ∈ AllocateQuota ["A", "B"] [("A", 2), ("B", 1)] [("A", 1)] 2
      ∧ (mapHas [("A", 2), ("B", 1)] "B" = true ∧ (1 : Int) ≤ 1
        ∧ (1 : Int) ≤ mapGet [("A", 2), ("B", 1)] "B") :=
  ⟨by decide!, C5_allocate_entries_bounded ["A", "B"] [("A", 2), ("B", 1)] [("A", 1)] 2 "B" 1
    (by decide!)⟩

/-- Without rounding: for an enumeration `codes` of the keys and `Q > 0`, the allocation
returned by `AllocateQuota` in exact arithmetic (absent keys read as `0`) is itself within the
bounds `0 ≤ x ≤ u` with sum `Q` and its objective `Σ (x + b − avg)²` is at most that of every
integer vector `y` over the codes with `0 ≤ y ≤ u` and `Σ y = Q`. -/
theorem allocate_minimises_objective_exact (codes : List String)
    (typeCounts historicalCounts : GoMap) (totalQuota : Int)
    (henum : EnumeratesKeys codes typeCounts historicalCounts) (hQ : 0 < totalQuota)
    (y : String → Int) (hy : ∀ c ∈ codes, 0 ≤ y c ∧ y c ≤ mapGet typeCounts c)
    (hsum : (codes.map y).sum = totalQuota) :
    (∀ c ∈ codes, 0 ≤ mapGet (AllocateQuota codes typeCounts historicalCounts totalQuota) c
        ∧ mapGet (AllocateQuota codes typeCounts historicalCounts totalQuota) c
            ≤ mapGet typeCounts c)
      ∧ (codes.map (mapGet (AllocateQuota codes typeCounts historicalCounts totalQuota))).sum
          = totalQuota
      ∧ objective codes historicalCounts totalQuota
          (mapGet (AllocateQuota codes typeCounts historicalCounts totalQuota))
        ≤ objective codes historicalCounts totalQuota y := by
  obtain ⟨hnd, _, _, _⟩ := henum
  have hne : codes ≠ [] := by
    rintro rfl
    simp only [List.map_nil, List.sum_nil] at hsum
    omega
  have hyW : Within (typesOf codes typeCounts historicalCounts)
      (codes.map (fun c => (y c).toNat)) := by
    unfold Within typesOf
    rw [List.forall₂_map_left_iff, List.forall₂_map_right_iff, List.forall₂_same]
    intro c hc
    have := hy c hc
    show (((y c).toNat : Nat) : Int) ≤ mapGet typeCounts c
    omega
  have hysum : (codes.map (fun c => (y c).toNat)).sum = totalQuota.toNat := by
    have := sum_map_toNat y codes (fun c hc => (hy c hc).1)
    omega
  obtain ⟨hW, hS, hC⟩ := solveQuota_optimal codes typeCounts historicalCounts totalQuota _
    hyW hysum
  have hmap := map_mapGet_buildQuotas hnd
    (solveQuota_has codes typeCounts historicalCounts totalQuota)
  rw [← AllocateQuota_eq_buildQuotas typeCounts historicalCounts hQ hne] at hmap
  have hmapy : codes.map y = (codes.map (fun c => (y c).toNat)).map (fun n : Nat => (n : Int)) := by
    rw [List.map_map]
    apply List.map_congr_left
    intro c hc
    have := (hy c hc).1
    show y c = (((y c).toNat : Nat) : Int)
    omega
  refine ⟨?_, ?_, ?_⟩
  · intro c hc
    obtain ⟨i, hi1, rfl⟩ := List.getElem_of_mem hc
    have hlen := hW.length_eq
    unfold typesOf at hlen
    rw [List.length_map] at hlen
    have hi2 : i < (solveQuota (codes.map (mapGet typeCounts))
        (codes.map (mapGet historicalCounts)) totalQuota).length := by omega
    have hval : mapGet (AllocateQuota codes typeCounts historicalCounts totalQuota) codes[i]
        = (((solveQuota (codes.map (mapGet typeCounts))
            (codes.map (mapGet historicalCounts)) totalQuota)[i] : Nat) : Int) := by
      have h1 : (codes.map (mapGet (AllocateQuota codes typeCounts historicalCounts
          totalQuota)))[i]? = ((solveQuota (codes.map (mapGet typeCounts))
            (codes.map (mapGet historicalCounts)) totalQuota).map
              (fun n : Nat => (n : Int)))[i]? := by rw [hmap]
      rw [List.getElem?_map, List.getElem?_map, List.getElem?_eq_getElem hi1,
        List.getElem?_eq_getElem hi2] at h1
      simpa using h1
    have hb := List.forall₂_zip
      (solveQuota_bounded codes typeCounts historicalCounts totalQuota)
      (a := codes[i]) (b := (solveQuota (codes.map (mapGet typeCounts))
        (codes.map (mapGet historicalCounts)) totalQuota)[i])
      (by
        rw [List.mem_iff_getElem]
        exact ⟨i, by simp; omega, by simp⟩)
    have hu : 0 ≤ mapGet typeCounts codes[i] := by
      have h1 := hy codes[i] (List.getElem_mem hi1)
      omega
    rw [hval]
    omega
  · rw [hmap]
    have : ((solveQuota (codes.map (mapGet typeCounts)) (codes.map (mapGet historicalCounts))
        totalQuota).map (fun n : Nat => (n : Int))).sum
        = (((solveQuota (codes.map (mapGet typeCounts)) (codes.map (mapGet historicalCounts))
          totalQuota).sum : Nat) : Int) := by
      rw [Nat.cast_list_sum]
    rw [this, hS]
    omega
  · unfold objective
    rw [sum_costAt_eq_allocCost _ typeCounts historicalCounts _ codes _ hmap,
      sum_costAt_eq_allocCost _ typeCounts historicalCounts _ codes _ hmapy]
    exact hC

theorem buildQuotas_replicate_zero (typeCounts : GoMap) (codes : List String) (n : Nat) :
    buildQuotas typeCounts codes (List.replicate n 0) = [] := by
  unfold buildQuotas
  rw [List.filterMap_eq_nil_iff]
  rintro ⟨c, x⟩ hmem
  have hx : x ∈ List.replicate n 0 := (List.of_mem_zip hmem).2
  rw [List.mem_replicate] at hx
  simp [hx.2]

theorem AllocateQuota_empty_of_gt (codes : List String) (typeCounts historicalCounts : GoMap)
    (totalQuota : Int) (henum : EnumeratesKeys codes typeCounts historicalCounts)
    (hkeys : KeysNodup typeCounts) (hnn : ∀ p ∈ typeCounts, 0 ≤ p.2)
    (hgt : mapSum typeCounts < totalQuota) :
    AllocateQuota codes typeCounts historicalCounts totalQuota = [] := by
  obtain ⟨hnd, _, hcov, _⟩ := henum
  have hsum := sum_codes_eq_mapSum hnd hkeys hcov
  by_cases hne : codes = []
  · subst hne; exact AllocateQuota_nil _ _ _
  · have h0 : (0 : Int) ≤ (codes.map (mapGet typeCounts)).sum :=
      List.sum_nonneg (by
        intro x hx
        rw [List.mem_map] at hx
        obtain ⟨c, _, rfl⟩ := hx
        exact mapGet_nonneg hnn c)
    rw [AllocateQuota_eq_buildQuotas _ _ (by omega) hne,
      solveQuota_zero_of_gt codes typeCounts historicalCounts totalQuota
        (fun c _ => mapGet_nonneg hnn c) (by omega)]
    exact buildQuotas_replicate_zero _ _ _

/-- C7 as stated fails: with `typeCounts = {A:3, B:2}`, no history and `totalQuota = 6`, above
the supply of 5, `AllocateQuota` returns the empty map in both enumeration orders, so the
quotas sum to 0 and not to the sum 5 of `typeCounts`. -/
theorem C7_quota_above_supply_sum_differs :
    AllocateQuota ["A", "B"] [("A", 3), ("B", 2)] [] 6 = []
      ∧ AllocateQuota ["B", "A"] [("A", 3), ("B", 2)] [] 6 = []
      ∧ ¬ (mapSum (AllocateQuota ["A", "B"] [("A", 3), ("B", 2)] [] 6)
            = mapSum [("A", 3), ("B", 2)])
      ∧ ¬ (mapSum (AllocateQuota ["B", "A"] [("A", 3), ("B", 2)] [] 6)
            = mapSum [("A", 3), ("B", 2)]) := by
  decide!

/-- C7 amended. For non-negative `typeCounts`, any `historicalCounts`, every enumeration
`codes` of the keys and every `totalQuota` greater than the sum of `typeCounts`,
`AllocateQuota` returns the empty map: the quotas sum to 0 and every key reads 0. -/
theorem C7_quota_above_supply_allocates_nothing (codes : List String)
    (typeCounts historicalCounts : GoMap) (totalQuota : Int)
    (henum : EnumeratesKeys codes typeCounts historicalCounts)
    (hkeys : KeysNodup typeCounts) (hnn : ∀ p ∈ typeCounts, 0 ≤ p.2)
    (hgt : mapSum typeCounts < totalQuota) :
    AllocateQuota codes typeCounts historicalCounts totalQuota = []
      ∧ mapSum (AllocateQuota codes typeCounts historicalCounts totalQuota) = 0
      ∧ ∀ k, mapGet (AllocateQuota codes typeCounts historicalCounts totalQuota) k = 0 := by
  have h := AllocateQuota_empty_of_gt codes typeCounts historicalCounts totalQuota henum hkeys
    hnn hgt
  rw [h]
  exact ⟨rfl, rfl, fun k => mapGet_nil k⟩

theorem C7_quota_above_supply_allocates_nothing_witness :
    EnumeratesKeys ["B", "A"] [("A", 3), ("B", 2)] [("B", 4)]
      ∧ mapSum [("A", 3), ("B", 2)] < 6
      ∧ AllocateQuota ["B", "A"] [("A", 3), ("B", 2)] [("B", 4)] 6 = [] :=
  ⟨by decide, by decide, (C7_quota_above_supply_allocates_nothing ["B", "A"]
    [("A", 3), ("B", 2)] [("B", 4)] 6 (by decide) (by decide) (by decide) (by decide)).1⟩

/-- C8. With `typeCounts = {A:10, B:10, C:10}`, `historicalCounts = {A:100, B:0, C:0}` and
`totalQuota = 15`, in every enumeration order of the three codes `AllocateQuota` gives nothing
to `A` and `7` and `8`, in one order or the other, to `B` and `C`. -/
theorem C8_quota_balance_scenario (codes : List String) (h : codes.Perm ["A", "B", "C"]) :
    mapGet (AllocateQuota codes [("A", 10), ("B", 10), ("C", 10)]
        [("A", 100), ("B", 0), ("C", 0)] 15) "A" = 0
      ∧ ((mapGet (AllocateQuota codes [("A", 10), ("B", 10), ("C", 10)]
            [("A", 100), ("B", 0), ("C", 0)] 15) "B" = 7
          ∧ mapGet (AllocateQuota codes [("A", 10), ("B", 10), ("C", 10)]
            [("A", 100), ("B", 0), ("C", 0)] 15) "C" = 8)
        ∨ (mapGet (AllocateQuota codes [("A", 10), ("B", 10), ("C", 10)]
            [("A", 100), ("B", 0), ("C", 0)] 15) "B" = 8
          ∧ mapGet (AllocateQuota codes [("A", 10), ("B", 10), ("C", 10)]
            [("A", 100), ("B", 0), ("C", 0)] 15) "C" = 7)) := by
  have hmem : codes ∈ List.permutations' ["A", "B", "C"] := List.mem_permutations'.mpr h
  have hperms : List.permutations' ["A", "B", "C"]
      = [["A", "B", "C"], ["B", "A", "C"], ["B", "C", "A"],
         ["A", "C", "B"], ["C", "A", "B"], ["C", "B", "A"]] := by decide!
  rw [hperms] at hmem
  simp only [List.mem_cons, List.mem_singleton, List.not_mem_nil, or_false] at hmem
  rcases hmem with rfl | rfl | rfl | rfl | rfl | rfl <;> decide!

theorem C8_quota_balance_scenario_witness :
    (["C", "A", "B"] : List String).Perm ["A", "B", "C"]
      ∧ mapGet (AllocateQuota ["C", "A", "B"] [("A", 10), ("B", 10), ("C", 10)]
          [("A", 100), ("B", 0), ("C", 0)] 15) "A" = 0 :=
  ⟨by decide, (C8_quota_balance_scenario ["C", "A", "B"] (by decide)).1⟩

theorem sum_costAt_zero (f : String → Int) (a : ℚ) (l : List String) :
    (l.map (fun c => costAt 0 (f c) a)).sum
      = ((l.map (fun c => (f c) ^ 2)).sum : Int) - 2 * a * (((l.map f).sum : Int) : ℚ)
        + (l.length : ℚ) * a ^ 2 := by
  induction l with
  | nil => simp
  | cons c l ih =>
    rw [List.map_cons, List.sum_cons, ih]
    simp only [List.map_cons, List.sum_cons, List.length_cons, costAt, Int.cast_add,
      Int.cast_pow, Nat.cast_add, Nat.cast_one, zero_add]
    ring

theorem objective_nil_allocation (codes : List String) (historicalCounts : GoMap)
    (totalQuota : Int) (hne : codes ≠ []) :
    objective codes historicalCounts totalQuota (mapGet [])
      = (((codes.map (fun c => (mapGet historicalCounts c) ^ 2)).sum : Int) : ℚ)
        + ((totalQuota : ℚ) ^ 2 - (((codes.map (mapGet historicalCounts)).sum : Int) : ℚ) ^ 2)
          / (codes.length : ℚ) := by
  unfold objective
  have h0 : (fun c => costAt (mapGet [] c) (mapGet historicalCounts c)
      (quotaAverage codes historicalCounts totalQuota))
      = (fun c => costAt 0 (mapGet historicalCounts c)
        (quotaAverage codes historicalCounts totalQuota)) := by
    funext c
    rw [mapGet_nil]
  rw [h0, sum_costAt_zero]
  unfold quotaAverage
  have hn : (codes.length : ℚ) ≠ 0 := by
    have : codes.length ≠ 0 := fun h => hne (List.length_eq_zero.mp h)
    exact_mod_cast this
  push_cast
  field_simp
  ring

/-- C9 as stated fails: for `typeCounts = {A:1}`, no history and the quotas `2 ≤ 3`, both above
the supply, the objective of the allocation returned for `3` is `9`, larger than the `4` of the
allocation returned for `2`. -/
theorem C9_objective_not_nonincreasing :
    ¬ (objective ["A"] [] 3 (mapGet (AllocateQuota ["A"] [("A", 1)] [] 3))
        ≤ objective ["A"] [] 2 (mapGet (AllocateQuota ["A"] [("A", 1)] [] 2))) := by
  decide!

/-- C9 amended. For non-negative `typeCounts` and two quotas `Q ≤ Q'` both above the sum of
`typeCounts`, the objective of the allocation `AllocateQuota` returns for `Q` (average taken
from `Q`) is at most that of the allocation it returns for `Q'` (average taken from `Q'`):
beyond the supply the objective is non-decreasing in the quota. -/
theorem C9_objective_nondecreasing_beyond_supply (codes : List String)
    (typeCounts historicalCounts : GoMap) (Q Q' : Int)
    (henum : EnumeratesKeys codes typeCounts historicalCounts)
    (hkeys : KeysNodup typeCounts) (hnn : ∀ p ∈ typeCounts, 0 ≤ p.2)
    (hgt : mapSum typeCounts < Q) (hle : Q ≤ Q') :
    objective codes historicalCounts Q (mapGet (AllocateQuota codes typeCounts historicalCounts Q))
      ≤ objective codes historicalCounts Q'
          (mapGet (AllocateQuota codes typeCounts historicalCounts Q')) := by
  rw [AllocateQuota_empty_of_gt codes typeCounts historicalCounts Q henum hkeys hnn hgt,
    AllocateQuota_empty_of_gt codes typeCounts historicalCounts Q' henum hkeys hnn (by omega)]
  by_cases hne : codes = []
  · subst hne
    simp [objective]
  · rw [objective_nil_allocation _ _ _ hne, objective_nil_allocation _ _ _ hne]
    have h0 : (0 : Int) ≤ mapSum typeCounts := by
      unfold mapSum
      apply List.sum_nonneg
      intro x hx
      rw [List.mem_map] at hx
      obtain ⟨p, hp, rfl⟩ := hx
      exact hnn p hp
    have hQ0 : (0 : ℚ) ≤ (Q : ℚ) := by
      have : (0 : Int) ≤ Q := by omega
      exact_mod_cast this
    have hQQ : (Q : ℚ) ≤ (Q' : ℚ) := by exact_mod_cast hle
    have hsq : (Q : ℚ) ^ 2 ≤ (Q' : ℚ) ^ 2 := pow_le_pow_left₀ hQ0 hQQ 2
    have hn : (0 : ℚ) ≤ (codes.length : ℚ) := by positivity
    have := div_le_div_of_nonneg_right
      (sub_le_sub_right hsq ((((codes.map (mapGet historicalCounts)).sum : Int) : ℚ) ^ 2)) hn
    linarith

theorem C9_objective_nondecreasing_beyond_supply_witness :
    EnumeratesKeys ["A"] [("A", 1)] []
      ∧ objective ["A"] [] 2 (mapGet (AllocateQuota ["A"] [("A", 1)] [] 2))
        ≤ objective ["A"] [] 3 (mapGet (AllocateQuota ["A"] [("A", 1)] [] 3)) :=
  ⟨by decide, C9_objective_nondecreasing_beyond_supply ["A"] [("A", 1)] [] 2 3
    (by decide) (by decide) (by decide) (by decide) (by decide)⟩

/-! ## Claims about `SharedBuffer` -/

/-- C10. For every buffer state, after `SwapAndClear` the buffer has count `0`, a `typeMap`
without keys and an empty `abnormalTraces` list; `IsEmpty` is true and a second `SwapAndClear`
returns empty partitions and count `0`. -/
theorem C10_swapAndClear_empties (b : SharedBuffer) :
    (b.SwapAndClear.2).count = 0
      ∧ (b.SwapAndClear.2).typeMap = []
      ∧ (b.SwapAndClear.2).abnormalTraces = []
      ∧ (b.SwapAndClear.2).IsEmpty = true
      ∧ (b.SwapAndClear.2).Count = 0
      ∧ (b.SwapAndClear.2).limit = b.limit
      ∧ ((b.SwapAndClear.2).SwapAndClear.1 = ([], [], 0)) := by
  refine ⟨rfl, rfl, rfl, ?_, rfl, rfl, rfl⟩
  simp [SharedBuffer.SwapAndClear, SharedBuffer.IsEmpty]

/-! ## Random samples and the combination table -/

theorem Intn_lt (rng : Rng) {n : Nat} (h : 0 < n) : (Intn rng n).1 < n :=
  Nat.mod_lt _ h

theorem length_swapAt (p : List Int) (i j : Nat) : (swapAt p i j).length = p.length := by
  simp [swapAt]

theorem mem_swapAt {p : List Int} {i j : Nat} (hi : i < p.length) (hj : j < p.length) {x : Int}
    (h : x ∈ swapAt p i j) : x ∈ p := by
  unfold swapAt at h
  rcases List.mem_or_eq_of_mem_set h with h1 | h1
  · rcases List.mem_or_eq_of_mem_set h1 with h2 | h2
    · exact h2
    · rw [h2, List.getD_eq_getElem _ _ hj]
      exact List.getElem_mem hj
  · rw [h1, List.getD_eq_getElem _ _ hi]
    exact List.getElem_mem hi

theorem shuffleDown_spec (top : Nat) :
    ∀ (p : List Int) (rng : Rng), (top < p.length ∨ top = 0) →
      (shuffleDown p top rng).1.length = p.length
        ∧ ∀ x ∈ (shuffleDown p top rng).1, x ∈ p := by
  induction top with
  | zero =>
    intro p rng _
    exact ⟨rfl, fun x hx => hx⟩
  | succ i ih =>
    intro p rng h
    have hlt : i + 1 < p.length := by omega
    have hj : (Intn rng (i + 2)).1 < p.length := by
      have := Intn_lt rng (show 0 < i + 2 by omega)
      omega
    have hlen := length_swapAt p (i + 1) (Intn rng (i + 2)).1
    obtain ⟨h1, h2⟩ := ih (swapAt p (i + 1) (Intn rng (i + 2)).1) (Intn rng (i + 2)).2
      (Or.inl (by omega))
    refine ⟨?_, ?_⟩
    · show (shuffleDown (swapAt p (i + 1) (Intn rng (i + 2)).1) i (Intn rng (i + 2)).2).1.length
        = p.length
      rw [h1, hlen]
    · intro x hx
      exact mem_swapAt hlt hj (h2 x hx)

theorem randomSample_spec {start stop n : Int} {rng rng1 : Rng} {idxs : List Int}
    (h : randomSample start stop n rng = some (idxs, rng1)) :
    0 ≤ n ∧ n ≤ stop - start ∧ idxs.length = n.toNat ∧ ∀ x ∈ idxs, start ≤ x ∧ x < stop := by
  unfold randomSample at h
  by_cases hc : n > stop - start ∨ n < 0
  · simp [hc] at h
  · simp only [hc, if_false, Option.some.injEq, Prod.mk.injEq] at h
    obtain ⟨h1, _⟩ := h
    have hspec := shuffleDown_spec
      (((List.range (stop - start).toNat).map (fun (i : Nat) => start + (i : Int))).length - 1)
      ((List.range (stop - start).toNat).map (fun (i : Nat) => start + (i : Int))) rng (by omega)
    obtain ⟨hlen, hmem⟩ := hspec
    refine ⟨by omega, by omega, ?_, ?_⟩
    · rw [← h1, List.length_take, hlen]
      simp only [List.length_map, List.length_range]
      omega
    · intro x hx
      rw [← h1] at hx
      have hx2 := hmem x (List.mem_of_mem_take hx)
      rw [List.mem_map] at hx2
      obtain ⟨i, hi, rfl⟩ := hx2
      rw [List.mem_range] at hi
      omega

theorem randomSample_isSome {start stop n : Int} (rng : Rng) (h0 : 0 ≤ n)
    (hle : n ≤ stop - start) : ∃ r, randomSample start stop n rng = some r := by
  unfold randomSample
  have hc : ¬ (n > stop - start ∨ n < 0) := by omega
  simp only [hc, if_false]
  exact ⟨_, rfl⟩

theorem mem_cumSums {bases : List Int} (hnn : ∀ b ∈ bases, 0 ≤ b) :
    ∀ (a x : Int), x ∈ cumSums a bases → a ≤ x ∧ x ≤ a + bases.sum := by
  induction bases with
  | nil =>
    intro a x hx
    simp [cumSums] at hx
  | cons b bs ih =>
    intro a x hx
    have hb : 0 ≤ b := hnn b (List.mem_cons_self _ _)
    have hbs : ∀ b ∈ bs, 0 ≤ b := fun b h => hnn b (List.mem_cons_of_mem _ h)
    have hsum : (0 : Int) ≤ bs.sum := List.sum_nonneg hbs
    simp only [cumSums, List.mem_cons] at hx
    simp only [List.sum_cons]
    rcases hx with rfl | hx
    · omega
    · have := ih hbs (a + b) x hx
      omega

theorem cumSums_diff :
    ∀ (bases : List Int) (a d : Int) (i : Nat) (h : i < bases.length),
      ∃ stop, (cumSums a bases)[i]? = some stop
        ∧ stop - (if i = 0 then a else (cumSums a bases).getD (i - 1) d) = bases[i] := by
  intro bases
  induction bases with
  | nil => intro a d i h; simp at h
  | cons b bs ih =>
    intro a d i h
    cases i with
    | zero => exact ⟨a + b, by simp [cumSums], by simp⟩
    | succ k =>
      have hk : k < bs.length := by simpa using h
      obtain ⟨stop, hs, hd⟩ := ih (a + b) d k hk
      refine ⟨stop, by simpa [cumSums] using hs, ?_⟩
      simp only [Nat.add_one_ne_zero, if_false, Nat.add_sub_cancel, List.getElem_cons_succ]
      rw [← hd]
      cases k with
      | zero => simp [cumSums]
      | succ m => simp [cumSums]

theorem buildCombRow_spec {bases : List Int} (hnn : ∀ b ∈ bases, 0 ≤ b) (quotas : List Int) :
    ∀ (i : Nat) (rng rng1 : Rng) (row : List (List Int)),
      buildCombRow (cumSums 0 bases) i quotas rng = some (row, rng1) →
      RowSpec quotas bases.sum row := by
  induction quotas with
  | nil =>
    intro i rng rng1 row h
    simp only [buildCombRow, Option.some.injEq, Prod.mk.injEq] at h
    rw [← h.1]
    exact List.Forall₂.nil
  | cons q rest ih =>
    intro i rng rng1 row h
    simp only [buildCombRow] at h
    split at h
    · exact absurd h (by simp)
    · rename_i stop hstop
      split at h
      · exact absurd h (by simp)
      · rename_i indices rng2 hrs
        split at h
        · exact absurd h (by simp)
        · rename_i row2 rng3 hrow
          simp only [Option.some.injEq, Prod.mk.injEq] at h
          rw [← h.1]
          obtain ⟨_, _, hlen, hmem⟩ := randomSample_spec hrs
          have hstop_mem : stop ∈ cumSums 0 bases := by
            rw [List.getElem?_eq_some] at hstop
            obtain ⟨hlt, heq⟩ := hstop
            exact heq ▸ List.getElem_mem hlt
          have hstop_le := (mem_cumSums hnn 0 stop hstop_mem).2
          have hstart : 0 ≤ (if i = 0 then 0 else (cumSums 0 bases).getD (i - 1) 0) := by
            by_cases hi : i = 0
            · simp [hi]
            · simp only [hi, if_false]
              rw [List.getD_eq_getElem?_getD]
              cases hg : (cumSums 0 bases)[i - 1]? with
              | none => simp
              | some v =>
                rw [List.getElem?_eq_some] at hg
                obtain ⟨hlt, heq⟩ := hg
                have := (mem_cumSums hnn 0 v (heq ▸ List.getElem_mem hlt)).1
                simpa using this
          refine List.Forall₂.cons ⟨hlen, ?_⟩ (ih (i + 1) rng2 rng3 row2 hrow)
          intro x hx
          have := hmem x hx
          unfold NewCombination at hx
          omega

theorem buildCombRow_isSome (bases : List Int) (quotas : List Int) :
    ∀ (i : Nat) (rng : Rng),
      List.Forall₂ (fun (q b : Int) => 0 ≤ q ∧ q ≤ b) quotas (bases.drop i) →
      ∃ r, buildCombRow (cumSums 0 bases) i quotas rng = some r := by
  induction quotas with
  | nil =>
    intro i rng _
    exact ⟨_, rfl⟩
  | cons q rest ih =>
    intro i rng h
    cases hd : bases.drop i with
    | nil => rw [hd] at h; cases h
    | cons b tl =>
      rw [hd] at h
      have hi : i < bases.length := by
        by_contra hge
        rw [List.drop_eq_nil_of_le (by omega)] at hd
        cases hd
      rw [List.drop_eq_getElem_cons hi] at hd
      simp only [List.cons.injEq] at hd
      obtain ⟨hb, htl⟩ := hd
      cases h with
      | cons hqb hrest =>
        obtain ⟨stop, hstop, hdiff⟩ := cumSums_diff bases 0 0 i hi
        obtain ⟨⟨idxs, rng1⟩, hrs⟩ := @randomSample_isSome
          (if i = 0 then 0 else (cumSums 0 bases).getD (i - 1) 0) stop q rng hqb.1
          (by rw [hdiff, hb]; exact hqb.2)
        rw [← htl] at hrest
        obtain ⟨⟨row, rng2⟩, hrow⟩ := ih (i + 1) rng1 hrest
        refine ⟨(NewCombination idxs :: row, rng2), ?_⟩
        simp only [buildCombRow, hstop, hrs, hrow]

theorem buildAllCombs_spec {bases : List Int} (hnn : ∀ b ∈ bases, 0 ≤ b) (quotas : List Int)
    (k : Nat) :
    ∀ (rng rng1 : Rng) (rows : List (List (List Int))),
      buildAllCombs quotas (cumSums 0 bases) k rng = some (rows, rng1) →
      rows.length = k ∧ ∀ row ∈ rows, RowSpec quotas bases.sum row := by
  induction k with
  | zero =>
    intro rng rng1 rows h
    simp only [buildAllCombs, Option.some.injEq, Prod.mk.injEq] at h
    rw [← h.1]
    exact ⟨rfl, by simp⟩
  | succ k ih =>
    intro rng rng1 rows h
    simp only [buildAllCombs] at h
    split at h
    · exact absurd h (by simp)
    · rename_i row rng2 hrow
      split at h
      · exact absurd h (by simp)
      · rename_i rows2 rng3 hrows
        simp only [Option.some.injEq, Prod.mk.injEq] at h
        rw [← h.1]
        obtain ⟨hlen, hall⟩ := ih rng2 rng3 rows2 hrows
        refine ⟨by simp [hlen], ?_⟩
        intro r hr
        rcases List.mem_cons.mp hr with rfl | hr
        · exact buildCombRow_spec hnn quotas 0 rng rng2 r hrow
        · exact hall r hr

theorem buildAllCombs_isSome (bases quotas : List Int)
    (hqb : List.Forall₂ (fun (q b : Int) => 0 ≤ q ∧ q ≤ b) quotas bases) (k : Nat) :
    ∀ rng : Rng, ∃ r, buildAllCombs quotas (cumSums 0 bases) k rng = some r := by
  induction k with
  | zero => intro rng; exact ⟨_, rfl⟩
  | succ k ih =>
    intro rng
    obtain ⟨⟨row, rng1⟩, hrow⟩ := buildCombRow_isSome bases quotas 0 rng (by simpa using hqb)
    obtain ⟨⟨rows, rng2⟩, hrows⟩ := ih rng1
    exact ⟨(row :: rows, rng2), by simp only [buildAllCombs, hrow, hrows]⟩

theorem forall₂_getElem? {α β : Type} {R : α → β → Prop} {l1 : List α} {l2 : List β}
    (h : List.Forall₂ R l1 l2) :
    ∀ (j : Nat) (b : β), l2[j]? = some b → ∃ a, l1[j]? = some a ∧ R a b := by
  induction h with
  | nil => intro j b hb; simp at hb
  | @cons a b l1 l2 hab _ ih =>
    intro j c hc
    cases j with
    | zero =>
      simp only [List.getElem?_cons_zero, Option.some.injEq] at hc
      exact ⟨a, by simp, hc ▸ hab⟩
    | succ j =>
      simp only [List.getElem?_cons_succ] at hc ⊢
      exact ih j c hc

theorem getIdxsFrom_length_le {quotas : List Int} {total : Int}
    {allCombs : List (List (List Int))} (hrows : ∀ row ∈ allCombs, RowSpec quotas total row) :
    ∀ (genes : List Int) (j : Nat) (r : List Int), getIdxsFrom allCombs j genes = some r →
      r.length ≤ ((quotas.drop j).map Int.toNat).sum ∧ ∀ x ∈ r, 0 ≤ x ∧ x < total := by
  intro genes
  induction genes with
  | nil =>
    intro j r h
    simp only [getIdxsFrom, Option.some.injEq] at h
    rw [← h]
    exact ⟨by simp, by simp⟩
  | cons g rest ih =>
    intro j r h
    simp only [getIdxsFrom] at h
    split at h
    · exact absurd h (by simp)
    · split at h
      · exact absurd h (by simp)
      · rename_i row hrow
        split at h
        · exact absurd h (by simp)
        · rename_i comb hcomb
          split at h
          · exact absurd h (by simp)
          · rename_i more hmore
            simp only [Option.some.injEq] at h
            rw [← h]
            have hrow_mem : row ∈ allCombs := by
              rw [List.getElem?_eq_some] at hrow
              obtain ⟨hlt, heq⟩ := hrow
              exact heq ▸ List.getElem_mem hlt
            obtain ⟨q, hq, hlen, hrange⟩ := forall₂_getElem? (hrows row hrow_mem) j comb hcomb
            obtain ⟨hle, hmem⟩ := ih (j + 1) more hmore
            rw [List.getElem?_eq_some] at hq
            obtain ⟨hj, hqeq⟩ := hq
            refine ⟨?_, ?_⟩
            · rw [List.drop_eq_getElem_cons hj, List.map_cons, List.sum_cons, List.length_append,
                hlen, hqeq]
              omega
            · intro x hx
              rcases List.mem_append.mp hx with hx | hx
              · exact hrange x hx
              · exact hmem x hx

theorem getIdxsFrom_exact {quotas : List Int} {total : Int}
    {allCombs : List (List (List Int))} (hrows : ∀ row ∈ allCombs, RowSpec quotas total row) :
    ∀ (genes : List Int) (j : Nat), genes.length + j = quotas.length →
      (∀ g ∈ genes, 0 ≤ g ∧ g < allCombs.length) →
      ∃ r, getIdxsFrom allCombs j genes = some r
        ∧ r.length = ((quotas.drop j).map Int.toNat).sum := by
  intro genes
  induction genes with
  | nil =>
    intro j hj _
    refine ⟨[], rfl, ?_⟩
    simp only [List.length_nil, Nat.zero_add] at hj
    rw [List.drop_eq_nil_of_le (by omega)]
    rfl
  | cons g rest ih =>
    intro j hj hg
    have hg0 := hg g (List.mem_cons_self _ _)
    have hgl : g.toNat < allCombs.length := by omega
    have hjq : j < quotas.length := by simp only [List.length_cons] at hj; omega
    have hrow := hrows allCombs[g.toNat] (List.getElem_mem hgl)
    have hlenrow : quotas.length = allCombs[g.toNat].length := hrow.length_eq
    have hjr : j < allCombs[g.toNat].length := by omega
    obtain ⟨q, hq, hlen, _⟩ := forall₂_getElem? hrow j allCombs[g.toNat][j]
      (List.getElem?_eq_getElem hjr)
    obtain ⟨more, hmore, hmlen⟩ := ih (j + 1) (by simp only [List.length_cons] at hj; omega)
      (fun g hg' => hg g (List.mem_cons_of_mem _ hg'))
    refine ⟨allCombs[g.toNat][j] ++ more, ?_, ?_⟩
    · have hneg : ¬ g < 0 := by omega
      simp only [getIdxsFrom, hneg, if_false, List.getElem?_eq_getElem hgl,
        List.getElem?_eq_getElem hjr, hmore]
    · rw [List.getElem?_eq_getElem hjq] at hq
      simp only [Option.some.injEq] at hq
      rw [List.drop_eq_getElem_cons hjq, List.map_cons, List.sum_cons, List.length_append,
        hlen, hq, hmlen]

theorem pickTraces_spec (all : List Traces) :
    ∀ (idxs : List Int) (sampled : List Traces), pickTraces all idxs = some sampled →
      sampled.length ≤ idxs.length ∧ ∀ t ∈ sampled, t ∈ all := by
  intro idxs
  induction idxs with
  | nil =>
    intro sampled h
    simp only [pickTraces, Option.some.injEq] at h
    rw [← h]
    exact ⟨le_refl _, by simp⟩
  | cons idx rest ih =>
    intro sampled h
    simp only [pickTraces] at h
    split at h
    · split at h
      · exact absurd h (by simp)
      · split at h
        · rename_i t more ht hmore
          simp only [Option.some.injEq] at h
          rw [← h]
          obtain ⟨hlen, hmem⟩ := ih more hmore
          refine ⟨by simp only [List.length_cons]; omega, ?_⟩
          intro x hx
          rcases List.mem_cons.mp hx with rfl | hx
          · rw [List.getElem?_eq_some] at ht
            obtain ⟨hlt, heq⟩ := ht
            exact heq ▸ List.getElem_mem hlt
          · exact hmem x hx
        · exact absurd h (by simp)
    · obtain ⟨hlen, hmem⟩ := ih sampled h
      exact ⟨by simp only [List.length_cons]; omega, hmem⟩

theorem pickTraces_exact (all : List Traces) :
    ∀ (idxs : List Int), (∀ x ∈ idxs, 0 ≤ x ∧ x < all.length) →
      ∃ sampled, pickTraces all idxs = some sampled ∧ sampled.length = idxs.length := by
  intro idxs
  induction idxs with
  | nil => intro _; exact ⟨[], rfl, rfl⟩
  | cons idx rest ih =>
    intro h
    obtain ⟨h0, hlt⟩ := h idx (List.mem_cons_self _ _)
    obtain ⟨more, hmore, hlen⟩ := ih (fun x hx => h x (List.mem_cons_of_mem _ hx))
    have hn : idx.toNat < all.length := by omega
    have hneg : ¬ idx < 0 := by omega
    refine ⟨all[idx.toNat] :: more, ?_, by simp [hlen]⟩
    simp only [pickTraces, hlt, if_true, hneg, if_false, List.getElem?_eq_getElem hn, hmore]

/-! ## Latency matrices never fail for the maps built by `getAllLabelsAndMap` -/

theorem indexFrom_range (labels : List String) :
    ∀ (i : Nat) (k : String), mapHas (indexFrom i labels) k = true →
      (i : Int) ≤ mapGet (indexFrom i labels) k
        ∧ mapGet (indexFrom i labels) k < (i : Int) + labels.length := by
  induction labels with
  | nil => intro i k h; simp [indexFrom, mapHas] at h
  | cons l rest ih =>
    intro i k h
    simp only [indexFrom] at h ⊢
    rw [mapHas_cons] at h
    rw [mapGet_cons]
    by_cases hk : k = l
    · simp only [hk, if_true, List.length_cons, Nat.cast_add, Nat.cast_one]
      omega
    · simp only [hk, if_false] at h ⊢
      have := ih (i + 1) k h
      simp only [List.length_cons, Nat.cast_add, Nat.cast_one] at this ⊢
      omega

theorem fillRow_isSome {label2idx : GoMap} {width : Nat}
    (hidx : ∀ k, mapHas label2idx k = true →
      0 ≤ mapGet label2idx k ∧ mapGet label2idx k < (width : Int)) :
    ∀ (spans : List Span) (row : List Cell), row.length = width →
      ∃ row1, fillRow label2idx spans row = some row1 ∧ row1.length = width := by
  intro spans
  induction spans with
  | nil => intro row h; exact ⟨row, rfl, h⟩
  | cons sp rest ih =>
    intro row h
    by_cases hh : mapHas label2idx (getSpanLabel sp) = true
    · obtain ⟨h0, h1⟩ := hidx _ hh
      have hset : setCell row (mapGet label2idx (getSpanLabel sp))
          (some (durationMilliseconds (spanDuration sp)))
          = some (row.set (mapGet label2idx (getSpanLabel sp)).toNat
              (some (durationMilliseconds (spanDuration sp)))) := by
        unfold setCell
        rw [h]
        simp [h0, h1]
      obtain ⟨row1, hr, hl⟩ := ih (row.set (mapGet label2idx (getSpanLabel sp)).toNat
        (some (durationMilliseconds (spanDuration sp)))) (by simp [h])
      exact ⟨row1, by simp only [fillRow, hh, if_true, hset, hr], hl⟩
    · obtain ⟨row1, hr, hl⟩ := ih row h
      exact ⟨row1, by simp only [fillRow, hh, hr]; simp, hl⟩

theorem buildLatencyMatrix_isSome {label2idx : GoMap} {allLabels : List String}
    (hidx : ∀ k, mapHas label2idx k = true →
      0 ≤ mapGet label2idx k ∧ mapGet label2idx k < (allLabels.length : Int)) :
    ∀ traces : List Traces, ∃ m, buildLatencyMatrix traces label2idx allLabels = some m
      ∧ m.length = traces.length ∧ ∀ r ∈ m, r.length = allLabels.length := by
  intro traces
  induction traces with
  | nil => exact ⟨[], rfl, rfl, by simp⟩
  | cons tr rest ih =>
    obtain ⟨m, hm, hlen, hrows⟩ := ih
    obtain ⟨row, hrow, hrl⟩ := fillRow_isSome hidx (spansOf tr)
      (List.replicate allLabels.length none) (by simp)
    refine ⟨row :: m, by simp only [buildLatencyMatrix, hrow, hm], by simp [hlen], ?_⟩
    intro r hr
    rcases List.mem_cons.mp hr with rfl | hr
    · exact hrl
    · exact hrows r hr

theorem getAllLabelsAndMap_range (normalTraces : List (String × List Traces))
    (abnormalTraces : List Traces) (k : String)
    (h : mapHas (getAllLabelsAndMap normalTraces abnormalTraces).2 k = true) :
    0 ≤ mapGet (getAllLabelsAndMap normalTraces abnormalTraces).2 k
      ∧ mapGet (getAllLabelsAndMap normalTraces abnormalTraces).2 k
          < ((getAllLabelsAndMap normalTraces abnormalTraces).1.length : Int) := by
  unfold getAllLabelsAndMap at h ⊢
  have := indexFrom_range _ 0 k h
  simp only [Nat.cast_zero, zero_add] at this
  exact this

/-! ## Quotas and bases of a batch -/

theorem tracesOf_cons (k k2 : String) (ts : List Traces) (m : List (String × List Traces)) :
    tracesOf ((k2, ts) :: m) k = if k = k2 then ts else tracesOf m k := by
  unfold tracesOf
  rw [List.lookup_cons]
  by_cases h : k = k2
  · subst h; simp
  · have hb : (k == k2) = false := by simpa using h
    simp [hb, h]

theorem mapGet_batchTypeCounts (normal : List (String × List Traces)) (t : String) :
    mapGet (batchTypeCounts normal) t = ((tracesOf normal t).length : Int) := by
  induction normal with
  | nil => simp [batchTypeCounts, mapGet, tracesOf]
  | cons p m ih =>
    obtain ⟨k, ts⟩ := p
    unfold batchTypeCounts at ih ⊢
    rw [List.map_cons, mapGet_cons, tracesOf_cons]
    by_cases hk : t = k
    · simp [hk]
    · simp only [hk, if_false]
      exact ih

theorem mem_of_mapGet_ne_zero {m : GoMap} {k : String} (h : mapGet m k ≠ 0) :
    (k, mapGet m k) ∈ m := by
  induction m with
  | nil => exact absurd (mapGet_nil k) h
  | cons p m ih =>
    obtain ⟨k2, v⟩ := p
    rw [mapGet_cons] at h ⊢
    by_cases hk : k = k2
    · simp only [hk, if_true]
      exact List.mem_cons_self _ _
    · simp only [hk, if_false] at h ⊢
      exact List.mem_cons_of_mem _ (ih h)

theorem allocate_get_bounds (codes : List String) (typeCounts historicalCounts : GoMap)
    (totalQuota : Int) (t : String) (h0 : 0 ≤ mapGet typeCounts t) :
    0 ≤ mapGet (AllocateQuota codes typeCounts historicalCounts totalQuota) t
      ∧ mapGet (AllocateQuota codes typeCounts historicalCounts totalQuota) t
          ≤ mapGet typeCounts t := by
  by_cases hz : mapGet (AllocateQuota codes typeCounts historicalCounts totalQuota) t = 0
  · rw [hz]; exact ⟨le_refl _, h0⟩
  · have := allocate_entry_bounded codes typeCounts historicalCounts totalQuota t _
      (mem_of_mapGet_ne_zero hz)
    omega

theorem batch_quotas_le_bases (codes : List String) (normal : List (String × List Traces))
    (historicalCounts : GoMap) (totalQuota : Int) :
    List.Forall₂ (fun (q b : Int) => 0 ≤ q ∧ q ≤ b)
      (batchQuotas normal
        (AllocateQuota codes (batchTypeCounts normal) historicalCounts totalQuota))
      (batchBases normal) := by
  unfold batchQuotas batchBases
  rw [List.forall₂_map_left_iff, List.forall₂_map_right_iff, List.forall₂_same]
  intro t _
  have h := allocate_get_bounds codes (batchTypeCounts normal) historicalCounts totalQuota t
    (by rw [mapGet_batchTypeCounts]; exact Int.natCast_nonneg _)
  rw [mapGet_batchTypeCounts] at h
  exact h

theorem batchBases_nonneg (normal : List (String × List Traces)) :
    ∀ b ∈ batchBases normal, 0 ≤ b := by
  intro b hb
  unfold batchBases at hb
  rw [List.mem_map] at hb
  obtain ⟨t, _, rfl⟩ := hb
  exact Int.natCast_nonneg _

theorem length_flatMap_cast (l : List String) (f : String → List Traces) :
    ((l.flatMap f).length : Int) = (l.map (fun t => ((f t).length : Int))).sum := by
  induction l with
  | nil => simp
  | cons a l ih =>
    simp only [List.flatMap_cons, List.length_append, Nat.cast_add, ih, List.map_cons,
      List.sum_cons]

theorem batchAllNormal_length (normal : List (String × List Traces)) :
    ((batchAllNormal normal).length : Int) = (batchBases normal).sum := by
  unfold batchAllNormal batchBases
  exact length_flatMap_cast _ _

theorem batchSortedTypes_perm (normal : List (String × List Traces)) :
    (batchSortedTypes normal).Perm (normal.map Prod.fst) := by
  unfold batchSortedTypes sortStrings
  exact List.perm_insertionSort _ _

theorem sum_toNat_of_nonneg (l : List Int) (h : ∀ x ∈ l, 0 ≤ x) :
    (((l.map Int.toNat).sum : Nat) : Int) = l.sum := by
  induction l with
  | nil => rfl
  | cons a l ih =>
    have h0 := h a (List.mem_cons_self _ _)
    simp only [List.map_cons, List.sum_cons, Nat.cast_add,
      ih (fun x hx => h x (List.mem_cons_of_mem _ hx))]
    omega

/-! ## The sample problem and the genome of the simple optimizer -/

theorem NewSampleProblem_ok_spec {rawDist abDist : List (List Cell)} {quotas bases : List Int}
    {combCount M : Int} {rng rng1 : Rng} {problem : SampleProblem}
    (hnn : ∀ b ∈ bases, 0 ≤ b)
    (h : NewSampleProblem rawDist abDist quotas bases combCount M rng
      = GoResult.ok (problem, rng1)) :
    2 ≤ combCount ∧ problem.AllCombs.length = combCount.toNat
      ∧ (∀ row ∈ problem.AllCombs, RowSpec quotas bases.sum row)
      ∧ problem.Dim = quotas.length
      ∧ problem.Lb = List.replicate quotas.length 0
      ∧ problem.Ub = List.replicate quotas.length (combCount - 1) := by
  unfold NewSampleProblem at h
  split at h
  · exact absurd h (by simp)
  · rename_i hcc
    split at h
    · exact absurd h (by simp)
    · split at h
      · exact absurd h (by simp)
      · rename_i allCombs rng2 hall
        split at h
        · simp only [GoResult.ok.injEq, Prod.mk.injEq] at h
          obtain ⟨hp, _⟩ := h
          obtain ⟨hlen, hrows⟩ := buildAllCombs_spec hnn quotas combCount.toNat rng rng2
            allCombs hall
          rw [← hp]
          exact ⟨by omega, hlen, hrows, rfl, rfl, rfl⟩
        · exact absurd h (by simp)

theorem NewSampleProblem_isOk {rawDist abDist : List (List Cell)} {quotas bases : List Int}
    {combCount : Int} (M : Int) (rng : Rng) (width : Nat)
    (hcc : 2 ≤ combCount) (hne : rawDist ≠ [])
    (hqb : List.Forall₂ (fun (q b : Int) => 0 ≤ q ∧ q ≤ b) quotas bases)
    (hraw : ∀ r ∈ rawDist, r.length = width) (hab : ∀ r ∈ abDist, r.length = width) :
    ∃ problem rng1, NewSampleProblem rawDist abDist quotas bases combCount M rng
      = GoResult.ok (problem, rng1) := by
  unfold NewSampleProblem
  have h1 : ¬ combCount < 2 := by omega
  simp only [h1, if_false]
  cases rawDist with
  | nil => exact absurd rfl hne
  | cons row0 rest =>
    obtain ⟨⟨allCombs, rng1⟩, hall⟩ := buildAllCombs_isSome bases quotas hqb combCount.toNat rng
    simp only [hall]
    have hrow0 : row0.length = width := hraw row0 (List.mem_cons_self _ _)
    have hchk : ((row0 :: rest) ++ abDist).all (fun r => decide (row0.length ≤ r.length))
        = true := by
      rw [List.all_eq_true]
      intro r hr
      have : r.length = width := by
        rcases List.mem_append.mp hr with hr | hr
        · exact hraw r hr
        · exact hab r hr
      simp [this, hrow0]
    rw [if_pos hchk]
    exact ⟨_, _, rfl⟩

theorem initGenesSimple_spec (n : Nat) (combCount : Int) (hcc : 2 ≤ combCount) :
    ∀ (idxs : List Nat) (rng : Rng), (∀ i ∈ idxs, i < n) →
      (initGenesSimple (List.replicate n 0) (List.replicate n (combCount - 1)) idxs rng).1.length
          = idxs.length
        ∧ ∀ g ∈ (initGenesSimple (List.replicate n 0) (List.replicate n (combCount - 1))
            idxs rng).1, 0 ≤ g ∧ g < combCount := by
  intro idxs
  induction idxs with
  | nil => intro rng _; exact ⟨rfl, by simp [initGenesSimple]⟩
  | cons i rest ih =>
    intro rng h
    have hi : i < n := h i (List.mem_cons_self _ _)
    have hrest : ∀ j ∈ rest, j < n := fun j hj => h j (List.mem_cons_of_mem _ hj)
    have hl : (List.replicate n (0 : Int))[i]? = some 0 := by
      rw [List.getElem?_eq_getElem (by simpa using hi)]; simp
    have hu : (List.replicate n (combCount - 1))[i]? = some (combCount - 1) := by
      rw [List.getElem?_eq_getElem (by simpa using hi)]; simp
    have hgt : combCount - 1 > 0 := by omega
    simp only [initGenesSimple, hl, hu, hgt, if_true]
    obtain ⟨h1, h2⟩ := ih (Intn rng (combCount - 1 - 0 + 1).toNat).2 hrest
    refine ⟨by simp only [List.length_cons, h1], ?_⟩
    intro g hg
    rcases List.mem_cons.mp hg with rfl | hg
    · have hpos : 0 < (combCount - 1 - 0 + 1).toNat := by omega
      have := Intn_lt rng hpos
      omega
    · exact h2 g hg

theorem OptimizeWithSimpleFallback_eq (problem : SampleProblem) (rng : Rng) (ga : GAOutcome) :
    OptimizeWithSimpleFallback problem rng ga
      = (GoResult.ok (match ga with
          | GAOutcome.best genes => genes
          | _ => (NewSampleVectorSimple problem rng).1), (NewSampleVectorSimple problem rng).2) := by
  cases ga <;> rfl

theorem simpleGenome_valid {problem : SampleProblem} {n : Nat} {combCount : Int}
    (hcc : 2 ≤ combCount) (hn : 0 < n) (hdim : problem.Dim = n)
    (hlb : problem.Lb = List.replicate n 0)
    (hub : problem.Ub = List.replicate n (combCount - 1)) (rng : Rng) (ga : GAOutcome)
    (hga : ∀ genes, ga = GAOutcome.best genes →
      genes.length = n ∧ ∀ g ∈ genes, 0 ≤ g ∧ g < combCount) :
    (match ga with
      | GAOutcome.best genes => genes
      | _ => (NewSampleVectorSimple problem rng).1).length = n
    ∧ ∀ g ∈ (match ga with
      | GAOutcome.best genes => genes
      | _ => (NewSampleVectorSimple problem rng).1), 0 ≤ g ∧ g < combCount := by
  have hfb : (NewSampleVectorSimple problem rng).1.length = n
      ∧ ∀ g ∈ (NewSampleVectorSimple problem rng).1, 0 ≤ g ∧ g < combCount := by
    unfold NewSampleVectorSimple
    have hd : ¬ n = 0 := by omega
    simp only [hlb, hub, hdim, hd, if_false]
    have := initGenesSimple_spec n combCount hcc (List.range n) rng
      (fun i hi => List.mem_range.mp hi)
    simpa using this
  cases ga with
  | best genes => exact hga genes rfl
  | createFailed => exact hfb
  | minimizeFailed => exact hfb
  | emptyHallOfFame => exact hfb
  | wrongType => exact hfb

/-! ## What `runBatchSampling` exports -/

theorem runBatchSampling_skip {cfg : Config} {pathCounter : GoMap}
    {normal : List (String × List Traces)} {abnormal : List Traces} {bufferCount : Nat}
    (codes : List String) (rng : Rng) (ga gaAdvanced : GAOutcome)
    (h : ¬ (0 < batchCurrentQuota cfg abnormal bufferCount ∧ 0 < normal.length)) :
    runBatchSampling cfg pathCounter normal abnormal bufferCount codes rng ga gaAdvanced
      = some abnormal := by
  unfold runBatchSampling
  rw [if_neg h]

theorem runBatchSampling_some {cfg : Config} {pathCounter : GoMap}
    {normal : List (String × List Traces)} {abnormal : List Traces} {bufferCount : Nat}
    {codes : List String} {rng : Rng} {ga gaAdvanced : GAOutcome} {out : List Traces}
    (h : runBatchSampling cfg pathCounter normal abnormal bufferCount codes rng ga gaAdvanced
      = some out) :
    out = abnormal
      ∨ (0 < batchCurrentQuota cfg abnormal bufferCount
        ∧ ∃ rawDist abDist problem rng1 genes finalIndices sampled,
          NewSampleProblem rawDist abDist
              (batchQuotas normal (AllocateQuota codes (batchTypeCounts normal) pathCounter
                (batchCurrentQuota cfg abnormal bufferCount)))
              (batchBases normal) cfg.CombinationCount 1 rng = GoResult.ok (problem, rng1)
            ∧ problem.GetIdxsByVar genes = some finalIndices
            ∧ pickTraces (batchAllNormal normal) finalIndices = some sampled
            ∧ out = abnormal ++ sampled) := by
  unfold runBatchSampling at h
  split at h
  · rename_i hq
    right
    refine ⟨hq.1, ?_⟩
    split at h
    · rename_i rawDist abDist _ _
      split at h
      · exact absurd h (by simp)
      · exact absurd h (by simp)
      · rename_i problem rng1 hprob
        rw [OptimizeWithSimpleFallback_eq] at h
        simp only at h
        split at h
        · exact absurd h (by simp)
        · rename_i finalIndices hidx
          split at h
          · exact absurd h (by simp)
          · rename_i sampled hpick
            simp only [Option.some.injEq] at h
            exact ⟨rawDist, abDist, problem, rng1, _, finalIndices, sampled, hprob, hidx,
              hpick, h.symm⟩
    · exact absurd h (by simp)
  · left
    simp only [Option.some.injEq] at h
    exact h.symm

theorem runBatchSampling_none_of_combCount_lt (cfg : Config) (pathCounter : GoMap)
    (normal : List (String × List Traces)) (abnormal : List Traces) (bufferCount : Nat)
    (codes : List String) (rng : Rng) (ga gaAdvanced : GAOutcome)
    (hcc : cfg.CombinationCount < 2)
    (hq : 0 < batchCurrentQuota cfg abnormal bufferCount ∧ 0 < normal.length) :
    runBatchSampling cfg pathCounter normal abnormal bufferCount codes rng ga gaAdvanced
      = none := by
  have herr : ∀ (rawDist abDist : List (List Cell)) (quotas bases : List Int),
      NewSampleProblem rawDist abDist quotas bases cfg.CombinationCount 1 rng
        = GoResult.error "combCount must be larger than 2" := by
    intro rawDist abDist quotas bases
    unfold NewSampleProblem
    rw [if_pos hcc]
  unfold runBatchSampling
  rw [if_pos hq]
  split
  · rw [herr]
  · rfl

theorem truncToInt_of_nonneg {q : ℚ} (h : 0 ≤ q) : truncToInt q = ⌊q⌋ := by
  unfold truncToInt
  rw [if_pos h]

theorem runBatchSampling_keeps_abnormal {cfg : Config} {pathCounter : GoMap}
    {normal : List (String × List Traces)} {abnormal : List Traces} {bufferCount : Nat}
    {codes : List String} {rng : Rng} {ga gaAdvanced : GAOutcome} {out : List Traces}
    (h : runBatchSampling cfg pathCounter normal abnormal bufferCount codes rng ga gaAdvanced
      = some out) :
    ∀ t ∈ abnormal, t ∈ out := by
  intro t ht
  rcases runBatchSampling_some h with h1 | ⟨_, _, _, _, _, _, _, sampled, _, _, _, hout⟩
  · rw [h1]; exact ht
  · rw [hout]; exact List.mem_append_left _ ht

/-- C1. With `combination_count = 1` and `sample_rate = 1`, a batch of one normal and one
abnormal trace (count 2) leaves a remaining quota of 1, `NewSampleProblem` returns its error and
`runBatchSampling` returns before `exportTraces`: nothing is exported, so the abnormal trace is
not among the exported traces, whatever the random draws and the optimizer do. -/
theorem C1_abnormal_not_exported_when_problem_rejected (rng : Rng) (ga gaAdvanced : GAOutcome) :
    runBatchSampling
        { SampleRate := 1, BufferSize := 2, PoolHeight := 1000, CombinationCount := 1,
          DecisionWait := 0 }
        [] [("t", [oneSpanTrace 1 false])] [oneSpanTrace 2 true] 2 ["t"] rng ga gaAdvanced
        = none
      ∧ oneSpanTrace 2 true ∉ exported (runBatchSampling
        { SampleRate := 1, BufferSize := 2, PoolHeight := 1000, CombinationCount := 1,
          DecisionWait := 0 }
        [] [("t", [oneSpanTrace 1 false])] [oneSpanTrace 2 true] 2 ["t"] rng ga gaAdvanced) := by
  have h := runBatchSampling_none_of_combCount_lt
    { SampleRate := 1, BufferSize := 2, PoolHeight := 1000, CombinationCount := 1,
      DecisionWait := 0 }
    [] [("t", [oneSpanTrace 1 false])] [oneSpanTrace 2 true] 2 ["t"] rng ga gaAdvanced
    (by decide) (by decide!)
  rw [h]
  exact ⟨rfl, by simp [exported]⟩

theorem runBatchSampling_exports (cfg : Config) (pathCounter : GoMap)
    (normal : List (String × List Traces)) (abnormal : List Traces) (bufferCount : Nat)
    (codes : List String) (rng : Rng) (ga gaAdvanced : GAOutcome)
    (hcc : 2 ≤ cfg.CombinationCount) (hne : batchAllNormal normal ≠ [])
    (hga : ValidOutcome ga normal.length cfg.CombinationCount)
    (hq : 0 < batchCurrentQuota cfg abnormal bufferCount ∧ 0 < normal.length) :
    ∃ sampled, runBatchSampling cfg pathCounter normal abnormal bufferCount codes rng ga
        gaAdvanced = some (abnormal ++ sampled)
      ∧ (∀ t ∈ sampled, t ∈ batchAllNormal normal)
      ∧ (sampled.length : Int)
          = (batchQuotas normal (AllocateQuota codes (batchTypeCounts normal) pathCounter
              (batchCurrentQuota cfg abnormal bufferCount))).sum := by
  obtain ⟨rawDist, hraw, hrawlen, hrawrows⟩ := buildLatencyMatrix_isSome
    (getAllLabelsAndMap_range normal abnormal) (batchAllNormal normal)
  obtain ⟨abDist, hab, _, habrows⟩ := buildLatencyMatrix_isSome
    (getAllLabelsAndMap_range normal abnormal) abnormal
  have hrawne : rawDist ≠ [] := by
    intro h0
    rw [h0] at hrawlen
    exact hne (List.length_eq_zero.mp hrawlen.symm)
  have hqb := batch_quotas_le_bases codes normal pathCounter
    (batchCurrentQuota cfg abnormal bufferCount)
  obtain ⟨problem, rng1, hprob⟩ := NewSampleProblem_isOk 1 rng _ hcc hrawne hqb hrawrows habrows
  obtain ⟨_, hrowslen, hrows, hdim, hlb, hub⟩ :=
    NewSampleProblem_ok_spec (batchBases_nonneg normal) hprob
  have hqlen : (batchQuotas normal (AllocateQuota codes (batchTypeCounts normal) pathCounter
      (batchCurrentQuota cfg abnormal bufferCount))).length = normal.length := by
    unfold batchQuotas batchSortedTypes sortStrings
    rw [List.length_map, List.length_insertionSort, List.length_map]
  rw [hqlen] at hdim hlb hub
  obtain ⟨hglen, hgrange⟩ := simpleGenome_valid hcc hq.2 hdim hlb hub rng1 ga hga
  obtain ⟨finalIndices, hidx, hidxlen⟩ := getIdxsFrom_exact hrows _ 0
    (by rw [hglen, hqlen]; rfl)
    (fun g hg => ⟨(hgrange g hg).1, by
      have := (hgrange g hg).2
      rw [hrowslen]
      omega⟩)
  obtain ⟨_, hidxrange⟩ := getIdxsFrom_length_le hrows _ 0 finalIndices hidx
  rw [List.drop_zero] at hidxlen
  obtain ⟨sampled, hpick, hslen⟩ := pickTraces_exact (batchAllNormal normal) finalIndices
    (by
      intro x hx
      have := hidxrange x hx
      rw [batchAllNormal_length]
      exact this)
  refine ⟨sampled, ?_, (pickTraces_spec _ _ _ hpick).2, ?_⟩
  · unfold runBatchSampling
    rw [if_pos hq]
    simp only [hraw, hab, hprob, OptimizeWithSimpleFallback_eq]
    unfold SampleProblem.GetIdxsByVar
    simp only [hidx, hpick]
  · have hqnn : ∀ x ∈ batchQuotas normal (AllocateQuota codes (batchTypeCounts normal)
        pathCounter (batchCurrentQuota cfg abnormal bufferCount)), 0 ≤ x := by
      intro x hx
      unfold batchQuotas at hx
      rw [List.mem_map] at hx
      obtain ⟨t, _, rfl⟩ := hx
      exact (allocate_get_bounds codes (batchTypeCounts normal) pathCounter _ t
        (by rw [mapGet_batchTypeCounts]; exact Int.natCast_nonneg _)).1
    rw [hslen, hidxlen]
    exact sum_toNat_of_nonneg _ hqnn

theorem tracesOf_typeMapAppend (m : List (String × List Traces)) (typeID k : String)
    (trace : Traces) :
    tracesOf (typeMapAppend m typeID trace) k
      = if k = typeID then tracesOf m k ++ [trace] else tracesOf m k := by
  induction m with
  | nil =>
    by_cases h : k = typeID
    · simp [typeMapAppend, tracesOf, h]
    · have h2 : ¬ (k == typeID) = true := by simpa using h
      simp [typeMapAppend, tracesOf, h, List.lookup, h2]
  | cons p rest ih =>
    obtain ⟨k2, ts⟩ := p
    unfold typeMapAppend
    by_cases h2 : k2 = typeID
    · rw [if_pos h2]
      by_cases h : k = typeID
      · subst h2; subst h
        simp [tracesOf, List.lookup]
      · have hk : ¬ (k == k2) = true := by simpa [h2] using h
        simp [tracesOf, List.lookup, h, hk]
    · rw [if_neg h2]
      by_cases hk : k = k2
      · subst hk
        simp [tracesOf, List.lookup, h2]
      · have hk2 : ¬ (k == k2) = true := by simpa using hk
        have e1 : tracesOf ((k2, ts) :: typeMapAppend rest typeID trace) k
            = tracesOf (typeMapAppend rest typeID trace) k := by
          simp [tracesOf, List.lookup, hk2]
        have e2 : tracesOf ((k2, ts) :: rest) k = tracesOf rest k := by
          simp [tracesOf, List.lookup, hk2]
        rw [e1, e2, ih]

theorem keys_typeMapAppend (m : List (String × List Traces)) (typeID : String)
    (trace : Traces) :
    (typeMapAppend m typeID trace).map Prod.fst
      = if typeID ∈ m.map Prod.fst then m.map Prod.fst else m.map Prod.fst ++ [typeID] := by
  induction m with
  | nil => simp [typeMapAppend]
  | cons p rest ih =>
    obtain ⟨k2, ts⟩ := p
    unfold typeMapAppend
    by_cases h2 : k2 = typeID
    · subst h2; simp
    · rw [if_neg h2]
      have h3 : ¬ typeID = k2 := fun h => h2 h.symm
      simp only [List.map_cons, ih, List.mem_cons, h3, false_or]
      split <;> simp

theorem normalCount_typeMapAppend (m : List (String × List Traces)) (typeID : String)
    (trace : Traces) :
    normalCount (typeMapAppend m typeID trace) = normalCount m + 1 := by
  induction m with
  | nil => simp [typeMapAppend, normalCount]
  | cons p rest ih =>
    obtain ⟨k2, ts⟩ := p
    unfold typeMapAppend
    by_cases h2 : k2 = typeID
    · rw [if_pos h2]; simp [normalCount]; omega
    · rw [if_neg h2]
      simp only [normalCount, List.map_cons, List.sum_cons] at ih ⊢
      omega

theorem keysNodup_typeMapAppend (m : List (String × List Traces)) (typeID : String)
    (trace : Traces) (h : KeysNodup m) : KeysNodup (typeMapAppend m typeID trace) := by
  unfold KeysNodup at h ⊢
  rw [keys_typeMapAppend]
  split
  · exact h
  · rename_i hn
    exact List.Nodup.append h (List.nodup_singleton _) (by simpa using hn)

theorem tracesOf_ne_nil_typeMapAppend (m : List (String × List Traces)) (typeID : String)
    (trace : Traces) (h : ∀ k ∈ m.map Prod.fst, tracesOf m k ≠ []) :
    ∀ k ∈ (typeMapAppend m typeID trace).map Prod.fst,
      tracesOf (typeMapAppend m typeID trace) k ≠ [] := by
  intro k hk
  rw [tracesOf_typeMapAppend]
  by_cases hkt : k = typeID
  · simp [hkt]
  · rw [if_neg hkt]
    rw [keys_typeMapAppend] at hk
    split at hk
    · exact h k hk
    · rcases List.mem_append.1 hk with h1 | h1
      · exact h k h1
      · simp at h1; exact absurd h1 hkt

theorem addAll_cons (b : SharedBuffer) (c : AddCall) (calls : List AddCall) :
    addAll b (c :: calls) = addAll (b.Add c.typeID c.trace c.isAbnormal) calls := rfl

theorem addAll_abnormal (calls : List AddCall) (b : SharedBuffer) :
    (addAll b calls).abnormalTraces = b.abnormalTraces ++ abnormalAdded calls := by
  induction calls generalizing b with
  | nil => simp [addAll, abnormalAdded]
  | cons c rest ih =>
    rw [addAll_cons, ih]
    cases hc : c.isAbnormal <;> simp [SharedBuffer.Add, abnormalAdded, hc]

theorem addAll_tracesOf (calls : List AddCall) (b : SharedBuffer) (k : String) :
    tracesOf (addAll b calls).typeMap k = tracesOf b.typeMap k ++ normalAdded calls k := by
  induction calls generalizing b with
  | nil => simp [addAll, normalAdded]
  | cons c rest ih =>
    rw [addAll_cons, ih]
    cases hc : c.isAbnormal
    · by_cases hk : c.typeID = k
      · simp [SharedBuffer.Add, normalAdded, hc, hk, tracesOf_typeMapAppend]
      · have hk2 : ¬ k = c.typeID := fun h => hk h.symm
        simp [SharedBuffer.Add, normalAdded, hc, hk, hk2, tracesOf_typeMapAppend]
    · simp [SharedBuffer.Add, normalAdded, hc]

theorem addAll_keysNodup (calls : List AddCall) (b : SharedBuffer) (h : KeysNodup b.typeMap) :
    KeysNodup (addAll b calls).typeMap := by
  induction calls generalizing b with
  | nil => exact h
  | cons c rest ih =>
    rw [addAll_cons]
    apply ih
    cases hc : c.isAbnormal
    · simpa [SharedBuffer.Add, hc] using keysNodup_typeMapAppend _ _ _ h
    · simpa [SharedBuffer.Add, hc] using h

theorem addAll_entries_ne_nil (calls : List AddCall) (b : SharedBuffer)
    (h : ∀ k ∈ b.typeMap.map Prod.fst, tracesOf b.typeMap k ≠ []) :
    ∀ k ∈ (addAll b calls).typeMap.map Prod.fst, tracesOf (addAll b calls).typeMap k ≠ [] := by
  induction calls generalizing b with
  | nil => exact h
  | cons c rest ih =>
    rw [addAll_cons]
    apply ih
    cases hc : c.isAbnormal
    · simpa [SharedBuffer.Add, hc] using tracesOf_ne_nil_typeMapAppend _ _ _ h
    · simpa [SharedBuffer.Add, hc] using h

theorem tracesOf_eq_nil_of_not_mem (m : List (String × List Traces)) (k : String)
    (h : k ∉ m.map Prod.fst) : tracesOf m k = [] := by
  induction m with
  | nil => simp [tracesOf]
  | cons p rest ih =>
    obtain ⟨k2, ts⟩ := p
    simp only [List.map_cons, List.mem_cons, not_or] at h
    have hk : ¬ (k == k2) = true := by simpa using h.1
    have e : tracesOf ((k2, ts) :: rest) k = tracesOf rest k := by
      simp [tracesOf, List.lookup, hk]
    rw [e]; exact ih h.2

theorem add_totalHeld (b : SharedBuffer) (typeID : String) (trace : Traces) (isAbnormal : Bool) :
    totalHeld (b.Add typeID trace isAbnormal) = totalHeld b + 1 := by
  cases isAbnormal
  · simp [SharedBuffer.Add, totalHeld, normalCount_typeMapAppend]; omega
  · simp [SharedBuffer.Add, totalHeld]; omega

theorem add_count (b : SharedBuffer) (typeID : String) (trace : Traces) (isAbnormal : Bool) :
    (b.Add typeID trace isAbnormal).count = (b.count + 1) % 2 ^ 64 := by
  cases isAbnormal <;> simp [SharedBuffer.Add]

theorem add_limit (b : SharedBuffer) (typeID : String) (trace : Traces) (isAbnormal : Bool) :
    (b.Add typeID trace isAbnormal).limit = b.limit := by
  cases isAbnormal <;> simp [SharedBuffer.Add]

theorem addAll_totalHeld (calls : List AddCall) (b : SharedBuffer) :
    totalHeld (addAll b calls) = totalHeld b + calls.length := by
  induction calls generalizing b with
  | nil => simp [addAll]
  | cons c rest ih =>
    rw [addAll_cons, ih, add_totalHeld, List.length_cons]; omega

theorem applyCall_count_mod (b : SharedBuffer) (c : BufferCall)
    (h : b.count = totalHeld b % 2 ^ 64) :
    (applyCall b c).count = totalHeld (applyCall b c) % 2 ^ 64 := by
  cases c with
  | add typeID trace isAbnormal =>
    simp only [applyCall]
    rw [add_count, add_totalHeld, h]
    omega
  | swapAndClear => simp [applyCall, SharedBuffer.SwapAndClear, totalHeld, normalCount]

theorem foldl_applyCall_count_mod (calls : List BufferCall) (b : SharedBuffer)
    (h : b.count = totalHeld b % 2 ^ 64) :
    (calls.foldl applyCall b).count = totalHeld (calls.foldl applyCall b) % 2 ^ 64 := by
  induction calls generalizing b with
  | nil => exact h
  | cons c rest ih => exact ih _ (applyCall_count_mod b c h)

theorem foldl_applyCall_limit (calls : List BufferCall) (b : SharedBuffer) :
    (calls.foldl applyCall b).limit = b.limit := by
  induction calls generalizing b with
  | nil => rfl
  | cons c rest ih =>
    rw [List.foldl_cons, ih]
    cases c with
    | add typeID trace isAbnormal => exact add_limit b typeID trace isAbnormal
    | swapAndClear => rfl

theorem runCalls_count_mod (limit : Nat) (calls : List BufferCall) :
    (runCalls limit calls).count = totalHeld (runCalls limit calls) % 2 ^ 64 :=
  foldl_applyCall_count_mod calls _ (by simp [NewSharedBuffer, totalHeld, normalCount])

/-- C11. For every sequence of `Add` calls on a new buffer, `SwapAndClear` returns exactly what
was added: the abnormal list is the traces added with `isAbnormal = true` in insertion order;
for every type id the normal map holds the traces added with that type id and
`isAbnormal = false` in insertion order; the map has a key only for a type with such a trace
and no key twice; the two partitions together hold as many traces as there were calls. -/
theorem C11_swapAndClear_returns_what_was_added (limit : Nat) (calls : List AddCall) :
    ((addAll (NewSharedBuffer limit) calls).SwapAndClear.1).2.1 = abnormalAdded calls
      ∧ (∀ typeID, tracesOf ((addAll (NewSharedBuffer limit) calls).SwapAndClear.1).1 typeID
            = normalAdded calls typeID)
      ∧ (∀ typeID, typeID ∈ ((addAll (NewSharedBuffer limit) calls).SwapAndClear.1).1.map Prod.fst
            ↔ normalAdded calls typeID ≠ [])
      ∧ KeysNodup ((addAll (NewSharedBuffer limit) calls).SwapAndClear.1).1
      ∧ (((addAll (NewSharedBuffer limit) calls).SwapAndClear.1).2.1.length
            + normalCount ((addAll (NewSharedBuffer limit) calls).SwapAndClear.1).1
          = calls.length)
      ∧ (∀ c ∈ calls, if c.isAbnormal
            then c.trace ∈ ((addAll (NewSharedBuffer limit) calls).SwapAndClear.1).2.1
            else c.trace
              ∈ tracesOf ((addAll (NewSharedBuffer limit) calls).SwapAndClear.1).1 c.typeID) := by
  have hab : (addAll (NewSharedBuffer limit) calls).abnormalTraces = abnormalAdded calls := by
    rw [addAll_abnormal]; simp [NewSharedBuffer]
  have htr : ∀ typeID, tracesOf (addAll (NewSharedBuffer limit) calls).typeMap typeID
      = normalAdded calls typeID := by
    intro typeID
    rw [addAll_tracesOf]; simp [NewSharedBuffer, tracesOf]
  have hne := addAll_entries_ne_nil calls (NewSharedBuffer limit)
    (by simp [NewSharedBuffer])
  have hnd := addAll_keysNodup calls (NewSharedBuffer limit)
    (by simp [NewSharedBuffer, KeysNodup])
  have htot := addAll_totalHeld calls (NewSharedBuffer limit)
  refine ⟨hab, htr, ?_, hnd, ?_, ?_⟩
  · intro typeID
    show typeID ∈ (addAll (NewSharedBuffer limit) calls).typeMap.map Prod.fst ↔ _
    constructor
    · intro hk
      rw [← htr]
      exact hne typeID hk
    · intro hk
      by_contra hnot
      exact hk ((htr typeID).symm.trans (tracesOf_eq_nil_of_not_mem _ _ hnot))
  · show (addAll (NewSharedBuffer limit) calls).abnormalTraces.length
        + normalCount (addAll (NewSharedBuffer limit) calls).typeMap = calls.length
    have h0 : totalHeld (NewSharedBuffer limit) = 0 := by
      simp [NewSharedBuffer, totalHeld, normalCount]
    rw [h0] at htot
    unfold totalHeld at htot
    omega
  · intro c hc
    show if c.isAbnormal then c.trace ∈ (addAll (NewSharedBuffer limit) calls).abnormalTraces
      else c.trace ∈ tracesOf (addAll (NewSharedBuffer limit) calls).typeMap c.typeID
    cases hcab : c.isAbnormal
    · simp only [Bool.false_eq_true, if_false]
      rw [htr]
      unfold normalAdded
      exact List.mem_map.2 ⟨c, List.mem_filter.2 ⟨hc, by simp [hcab]⟩, rfl⟩
    · simp only [if_true]
      rw [hab]
      unfold abnormalAdded
      exact List.mem_map.2 ⟨c, List.mem_filter.2 ⟨hc, by simp [hcab]⟩, rfl⟩

/-- C12. In every state reached from `NewSharedBuffer limit` by calls of `Add` and
`SwapAndClear` that holds fewer than `2 ^ 64` traces (the range of the `uint64` counter), the
count equals the length of `abnormalTraces` plus the sum of the lengths of the `typeMap`
entries, and `IsFull` is true exactly when that count is at least the limit. -/
theorem C12_count_matches_contents (limit : Nat) (calls : List BufferCall)
    (hfit : totalHeld (runCalls limit calls) < 2 ^ 64) :
    (runCalls limit calls).count
        = (runCalls limit calls).abnormalTraces.length
          + ((runCalls limit calls).typeMap.map (fun p => p.2.length)).sum
      ∧ (runCalls limit calls).Count = totalHeld (runCalls limit calls)
      ∧ (runCalls limit calls).limit = limit
      ∧ ((runCalls limit calls).IsFull = true ↔ limit ≤ totalHeld (runCalls limit calls)) := by
  have hmod := runCalls_count_mod limit calls
  have hcount : (runCalls limit calls).count = totalHeld (runCalls limit calls) := by
    rw [hmod]; exact Nat.mod_eq_of_lt hfit
  have hlim : (runCalls limit calls).limit = limit := by
    unfold runCalls
    rw [foldl_applyCall_limit]; rfl
  refine ⟨hcount, hcount, hlim, ?_⟩
  unfold SharedBuffer.IsFull
  rw [hcount, hlim]
  simp

theorem C12_count_matches_contents_witness :
    totalHeld (runCalls 2 [BufferCall.add "a" (oneSpanTrace 1 false) false,
        BufferCall.swapAndClear,
        BufferCall.add "a" (oneSpanTrace 2 false) false,
        BufferCall.add "b" (oneSpanTrace 3 true) true]) < 2 ^ 64
      ∧ (runCalls 2 [BufferCall.add "a" (oneSpanTrace 1 false) false,
        BufferCall.swapAndClear,
        BufferCall.add "a" (oneSpanTrace 2 false) false,
        BufferCall.add "b" (oneSpanTrace 3 true) true]).count = 2
      ∧ (runCalls 2 [BufferCall.add "a" (oneSpanTrace 1 false) false,
        BufferCall.swapAndClear,
        BufferCall.add "a" (oneSpanTrace 2 false) false,
        BufferCall.add "b" (oneSpanTrace 3 true) true]).IsFull = true :=
  have h := C12_count_matches_contents 2 [BufferCall.add "a" (oneSpanTrace 1 false) false,
        BufferCall.swapAndClear,
        BufferCall.add "a" (oneSpanTrace 2 false) false,
        BufferCall.add "b" (oneSpanTrace 3 true) true] (by decide)
  ⟨by decide, by decide, h.2.2.2.2 (by decide)⟩

/-! ## Rejected combination counts -/

/-- C20. For every `combCount < 2`, whatever the other arguments, `NewSampleProblem` and
`NewSampleProblemAdvanced` return an error and no problem. -/
theorem C20_constructors_reject_small_combCount (rawDist abDist : List (List Cell))
    (quotas bases : List Int) (combCount M : Int) (rng : Rng) (h : combCount < 2) :
    NewSampleProblem rawDist abDist quotas bases combCount M rng
        = GoResult.error "combCount must be larger than 2"
      ∧ NewSampleProblemAdvanced rawDist abDist quotas bases combCount rng
        = GoResult.error "combCount must be larger than 2" := by
  constructor
  · unfold NewSampleProblem
    rw [if_pos h]
  · unfold NewSampleProblemAdvanced
    rw [if_pos h]

theorem C20_constructors_reject_small_combCount_witness :
    (1 : Int) < 2
      ∧ NewSampleProblem [[some 1]] [] [1] [1] 1 1000 (fun _ => 0)
        = GoResult.error "combCount must be larger than 2"
      ∧ NewSampleProblemAdvanced [[some 1]] [] [1] [1] 1 (fun _ => 0)
        = GoResult.error "combCount must be larger than 2" :=
  ⟨by decide, C20_constructors_reject_small_combCount [[some 1]] [] [1] [1] 1 1000
    (fun _ => 0) (by decide)⟩

/-! ## The sample lists of `HistPool` -/

theorem samplesOf_dataAdd (limit : Int) (data : List (String × List ℚ)) (label k : String)
    (v : ℚ) :
    samplesOf (dataAdd limit data label v) k
      = if k = label then pushSample limit (samplesOf data k) v else samplesOf data k := by
  induction data with
  | nil =>
    by_cases h : k = label
    · simp [dataAdd, samplesOf, h]
    · have h2 : ¬ (k == label) = true := by simpa using h
      simp [dataAdd, samplesOf, h, List.lookup, h2]
  | cons p rest ih =>
    obtain ⟨k2, l⟩ := p
    unfold dataAdd
    by_cases h2 : k2 = label
    · rw [if_pos h2]
      by_cases h : k = label
      · subst h2; subst h
        simp [samplesOf, List.lookup]
      · have hk : ¬ (k == k2) = true := by simpa [h2] using h
        simp [samplesOf, List.lookup, h, hk]
    · rw [if_neg h2]
      by_cases hk : k = k2
      · subst hk
        simp [samplesOf, List.lookup, h2]
      · have hk2 : ¬ (k == k2) = true := by simpa using hk
        have e1 : samplesOf ((k2, l) :: dataAdd limit rest label v) k
            = samplesOf (dataAdd limit rest label v) k := by
          simp [samplesOf, List.lookup, hk2]
        have e2 : samplesOf ((k2, l) :: rest) k = samplesOf rest k := by
          simp [samplesOf, List.lookup, hk2]
        rw [e1, e2, ih]

theorem HistPool.Add_data (lib : GoLib) (p : HistPool) (label : String) (duration : Int) :
    (p.Add lib label duration).data = dataAdd p.limit p.data label (durationMs duration) := by
  unfold HistPool.Add
  simp only []
  split <;> rfl

theorem HistPool.Add_limit (lib : GoLib) (p : HistPool) (label : String) (duration : Int) :
    (p.Add lib label duration).limit = p.limit := by
  unfold HistPool.Add
  simp only []
  split <;> rfl

theorem HistPool.addAll_limit (lib : GoLib) (calls : List (String × Int)) (p : HistPool) :
    (p.addAll lib calls).limit = p.limit := by
  induction calls generalizing p with
  | nil => rfl
  | cons c rest ih =>
    show (HistPool.addAll lib (p.Add lib c.1 c.2) rest).limit = p.limit
    rw [ih, HistPool.Add_limit]

theorem HistPool.addAll_append (lib : GoLib) (p : HistPool) (calls : List (String × Int))
    (c : String × Int) :
    p.addAll lib (calls ++ [c]) = (p.addAll lib calls).Add lib c.1 c.2 := by
  simp [HistPool.addAll, List.foldl_append]

theorem addedFor_append (calls : List (String × Int)) (c : String × Int) (label : String) :
    addedFor (calls ++ [c]) label
      = if c.1 = label then addedFor calls label ++ [durationMs c.2] else addedFor calls label := by
  unfold addedFor
  by_cases h : c.1 = label <;> simp [List.filter_append, h]

theorem pushSample_drop (H : Nat) (h : List ℚ) (v : ℚ) :
    pushSample (H : Int) (h.drop (h.length - H)) v = (h ++ [v]).drop (h.length + 1 - H) := by
  unfold pushSample
  by_cases hlt : h.length < H
  · have e0 : h.length - H = 0 := by omega
    have e1 : h.length + 1 - H = 0 := by omega
    rw [e0, e1, List.drop_zero, List.drop_zero]
    have : ¬ (((h ++ [v]).length : Int) > (H : Int)) := by
      simp only [List.length_append, List.length_singleton]; omega
    rw [if_neg this]
  · have hlen : (h.drop (h.length - H)).length = H := by
      rw [List.length_drop]; omega
    have : (((h.drop (h.length - H)) ++ [v]).length : Int) > (H : Int) := by
      simp only [List.length_append, List.length_singleton, hlen]; omega
    rw [if_pos this]
    by_cases hH : H = 0
    · subst hH
      simp
    · rw [← List.drop_one, List.drop_append_of_le_length (by omega), List.drop_drop,
        List.drop_append_of_le_length (by omega)]
      have : h.length - H + 1 = h.length + 1 - H := by omega
      rw [this]

theorem intOfUint64_small (H : Nat) (h : H < 2 ^ 63) : intOfUint64 H = (H : Int) := by
  unfold intOfUint64
  have h1 : H % 2 ^ 64 = H := Nat.mod_eq_of_lt (by omega)
  rw [h1, if_pos h]

theorem addAll_samples (lib : GoLib) (H : Nat) (hH : H < 2 ^ 63) (calls : List (String × Int))
    (label : String) :
    samplesOf ((NewHistPool H).addAll lib calls).data label
      = (addedFor calls label).drop ((addedFor calls label).length - H) := by
  induction calls using List.reverseRecOn with
  | nil => simp [HistPool.addAll, NewHistPool, samplesOf, addedFor]
  | append_singleton calls c ih =>
    rw [HistPool.addAll_append, HistPool.Add_data, samplesOf_dataAdd, addedFor_append,
      HistPool.addAll_limit]
    have hl : (NewHistPool H).limit = (H : Int) := intOfUint64_small H hH
    rw [hl]
    by_cases hc : c.1 = label
    · rw [if_pos hc.symm, if_pos hc, ih]
      rw [pushSample_drop]
      simp
    · have hc2 : ¬ label = c.1 := fun h => hc h.symm
      rw [if_neg hc2, if_neg hc, ih]

/-- C19 (counterexample). With the pool height `2 ^ 63` the limit `int(height)` is negative:
after one `Add` for a label the stored list is empty, where the most recent `min 1 (2 ^ 63)`
durations are the one duration added. -/
theorem C19_height_beyond_int_keeps_nothing :
    (NewHistPool (2 ^ 63)).limit = -(2 ^ 63)
      ∧ samplesOf ((NewHistPool (2 ^ 63)).addAll exactLib [("a", 1000000)]).data "a" = []
      ∧ (addedFor [("a", 1000000)] "a").drop
          ((addedFor [("a", 1000000)] "a").length
            - min (addedFor [("a", 1000000)] "a").length (2 ^ 63)) = [1] := by
  decide!

/-- C19 (amended). For every sequence of `Add` calls on a new `HistPool` with a pool height
`H < 2 ^ 63`, the samples stored for each label are the most recent `min k H` durations added
for that label, in arrival order, where `k` is the number of `Add` calls for that label: the
list never exceeds `H` entries and the oldest sample is the one evicted. -/
theorem C19_pool_keeps_most_recent (lib : GoLib) (H : Nat) (hH : H < 2 ^ 63)
    (calls : List (String × Int)) (label : String) :
    samplesOf ((NewHistPool H).addAll lib calls).data label
        = (addedFor calls label).drop
            ((addedFor calls label).length - min (addedFor calls label).length H)
      ∧ (samplesOf ((NewHistPool H).addAll lib calls).data label).length
        = min (addedFor calls label).length H
      ∧ (samplesOf ((NewHistPool H).addAll lib calls).data label).length ≤ H := by
  have h := addAll_samples lib H hH calls label
  have e : (addedFor calls label).length - min (addedFor calls label).length H
      = (addedFor calls label).length - H := by omega
  rw [e, h, List.length_drop]
  refine ⟨rfl, by omega, by omega⟩

/-! ## The anomaly rule of `Encode` -/

theorem putServiceNames_idem (trace : Traces) :
    putServiceNames (putServiceNames trace) = putServiceNames trace := by
  unfold putServiceNames
  simp [List.map_map, Function.comp_def]

theorem encSpans_putServiceNames (trace : Traces) :
    encSpans (putServiceNames trace) = encSpans trace := by
  unfold encSpans
  rw [putServiceNames_idem]

/-- C14 (counterexample). Two successive calls of `Encode` on the same trace return different
pairs: with a pool that has seen 98 durations of 1 ms for the label, the first call on a trace
with one span of 100 ms returns `isAbnormal = false` (no statistics are cached yet), the second
call triggers the recomputation and returns `isAbnormal = true`. -/
theorem C14_second_call_returns_other_flag :
    (encoderBeforeRecalc.Encode exactLib slowTrace).result = some ("svc:op", false)
      ∧ ((encoderBeforeRecalc.Encode exactLib slowTrace).encoder.Encode exactLib
          (encoderBeforeRecalc.Encode exactLib slowTrace).trace).result
        = some ("svc:op", true) := by
  decide!

/-- C14 (amended). For every encoder and every trace, two successive calls of `Encode` on the
same trace return the same type id, and the second call returns when the first does: the type
id does not depend on the pool, and the service names the first call writes into the spans
are the ones it read. -/
theorem C14_type_id_stable_across_calls (lib : GoLib) (e : BFSEncoder) (trace : Traces) :
    ((e.Encode lib trace).encoder.Encode lib (e.Encode lib trace).trace).result.map Prod.fst
        = (e.Encode lib trace).result.map Prod.fst
      ∧ (e.Encode lib trace).result.map Prod.fst = typeIDOf lib (nodesOf trace) := by
  have h2 : ∀ (e2 : BFSEncoder) (t : Traces),
      (e2.Encode lib t).result.map Prod.fst = typeIDOf lib (nodesOf t) := by
    intro e2 t
    unfold BFSEncoder.Encode nodesOf
    simp only [Option.map_map]
    cases typeIDOf lib (List.map nodeOf (encSpans t)) <;> rfl
  refine ⟨?_, h2 e trace⟩
  rw [h2, h2]
  have ht : (e.Encode lib trace).trace = putServiceNames trace := rfl
  rw [ht]
  unfold nodesOf
  rw [encSpans_putServiceNames]

theorem C14_type_id_stable_across_calls_witness :
    ((encoderBeforeRecalc.Encode exactLib slowTrace).encoder.Encode exactLib
        (encoderBeforeRecalc.Encode exactLib slowTrace).trace).result.map Prod.fst
      = some "svc:op" :=
  (C14_type_id_stable_across_calls exactLib encoderBeforeRecalc slowTrace).1.trans (by decide!)

/-! ## Spans ten times slower than the mean -/

theorem HistPool.Add_no_recalc (lib : GoLib) (p : HistPool) (label : String) (duration : Int)
    (h : p.count + 1 < p.recalcTh) :
    (p.Add lib label duration).db = p.db
      ∧ (p.Add lib label duration).count = p.count + 1
      ∧ (p.Add lib label duration).recalcTh = p.recalcTh := by
  unfold HistPool.Add
  simp only []
  rw [if_neg (by omega)]
  exact ⟨rfl, rfl, rfl⟩

theorem C19_pool_keeps_most_recent_witness :
    (2 : Nat) < 2 ^ 63
      ∧ samplesOf ((NewHistPool 2).addAll exactLib
          [("a", 1000000), ("b", 5000000), ("a", 2000000), ("a", 3000000)]).data "a" = [2, 3] :=
  ⟨by decide,
   (C19_pool_keeps_most_recent exactLib 2 (by decide)
      [("a", 1000000), ("b", 5000000), ("a", 2000000), ("a", 3000000)] "a").1.trans
      (by decide!)⟩

/-! ## The span table and the children table -/

theorem spanMapGet_some {nodes : List Node} {x : Nat} {n : Node}
    (h : spanMapGet nodes x = some n) : n ∈ nodes ∧ n.id = x := by
  unfold spanMapGet at h
  refine ⟨List.mem_reverse.1 (List.mem_of_find?_eq_some h), ?_⟩
  simpa using List.find?_some h

theorem spanMapGet_eq_none_iff {nodes : List Node} {x : Nat} :
    spanMapGet nodes x = none ↔ ∀ n ∈ nodes, n.id ≠ x := by
  unfold spanMapGet
  simp [List.find?_eq_none]

theorem spanMapGet_eq_some_of_mem {nodes : List Node} (hd : DistinctIDs nodes) {x : Nat}
    {n : Node} (hn : n ∈ nodes) (hx : n.id = x) : spanMapGet nodes x = some n := by
  cases h : spanMapGet nodes x with
  | none => exact absurd hx (spanMapGet_eq_none_iff.1 h n hn)
  | some m =>
    obtain ⟨hm, hmx⟩ := spanMapGet_some h
    have : m = n := List.inj_on_of_nodup_map hd hm hn (hmx.trans hx.symm)
    rw [this]

theorem mem_childrenOf {nodes : List Node} {x y : Nat} (h : y ∈ childrenOf nodes x) :
    x ≠ 0 ∧ ∃ m ∈ nodes, m.parent = x ∧ m.id = y := by
  unfold childrenOf at h
  by_cases hx : x = 0
  · simp [hx] at h
  · rw [if_neg hx] at h
    obtain ⟨m, hm, rfl⟩ := List.mem_map.1 h
    obtain ⟨hm1, hm2⟩ := List.mem_filter.1 hm
    exact ⟨hx, m, hm1, by simpa using hm2, rfl⟩

theorem renameNode_id (n : Node) : renameNode (fun x => x) n = n := rfl

theorem map_renameNode_id (l : List Node) : l.map (renameNode (fun x => x)) = l := by
  have : renameNode (fun x => x) = id := funext renameNode_id
  rw [this, List.map_id]

theorem distinctIDs_of_perm_rename {a b : List Node} {f : Nat → Nat}
    (hinj : Function.Injective f) (hperm : b.Perm (a.map (renameNode f)))
    (hd : DistinctIDs a) : DistinctIDs b := by
  unfold DistinctIDs at hd ⊢
  rw [(hperm.map (fun n => n.id)).nodup_iff]
  have : (a.map (renameNode f)).map (fun n => n.id) = (a.map (fun n => n.id)).map f := by
    simp [List.map_map, Function.comp_def, renameNode]
  rw [this]
  exact List.Nodup.map hinj hd

theorem spanMapGet_rename {a b : List Node} {f : Nat → Nat}
    (hinj : Function.Injective f) (hperm : b.Perm (a.map (renameNode f)))
    (hd : DistinctIDs a) (x : Nat) :
    spanMapGet b (f x) = (spanMapGet a x).map (renameNode f) := by
  have hdb := distinctIDs_of_perm_rename hinj hperm hd
  cases h : spanMapGet a x with
  | none =>
    simp only [Option.map_none']
    rw [spanMapGet_eq_none_iff]
    intro m hm hid
    obtain ⟨n, hn, rfl⟩ := List.mem_map.1 (hperm.subset hm)
    have : n.id = x := hinj hid
    exact spanMapGet_eq_none_iff.1 h n hn this
  | some n =>
    obtain ⟨hn, hx⟩ := spanMapGet_some h
    simp only [Option.map_some']
    apply spanMapGet_eq_some_of_mem hdb
    · exact hperm.symm.subset (List.mem_map_of_mem _ hn)
    · show f n.id = f x
      rw [hx]

theorem childrenOf_rename {a b : List Node} {f : Nat → Nat}
    (hinj : Function.Injective f) (h0 : f 0 = 0) (hperm : b.Perm (a.map (renameNode f)))
    (x : Nat) :
    (childrenOf b (f x)).Perm ((childrenOf a x).map f) := by
  unfold childrenOf
  by_cases hx : x = 0
  · subst hx
    simp [h0]
  · have hfx : f x ≠ 0 := fun h => hx (hinj (h.trans h0.symm))
    rw [if_neg hx, if_neg hfx]
    refine ((hperm.filter _).map _).trans ?_
    rw [List.filter_map, List.map_map, List.map_map]
    have e : (a.filter ((fun n => decide (n.parent = f x)) ∘ renameNode f))
        = a.filter (fun n => decide (n.parent = x)) := by
      apply List.filter_congr
      intro n _
      simp only [Function.comp_apply, renameNode, decide_eq_decide]
      exact ⟨fun h => hinj h, fun h => by rw [h]⟩
    rw [e]
    exact List.Perm.refl _

/-! ## The traversal -/

theorem bfsLoop_nil (lib : GoLib) (nodes : List Node) (fuel : Nat) (path : List String) :
    bfsLoop lib nodes fuel [] path = some path := by
  cases fuel <;> rfl

theorem bfsLoop_succ_cons (lib : GoLib) (nodes : List Node) (fuel : Nat) (q : Nat)
    (queue : List Nat) (path : List String) :
    bfsLoop lib nodes (fuel + 1) (q :: queue) path
      = bfsLoop lib nodes fuel
          ((lib.sortSlice ((q :: queue).filterMap (spanMapGet nodes))).flatMap
            (fun node => childrenOf nodes node.id))
          (path ++ (lib.sortSlice ((q :: queue).filterMap (spanMapGet nodes))).map
            (fun node => node.label)) := rfl

theorem sorted_labels_eq {l1 l2 : List Node} {f : Nat → Nat}
    (hperm : l2.Perm (l1.map (renameNode f)))
    (h1 : l1.Pairwise (fun a b => a.label ≤ b.label))
    (h2 : l2.Pairwise (fun a b => a.label ≤ b.label)) :
    l2.map (fun n => n.label) = l1.map (fun n => n.label) := by
  have hp : (l2.map (fun n => n.label)).Perm (l1.map (fun n => n.label)) := by
    have := hperm.map (fun n => n.label)
    rw [List.map_map] at this
    exact this
  have s1 : (l1.map (fun n => n.label)).Sorted (fun a b => a ≤ b) := by
    unfold List.Sorted
    rw [List.pairwise_map]
    exact h1
  have s2 : (l2.map (fun n => n.label)).Sorted (fun a b => a ≤ b) := by
    unfold List.Sorted
    rw [List.pairwise_map]
    exact h2
  exact List.eq_of_perm_of_sorted hp s2 s1

theorem bfsLoop_sim (libA libB : GoLib) (hsortA : SortsByLabel libA) (hsortB : SortsByLabel libB)
    (a b : List Node) (f : Nat → Nat)
    (hmap : ∀ x, spanMapGet b (f x) = (spanMapGet a x).map (renameNode f))
    (hch : ∀ x, (childrenOf b (f x)).Perm ((childrenOf a x).map f)) :
    ∀ (fuel : Nat) (qa qb : List Nat) (path : List String), qb.Perm (qa.map f) →
      bfsLoop libB b fuel qb path = bfsLoop libA a fuel qa path := by
  intro fuel
  induction fuel with
  | zero =>
    intro qa qb path hq
    cases qa with
    | nil =>
      have : qb = [] := by simpa using hq
      rw [this]; rfl
    | cons x xs =>
      cases qb with
      | nil => simp at hq
      | cons y ys => rfl
  | succ fuel ih =>
    intro qa qb path hq
    cases qa with
    | nil =>
      have : qb = [] := by simpa using hq
      rw [this, bfsLoop_nil, bfsLoop_nil]
    | cons x xs =>
      cases qb with
      | nil => simp at hq
      | cons y ys =>
        rw [bfsLoop_succ_cons, bfsLoop_succ_cons]
        have hLB : (libB.sortSlice ((y :: ys).filterMap (spanMapGet b))).Perm
            ((libA.sortSlice ((x :: xs).filterMap (spanMapGet a))).map (renameNode f)) := by
          refine (hsortB _).1.trans ?_
          refine (hq.filterMap _).trans ?_
          rw [List.filterMap_map]
          have e : List.filterMap (spanMapGet b ∘ f) (x :: xs)
              = ((x :: xs).filterMap (spanMapGet a)).map (renameNode f) := by
            rw [List.map_filterMap]
            apply List.filterMap_congr
            intro z _
            exact hmap z
          rw [e]
          exact ((hsortA _).1.symm).map _
        have hlab := sorted_labels_eq hLB (hsortA _).2 (hsortB _).2
        rw [hlab]
        apply ih
        refine (List.Perm.flatMap_right _ hLB).trans ?_
        rw [List.flatMap_map, List.map_flatMap]
        exact List.Perm.flatMap_left _ (fun n _ => hch n.id)

theorem mem_next_level {lib : GoLib} (hsort : SortsByLabel lib) {nodes : List Node}
    {queue : List Nat} {y : Nat}
    (h : y ∈ (lib.sortSlice (queue.filterMap (spanMapGet nodes))).flatMap
      (fun node => childrenOf nodes node.id)) :
    ∃ x ∈ queue, x ≠ 0 ∧ ∃ m ∈ nodes, m.parent = x ∧ m.id = y := by
  obtain ⟨nd, hnd, hy⟩ := List.mem_flatMap.1 h
  have hnd2 := (hsort _).1.subset hnd
  obtain ⟨x, hx, hsome⟩ := List.mem_filterMap.1 hnd2
  obtain ⟨-, hid⟩ := spanMapGet_some hsome
  rw [hid] at hy
  obtain ⟨hx0, m, hm, hp, hmid⟩ := mem_childrenOf hy
  exact ⟨x, hx, hx0, m, hm, hp, hmid⟩

theorem bfsLoop_terminates (lib : GoLib) (hsort : SortsByLabel lib) (nodes : List Node)
    (hd : DistinctIDs nodes) :
    ∀ (fuel : Nat) (visited queue : List Nat) (path : List String),
      (∀ x ∈ queue, x ∉ visited ∧ ∃ n ∈ nodes, n.id = x) →
      (∀ z, z ∈ visited ∨ z ∈ queue → ∀ n ∈ nodes, n.id = z → n.parent = 0 ∨ n.parent ∈ visited) →
      (nodes.filter (fun n => decide (n.id ∉ visited))).length ≤ fuel →
      ∃ p, bfsLoop lib nodes fuel queue path = some p := by
  intro fuel
  induction fuel with
  | zero =>
    intro visited queue path hq _ hlen
    cases queue with
    | nil => exact ⟨path, rfl⟩
    | cons x xs =>
      obtain ⟨hx, n, hn, hid⟩ := hq x (List.mem_cons_self _ _)
      have hmem : n ∈ nodes.filter (fun n => decide (n.id ∉ visited)) :=
        List.mem_filter.2 ⟨hn, by simpa [hid] using hx⟩
      have := List.length_pos_of_mem hmem
      omega
  | succ fuel ih =>
    intro visited queue path hq hpar hlen
    cases queue with
    | nil => exact ⟨path, bfsLoop_nil _ _ _ _⟩
    | cons x xs =>
      rw [bfsLoop_succ_cons]
      apply ih (visited ++ (x :: xs))
      · intro y hy
        obtain ⟨x2, hx2, hx20, m, hm, hp, hmid⟩ := mem_next_level hsort hy
        refine ⟨?_, m, hm, hmid⟩
        intro hyv
        have hcase : y ∈ visited ∨ y ∈ x :: xs := List.mem_append.1 hyv
        rcases hpar y hcase m hm hmid with h1 | h1
        · exact hx20 (hp.symm.trans h1)
        · rw [hp] at h1
          exact (hq x2 hx2).1 h1
      · intro z hz n hn hid
        rcases hz with hz | hz
        · rcases hpar z (List.mem_append.1 hz) n hn hid with h1 | h1
          · exact Or.inl h1
          · exact Or.inr (List.mem_append_left _ h1)
        · obtain ⟨x2, hx2, -, m, hm, hp, hmid⟩ := mem_next_level hsort hz
          have : n = m := List.inj_on_of_nodup_map hd hn hm (hid.trans hmid.symm)
          rw [this, hp]
          exact Or.inr (List.mem_append_right _ hx2)
      · obtain ⟨hx, n, hn, hid⟩ := hq x (List.mem_cons_self _ _)
        have e : nodes.filter (fun n => decide (n.id ∉ visited ++ (x :: xs)))
            = (nodes.filter (fun n => decide (n.id ∉ visited))).filter
                (fun n => decide (n.id ∉ x :: xs)) := by
          rw [List.filter_filter]
          apply List.filter_congr
          intro m _
          simp only [List.mem_append, not_or, Bool.decide_and, Bool.and_comm]
        rw [e]
        have hlt : ((nodes.filter (fun n => decide (n.id ∉ visited))).filter
            (fun n => decide (n.id ∉ x :: xs))).length
            < (nodes.filter (fun n => decide (n.id ∉ visited))).length := by
          rw [List.length_filter_lt_length_iff_exists]
          refine ⟨n, List.mem_filter.2 ⟨hn, by simpa [hid] using hx⟩, ?_⟩
          simp [hid]
        omega

theorem rootIDOf_node {nodes : List Node}
    (h : nodes.filter (fun n => decide (n.parent = 0)) ≠ []) :
    ∃ r ∈ nodes, r.parent = 0 ∧ r.id = rootIDOf nodes := by
  unfold rootIDOf
  rw [List.getLast?_eq_getLast _ h]
  have hm := List.getLast_mem h
  obtain ⟨h1, h2⟩ := List.mem_filter.1 hm
  exact ⟨_, h1, by simpa using h2, rfl⟩

theorem rootIDOf_of_no_root {nodes : List Node}
    (h : nodes.filter (fun n => decide (n.parent = 0)) = []) : rootIDOf nodes = 0 := by
  unfold rootIDOf
  rw [h]
  rfl

theorem labelPath_terminates (lib : GoLib) (hsort : SortsByLabel lib) (nodes : List Node)
    (hd : DistinctIDs nodes) (h : nodes.filter (fun n => decide (n.parent = 0)) ≠ []) :
    ∃ p, labelPath lib nodes = some p := by
  obtain ⟨r, hr, hp, hid⟩ := rootIDOf_node h
  unfold labelPath
  apply bfsLoop_terminates lib hsort nodes hd nodes.length []
  · intro x hx
    rw [List.mem_singleton] at hx
    exact ⟨by simp, r, hr, hid.trans hx.symm⟩
  · intro z hz n hn hnid
    rcases hz with hz | hz
    · simp at hz
    · rw [List.mem_singleton] at hz
      have : n = r := List.inj_on_of_nodup_map hd hn hr (hnid.trans (hz.trans hid.symm))
      rw [this]
      exact Or.inl hp
  · exact List.length_filter_le _ _

theorem labelPath_iso (libA libB : GoLib) (hsortA : SortsByLabel libA)
    (hsortB : SortsByLabel libB) {a b : List Node} {f : Nat → Nat}
    (hinj : Function.Injective f) (h0 : f 0 = 0) (hperm : b.Perm (a.map (renameNode f)))
    (hd : DistinctIDs a) (hroot : rootIDOf b = f (rootIDOf a)) :
    labelPath libB b = labelPath libA a := by
  unfold labelPath
  have hlen : b.length = a.length := by
    rw [hperm.length_eq, List.length_map]
  rw [hlen, hroot]
  exact bfsLoop_sim libA libB hsortA hsortB a b f (spanMapGet_rename hinj hperm hd)
    (childrenOf_rename hinj h0 hperm) a.length [rootIDOf a] [f (rootIDOf a)] []
    (by simp)

theorem typeIDOf_iso (lib : GoLib) (hsort : SortsByLabel lib) {a b : List Node} {f : Nat → Nat}
    (hinj : Function.Injective f) (h0 : f 0 = 0) (hperm : b.Perm (a.map (renameNode f)))
    (hd : DistinctIDs a) (hroot : rootIDOf b = f (rootIDOf a)) :
    ∃ typeID, typeIDOf lib a = some typeID ∧ typeIDOf lib b = some typeID := by
  unfold typeIDOf
  by_cases hr : rootIDOf a = 0
  · have hrb : rootIDOf b = 0 := by rw [hroot, hr, h0]
    rw [if_pos hr, if_pos hrb]
    exact ⟨_, rfl, rfl⟩
  · have hrb : rootIDOf b ≠ 0 := by
      rw [hroot]
      exact fun h => hr (hinj (h.trans h0.symm))
    rw [if_neg hr, if_neg hrb, labelPath_iso lib lib hsort hsort hinj h0 hperm hd hroot]
    have hne : a.filter (fun n => decide (n.parent = 0)) ≠ [] :=
      fun h => hr (rootIDOf_of_no_root h)
    obtain ⟨p, hp⟩ := labelPath_terminates lib hsort a hd hne
    rw [hp]
    exact ⟨_, rfl, rfl⟩

theorem exactLib_sorts : SortsByLabel exactLib := by
  intro l
  have htotal : IsTotal Node (fun a b => a.label ≤ b.label) :=
    ⟨fun a b => le_total a.label b.label⟩
  have htrans : IsTrans Node (fun a b => a.label ≤ b.label) :=
    ⟨fun a b c h1 h2 => le_trans h1 h2⟩
  exact ⟨List.perm_insertionSort _ l, List.sorted_insertionSort _ l⟩

theorem encode_typeID (lib : GoLib) (e : BFSEncoder) (trace : Traces) :
    (e.Encode lib trace).result.map Prod.fst = typeIDOf lib (nodesOf trace) := by
  unfold BFSEncoder.Encode nodesOf
  simp only [Option.map_map]
  cases typeIDOf lib (List.map nodeOf (encSpans trace)) <;> rfl

theorem rootIDOf_iso {a b : List Node} {f : Nat → Nat}
    (hinj : Function.Injective f) (h0 : f 0 = 0) (hperm : b.Perm (a.map (renameNode f)))
    (hr : OneRoot a) : rootIDOf b = f (rootIDOf a) ∧ OneRoot b := by
  unfold OneRoot at hr
  obtain ⟨r, hra⟩ := List.length_eq_one.1 hr
  have hfb : b.filter (fun n => decide (n.parent = 0)) = [renameNode f r] := by
    have hp := hperm.filter (fun n => decide (n.parent = 0))
    rw [List.filter_map] at hp
    have e : (a.filter ((fun n => decide (n.parent = 0)) ∘ renameNode f))
        = a.filter (fun n => decide (n.parent = 0)) := by
      apply List.filter_congr
      intro n _
      simp only [Function.comp_apply, renameNode, decide_eq_decide]
      exact ⟨fun h => hinj (h.trans h0.symm), fun h => by rw [h, h0]⟩
    rw [e, hra] at hp
    simpa using hp
  constructor
  · unfold rootIDOf
    rw [hfb, hra]
    rfl
  · unfold OneRoot
    rw [hfb]
    rfl

theorem labelPath_sort_irrelevant (libA libB : GoLib) (hsortA : SortsByLabel libA)
    (hsortB : SortsByLabel libB) (nodes : List Node) (hd : DistinctIDs nodes) :
    labelPath libB nodes = labelPath libA nodes :=
  labelPath_iso libA libB hsortA hsortB (f := fun x => x) (fun _ _ h => h) rfl
    (by
      rw [map_renameNode_id])
    hd rfl

/-! ## The type id and the shape of the span tree -/

/-- C13. For every trace with pairwise distinct span ids and every reordering of its spans
that leaves the root the same span (as a permutation of siblings does), `Encode` returns, and
returns the same type id for the reordered trace as for the original one, whatever the sort
does with equal labels and whatever the state of the pool. -/
theorem C13_sibling_order_irrelevant (lib : GoLib) (hsort : SortsByLabel lib)
    (e1 e2 : BFSEncoder) (trace reordered : Traces)
    (hd : DistinctIDs (nodesOf trace))
    (hperm : (encSpans reordered).Perm (encSpans trace))
    (hroot : rootIDOf (nodesOf reordered) = rootIDOf (nodesOf trace)) :
    ∃ typeID, (e1.Encode lib trace).result.map Prod.fst = some typeID
      ∧ (e2.Encode lib reordered).result.map Prod.fst = some typeID := by
  rw [encode_typeID, encode_typeID]
  have hp : (nodesOf reordered).Perm ((nodesOf trace).map (renameNode (fun x => x))) := by
    rw [map_renameNode_id]
    exact hperm.map nodeOf
  exact typeIDOf_iso lib hsort (f := fun x => x) (fun _ _ h => h) rfl hp hd hroot

theorem C13_sibling_order_irrelevant_witness :
    SortsByLabel exactLib
      ∧ DistinctIDs (nodesOf siblingTrace)
      ∧ (encSpans siblingTraceReordered).Perm (encSpans siblingTrace)
      ∧ rootIDOf (nodesOf siblingTraceReordered) = rootIDOf (nodesOf siblingTrace)
      ∧ ∃ typeID,
          ((NewBFSEncoder (NewHistPool 1000)).Encode exactLib siblingTrace).result.map Prod.fst
            = some typeID
          ∧ (encoderSteadyHistory.Encode exactLib siblingTraceReordered).result.map Prod.fst
            = some typeID :=
  ⟨exactLib_sorts, by decide!, by decide!, by decide!,
   C13_sibling_order_irrelevant exactLib exactLib_sorts (NewBFSEncoder (NewHistPool 1000))
     encoderSteadyHistory siblingTrace siblingTraceReordered (by decide!) (by decide!)
     (by decide!)⟩

/-- C15 (counterexample). The chain `r → a → b` and the star `r → {a, b}` each have one root and
pairwise distinct span ids, their span trees are not isomorphic, and `Encode` hashes the same
label path for both and returns the same type id. -/
theorem C15_different_topologies_same_path :
    OneRoot (nodesOf chainTrace) ∧ OneRoot (nodesOf starTrace)
      ∧ DistinctIDs (nodesOf chainTrace) ∧ DistinctIDs (nodesOf starTrace)
      ∧ ¬ TreeIso (nodesOf chainTrace) (nodesOf starTrace)
      ∧ labelPath exactLib (nodesOf chainTrace) = some ["svc:r", "svc:a", "svc:b"]
      ∧ labelPath exactLib (nodesOf starTrace) = some ["svc:r", "svc:a", "svc:b"]
      ∧ ((NewBFSEncoder (NewHistPool 1000)).Encode exactLib chainTrace).result
        = ((NewBFSEncoder (NewHistPool 1000)).Encode exactLib starTrace).result := by
  refine ⟨by decide!, by decide!, by decide!, by decide!, ?_, by decide!, by decide!,
    by decide!⟩
  rintro ⟨f, -, -, hperm⟩
  have ec : nodesOf chainTrace
      = [{ id := 1, parent := 0, label := "svc:r" }, { id := 2, parent := 1, label := "svc:a" },
         { id := 3, parent := 2, label := "svc:b" }] := by decide!
  have es : nodesOf starTrace
      = [{ id := 1, parent := 0, label := "svc:r" }, { id := 2, parent := 1, label := "svc:a" },
         { id := 3, parent := 1, label := "svc:b" }] := by decide!
  rw [ec, es] at hperm
  have ha : renameNode f { id := 2, parent := 1, label := "svc:a" }
      ∈ ([{ id := 1, parent := 0, label := "svc:r" }, { id := 2, parent := 1, label := "svc:a" },
         { id := 3, parent := 1, label := "svc:b" }] : List Node) :=
    hperm.symm.subset (by simp)
  have hb : renameNode f { id := 3, parent := 2, label := "svc:b" }
      ∈ ([{ id := 1, parent := 0, label := "svc:r" }, { id := 2, parent := 1, label := "svc:a" },
         { id := 3, parent := 1, label := "svc:b" }] : List Node) :=
    hperm.symm.subset (by simp)
  simp [renameNode] at ha hb
  omega

/-- C15 (amended). For any two traces of which the first has one root and pairwise distinct
span ids (and then so has the second), if their span trees are isomorphic under label
equality, children unordered, then the traversal of `Encode` ends for both, the label path it
hashes is the same for both, and so is the type id returned. -/
theorem C15_isomorphic_trees_same_path (lib : GoLib) (hsort : SortsByLabel lib)
    (e1 e2 : BFSEncoder) (t1 t2 : Traces)
    (hd : DistinctIDs (nodesOf t1)) (hr : OneRoot (nodesOf t1))
    (hiso : TreeIso (nodesOf t1) (nodesOf t2)) :
    (∃ path, labelPath lib (nodesOf t1) = some path ∧ labelPath lib (nodesOf t2) = some path)
      ∧ (∃ typeID, (e1.Encode lib t1).result.map Prod.fst = some typeID
          ∧ (e2.Encode lib t2).result.map Prod.fst = some typeID)
      ∧ DistinctIDs (nodesOf t2) ∧ OneRoot (nodesOf t2) := by
  obtain ⟨f, hinj, h0, hperm⟩ := hiso
  obtain ⟨hroot, hr2⟩ := rootIDOf_iso hinj h0 hperm hr
  have hne : (nodesOf t1).filter (fun n => decide (n.parent = 0)) ≠ [] := by
    intro h
    unfold OneRoot at hr
    rw [h] at hr
    simp at hr
  obtain ⟨p, hp⟩ := labelPath_terminates lib hsort (nodesOf t1) hd hne
  refine ⟨⟨p, hp, ?_⟩, ?_, distinctIDs_of_perm_rename hinj hperm hd, hr2⟩
  · rw [labelPath_iso lib lib hsort hsort hinj h0 hperm hd hroot]
    exact hp
  · rw [encode_typeID, encode_typeID]
    exact typeIDOf_iso lib hsort hinj h0 hperm hd hroot

theorem C15_isomorphic_trees_same_path_witness :
    SortsByLabel exactLib
      ∧ DistinctIDs (nodesOf siblingTrace) ∧ OneRoot (nodesOf siblingTrace)
      ∧ TreeIso (nodesOf siblingTrace) (nodesOf siblingTraceRenamed)
      ∧ ∃ path, labelPath exactLib (nodesOf siblingTrace) = some path
          ∧ labelPath exactLib (nodesOf siblingTraceRenamed) = some path :=
  ⟨exactLib_sorts, by decide!, by decide!,
   ⟨fun x => 10 * x, fun a b h => by simpa using h, rfl, by decide!⟩,
   (C15_isomorphic_trees_same_path exactLib exactLib_sorts (NewBFSEncoder (NewHistPool 1000))
     (NewBFSEncoder (NewHistPool 1000)) siblingTrace siblingTraceRenamed (by decide!)
     (by decide!)
     ⟨fun x => 10 * x, fun a b h => by simpa using h, rfl, by decide!⟩).1⟩

/-! ## Shuffles are permutations -/

theorem swapAt_perm (p : List Int) (i j : Nat) (hi : i < p.length) (hj : j < p.length) :
    (swapAt p i j).Perm p := by
  unfold swapAt
  rw [List.perm_iff_count]
  intro a
  have hpi : p.getD i 0 = p[i] := by simp [List.getD, List.getElem?_eq_getElem hi]
  have hpj : p.getD j 0 = p[j] := by simp [List.getD, List.getElem?_eq_getElem hj]
  rw [hpi, hpj]
  have hlen : j < (p.set i p[j]).length := by simpa using hj
  rw [List.count_set _ a _ _ hlen, List.count_set _ a _ _ hi]
  have hci : p[i] = a → 0 < List.count a p := by
    intro h; rw [← h]; exact List.count_pos_iff.2 (List.getElem_mem hi)
  have hcj : p[j] = a → 0 < List.count a p := by
    intro h; rw [← h]; exact List.count_pos_iff.2 (List.getElem_mem hj)
  by_cases hij : i = j
  · subst hij
    simp only [List.getElem_set_self]
    by_cases h1 : p[i] = a
    · have := hci h1
      simp [h1]; omega
    · simp [h1]
  · rw [List.getElem_set_ne hij]
    by_cases h1 : p[i] = a <;> by_cases h2 : p[j] = a
    · have := hci h1
      simp [h1, h2]; omega
    · have := hci h1
      simp [h1, h2]; omega
    · have := hcj h2
      simp [h1, h2]
    · simp [h1, h2]

theorem shuffleDown_perm (top : Nat) :
    ∀ (p : List Int) (rng : Rng), (top < p.length ∨ top = 0) →
      (shuffleDown p top rng).1.Perm p := by
  induction top with
  | zero => intro p rng _; exact List.Perm.refl _
  | succ i ih =>
    intro p rng h
    have hlt : i + 1 < p.length := by omega
    have hj : (Intn rng (i + 2)).1 < i + 2 := Intn_lt rng (show 0 < i + 2 by omega)
    have hsw := swapAt_perm p (i + 1) (Intn rng (i + 2)).1 hlt (by omega)
    show (shuffleDown (swapAt p (i + 1) (Intn rng (i + 2)).1) i (Intn rng (i + 2)).2).1.Perm p
    refine (ih _ _ ?_).trans hsw
    left
    rw [length_swapAt]; omega

theorem partialShuffle_perm (todo : Nat) :
    ∀ (p : List Int) (i : Nat) (rng : Rng), i + todo ≤ p.length →
      (partialShuffle p todo i rng).1.Perm p := by
  induction todo with
  | zero => intro p i rng _; exact List.Perm.refl _
  | succ todo ih =>
    intro p i rng h
    have hj : (Intn rng (p.length - i)).1 < p.length - i :=
      Intn_lt rng (show 0 < p.length - i by omega)
    have hsw := swapAt_perm p i (i + (Intn rng (p.length - i)).1) (by omega) (by omega)
    show (partialShuffle (swapAt p i (i + (Intn rng (p.length - i)).1)) todo (i + 1)
      (Intn rng (p.length - i)).2).1.Perm p
    refine (ih _ _ _ ?_).trans hsw
    rw [length_swapAt]; omega

theorem population_nodup (start : Int) (k : Nat) :
    ((List.range k).map (fun (i : Nat) => start + (i : Int))).Nodup := by
  apply List.Nodup.map _ (List.nodup_range k)
  intro a b h
  simp only at h
  omega

theorem randomSample_nodup {start stop n : Int} {rng rng1 : Rng} {idxs : List Int}
    (h : randomSample start stop n rng = some (idxs, rng1)) : idxs.Nodup := by
  unfold randomSample at h
  split at h
  · exact absurd h (by simp)
  · simp only [Option.some.injEq, Prod.mk.injEq] at h
    rw [← h.1]
    apply List.Nodup.sublist (List.take_sublist _ _)
    rw [(shuffleDown_perm _ _ _ (by
      simp only [List.length_map, List.length_range]; omega)).nodup_iff]
    exact population_nodup _ _

theorem randomSampleRange_spec {start stop n : Int} {rng rng1 : Rng} {idxs : List Int}
    (h : randomSampleRange start stop n rng = some (idxs, rng1)) :
    0 ≤ n ∧ n ≤ stop - start ∧ (idxs.length : Int) = n ∧ idxs.Nodup
      ∧ ∀ x ∈ idxs, start ≤ x ∧ x < stop := by
  unfold randomSampleRange at h
  split at h
  · exact absurd h (by simp)
  · rename_i hc
    simp only [not_or, not_lt] at hc
    simp only [Option.some.injEq, Prod.mk.injEq] at h
    have hperm := partialShuffle_perm n.toNat
      ((List.range (stop - start).toNat).map (fun (i : Nat) => start + (i : Int))) 0 rng
      (by simp only [List.length_map, List.length_range]; omega)
    rw [← h.1]
    refine ⟨hc.2, hc.1, ?_, ?_, ?_⟩
    · rw [List.length_take, hperm.length_eq]
      simp only [List.length_map, List.length_range]
      omega
    · apply List.Nodup.sublist (List.take_sublist _ _)
      rw [hperm.nodup_iff]
      exact population_nodup _ _
    · intro x hx
      have hx2 := hperm.subset (List.mem_of_mem_take hx)
      simp only [List.mem_map, List.mem_range] at hx2
      obtain ⟨k, hk, rfl⟩ := hx2
      omega

theorem randomSampleRange_isSome {start stop n : Int} (rng : Rng) (h0 : 0 ≤ n)
    (hle : n ≤ stop - start) : ∃ r, randomSampleRange start stop n rng = some r := by
  unfold randomSampleRange
  rw [if_neg (by omega)]
  exact ⟨_, rfl⟩

/-! ## The index ranges of the combination table -/

theorem cumSums_getElem? :
    ∀ (bases : List Int) (a : Int) (i : Nat),
      (cumSums a bases)[i]?
        = if i < bases.length then some (a + (bases.take (i + 1)).sum) else none := by
  intro bases
  induction bases with
  | nil => intro a i; simp [cumSums]
  | cons b bs ih =>
    intro a i
    cases i with
    | zero => simp [cumSums]
    | succ k =>
      simp only [cumSums, List.getElem?_cons_succ, ih, List.length_cons, Nat.add_lt_add_iff_right,
        List.take_succ_cons, List.sum_cons]
      split
      · congr 1; ring
      · rfl

theorem cumSums_stop {bases : List Int} {i : Nat} {stop : Int}
    (h : (cumSums 0 bases)[i]? = some stop) : i < bases.length ∧ stop = rangeHi bases i := by
  rw [cumSums_getElem?] at h
  split at h
  · rename_i hi
    simp only [Option.some.injEq, zero_add] at h
    exact ⟨hi, h.symm⟩
  · exact absurd h (by simp)

theorem cumSums_start (bases : List Int) (i : Nat) (hi : i ≤ bases.length) :
    (if i = 0 then 0 else (cumSums 0 bases).getD (i - 1) 0) = rangeLo bases i := by
  unfold rangeLo
  cases i with
  | zero => simp
  | succ k =>
    simp only [Nat.add_one_ne_zero, if_false, Nat.add_sub_cancel]
    rw [List.getD_eq_getElem?_getD, cumSums_getElem?, if_pos (by omega)]
    simp

theorem rangeHi_eq_rangeLo_succ (bases : List Int) (i : Nat) :
    rangeHi bases i = rangeLo bases (i + 1) := rfl

theorem rangeHi_sub_rangeLo (bases : List Int) (i : Nat) (hi : i < bases.length) :
    rangeHi bases i - rangeLo bases i = bases[i] := by
  unfold rangeHi rangeLo
  rw [List.take_succ, List.sum_append, List.getElem?_eq_getElem hi]
  simp

theorem buildCombRow_ranges (bases : List Int) (quotas : List Int) :
    ∀ (i : Nat) (rng rng1 : Rng) (row : List (List Int)),
      buildCombRow (cumSums 0 bases) i quotas rng = some (row, rng1) →
      row.length = quotas.length
        ∧ ∀ (k : Nat) (q : Int) (comb : List Int), quotas[k]? = some q → row[k]? = some comb →
            CombSpec q (rangeLo bases (i + k)) (rangeHi bases (i + k)) comb := by
  induction quotas with
  | nil =>
    intro i rng rng1 row h
    simp only [buildCombRow, Option.some.injEq, Prod.mk.injEq] at h
    rw [← h.1]
    exact ⟨rfl, by intro k q comb hq; simp at hq⟩
  | cons q0 rest ih =>
    intro i rng rng1 row h
    simp only [buildCombRow] at h
    split at h
    · exact absurd h (by simp)
    · rename_i stop hstop
      split at h
      · exact absurd h (by simp)
      · rename_i indices rng2 hrs
        split at h
        · exact absurd h (by simp)
        · rename_i row2 rng3 hrow
          simp only [Option.some.injEq, Prod.mk.injEq] at h
          rw [← h.1]
          obtain ⟨hq0, _, hlen, hmem⟩ := randomSample_spec hrs
          have hnd := randomSample_nodup hrs
          obtain ⟨hi, hstopeq⟩ := cumSums_stop hstop
          have hstart := cumSums_start bases i (by omega)
          obtain ⟨hlen2, hrest⟩ := ih (i + 1) rng2 rng3 row2 hrow
          refine ⟨by simp [hlen2], ?_⟩
          intro k q comb hq hcomb
          cases k with
          | zero =>
            simp only [List.getElem?_cons_zero, Option.some.injEq] at hq hcomb
            rw [← hq, ← hcomb]
            unfold NewCombination
            refine ⟨by rw [hlen]; omega, hnd, ?_⟩
            intro x hx
            have := hmem x hx
            rw [hstart, hstopeq] at this
            exact this
          | succ k =>
            simp only [List.getElem?_cons_succ] at hq hcomb
            have := hrest k q comb hq hcomb
            have e : i + (k + 1) = i + 1 + k := by omega
            rw [e]
            exact this

theorem buildAllCombs_ranges (bases quotas : List Int) (k : Nat) :
    ∀ (rng rng1 : Rng) (rows : List (List (List Int))),
      buildAllCombs quotas (cumSums 0 bases) k rng = some (rows, rng1) →
      rows.length = k ∧ ∀ row ∈ rows, RowSpecRanges quotas bases row := by
  induction k with
  | zero =>
    intro rng rng1 rows h
    simp only [buildAllCombs, Option.some.injEq, Prod.mk.injEq] at h
    rw [← h.1]
    exact ⟨rfl, by simp⟩
  | succ k ih =>
    intro rng rng1 rows h
    simp only [buildAllCombs] at h
    split at h
    · exact absurd h (by simp)
    · rename_i row rng2 hrow
      split at h
      · exact absurd h (by simp)
      · rename_i rows2 rng3 hrows
        simp only [Option.some.injEq, Prod.mk.injEq] at h
        rw [← h.1]
        obtain ⟨hlen, hall⟩ := ih rng2 rng3 rows2 hrows
        refine ⟨by simp [hlen], ?_⟩
        intro r hr
        rcases List.mem_cons.mp hr with rfl | hr
        · have := buildCombRow_ranges bases quotas 0 rng rng2 r hrow
          refine ⟨this.1, ?_⟩
          intro i q comb hq hc
          have h2 := this.2 i q comb hq hc
          simpa using h2
        · exact hall r hr

theorem NewSampleProblem_table {rawDist abDist : List (List Cell)} {quotas bases : List Int}
    {combCount M : Int} {rng rng1 : Rng} {problem : SampleProblem}
    (h : NewSampleProblem rawDist abDist quotas bases combCount M rng
      = GoResult.ok (problem, rng1)) :
    TableSpec quotas bases combCount problem.AllCombs := by
  unfold NewSampleProblem at h
  split at h
  · exact absurd h (by simp)
  · rename_i hcc
    split at h
    · exact absurd h (by simp)
    · split at h
      · exact absurd h (by simp)
      · rename_i allCombs rng2 hall
        split at h
        · simp only [GoResult.ok.injEq, Prod.mk.injEq] at h
          obtain ⟨hp, _⟩ := h
          obtain ⟨hlen, hrows⟩ := buildAllCombs_ranges bases quotas combCount.toNat rng rng2
            allCombs hall
          rw [← hp]
          exact ⟨by simp only [hlen]; omega, hrows⟩
        · exact absurd h (by simp)
theorem initCombRowAdvanced_ranges (bases : List Int) (quotas : List Int) :
    ∀ (i : Nat) (start : Int) (rng rng1 : Rng) (row : List (List Int)),
      start = rangeLo bases i →
      initCombRowAdvanced (cumSums 0 bases) i start quotas rng = GoResult.ok (row, rng1) →
      row.length = quotas.length
        ∧ ∀ (k : Nat) (q : Int) (comb : List Int), quotas[k]? = some q → row[k]? = some comb →
            CombSpec q (rangeLo bases (i + k)) (rangeHi bases (i + k)) comb := by
  induction quotas with
  | nil =>
    intro i start rng rng1 row _ h
    simp only [initCombRowAdvanced, GoResult.ok.injEq, Prod.mk.injEq] at h
    rw [← h.1]
    exact ⟨rfl, by intro k q comb hq; simp at hq⟩
  | cons q0 rest ih =>
    intro i start rng rng1 row hstart h
    simp only [initCombRowAdvanced] at h
    split at h
    · exact absurd h (by simp)
    · rename_i stop hstop
      split at h
      · exact absurd h (by simp)
      · split at h
        · exact absurd h (by simp)
        · rename_i comb0 rng2 hrs
          obtain ⟨hi, hstopeq⟩ := cumSums_stop hstop
          split at h
          · rename_i row2 rng3 hrow
            simp only [GoResult.ok.injEq, Prod.mk.injEq] at h
            rw [← h.1]
            obtain ⟨_, _, hlen, hnd, hmem⟩ := randomSampleRange_spec hrs
            obtain ⟨hlen2, hrest⟩ := ih (i + 1) stop rng2 rng3 row2
              (by rw [hstopeq]; rfl) hrow
            refine ⟨by simp [hlen2], ?_⟩
            intro k q comb hq hcomb
            cases k with
            | zero =>
              simp only [List.getElem?_cons_zero, Option.some.injEq] at hq hcomb
              rw [← hq, ← hcomb]
              unfold NewCombination
              refine ⟨hlen, hnd, ?_⟩
              intro x hx
              have := hmem x hx
              rw [hstart, hstopeq] at this
              exact this
            | succ k =>
              simp only [List.getElem?_cons_succ] at hq hcomb
              have := hrest k q comb hq hcomb
              have e : i + (k + 1) = i + 1 + k := by omega
              rw [e]
              exact this
          · exact absurd h (by simp)
          · exact absurd h (by simp)

theorem initCombRowAdvanced_isOk (bases : List Int) (quotas : List Int) :
    ∀ (i : Nat) (start : Int) (rng : Rng), start = rangeLo bases i →
      List.Forall₂ (fun (q b : Int) => 0 ≤ q ∧ q ≤ b) quotas (bases.drop i) →
      ∃ r, initCombRowAdvanced (cumSums 0 bases) i start quotas rng = GoResult.ok r := by
  induction quotas with
  | nil =>
    intro i start rng _ _
    exact ⟨_, rfl⟩
  | cons q rest ih =>
    intro i start rng hstart h
    cases hd : bases.drop i with
    | nil => rw [hd] at h; cases h
    | cons b tl =>
      rw [hd] at h
      have hi : i < bases.length := by
        by_contra hge
        rw [List.drop_eq_nil_of_le (by omega)] at hd
        cases hd
      rw [List.drop_eq_getElem_cons hi] at hd
      simp only [List.cons.injEq] at hd
      obtain ⟨hb, htl⟩ := hd
      cases h with
      | cons hqb hrest =>
        have hstop : (cumSums 0 bases)[i]? = some (rangeHi bases i) := by
          rw [cumSums_getElem?, if_pos hi]
          simp [rangeHi]
        have hdiff := rangeHi_sub_rangeLo bases i hi
        have hnot : ¬ rangeHi bases i - start < q := by
          rw [hstart, hdiff, hb]; omega
        obtain ⟨⟨idxs, rng1⟩, hrs⟩ := @randomSampleRange_isSome start (rangeHi bases i) q rng
          hqb.1 (by omega)
        rw [← htl] at hrest
        obtain ⟨⟨row, rng2⟩, hrow⟩ := ih (i + 1) (rangeHi bases i) rng1 rfl hrest
        refine ⟨(NewCombination idxs :: row, rng2), ?_⟩
        simp only [initCombRowAdvanced, hstop, hnot, if_false, hrs, hrow]

theorem initCombinations_ranges (bases quotas : List Int) (k : Nat) :
    ∀ (rng rng1 : Rng) (rows : List (List (List Int))),
      initCombinations quotas (cumSums 0 bases) k rng = GoResult.ok (rows, rng1) →
      rows.length = k ∧ ∀ row ∈ rows, RowSpecRanges quotas bases row := by
  induction k with
  | zero =>
    intro rng rng1 rows h
    simp only [initCombinations, GoResult.ok.injEq, Prod.mk.injEq] at h
    rw [← h.1]
    exact ⟨rfl, by simp⟩
  | succ k ih =>
    intro rng rng1 rows h
    simp only [initCombinations] at h
    split at h
    · rename_i row rng2 hrow
      split at h
      · rename_i rows2 rng3 hrows
        simp only [GoResult.ok.injEq, Prod.mk.injEq] at h
        rw [← h.1]
        obtain ⟨hlen, hall⟩ := ih rng2 rng3 rows2 hrows
        refine ⟨by simp [hlen], ?_⟩
        intro r hr
        rcases List.mem_cons.mp hr with rfl | hr
        · have := initCombRowAdvanced_ranges bases quotas 0 0 rng rng2 r (by simp [rangeLo]) hrow
          refine ⟨this.1, ?_⟩
          intro i q comb hq hc
          have h2 := this.2 i q comb hq hc
          simpa using h2
        · exact hall r hr
      · exact absurd h (by simp)
      · exact absurd h (by simp)
    · exact absurd h (by simp)
    · exact absurd h (by simp)

theorem initCombinations_isOk (bases quotas : List Int)
    (hqb : List.Forall₂ (fun (q b : Int) => 0 ≤ q ∧ q ≤ b) quotas bases) (k : Nat) :
    ∀ rng : Rng, ∃ r, initCombinations quotas (cumSums 0 bases) k rng = GoResult.ok r := by
  induction k with
  | zero => intro rng; exact ⟨_, rfl⟩
  | succ k ih =>
    intro rng
    obtain ⟨⟨row, rng1⟩, hrow⟩ := initCombRowAdvanced_isOk bases quotas 0 0 rng
      (by simp [rangeLo]) (by simpa using hqb)
    obtain ⟨⟨rows, rng2⟩, hrows⟩ := ih rng1
    exact ⟨(row :: rows, rng2), by simp only [initCombinations, hrow, hrows]⟩

theorem NewSampleProblemAdvanced_table {rawDist abDist : List (List Cell)}
    {quotas bases : List Int} {combCount : Int} {rng rng1 : Rng}
    {problem : SampleProblemAdvanced}
    (h : NewSampleProblemAdvanced rawDist abDist quotas bases combCount rng
      = GoResult.ok (problem, rng1)) :
    TableSpec quotas bases combCount problem.AllCombs := by
  unfold NewSampleProblemAdvanced at h
  split at h
  · exact absurd h (by simp)
  · rename_i hcc
    split at h
    · exact absurd h (by simp)
    · split at h
      · exact absurd h (by simp)
      · exact absurd h (by simp)
      · rename_i allCombs rng2 hall
        split at h
        · simp only [GoResult.ok.injEq, Prod.mk.injEq] at h
          obtain ⟨hp, _⟩ := h
          obtain ⟨hlen, hrows⟩ := initCombinations_ranges bases quotas combCount.toNat rng rng2
            allCombs hall
          rw [← hp]
          exact ⟨by simp only [hlen]; omega, hrows⟩
        · exact absurd h (by simp)

theorem NewSampleProblemAdvanced_isOk {rawDist abDist : List (List Cell)}
    {quotas bases : List Int} {combCount : Int} (rng : Rng) (width : Nat)
    (hcc : 2 ≤ combCount) (hne : rawDist ≠ [])
    (hqb : List.Forall₂ (fun (q b : Int) => 0 ≤ q ∧ q ≤ b) quotas bases)
    (hraw : ∀ r ∈ rawDist, r.length = width) (hab : ∀ r ∈ abDist, r.length = width) :
    ∃ problem rng1, NewSampleProblemAdvanced rawDist abDist quotas bases combCount rng
      = GoResult.ok (problem, rng1) := by
  unfold NewSampleProblemAdvanced
  have h1 : ¬ combCount < 2 := by omega
  simp only [h1, if_false]
  cases rawDist with
  | nil => exact absurd rfl hne
  | cons row0 rest =>
    obtain ⟨⟨allCombs, rng1⟩, hall⟩ := initCombinations_isOk bases quotas hqb combCount.toNat rng
    simp only [hall]
    have hrow0 : row0.length = width := hraw row0 (List.mem_cons_self _ _)
    have hchk : ((row0 :: rest) ++ abDist).all (fun r => decide (row0.length ≤ r.length))
        = true := by
      rw [List.all_eq_true]
      intro r hr
      have : r.length = width := by
        rcases List.mem_append.mp hr with hr | hr
        · exact hraw r hr
        · exact hab r hr
      simp [this, hrow0]
    rw [if_pos hchk]
    exact ⟨_, _, rfl⟩
theorem rangeLo_le_succ {bases : List Int} (hnn : ∀ b ∈ bases, 0 ≤ b) (i : Nat) :
    rangeLo bases i ≤ rangeLo bases (i + 1) := by
  unfold rangeLo
  rw [List.take_succ, List.sum_append]
  cases h : bases[i]? with
  | none => simp
  | some b =>
    have hb : b ∈ bases := by
      rw [List.getElem?_eq_some] at h
      obtain ⟨hlt, heq⟩ := h
      exact heq ▸ List.getElem_mem hlt
    have := hnn b hb
    simp
    exact this

theorem rangeLo_mono {bases : List Int} (hnn : ∀ b ∈ bases, 0 ≤ b) {i j : Nat} (h : i ≤ j) :
    rangeLo bases i ≤ rangeLo bases j := by
  induction j with
  | zero =>
    have : i = 0 := by omega
    rw [this]
  | succ j ih =>
    by_cases hij : i = j + 1
    · rw [hij]
    · exact le_trans (ih (by omega)) (rangeLo_le_succ hnn j)

theorem rangeLo_length (bases : List Int) : rangeLo bases bases.length = bases.sum := by
  unfold rangeLo
  rw [List.take_length]

theorem ranges_partition {bases : List Int} (hnn : ∀ b ∈ bases, 0 ≤ b) :
    RangesPartition bases := by
  intro x hx0 hxs
  have hex : ∃ i, x < rangeLo bases (i + 1) := by
    refine ⟨bases.length, ?_⟩
    have := rangeLo_mono hnn (show bases.length ≤ bases.length + 1 by omega)
    rw [rangeLo_length] at this
    omega
  classical
  have hfind := Nat.find_spec hex
  have hmin := fun m => @Nat.find_min _ _ hex m
  have hlo : rangeLo bases (Nat.find hex) ≤ x := by
    cases hc : Nat.find hex with
    | zero => simpa [rangeLo] using hx0
    | succ m =>
      have := hmin m (by omega)
      omega
  have hlt : Nat.find hex < bases.length := by
    by_contra hge
    have := rangeLo_mono hnn (show bases.length ≤ Nat.find hex by omega)
    rw [rangeLo_length] at this
    omega
  refine ⟨Nat.find hex, ⟨hlt, hlo, hfind⟩, ?_⟩
  rintro j ⟨_, hjlo, hjhi⟩
  rw [rangeHi_eq_rangeLo_succ] at hjhi
  rcases Nat.lt_trichotomy j (Nat.find hex) with h | h | h
  · have := rangeLo_mono hnn (show j + 1 ≤ Nat.find hex by omega)
    omega
  · exact h
  · have := rangeLo_mono hnn (show Nat.find hex + 1 ≤ j by omega)
    omega

theorem forall₂_nonneg_right {quotas bases : List Int}
    (hqb : List.Forall₂ (fun (q b : Int) => 0 ≤ q ∧ q ≤ b) quotas bases) :
    ∀ b ∈ bases, 0 ≤ b := by
  induction hqb with
  | nil => simp
  | cons h _ ih =>
    intro b hb
    rcases List.mem_cons.1 hb with rfl | hb
    · omega
    · exact ih b hb

theorem buildCombRow_none_of_short (bases : List Int) (quotas : List Int) :
    ∀ (i k : Nat) (rng : Rng) (b q : Int), bases[i + k]? = some b → quotas[k]? = some q →
      b < q → buildCombRow (cumSums 0 bases) i quotas rng = none := by
  induction quotas with
  | nil => intro i k rng b q _ hq; simp at hq
  | cons q0 rest ih =>
    intro i k rng b q hb hq hlt
    cases k with
    | zero =>
      simp only [List.getElem?_cons_zero, Option.some.injEq, Nat.add_zero] at hq hb
      obtain ⟨hi, hbi⟩ := List.getElem?_eq_some.1 hb
      have hstop : (cumSums 0 bases)[i]? = some (rangeHi bases i) := by
        rw [cumSums_getElem?, if_pos hi]
        simp [rangeHi]
      have hdiff := rangeHi_sub_rangeLo bases i hi
      have hrs : randomSample (if i = 0 then 0 else (cumSums 0 bases).getD (i - 1) 0)
          (rangeHi bases i) q0 rng = none := by
        rw [cumSums_start bases i (by omega)]
        unfold randomSample
        rw [if_pos (by left; omega)]
      simp only [buildCombRow, hstop, hrs]
    | succ k =>
      simp only [List.getElem?_cons_succ] at hq
      have e : i + (k + 1) = i + 1 + k := by omega
      rw [e] at hb
      simp only [buildCombRow]
      split
      · rfl
      · split
        · rfl
        · rename_i indices rng1 _
          rw [ih (i + 1) k rng1 b q hb hq hlt]

theorem NewSampleProblem_crash_of_short (rawDist abDist : List (List Cell))
    (quotas bases : List Int) (combCount M : Int) (rng : Rng) (i : Nat) (b q : Int)
    (hcc : 2 ≤ combCount) (hb : bases[i]? = some b) (hq : quotas[i]? = some q) (hlt : b < q) :
    NewSampleProblem rawDist abDist quotas bases combCount M rng = GoResult.crash := by
  unfold NewSampleProblem
  rw [if_neg (by omega)]
  cases rawDist with
  | nil => rfl
  | cons row0 rest =>
    obtain ⟨k, hk⟩ : ∃ k, combCount.toNat = k + 1 := ⟨combCount.toNat - 1, by omega⟩
    have hrow : buildCombRow (cumSums 0 bases) 0 quotas rng = none :=
      buildCombRow_none_of_short bases quotas 0 i rng b q (by simpa using hb) hq hlt
    have hall : buildAllCombs quotas (cumSums 0 bases) combCount.toNat rng = none := by
      rw [hk]
      simp only [buildAllCombs, hrow]
    simp only [hall]

/-! ## Claims about the combination table -/

/-- C21 (counterexample). With `combCount = 2`, `bases = [1]` and `quotas = [2]`,
`NewSampleProblem` returns no error value: it panics in `randomSample`. -/
theorem C21_short_population_gives_no_error :
    NewSampleProblem [[some 1]] [] [2] [1] 2 1 (fun _ => 0) = GoResult.crash
      ∧ ∀ msg, NewSampleProblem [[some 1]] [] [2] [1] 2 1 (fun _ => 0) ≠ GoResult.error msg := by
  have h : NewSampleProblem [[some 1]] [] [2] [1] 2 1 (fun _ => 0) = GoResult.crash := by
    simp [NewSampleProblem, buildAllCombs, buildCombRow, cumSums, randomSample]
  rw [h]
  exact ⟨rfl, fun msg hc => by cases hc⟩

/-- C21 (amended). For every input with `combCount ≥ 2` in which some type `i` has
`bases[i] < quotas[i]`, `NewSampleProblem` returns neither a problem nor an error value: it
panics (in `randomSample`, or earlier) before any optimisation starts. -/
theorem C21_short_population_panics (rawDist abDist : List (List Cell))
    (quotas bases : List Int) (combCount M : Int) (rng : Rng) (i : Nat) (b q : Int)
    (hcc : 2 ≤ combCount) (hb : bases[i]? = some b) (hq : quotas[i]? = some q) (hlt : b < q) :
    NewSampleProblem rawDist abDist quotas bases combCount M rng = GoResult.crash := by
  unfold NewSampleProblem
  rw [if_neg (by omega)]
  cases rawDist with
  | nil => rfl
  | cons row0 rest =>
    obtain ⟨k, hk⟩ : ∃ k, combCount.toNat = k + 1 := ⟨combCount.toNat - 1, by omega⟩
    have hrow : buildCombRow (cumSums 0 bases) 0 quotas rng = none :=
      buildCombRow_none_of_short bases quotas 0 i rng b q (by simpa using hb) hq hlt
    have hall : buildAllCombs quotas (cumSums 0 bases) combCount.toNat rng = none := by
      rw [hk]
      simp only [buildAllCombs, hrow]
    simp only [hall]

theorem C21_short_population_panics_witness :
    NewSampleProblem [[some 1], [some 2], [some 3]] [] [1, 3] [1, 2] 5 1 (fun k => k)
      = GoResult.crash :=
  C21_short_population_panics [[some 1], [some 2], [some 3]] [] [1, 3] [1, 2] 5 1 (fun k => k)
    1 2 3 (by decide) rfl rfl (by decide)

/-- C29. For all quotas and bases of equal length with `0 ≤ quotas[i] ≤ bases[i]`, every
`combCount ≥ 2`, every stream of random draws and latency matrices with rows of one width,
`NewSampleProblem` and `NewSampleProblemAdvanced` return a problem whose table has `combCount`
rows of one combination per type, the combination of type `i` holding exactly `quotas[i]`
pairwise distinct indices, all in `[Σ_{k<i} bases[k], Σ_{k≤i} bases[k])`; these ranges are
disjoint and cover `[0, sum(bases))`. -/
theorem C29_combinations_in_type_ranges (rawDist abDist : List (List Cell))
    (quotas bases : List Int) (combCount M : Int) (rng : Rng) (width : Nat)
    (hcc : 2 ≤ combCount) (hne : rawDist ≠ [])
    (hqb : List.Forall₂ (fun (q b : Int) => 0 ≤ q ∧ q ≤ b) quotas bases)
    (hraw : ∀ r ∈ rawDist, r.length = width) (hab : ∀ r ∈ abDist, r.length = width) :
    (∃ problem rng1, NewSampleProblem rawDist abDist quotas bases combCount M rng
        = GoResult.ok (problem, rng1)
      ∧ TableSpec quotas bases combCount problem.AllCombs)
    ∧ (∃ problem rng1, NewSampleProblemAdvanced rawDist abDist quotas bases combCount rng
        = GoResult.ok (problem, rng1)
      ∧ TableSpec quotas bases combCount problem.AllCombs)
    ∧ RangesPartition bases := by
  refine ⟨?_, ?_, ranges_partition (forall₂_nonneg_right hqb)⟩
  · obtain ⟨problem, rng1, h⟩ :=
      @NewSampleProblem_isOk rawDist abDist quotas bases combCount M rng width hcc hne hqb
        hraw hab
    exact ⟨problem, rng1, h, NewSampleProblem_table h⟩
  · obtain ⟨problem, rng1, h⟩ :=
      @NewSampleProblemAdvanced_isOk rawDist abDist quotas bases combCount rng width hcc hne
        hqb hraw hab
    exact ⟨problem, rng1, h, NewSampleProblemAdvanced_table h⟩

theorem C29_combinations_in_type_ranges_witness :
    (∃ problem rng1, NewSampleProblem [[some 1], [some 2], [none]] [] [1, 1] [2, 1] 2 1
        (fun k => k) = GoResult.ok (problem, rng1)
      ∧ TableSpec [1, 1] [2, 1] 2 problem.AllCombs)
    ∧ (∃ problem rng1, NewSampleProblemAdvanced [[some 1], [some 2], [none]] [] [1, 1] [2, 1] 2
        (fun k => k) = GoResult.ok (problem, rng1)
      ∧ TableSpec [1, 1] [2, 1] 2 problem.AllCombs)
    ∧ RangesPartition [2, 1] :=
  C29_combinations_in_type_ranges [[some 1], [some 2], [none]] [] [1, 1] [2, 1] 2 1
    (fun k => k) 1 (by decide) (by simp)
    (List.Forall₂.cons ⟨by decide, by decide⟩
      (List.Forall₂.cons ⟨by decide, by decide⟩ List.Forall₂.nil))
    (by intro r hr; simp at hr; rcases hr with h | h | h <;> rw [h] <;> rfl)
    (by intro r hr; simp at hr)

/-- C30 (counterexample). With `quotas = [2]`, `bases = [2]`, `combCount = 2` and a stream of
draws that are all `0`, the combinations stored by `NewSampleProblem` are `[1, 0]`: not
ascending. -/
theorem C30_combination_not_sorted :
    ∃ problem rng1, NewSampleProblem [[some 1], [some 2]] [] [2] [2] 2 1 (fun _ => 0)
        = GoResult.ok (problem, rng1)
      ∧ problem.AllCombs = [[[1, 0]], [[1, 0]]]
      ∧ ¬ List.Sorted (fun (a b : Int) => a ≤ b) [1, 0] := by
  refine ⟨_, _, rfl, ?_, by decide⟩
  decide

/-- C30 (amended). Every Combination stored in the combination table by `NewSampleProblem` is
a list of pairwise distinct indices, in the order the shuffle left them (not necessarily
ascending), for every outcome of the random draws. -/
theorem C30_combinations_distinct (rawDist abDist : List (List Cell))
    (quotas bases : List Int) (combCount M : Int) (rng rng1 : Rng) (problem : SampleProblem)
    (h : NewSampleProblem rawDist abDist quotas bases combCount M rng
      = GoResult.ok (problem, rng1)) :
    ∀ row ∈ problem.AllCombs, ∀ comb ∈ row, comb.Nodup := by
  intro row hrow comb hcomb
  obtain ⟨_, hrows⟩ := NewSampleProblem_table h
  obtain ⟨hlen, hspec⟩ := hrows row hrow
  obtain ⟨i, hi, hget⟩ := List.getElem_of_mem hcomb
  have hiq : i < quotas.length := by omega
  have h1 : quotas[i]? = some quotas[i] := List.getElem?_eq_getElem hiq
  have h2 : row[i]? = some comb := by
    rw [List.getElem?_eq_getElem hi, hget]
  exact (hspec i quotas[i] comb h1 h2).2.1

theorem C30_combinations_distinct_witness : ([1, 0] : List Int).Nodup :=
  C30_combinations_distinct [[some 1], [some 2]] [] [2] [2] 2 1 (fun _ => 0)
    (fun k => (fun _ => 0 : Rng) (k + 1 + 1))
    { Quotas := [2], Bases := [2], RawDist := [[some 1], [some 2]], AbDist := [],
      Splits := [2], C := 2, NumLabel := 1, AllCombs := [[[1, 0]], [[1, 0]]], M := 1,
      Dim := 1, Lb := [0], Ub := [1] } rfl [[1, 0]] (by simp) [1, 0] (by simp)

/-! ## The recompute schedule of `HistPool` -/

theorem recomputeAt_succ (j : Nat) :
    recomputeAt (j + 1) = recomputeAt j + min (100 * (j + 1)) 2000 := by
  unfold recomputeAt
  rw [List.range_succ, List.map_append, List.sum_append]
  simp

theorem recomputeAt_lt_succ (j : Nat) : recomputeAt j < recomputeAt (j + 1) := by
  rw [recomputeAt_succ]
  omega

theorem recomputeAt_mono {i j : Nat} (h : i ≤ j) : recomputeAt i ≤ recomputeAt j := by
  induction j with
  | zero =>
    have : i = 0 := by omega
    rw [this]
  | succ j ih =>
    by_cases hij : i = j + 1
    · rw [hij]
    · exact le_trans (ih (by omega)) (le_of_lt (recomputeAt_lt_succ j))

theorem recomputeAt_closed (j : Nat) (h : j ≤ 20) : recomputeAt j = 50 * j * (j + 1) := by
  induction j with
  | zero => rfl
  | succ j ih =>
    rw [recomputeAt_succ, ih (by omega)]
    have : min (100 * (j + 1)) 2000 = 100 * (j + 1) := by omega
    rw [this]
    ring

theorem recalcCount_append (lib : GoLib) (calls : List (String × Int)) (c : String × Int) :
    ∀ p : HistPool, recalcCount lib p (calls ++ [c])
      = recalcCount lib p calls + (if (p.addAll lib calls).recalcOnAdd = true then 1 else 0) := by
  induction calls with
  | nil => intro p; simp [recalcCount, HistPool.addAll]
  | cons d rest ih =>
    intro p
    have e1 : recalcCount lib p (d :: rest ++ [c])
        = (if p.recalcOnAdd = true then 1 else 0)
          + recalcCount lib (p.Add lib d.1 d.2) (rest ++ [c]) := rfl
    have e2 : recalcCount lib p (d :: rest)
        = (if p.recalcOnAdd = true then 1 else 0)
          + recalcCount lib (p.Add lib d.1 d.2) rest := rfl
    have e3 : p.addAll lib (d :: rest) = (p.Add lib d.1 d.2).addAll lib rest := rfl
    rw [e1, e2, e3, ih]
    omega

theorem HistPool.Add_counters (lib : GoLib) (p : HistPool) (label : String) (duration : Int) :
    (p.Add lib label duration).count = (if p.recalcOnAdd = true then 0 else p.count + 1)
      ∧ (p.Add lib label duration).recalcTh
        = (if p.recalcOnAdd = true then (if p.recalcTh < 2000 then p.recalcTh + 100 else p.recalcTh)
            else p.recalcTh) := by
  unfold HistPool.Add HistPool.recalcOnAdd
  simp only [decide_eq_true_eq]
  split <;> exact ⟨rfl, rfl⟩

theorem addAll_counters (lib : GoLib) (H : Nat) (calls : List (String × Int)) :
    ((NewHistPool H).addAll lib calls).recalcTh
        = min (100 * ((recalcCount lib (NewHistPool H) calls : Nat) + 1 : Int)) 2000
      ∧ 0 ≤ ((NewHistPool H).addAll lib calls).count
      ∧ ((NewHistPool H).addAll lib calls).count < ((NewHistPool H).addAll lib calls).recalcTh
      ∧ (calls.length : Int)
        = (recomputeAt (recalcCount lib (NewHistPool H) calls) : Nat)
          + ((NewHistPool H).addAll lib calls).count := by
  induction calls using List.reverseRecOn with
  | nil =>
    simp [HistPool.addAll, NewHistPool, recalcCount, recomputeAt]
  | append_singleton calls c ih =>
    obtain ⟨hth, h0, hlt, hn⟩ := ih
    rw [HistPool.addAll_append, recalcCount_append]
    obtain ⟨hc, ht⟩ := HistPool.Add_counters lib ((NewHistPool H).addAll lib calls) c.1 c.2
    rw [hc, ht]
    simp only [List.length_append, List.length_singleton, Nat.cast_add, Nat.cast_one]
    by_cases hr : ((NewHistPool H).addAll lib calls).recalcOnAdd = true
    · have hge : ((NewHistPool H).addAll lib calls).count + 1
          ≥ ((NewHistPool H).addAll lib calls).recalcTh := by
        simpa [HistPool.recalcOnAdd] using hr
      simp only [hr, if_true]
      rw [recomputeAt_succ]
      simp only [Nat.cast_add, Nat.cast_one, Nat.cast_min, Nat.cast_mul, Nat.cast_ofNat]
      refine ⟨?_, le_refl _, ?_, ?_⟩
      · split <;> omega
      · split <;> omega
      · omega
    · have hlt2 : ¬ ((NewHistPool H).addAll lib calls).count + 1
          ≥ ((NewHistPool H).addAll lib calls).recalcTh := by
        simpa [HistPool.recalcOnAdd] using hr
      simp only [hr, Bool.false_eq_true, if_false, Nat.add_zero]
      refine ⟨hth, by omega, by omega, by omega⟩

/-- C28. For every sequence of `Add` calls on a new `HistPool`: the recompute threshold starts
at 100 and after `r` recomputes is `min(100·(r+1), 2000)`, so it grows by 100 at each
recompute and never exceeds 2000; the counter is not negative and below the threshold after
every `Add`; the number of `Add` calls so far is the `Add` number of the `r`-th recompute
plus the counter, and the next `Add` recomputes exactly when its number is the sum of
`min(100·k, 2000)` for `k ≤ r + 1`, that is `min(100·(r+1), 2000)` calls after the `r`-th
recompute; for `j ≤ 20` that `Add` number is `50·j·(j+1)`, and after that many calls exactly
`j` recomputes have happened. -/
theorem C28_recompute_schedule (lib : GoLib) (H : Nat) (calls : List (String × Int)) :
    (NewHistPool H).recalcTh = 100
      ∧ ((NewHistPool H).addAll lib calls).recalcTh
          = min (100 * ((recalcCount lib (NewHistPool H) calls : Nat) + 1 : Int)) 2000
      ∧ ((NewHistPool H).addAll lib calls).recalcTh ≤ 2000
      ∧ 0 ≤ ((NewHistPool H).addAll lib calls).count
      ∧ ((NewHistPool H).addAll lib calls).count < ((NewHistPool H).addAll lib calls).recalcTh
      ∧ (calls.length : Int)
          = (recomputeAt (recalcCount lib (NewHistPool H) calls) : Nat)
            + ((NewHistPool H).addAll lib calls).count
      ∧ (((NewHistPool H).addAll lib calls).recalcOnAdd = true
          ↔ calls.length + 1 = recomputeAt (recalcCount lib (NewHistPool H) calls + 1))
      ∧ (∀ j, recomputeAt (j + 1) = recomputeAt j + min (100 * (j + 1)) 2000)
      ∧ (∀ j, j ≤ 20 → recomputeAt j = 50 * j * (j + 1))
      ∧ (∀ j, calls.length = recomputeAt j → recalcCount lib (NewHistPool H) calls = j
          ∧ ((NewHistPool H).addAll lib calls).count = 0) := by
  obtain ⟨hth, h0, hlt, hn⟩ := addAll_counters lib H calls
  have hnext := recomputeAt_succ (recalcCount lib (NewHistPool H) calls)
  refine ⟨rfl, hth, by rw [hth]; omega, h0, hlt, hn, ?_, recomputeAt_succ, recomputeAt_closed,
    ?_⟩
  · unfold HistPool.recalcOnAdd
    simp only [decide_eq_true_eq]
    constructor
    · intro h; omega
    · intro h; omega
  · intro j hj
    have hj1 : recalcCount lib (NewHistPool H) calls = j := by
      rcases Nat.lt_trichotomy j (recalcCount lib (NewHistPool H) calls) with h | h | h
      · have := recomputeAt_mono (show j + 1 ≤ recalcCount lib (NewHistPool H) calls by omega)
        have := recomputeAt_lt_succ j
        omega
      · exact h.symm
      · have := recomputeAt_mono (show recalcCount lib (NewHistPool H) calls + 1 ≤ j by omega)
        omega
    refine ⟨hj1, ?_⟩
    rw [hj1] at hn
    omega

/-! ## The first spans of a new encoder -/

theorem getMuStd_of_db_nil (p : HistPool) (label : String) (h : p.db = []) :
    p.getMuStd label = (some 0, some 0) := by
  unfold HistPool.getMuStd
  rw [h]
  rfl

theorem foldl_detectStep_no_stats (lib : GoLib) (spans : List Span) :
    ∀ st : Detect, st.pool.db = [] →
      st.pool.count + (spans.length : Int) < st.pool.recalcTh →
      (spans.foldl (detectStep lib) st).expectedDurationMs = st.expectedDurationMs
        ∧ (spans.foldl (detectStep lib) st).pool.db = []
        ∧ (spans.foldl (detectStep lib) st).pool.count = st.pool.count + (spans.length : Int)
        ∧ (spans.foldl (detectStep lib) st).pool.recalcTh = st.pool.recalcTh
        ∧ (spans.foldl (detectStep lib) st).hasError
          = (st.hasError || spans.any (fun span => span.statusError)) := by
  induction spans with
  | nil => intro st hdb _; simp [hdb]
  | cons span rest ih =>
    intro st hdb hcount
    simp only [List.length_cons, Nat.cast_add, Nat.cast_one] at hcount
    obtain ⟨hdb1, hc1, hth1⟩ := HistPool.Add_no_recalc lib st.pool (getSpanLabel span)
      (spanDuration span) (by omega)
    have hdb2 : (detectStep lib st span).pool.db = [] := by
      show (st.pool.Add lib (getSpanLabel span) (spanDuration span)).db = []
      rw [hdb1, hdb]
    have hc2 : (detectStep lib st span).pool.count = st.pool.count + 1 := hc1
    have hth2 : (detectStep lib st span).pool.recalcTh = st.pool.recalcTh := hth1
    obtain ⟨h1, h2, h3, h4, h5⟩ := ih (detectStep lib st span) hdb2 (by rw [hc2, hth2]; omega)
    rw [List.foldl_cons, h1, h2, h3, h4, h5, hc2, hth2]
    refine ⟨?_, rfl, ?_, rfl, ?_⟩
    · show fltAdd st.expectedDurationMs
        (fltAdd ((st.pool.Add lib (getSpanLabel span) (spanDuration span)).getMuStd
            (getSpanLabel span)).1
          (fltMul (some 5) ((st.pool.Add lib (getSpanLabel span) (spanDuration span)).getMuStd
            (getSpanLabel span)).2)) = st.expectedDurationMs
      rw [getMuStd_of_db_nil _ _ (by rw [hdb1, hdb])]
      cases st.expectedDurationMs <;> simp [fltAdd, fltMul]
    · simp only [List.length_cons, Nat.cast_add, Nat.cast_one]; ring
    · simp only [detectStep, List.any_cons, Bool.or_assoc]

theorem detect_no_stats (lib : GoLib) (pool : HistPool) (spans : List Span)
    (hdb : pool.db = []) (hcount : pool.count + (spans.length : Int) < pool.recalcTh) :
    isAbnormalOf (detect lib pool spans) = spans.any (fun span => span.statusError)
      ∧ (detect lib pool spans).pool.db = []
      ∧ (detect lib pool spans).pool.count = pool.count + (spans.length : Int)
      ∧ (detect lib pool spans).pool.recalcTh = pool.recalcTh := by
  obtain ⟨h1, h2, h3, h4, h5⟩ := foldl_detectStep_no_stats lib spans
    { pool := pool, expectedDurationMs := some 0, trueDurationMs := 0, hasError := false }
    hdb hcount
  refine ⟨?_, h2, h3, h4⟩
  unfold isAbnormalOf detect
  rw [h1, h5]
  simp [fltGt]

theorem encodeAll_no_stats (lib : GoLib) (traces : List Traces) :
    ∀ e : BFSEncoder, e.pool.db = [] →
      e.pool.count + (((traces.map (fun t => (encSpans t).length)).sum : Nat) : Int)
        < e.pool.recalcTh →
      ∀ (k : Nat) (t : Traces) (o : EncodeOutcome), traces[k]? = some t →
        (encodeAll lib e traces)[k]? = some o →
        o.result.map Prod.snd
          = (typeIDOf lib (nodesOf t)).map
              (fun _ => (encSpans t).any (fun span => span.statusError)) := by
  induction traces with
  | nil => intro e _ _ k t o ht; simp at ht
  | cons t0 rest ih =>
    intro e hdb hcount k t o ht ho
    simp only [List.map_cons, List.sum_cons, Nat.cast_add] at hcount
    obtain ⟨hflag, hdb1, hc1, hth1⟩ := detect_no_stats lib e.pool (encSpans t0) hdb (by omega)
    cases k with
    | zero =>
      simp only [List.getElem?_cons_zero, Option.some.injEq] at ht
      simp only [encodeAll, List.getElem?_cons_zero, Option.some.injEq] at ho
      rw [← ho, ← ht]
      unfold BFSEncoder.Encode nodesOf
      simp only [Option.map_map]
      cases typeIDOf lib (List.map nodeOf (encSpans t0))
      · rfl
      · simp only [Option.map_some', Function.comp_apply]
        exact congrArg some hflag
    | succ k =>
      simp only [List.getElem?_cons_succ] at ht
      simp only [encodeAll, List.getElem?_cons_succ] at ho
      have hpool : (e.Encode lib t0).encoder.pool = (detect lib e.pool (encSpans t0)).pool := rfl
      exact ih (e.Encode lib t0).encoder (by rw [hpool]; exact hdb1)
        (by rw [hpool, hc1, hth1]; omega) k t o ht ho

/-- C27 (counterexample). A new encoder and a first trace of 100 spans of 10 ms, none with an
error status: the 100th `Add` recomputes the statistics and `Encode` returns
`isAbnormal = true`. -/
theorem C27_first_trace_marked_anomalous :
    (encSpans wideTrace).length = 100
      ∧ (encSpans wideTrace).any (fun span => span.statusError) = false
      ∧ ((NewBFSEncoder (NewHistPool 1000)).Encode exactLib wideTrace).result.map Prod.snd
        = some true := by
  decide!

/-- C27 (amended). For an encoder started with empty history and any sequence of traces that
together hold fewer than 100 spans, no trace without an error-status span is marked anomalous
by `Encode`: every call that returns, returns as flag whether the trace has an error-status
span. -/
theorem C27_no_latency_anomaly_before_first_recompute (lib : GoLib) (H : Nat)
    (traces : List Traces)
    (hsmall : (traces.map (fun t => (encSpans t).length)).sum < 100) (k : Nat) (t : Traces)
    (o : EncodeOutcome) (ht : traces[k]? = some t)
    (ho : (encodeAll lib (NewBFSEncoder (NewHistPool H)) traces)[k]? = some o) :
    o.result.map Prod.snd
        = (typeIDOf lib (nodesOf t)).map
            (fun _ => (encSpans t).any (fun span => span.statusError))
      ∧ ((∀ span ∈ encSpans t, span.statusError = false) →
          o.result.map Prod.snd = (typeIDOf lib (nodesOf t)).map (fun _ => false)) := by
  have h := encodeAll_no_stats lib traces (NewBFSEncoder (NewHistPool H)) rfl
    (by
      show (0 : Int) + _ < 100
      omega) k t o ht ho
  refine ⟨h, ?_⟩
  intro hno
  rw [h]
  have : (encSpans t).any (fun span => span.statusError) = false := by
    rw [List.any_eq_false]
    intro span hs
    simp [hno span hs]
  rw [this]

theorem C27_no_latency_anomaly_before_first_recompute_witness :
    ((NewBFSEncoder (NewHistPool 1000)).Encode exactLib slowTrace).result.map Prod.snd
      = (typeIDOf exactLib (nodesOf slowTrace)).map (fun _ => false) :=
  (C27_no_latency_anomaly_before_first_recompute exactLib 1000 [slowTrace, siblingTrace]
    (by decide!) 0 slowTrace ((NewBFSEncoder (NewHistPool 1000)).Encode exactLib slowTrace)
    rfl rfl).2 (by decide!)

/-! ## The label path, level by level -/

theorem filterMap_spanMapGet_ids {nodes : List Node} (hd : DistinctIDs nodes) (l : List Node)
    (hl : ∀ n ∈ l, n ∈ nodes) :
    (l.map (fun n => n.id)).filterMap (spanMapGet nodes) = l := by
  rw [List.filterMap_map]
  have : List.filterMap (spanMapGet nodes ∘ fun n => n.id) l = List.filterMap some l := by
    apply List.filterMap_congr
    intro n hn
    exact spanMapGet_eq_some_of_mem hd (hl n hn) rfl
  rw [this, List.filterMap_some]

theorem childrenOf_nodup {nodes : List Node} (hd : DistinctIDs nodes) (x : Nat) :
    (childrenOf nodes x).Nodup := by
  unfold childrenOf
  split
  · exact List.nodup_nil
  · exact List.Nodup.sublist ((List.filter_sublist _).map _) hd

theorem mem_childrenOf_iff {nodes : List Node} {x y : Nat} :
    y ∈ childrenOf nodes x ↔ x ≠ 0 ∧ ∃ m ∈ nodes, m.parent = x ∧ m.id = y := by
  constructor
  · exact mem_childrenOf
  · rintro ⟨hx, m, hm, hp, hid⟩
    unfold childrenOf
    rw [if_neg hx]
    exact List.mem_map.2 ⟨m, List.mem_filter.2 ⟨hm, by simpa using hp⟩, hid⟩

theorem atDepth_succ_iff {nodes : List Node} {d : Nat} {n : Node} :
    atDepth nodes (d + 1) n = true
      ↔ n.parent ≠ 0 ∧ ∃ m ∈ nodes, m.id = n.parent ∧ atDepth nodes d m = true := by
  simp [atDepth]

theorem next_level_perm {nodes : List Node} (hd : DistinctIDs nodes) (d : Nat) :
    ((nodes.filter (atDepth nodes d)).flatMap (fun n => childrenOf nodes n.id)).Perm
      ((nodes.filter (atDepth nodes (d + 1))).map (fun n => n.id)) := by
  have hnd : nodes.Nodup := List.Nodup.of_map _ hd
  rw [List.perm_ext_iff_of_nodup]
  · intro y
    simp only [List.mem_flatMap, List.mem_filter, List.mem_map, mem_childrenOf_iff]
    constructor
    · rintro ⟨n, ⟨hn, hdep⟩, hn0, m, hm, hp, hid⟩
      refine ⟨m, ⟨hm, ?_⟩, hid⟩
      rw [atDepth_succ_iff]
      exact ⟨by rw [hp]; exact hn0, n, hn, hp.symm, hdep⟩
    · rintro ⟨m, ⟨hm, hdep⟩, hid⟩
      rw [atDepth_succ_iff] at hdep
      obtain ⟨hp0, n, hn, hnid, hnd⟩ := hdep
      exact ⟨n, ⟨hn, hnd⟩, by rw [hnid]; exact hp0, m, hm, hnid.symm, hid⟩
  · rw [List.nodup_flatMap]
    refine ⟨fun n _ => childrenOf_nodup hd n.id, ?_⟩
    have hfn : (nodes.filter (atDepth nodes d)).Nodup := hnd.filter _
    refine List.Nodup.pairwise_of_forall_ne hfn ?_
    intro n1 hn1 n2 hn2 hne
    show List.Disjoint (childrenOf nodes n1.id) (childrenOf nodes n2.id)
    intro y hy1 hy2
    obtain ⟨_, m1, hm1, hp1, hid1⟩ := mem_childrenOf hy1
    obtain ⟨_, m2, hm2, hp2, hid2⟩ := mem_childrenOf hy2
    have hm : m1 = m2 := List.inj_on_of_nodup_map hd hm1 hm2 (hid1.trans hid2.symm)
    have hids : n1.id = n2.id := by rw [← hp1, ← hp2, hm]
    exact hne (List.inj_on_of_nodup_map hd (List.mem_filter.1 hn1).1 (List.mem_filter.1 hn2).1
      hids)
  · exact List.Nodup.sublist ((List.filter_sublist _).map _) hd

theorem level_empty_succ {nodes : List Node} {d : Nat}
    (h : nodes.filter (atDepth nodes d) = []) : nodes.filter (atDepth nodes (d + 1)) = [] := by
  rw [List.filter_eq_nil_iff] at h ⊢
  intro n _ hdep
  rw [atDepth_succ_iff] at hdep
  obtain ⟨_, m, hm, _, hmd⟩ := hdep
  exact h m hm hmd

theorem level_empty_of_le {nodes : List Node} {d : Nat}
    (h : nodes.filter (atDepth nodes d) = []) :
    ∀ d', d ≤ d' → nodes.filter (atDepth nodes d') = [] := by
  intro d' hle
  induction d' with
  | zero =>
    have : d = 0 := by omega
    rw [← this]; exact h
  | succ k ih =>
    by_cases hk : d = k + 1
    · rw [← hk]; exact h
    · exact level_empty_succ (ih (by omega))

theorem sorted_level_labels {lib : GoLib} (hsort : SortsByLabel lib) {l l0 : List Node}
    (hperm : l.Perm l0) :
    (lib.sortSlice l).map (fun n => n.label) = sortStrings (l0.map (fun n => n.label)) := by
  have hp : ((lib.sortSlice l).map (fun n => n.label)).Perm
      (sortStrings (l0.map (fun n => n.label))) := by
    refine (((hsort l).1.trans hperm).map _).trans ?_
    exact (List.perm_insertionSort _ _).symm
  have s1 : ((lib.sortSlice l).map (fun n => n.label)).Sorted (fun a b => a ≤ b) := by
    unfold List.Sorted
    rw [List.pairwise_map]
    exact (hsort l).2
  have s2 : (sortStrings (l0.map (fun n => n.label))).Sorted (fun a b => a ≤ b) :=
    List.sorted_insertionSort _ _
  exact List.eq_of_perm_of_sorted hp s1 s2

theorem bfsLoop_levels (lib : GoLib) (hsort : SortsByLabel lib) (nodes : List Node)
    (hd : DistinctIDs nodes) :
    ∀ (fuel d : Nat) (queue : List Nat) (path p : List String),
      queue.Perm ((nodes.filter (atDepth nodes d)).map (fun n => n.id)) →
      bfsLoop lib nodes fuel queue path = some p →
      p = path ++ (List.range' d fuel).flatMap (specLevel nodes)
        ∧ ∀ d', d + fuel ≤ d' → nodes.filter (atDepth nodes d') = [] := by
  intro fuel
  induction fuel with
  | zero =>
    intro d queue path p hq h
    cases queue with
    | nil =>
      simp only [bfsLoop, Option.some.injEq] at h
      have hlev : nodes.filter (atDepth nodes d) = [] := by
        have := hq.symm.eq_nil
        simpa using this
      exact ⟨by simp [h], fun d' hle => level_empty_of_le hlev d' (by omega)⟩
    | cons x xs => simp [bfsLoop] at h
  | succ fuel ih =>
    intro d queue path p hq h
    cases queue with
    | nil =>
      rw [bfsLoop_nil] at h
      simp only [Option.some.injEq] at h
      have hlev : nodes.filter (atDepth nodes d) = [] := by
        have := hq.symm.eq_nil
        simpa using this
      have hall := level_empty_of_le hlev
      refine ⟨?_, fun d' hle => hall d' (by omega)⟩
      have : (List.range' d (fuel + 1)).flatMap (specLevel nodes) = [] := by
        rw [List.flatMap_eq_nil_iff]
        intro k hk
        have hk2 : d ≤ k := by
          simp only [List.mem_range'_1] at hk
          omega
        unfold specLevel
        rw [hall k hk2]
        rfl
      rw [this, ← h]
      simp
    | cons x xs =>
      rw [bfsLoop_succ_cons] at h
      have hlevel : ((x :: xs).filterMap (spanMapGet nodes)).Perm
          (nodes.filter (atDepth nodes d)) := by
        have := hq.filterMap (spanMapGet nodes)
        rw [filterMap_spanMapGet_ids hd _ (fun n hn => (List.mem_filter.1 hn).1)] at this
        exact this
      have hlab := sorted_level_labels hsort hlevel
      have hnext : ((lib.sortSlice ((x :: xs).filterMap (spanMapGet nodes))).flatMap
          (fun node => childrenOf nodes node.id)).Perm
          ((nodes.filter (atDepth nodes (d + 1))).map (fun n => n.id)) :=
        ((((hsort _).1.trans hlevel).flatMap_right _)).trans (next_level_perm hd d)
      obtain ⟨hp, hemp⟩ := ih (d + 1) _ _ p hnext h
      refine ⟨?_, fun d' hle => hemp d' (by omega)⟩
      rw [hp, hlab, List.range'_succ, List.flatMap_cons, List.append_assoc]
      rfl

theorem labelPath_eq_specPath (lib : GoLib) (hsort : SortsByLabel lib) (nodes : List Node)
    (hd : DistinctIDs nodes) (hr : OneRoot nodes) :
    labelPath lib nodes = some (specPath nodes)
      ∧ ∀ d, nodes.length ≤ d → nodes.filter (atDepth nodes d) = [] := by
  have hne : nodes.filter (fun n => decide (n.parent = 0)) ≠ [] := by
    intro h
    unfold OneRoot at hr
    rw [h] at hr
    simp at hr
  obtain ⟨p, hp⟩ := labelPath_terminates lib hsort nodes hd hne
  have hq : [rootIDOf nodes].Perm ((nodes.filter (atDepth nodes 0)).map (fun n => n.id)) := by
    unfold OneRoot at hr
    obtain ⟨r, hra⟩ := List.length_eq_one.1 hr
    have h0 : nodes.filter (atDepth nodes 0) = [r] := by
      rw [← hra]
      rfl
    have hroot : rootIDOf nodes = r.id := by
      unfold rootIDOf
      rw [hra]
      rfl
    rw [h0, hroot]
    exact List.Perm.refl _
  have hp2 := hp
  unfold labelPath at hp2
  obtain ⟨hpath, hemp⟩ := bfsLoop_levels lib hsort nodes hd nodes.length 0 _ [] p hq hp2
  refine ⟨?_, fun d hle => hemp d (by omega)⟩
  rw [hp, hpath]
  unfold specPath
  rw [List.range_eq_range']
  simp

/-- C26 (counterexample). A trace whose only span is a root with the empty span id has exactly
one root and pairwise distinct span ids, and its label path is `svc:op`; `Encode` returns the
type id `empty_root`, not the digest of that path. -/
theorem C26_root_with_empty_id :
    OneRoot (nodesOf emptyIdTrace) ∧ DistinctIDs (nodesOf emptyIdTrace)
      ∧ specPath (nodesOf emptyIdTrace) = ["svc:op"]
      ∧ ((NewBFSEncoder (NewHistPool 1000)).Encode exactLib emptyIdTrace).result.map Prod.fst
        = some "empty_root"
      ∧ exactLib.sha1hex (String.intercalate "->" (specPath (nodesOf emptyIdTrace)))
        ≠ "empty_root" := by
  decide!

/-- C26 (amended). For every trace with exactly one root, whose span id is not empty, and
pairwise distinct span ids, the label path `Encode` builds is the concatenation, for depth
`d = 0, 1, 2, …`, of the labels of all spans at depth `d` reachable from the root, each level
sorted ascending by label (there is no span at a depth beyond the number of spans), and the
type id returned is the digest of those labels joined by `->`; spans not reachable from the
root are at no depth and contribute nothing. -/
theorem C26_label_path_by_levels (lib : GoLib) (hsort : SortsByLabel lib) (e : BFSEncoder)
    (trace : Traces) (hd : DistinctIDs (nodesOf trace)) (hr : OneRoot (nodesOf trace))
    (hid : rootIDOf (nodesOf trace) ≠ 0) :
    labelPath lib (nodesOf trace) = some (specPath (nodesOf trace))
      ∧ (∀ d, (nodesOf trace).length ≤ d → specLevel (nodesOf trace) d = [])
      ∧ (e.Encode lib trace).result.map Prod.fst
          = some (lib.sha1hex (String.intercalate "->" (specPath (nodesOf trace)))) := by
  obtain ⟨hpath, hemp⟩ := labelPath_eq_specPath lib hsort (nodesOf trace) hd hr
  refine ⟨hpath, ?_, ?_⟩
  · intro d hle
    unfold specLevel
    rw [hemp d hle]
    rfl
  · rw [encode_typeID]
    unfold typeIDOf
    rw [if_neg hid, hpath]
    rfl

theorem C26_label_path_by_levels_witness :
    labelPath exactLib (nodesOf siblingTrace) = some ["svc:r", "svc:a", "svc:b", "svc:c"]
      ∧ ((NewBFSEncoder (NewHistPool 1000)).Encode exactLib siblingTrace).result.map Prod.fst
          = some "svc:r->svc:a->svc:b->svc:c" :=
  have h := C26_label_path_by_levels exactLib exactLib_sorts (NewBFSEncoder (NewHistPool 1000))
    siblingTrace (by decide!) (by decide!) (by decide!)
  ⟨h.1.trans (by decide!), h.2.2.trans (by decide!)⟩

/-! ## The bubble sort of `calculatePercentile` -/

theorem bubblePass_zero (l : List ℚ) : bubblePass 0 l = l := by
  cases l with
  | nil => rfl
  | cons a t => cases t <;> rfl

theorem bubblePass_perm : ∀ (k : Nat) (l : List ℚ), (bubblePass k l).Perm l := by
  intro k
  induction k with
  | zero => intro l; rw [bubblePass_zero]
  | succ k ih =>
    intro l
    match l with
    | [] => exact List.Perm.refl _
    | [a] => exact List.Perm.refl _
    | a :: b :: rest =>
      simp only [bubblePass]
      split
      · exact ((ih (a :: rest)).cons b).trans (List.Perm.swap a b rest)
      · exact (ih (b :: rest)).cons a

theorem bubblePass_last : ∀ (k : Nat) (l : List ℚ), l.length = k + 1 →
    ∃ pre mx, bubblePass k l = pre ++ [mx] ∧ ∀ x ∈ l, x ≤ mx := by
  intro k
  induction k with
  | zero =>
    intro l hl
    match l, hl with
    | [a], _ => exact ⟨[], a, rfl, by simp⟩
  | succ k ih =>
    intro l hl
    match l, hl with
    | a :: b :: rest, hl =>
      simp only [bubblePass]
      split
      · rename_i hab
        obtain ⟨pre, mx, hp, hmx⟩ := ih (a :: rest) (by simpa using hl)
        refine ⟨b :: pre, mx, by rw [hp]; rfl, ?_⟩
        intro x hx
        have ha := hmx a (List.mem_cons_self _ _)
        rcases List.mem_cons.1 hx with rfl | hx
        · exact ha
        · rcases List.mem_cons.1 hx with rfl | hx
          · exact le_trans (le_of_lt hab) ha
          · exact hmx x (List.mem_cons_of_mem _ hx)
      · rename_i hab
        obtain ⟨pre, mx, hp, hmx⟩ := ih (b :: rest) (by simpa using hl)
        refine ⟨a :: pre, mx, by rw [hp]; rfl, ?_⟩
        intro x hx
        have hb := hmx b (List.mem_cons_self _ _)
        rcases List.mem_cons.1 hx with rfl | hx
        · exact le_trans (not_lt.1 hab) hb
        · exact hmx x hx

theorem bubblePass_append : ∀ (k : Nat) (pre suf : List ℚ), k + 1 ≤ pre.length →
    bubblePass k (pre ++ suf) = bubblePass k pre ++ suf := by
  intro k
  induction k with
  | zero => intro pre suf _; rw [bubblePass_zero, bubblePass_zero]
  | succ k ih =>
    intro pre suf hl
    match pre, hl with
    | a :: b :: rest, hl =>
      simp only [List.cons_append, bubblePass]
      have h1 := ih (a :: rest) suf (by simp only [List.length_cons] at hl ⊢; omega)
      have h2 := ih (b :: rest) suf (by simp only [List.length_cons] at hl ⊢; omega)
      simp only [List.cons_append] at h1 h2
      split
      · exact congrArg (List.cons b) h1
      · exact congrArg (List.cons a) h2

theorem bubble_invariant (l : List ℚ) : ∀ m, m ≤ l.length →
    ∃ pre suf, (List.range m).foldl (fun s i => bubblePass (l.length - 1 - i) s) l = pre ++ suf
      ∧ pre.length + m = l.length ∧ suf.length = m
      ∧ suf.Sorted (fun a b => a ≤ b) ∧ ∀ x ∈ pre, ∀ y ∈ suf, x ≤ y := by
  intro m
  induction m with
  | zero =>
    intro _
    exact ⟨l, [], by simp, by simp, rfl, List.sorted_nil, by simp⟩
  | succ m ih =>
    intro hm
    obtain ⟨pre, suf, hs, hlen, hsl, hsorted, hle⟩ := ih (by omega)
    rw [List.range_succ, List.foldl_append, List.foldl_cons, List.foldl_nil, hs]
    have hk : l.length - 1 - m + 1 = pre.length := by omega
    rw [bubblePass_append _ _ _ (by omega)]
    obtain ⟨pre2, mx, hp, hmx⟩ := bubblePass_last (l.length - 1 - m) pre hk.symm
    have hperm := bubblePass_perm (l.length - 1 - m) pre
    rw [hp] at hperm ⊢
    have hmxmem : mx ∈ pre := hperm.subset (by simp)
    have hpre2 : ∀ x ∈ pre2, x ∈ pre := fun x hx => hperm.subset (by simp [hx])
    refine ⟨pre2, mx :: suf, by simp, ?_, by simp [hsl], ?_, ?_⟩
    · have := hperm.length_eq
      simp only [List.length_append, List.length_singleton] at this
      omega
    · exact List.sorted_cons.2 ⟨fun y hy => hle mx hmxmem y hy, hsorted⟩
    · intro x hx y hy
      rcases List.mem_cons.1 hy with rfl | hy
      · exact hmx x (hpre2 x hx)
      · exact hle x (hpre2 x hx) y hy

theorem bubbleSort_sorted (l : List ℚ) : (bubbleSort l).Sorted (fun a b => a ≤ b) := by
  obtain ⟨pre, suf, hs, hlen, _, hsorted, _⟩ := bubble_invariant l l.length (le_refl _)
  have hpre : pre = [] := List.eq_nil_of_length_eq_zero (by omega)
  unfold bubbleSort
  rw [hs, hpre]
  exact hsorted

theorem bubbleSort_length (l : List ℚ) : (bubbleSort l).length = l.length := by
  obtain ⟨pre, suf, hs, hlen, hsl, _, _⟩ := bubble_invariant l l.length (le_refl _)
  unfold bubbleSort
  rw [hs, List.length_append]
  omega

/-! ## Monotonicity of the interpolation -/

theorem sorted_getD_le {s : List ℚ} (hs : s.Sorted (fun a b => a ≤ b)) {i j : Nat} (hij : i ≤ j)
    (hj : j < s.length) : s.getD i 0 ≤ s.getD j 0 := by
  have hi : i < s.length := by omega
  rw [List.getD_eq_getElem _ _ hi, List.getD_eq_getElem _ _ hj]
  rcases Nat.eq_or_lt_of_le hij with h | h
  · subst h; exact le_refl _
  · exact (List.pairwise_iff_getElem.1 hs) i j hi hj h

theorem floor_facts (n : Nat) (x : ℚ) (hx : 0 ≤ x) (hxn : x ≤ (n : ℚ) - 1) :
    0 ≤ ⌊x⌋ ∧ ⌊x⌋ ≤ (n : Int) - 1 ∧ (⌊x⌋.toNat : Int) = ⌊x⌋ ∧ ⌊x⌋.toNat < n
      ∧ 0 ≤ x - (⌊x⌋ : ℚ) ∧ x - (⌊x⌋ : ℚ) < 1
      ∧ (n ≤ ⌊x⌋.toNat + 1 → x - (⌊x⌋ : ℚ) = 0) := by
  have h0 : 0 ≤ ⌊x⌋ := Int.floor_nonneg.2 hx
  have h1 : ⌊x⌋ ≤ (n : Int) - 1 := by
    have : ⌊x⌋ ≤ ⌊(((n : Int) - 1 : Int) : ℚ)⌋ := Int.floor_le_floor (by push_cast; exact hxn)
    rwa [Int.floor_intCast] at this
  have h2 : (⌊x⌋.toNat : Int) = ⌊x⌋ := Int.toNat_of_nonneg h0
  have h3 : (⌊x⌋ : ℚ) ≤ x := Int.floor_le x
  have h4 : x < (⌊x⌋ : ℚ) + 1 := Int.lt_floor_add_one x
  refine ⟨h0, h1, h2, by omega, by linarith, by linarith, ?_⟩
  intro hn
  have h5 : ⌊x⌋ = (n : Int) - 1 := by omega
  have h6 : (⌊x⌋ : ℚ) = (n : ℚ) - 1 := by rw [h5]; push_cast; ring
  linarith

theorem interp_mono (s : List ℚ) (hs : s.Sorted (fun a b => a ≤ b)) (x y : ℚ) (hx : 0 ≤ x)
    (hxy : x ≤ y) (hy : y ≤ (s.length : ℚ) - 1) : interp s x ≤ interp s y := by
  obtain ⟨_, _, hxi, hxlt, hwx0, hwx1, hxend⟩ := floor_facts s.length x hx (le_trans hxy hy)
  obtain ⟨_, _, hyi, hylt, hwy0, hwy1, hyend⟩ := floor_facts s.length y (le_trans hx hxy) hy
  have hfl : ⌊x⌋ ≤ ⌊y⌋ := Int.floor_le_floor hxy
  have hij : ⌊x⌋.toNat ≤ ⌊y⌋.toNat := by omega
  unfold interp
  rcases Nat.eq_or_lt_of_le hij with heq | hlt
  · have hfeq : ⌊x⌋ = ⌊y⌋ := by omega
    rw [← heq, ← hfeq]
    rw [← hfeq] at hwy0 hwy1 hyend
    by_cases hend : s.length ≤ ⌊x⌋.toNat + 1
    · rw [hxend hend, hyend hend]
    · have hle : s.getD ⌊x⌋.toNat 0 ≤ s.getD (⌊x⌋.toNat + 1) 0 :=
        sorted_getD_le hs (Nat.le_succ _) (by omega)
      nlinarith
  · have h1 : s.getD ⌊x⌋.toNat 0 ≤ s.getD (⌊x⌋.toNat + 1) 0 :=
      sorted_getD_le hs (Nat.le_succ _) (by omega)
    have h2 : s.getD (⌊x⌋.toNat + 1) 0 ≤ s.getD ⌊y⌋.toNat 0 :=
      sorted_getD_le hs (by omega) hylt
    have hupper : s.getD ⌊x⌋.toNat 0 * (1 - (x - (⌊x⌋ : ℚ)))
        + s.getD (⌊x⌋.toNat + 1) 0 * (x - (⌊x⌋ : ℚ)) ≤ s.getD (⌊x⌋.toNat + 1) 0 := by
      nlinarith
    have hlower : s.getD ⌊y⌋.toNat 0 ≤ s.getD ⌊y⌋.toNat 0 * (1 - (y - (⌊y⌋ : ℚ)))
        + s.getD (⌊y⌋.toNat + 1) 0 * (y - (⌊y⌋ : ℚ)) := by
      by_cases hend : s.length ≤ ⌊y⌋.toNat + 1
      · rw [hyend hend]; simp
      · have h3 : s.getD ⌊y⌋.toNat 0 ≤ s.getD (⌊y⌋.toNat + 1) 0 :=
          sorted_getD_le hs (Nat.le_succ _) (by omega)
        nlinarith
    linarith

/-! ## The two percentile functions -/

theorem sliceGet_of_range (s : List ℚ) (i : Int) (h0 : 0 ≤ i) (hlt : i.toNat < s.length) :
    sliceGet s i = some (s.getD i.toNat 0) := by
  unfold sliceGet
  rw [if_neg (by omega), List.getElem?_eq_getElem hlt, List.getD_eq_getElem _ _ hlt]

theorem interp_of_int (s : List ℚ) (x : ℚ) (h : x - (⌊x⌋ : ℚ) = 0) :
    interp s x = s.getD ⌊x⌋.toNat 0 := by
  unfold interp
  rw [h]
  ring

theorem sortFloat64s_length (l : List ℚ) : (sortFloat64s l).length = l.length :=
  List.length_insertionSort _ _

theorem sortFloat64s_sorted (l : List ℚ) : (sortFloat64s l).Sorted (fun a b => a ≤ b) :=
  List.sorted_insertionSort _ _

theorem index_range (n : Nat) (hn : 0 < n) (p : ℚ) (hp0 : 0 ≤ p) (hp1 : p ≤ 100) :
    0 ≤ p / 100 * ((n : ℚ) - 1) ∧ p / 100 * ((n : ℚ) - 1) ≤ (n : ℚ) - 1 := by
  have hn1 : (0 : ℚ) ≤ (n : ℚ) - 1 := by
    have : (1 : ℚ) ≤ (n : ℚ) := by exact_mod_cast hn
    linarith
  have h1 : 0 ≤ p / 100 := div_nonneg hp0 (by norm_num)
  have h2 : p / 100 ≤ 1 := by
    rw [div_le_one (by norm_num)]
    exact hp1
  exact ⟨mul_nonneg h1 hn1, by nlinarith⟩

theorem percentile_eq_interp (data : List ℚ) (hne : data ≠ []) (p : ℚ) (hp0 : 0 ≤ p)
    (hp1 : p ≤ 100) :
    percentile data p
      = some (some (interp (sortFloat64s data)
          (p / 100 * (((sortFloat64s data).length : ℚ) - 1)))) := by
  have hlen : 0 < (sortFloat64s data).length := by
    rw [sortFloat64s_length]
    exact List.length_pos.2 hne
  obtain ⟨hi0, hi1⟩ := index_range _ hlen p hp0 hp1
  obtain ⟨hf0, hf1, hfi, hflt, hw0, hw1, hend⟩ := floor_facts _ _ hi0 hi1
  unfold percentile
  rw [if_neg hne]
  by_cases hz : p = 0
  · rw [if_pos hz, sliceGet_of_range _ 0 (le_refl _) hlen]
    subst hz
    simp [interp]
  · rw [if_neg hz]
    by_cases hc : p = 100
    · rw [if_pos hc]
      subst hc
      have hidx : (100 : ℚ) / 100 * (((sortFloat64s data).length : ℚ) - 1)
          = ((((sortFloat64s data).length : Int) - 1 : Int) : ℚ) := by
        push_cast; ring
      rw [sliceGet_of_range _ _ (by omega) (by omega), hidx, interp_of_int _ _ (by simp)]
      simp
    · rw [if_neg hc]
      by_cases hfc : ⌊p / 100 * (((sortFloat64s data).length : ℚ) - 1)⌋
          = ⌈p / 100 * (((sortFloat64s data).length : ℚ) - 1)⌉
      · rw [if_pos hfc, sliceGet_of_range _ _ hf0 hflt]
        have hle := Int.le_ceil (p / 100 * (((sortFloat64s data).length : ℚ) - 1))
        rw [← hfc] at hle
        rw [interp_of_int _ _ (by linarith)]
        rfl
      · rw [if_neg hfc]
        have hceil : ⌈p / 100 * (((sortFloat64s data).length : ℚ) - 1)⌉
            = ⌊p / 100 * (((sortFloat64s data).length : ℚ) - 1)⌋ + 1 := by
          have h1 := Int.ceil_le_floor_add_one (p / 100 * (((sortFloat64s data).length : ℚ) - 1))
          have h2 := Int.floor_le_ceil (p / 100 * (((sortFloat64s data).length : ℚ) - 1))
          omega
        have hcle : ⌈p / 100 * (((sortFloat64s data).length : ℚ) - 1)⌉
            ≤ ((sortFloat64s data).length : Int) - 1 := by
          rw [Int.ceil_le]
          push_cast
          exact hi1
        rw [hceil] at hcle ⊢
        have htn : (⌊p / 100 * (((sortFloat64s data).length : ℚ) - 1)⌋ + 1).toNat
            = ⌊p / 100 * (((sortFloat64s data).length : ℚ) - 1)⌋.toNat + 1 := by omega
        rw [sliceGet_of_range _ _ hf0 hflt, sliceGet_of_range _ _ (by omega) (by omega), htn]
        rfl

theorem calculatePercentile_eq_interp (data : List ℚ) (hne : data ≠ []) (p : ℚ) (hp0 : 0 ≤ p)
    (hp1 : p ≤ 100) :
    calculatePercentile data p
      = some (interp (bubbleSort data) (p / 100 * (((bubbleSort data).length : ℚ) - 1))) := by
  have hlen : 0 < (bubbleSort data).length := by
    rw [bubbleSort_length]
    exact List.length_pos.2 hne
  obtain ⟨hi0, hi1⟩ := index_range _ hlen p hp0 hp1
  obtain ⟨hf0, hf1, hfi, hflt, hw0, hw1, hend⟩ := floor_facts _ _ hi0 hi1
  have hcast : ((((bubbleSort data).length : Int) - 1 : Int) : ℚ)
      = ((bubbleSort data).length : ℚ) - 1 := by push_cast; ring
  unfold calculatePercentile
  rw [if_neg hne, hcast, truncToInt_of_nonneg hi0]
  by_cases hz : p ≤ 0
  · rw [if_pos hz, sliceGet_of_range _ 0 (le_refl _) hlen]
    have : p = 0 := le_antisymm hz hp0
    subst this
    simp [interp]
  · rw [if_neg hz]
    by_cases hc : p ≥ 100
    · rw [if_pos hc]
      have : p = 100 := le_antisymm hp1 hc
      subst this
      have hidx : (100 : ℚ) / 100 * (((bubbleSort data).length : ℚ) - 1)
          = ((((bubbleSort data).length : Int) - 1 : Int) : ℚ) := by
        push_cast; ring
      rw [sliceGet_of_range _ _ (by omega) (by omega), hidx, interp_of_int _ _ (by simp)]
      simp
    · rw [if_neg hc]
      by_cases hup : ⌊p / 100 * (((bubbleSort data).length : ℚ) - 1)⌋ + 1
          ≥ ((bubbleSort data).length : Int)
      · rw [if_pos hup, sliceGet_of_range _ _ hf0 hflt, interp_of_int _ _ (hend (by omega))]
      · rw [if_neg hup]
        have htn : (⌊p / 100 * (((bubbleSort data).length : ℚ) - 1)⌋ + 1).toNat
            = ⌊p / 100 * (((bubbleSort data).length : ℚ) - 1)⌋.toNat + 1 := by omega
        rw [sliceGet_of_range _ _ hf0 hflt, sliceGet_of_range _ _ (by omega) (by omega), htn]
        rfl

theorem index_mono (n : Nat) (hn : 0 < n) (p q : ℚ) (hpq : p ≤ q) :
    p / 100 * ((n : ℚ) - 1) ≤ q / 100 * ((n : ℚ) - 1) := by
  have hn1 : (0 : ℚ) ≤ (n : ℚ) - 1 := by
    have : (1 : ℚ) ≤ (n : ℚ) := by exact_mod_cast hn
    linarith
  have : p / 100 ≤ q / 100 := div_le_div_of_nonneg_right hpq (by norm_num)
  exact mul_le_mul_of_nonneg_right this hn1

/-- Without rounding: for every non-empty list of rationals and all `p ≤ q` in `[0, 100]`, the
exact versions `percentile` and `calculatePercentile` return a value for `p` and for `q`, and
the value for `p` is at most the value for `q`. -/
theorem percentile_monotone_exact (data : List ℚ) (p q : ℚ) (hne : data ≠ []) (hp : 0 ≤ p)
    (hpq : p ≤ q) (hq : q ≤ 100) :
    (∃ a b, percentile data p = some (some a) ∧ percentile data q = some (some b) ∧ a ≤ b)
      ∧ (∃ a b, calculatePercentile data p = some a ∧ calculatePercentile data q = some b
          ∧ a ≤ b) := by
  have hlen1 : 0 < (sortFloat64s data).length := by
    rw [sortFloat64s_length]; exact List.length_pos.2 hne
  have hlen2 : 0 < (bubbleSort data).length := by
    rw [bubbleSort_length]; exact List.length_pos.2 hne
  constructor
  · refine ⟨_, _, percentile_eq_interp data hne p hp (le_trans hpq hq),
      percentile_eq_interp data hne q (le_trans hp hpq) hq, ?_⟩
    exact interp_mono _ (sortFloat64s_sorted data) _ _
      (index_range _ hlen1 p hp (le_trans hpq hq)).1 (index_mono _ hlen1 p q hpq)
      (index_range _ hlen1 q (le_trans hp hpq) hq).2
  · refine ⟨_, _, calculatePercentile_eq_interp data hne p hp (le_trans hpq hq),
      calculatePercentile_eq_interp data hne q (le_trans hp hpq) hq, ?_⟩
    exact interp_mono _ (bubbleSort_sorted data) _ _
      (index_range _ hlen2 p hp (le_trans hpq hq)).1 (index_mono _ hlen2 p q hpq)
      (index_range _ hlen2 q (le_trans hp hpq) hq).2

/-! ## The fallback ladder of `runBatchSampling` -/

theorem runBatchSampling_simple_path (cfg : Config) (pathCounter : GoMap)
    (normal : List (String × List Traces)) (abnormal : List Traces) (bufferCount : Nat)
    (codes : List String) (rng : Rng) (ga gaAdvanced : GAOutcome) :
    runBatchSampling cfg pathCounter normal abnormal bufferCount codes rng ga gaAdvanced
      = if 0 < batchCurrentQuota cfg abnormal bufferCount ∧ 0 < normal.length then
          match buildLatencyMatrix (batchAllNormal normal)
                (getAllLabelsAndMap normal abnormal).2 (getAllLabelsAndMap normal abnormal).1,
              buildLatencyMatrix abnormal
                (getAllLabelsAndMap normal abnormal).2 (getAllLabelsAndMap normal abnormal).1 with
          | some rawDist, some abDist =>
            match NewSampleProblem rawDist abDist
                (batchQuotas normal
                  (AllocateQuota codes (batchTypeCounts normal) pathCounter
                    (batchCurrentQuota cfg abnormal bufferCount)))
                (batchBases normal) cfg.CombinationCount 1 rng with
            | GoResult.error _ => none
            | GoResult.crash => none
            | GoResult.ok (problem, rng1) =>
              match problem.GetIdxsByVar
                  (match ga with
                    | GAOutcome.best genes => genes
                    | _ => (NewSampleVectorSimple problem rng1).1) with
              | none => none
              | some finalIndices =>
                match pickTraces (batchAllNormal normal) finalIndices with
                | none => none
                | some sampled => some (abnormal ++ sampled)
          | _, _ => none
        else some abnormal := by
  unfold runBatchSampling
  simp only [OptimizeWithSimpleFallback_eq]

/-- Whenever the run of the simple genetic algorithm ends without a best genome (an error of
`NewGA` or `Minimize`, an empty hall of fame, a best genome of another type),
`OptimizeWithSimpleFallback` returns its randomly initialised vector without an error, so
`runBatchSampling` samples with that vector through the simple problem exactly as if the
algorithm had returned it: the result does not depend on what the advanced optimizer would do,
and neither the advanced variant nor uniform random sampling is reached. -/
theorem failed_run_uses_fallback_vector (cfg : Config) (pathCounter : GoMap)
    (normal : List (String × List Traces)) (abnormal : List Traces) (bufferCount : Nat)
    (codes : List String) (rng : Rng) (ga gaAdvanced gaAdvanced2 : GAOutcome)
    (hfail : ∀ genes, ga ≠ GAOutcome.best genes) :
    runBatchSampling cfg pathCounter normal abnormal bufferCount codes rng ga gaAdvanced
        = runBatchSampling cfg pathCounter normal abnormal bufferCount codes rng ga gaAdvanced2
      ∧ (∀ problem rng1, OptimizeWithSimpleFallback problem rng1 ga
          = (GoResult.ok (NewSampleVectorSimple problem rng1).1,
              (NewSampleVectorSimple problem rng1).2))
      ∧ (∀ rawDist abDist problem rng1,
          buildLatencyMatrix (batchAllNormal normal) (getAllLabelsAndMap normal abnormal).2
              (getAllLabelsAndMap normal abnormal).1 = some rawDist →
          buildLatencyMatrix abnormal (getAllLabelsAndMap normal abnormal).2
              (getAllLabelsAndMap normal abnormal).1 = some abDist →
          NewSampleProblem rawDist abDist
              (batchQuotas normal
                (AllocateQuota codes (batchTypeCounts normal) pathCounter
                  (batchCurrentQuota cfg abnormal bufferCount)))
              (batchBases normal) cfg.CombinationCount 1 rng = GoResult.ok (problem, rng1) →
          runBatchSampling cfg pathCounter normal abnormal bufferCount codes rng ga gaAdvanced
            = runBatchSampling cfg pathCounter normal abnormal bufferCount codes rng
                (GAOutcome.best (NewSampleVectorSimple problem rng1).1) gaAdvanced) := by
  refine ⟨?_, ?_, ?_⟩
  · rw [runBatchSampling_simple_path, runBatchSampling_simple_path]
  · intro problem rng1
    rw [OptimizeWithSimpleFallback_eq]
    cases ga with
    | best genes => exact absurd rfl (hfail genes)
    | createFailed => rfl
    | minimizeFailed => rfl
    | emptyHallOfFame => rfl
    | wrongType => rfl
  · intro rawDist abDist problem rng1 hraw hab hprob
    rw [runBatchSampling_simple_path, runBatchSampling_simple_path]
    cases ga with
    | best genes => exact absurd rfl (hfail genes)
    | createFailed => simp only [hraw, hab, hprob]
    | minimizeFailed => simp only [hraw, hab, hprob]
    | emptyHallOfFame => simp only [hraw, hab, hprob]
    | wrongType => simp only [hraw, hab, hprob]

/-! ## The uniform random fallback -/

theorem filterMap_getElem?_range (all : List Traces) :
    ((List.range all.length).map (fun (i : Nat) => (i : Int))).filterMap
      (fun i => all[i.toNat]?) = all := by
  rw [List.filterMap_map]
  have h : ∀ l : List Traces, (List.range l.length).filterMap (fun k => l[k]?) = l := by
    intro l
    induction l using List.reverseRecOn with
    | nil => rfl
    | append_singleton l a ih =>
      rw [List.length_append, List.length_singleton, List.range_succ, List.filterMap_append]
      have e1 : (List.range l.length).filterMap (fun k => (l ++ [a])[k]?)
          = (List.range l.length).filterMap (fun k => l[k]?) := by
        apply List.filterMap_congr
        intro k hk
        rw [List.getElem?_append_left (List.mem_range.1 hk)]
      rw [e1, ih]
      simp
  have e : (List.range all.length).filterMap ((fun i => all[i.toNat]?) ∘ fun (i : Nat) => (i : Int))
      = (List.range all.length).filterMap (fun k => all[k]?) := by
    apply List.filterMap_congr
    intro k _
    simp
  rw [e, h]

theorem length_filterMap_of_isSome {α β : Type} (f : α → Option β) (l : List α)
    (h : ∀ x ∈ l, (f x).isSome = true) : (l.filterMap f).length = l.length := by
  induction l with
  | nil => rfl
  | cons a t ih =>
    have ha := h a (List.mem_cons_self _ _)
    obtain ⟨b, hb⟩ := Option.isSome_iff_exists.1 ha
    rw [List.filterMap_cons_some hb, List.length_cons, List.length_cons,
      ih (fun x hx => h x (List.mem_cons_of_mem _ hx))]

/-- For every input and every random outcome, the trace set produced by
`simpleRandomSampling` is empty when the sample count `int(float64(total) · rate)` is not
positive, is all normal and abnormal traces when there are at most that many of them, and
otherwise consists of exactly that many traces taken at distinct positions of the normal and
abnormal traces together: abnormal traces are drawn like normal ones. -/
theorem simpleRandomSampling_sample (cfg : Config)
    (normalTraces abnormalTraces : List Traces) (totalTraces : Int) (rng : Rng) :
    (sampleCount cfg totalTraces ≤ 0 →
        (simpleRandomSampling cfg normalTraces abnormalTraces totalTraces rng).1 = [])
      ∧ (0 < sampleCount cfg totalTraces →
          ((normalTraces ++ abnormalTraces).length : Int) ≤ sampleCount cfg totalTraces →
          (simpleRandomSampling cfg normalTraces abnormalTraces totalTraces rng).1
            = normalTraces ++ abnormalTraces)
      ∧ (0 < sampleCount cfg totalTraces →
          sampleCount cfg totalTraces < ((normalTraces ++ abnormalTraces).length : Int) →
          ((simpleRandomSampling cfg normalTraces abnormalTraces totalTraces rng).1.length : Int)
              = sampleCount cfg totalTraces
            ∧ (simpleRandomSampling cfg normalTraces abnormalTraces totalTraces rng).1.Subperm
                (normalTraces ++ abnormalTraces)) := by
  refine ⟨?_, ?_, ?_⟩
  · intro h
    unfold simpleRandomSampling
    rw [if_pos h]
  · intro h1 h2
    unfold simpleRandomSampling
    rw [if_neg (by omega), if_pos h2]
  · intro h1 h2
    unfold simpleRandomSampling
    rw [if_neg (by omega), if_neg (by omega)]
    have hperm := shuffleDown_perm ((normalTraces ++ abnormalTraces).length - 1)
      ((List.range (normalTraces ++ abnormalTraces).length).map (fun (i : Nat) => (i : Int)))
      rng (by simp only [List.length_map, List.length_range]; omega)
    constructor
    · rw [length_filterMap_of_isSome]
      · rw [List.length_take, hperm.length_eq]
        simp only [List.length_map, List.length_range]
        omega
      · intro x hx
        have hx2 := hperm.subset (List.mem_of_mem_take hx)
        simp only [List.mem_map, List.mem_range] at hx2
        obtain ⟨k, hk, rfl⟩ := hx2
        simp [List.getElem?_eq_getElem hk]
    · have hp2 := hperm.filterMap (fun i => (normalTraces ++ abnormalTraces)[i.toNat]?)
      rw [filterMap_getElem?_range] at hp2
      exact (List.Sublist.subperm ((List.take_sublist _ _).filterMap _)).trans hp2.subperm

theorem mapHas_mapStore (m : GoMap) (k : String) (v : Int) (t : String) :
    mapHas (mapStore m k v) t = (decide (t = k) || mapHas m t) := by
  induction m with
  | nil =>
    simp only [mapStore]
    rw [mapHas_cons]
    by_cases ht : t = k <;> simp [ht, mapHas]
  | cons p m ih =>
    obtain ⟨k2, v2⟩ := p
    simp only [mapStore]
    by_cases h : k2 = k
    · rw [if_pos h, mapHas_cons, mapHas_cons]
      subst h
      by_cases ht : t = k2 <;> simp [ht]
    · rw [if_neg h, mapHas_cons, mapHas_cons, ih]
      by_cases ht : t = k2 <;> simp [ht]

theorem nodesOf_putServiceNames (trace : Traces) :
    nodesOf (putServiceNames trace) = nodesOf trace := by
  unfold nodesOf
  rw [encSpans_putServiceNames]

/-- A call of `ConsumeTraces` files the trace under the type id `Encode` gives it. -/
theorem consumeTrace_wellTyped (lib : GoLib) (s s1 : BFSEncoder × SharedBuffer) (td : Traces)
    (hty : WellTyped lib s.2.typeMap) (h : consumeTrace lib s td = some s1) :
    WellTyped lib s1.2.typeMap := by
  unfold consumeTrace at h
  have hid := encode_typeID lib s.1 td
  cases hr : (s.1.Encode lib td).result with
  | none =>
    rw [hr] at h
    exact absurd h (by simp)
  | some r =>
    rw [hr] at h hid
    change some r.1 = _ at hid
    simp only [Option.some.injEq] at h
    rw [← h]
    unfold SharedBuffer.Add
    by_cases hab : r.2 = true
    · rw [if_pos hab]
      exact hty
    · rw [if_neg hab]
      intro k tr htr
      change tr ∈ tracesOf (typeMapAppend s.2.typeMap r.1 (s.1.Encode lib td).trace) k at htr
      rw [tracesOf_typeMapAppend] at htr
      by_cases hk : k = r.1
      · rw [if_pos hk] at htr
        rcases List.mem_append.mp htr with hm | hm
        · exact hty k tr hm
        · rw [List.mem_singleton] at hm
          rw [hm, hk]
          change typeIDOf lib (nodesOf (putServiceNames td)) = some r.1
          rw [nodesOf_putServiceNames]
          exact hid.symm
      · rw [if_neg hk] at htr
        exact hty k tr htr

/-- The traces of a buffer filled by calls of `ConsumeTraces` are filed under the type ids
`Encode` gives them. -/
theorem consumeAll_wellTyped (lib : GoLib) :
    ∀ (tds : List Traces) (s s1 : BFSEncoder × SharedBuffer),
      WellTyped lib s.2.typeMap → consumeAll lib s tds = some s1 →
      WellTyped lib s1.2.typeMap := by
  intro tds
  induction tds with
  | nil =>
    intro s s1 hty h
    simp only [consumeAll, Option.some.injEq] at h
    rw [← h]; exact hty
  | cons td rest ih =>
    intro s s1 hty h
    simp only [consumeAll] at h
    cases hc : consumeTrace lib s td with
    | none =>
      rw [hc] at h
      exact absurd h (by simp)
    | some s2 =>
      rw [hc] at h
      exact ih s2 s1 (consumeTrace_wellTyped lib s s2 td hty hc) h

theorem foldl_bubblePass_perm (n : Nat) : ∀ (idxs : List Nat) (s : List ℚ),
    (idxs.foldl (fun s i => bubblePass (n - 1 - i) s) s).Perm s := by
  intro idxs
  induction idxs with
  | nil => intro s; exact List.Perm.refl _
  | cons i rest ih =>
    intro s
    rw [List.foldl_cons]
    exact (ih _).trans (bubblePass_perm _ _)

theorem bubbleSort_perm (l : List ℚ) : (bubbleSort l).Perm l := by
  unfold bubbleSort
  exact foldl_bubblePass_perm l.length _ l

theorem bubbleSort_eq_sortFloat64s (l : List ℚ) : bubbleSort l = sortFloat64s l := by
  apply List.eq_of_perm_of_sorted _ (bubbleSort_sorted l) (sortFloat64s_sorted l)
  exact (bubbleSort_perm l).trans (List.perm_insertionSort _ l).symm

/-- C34. For every non-empty data list of finite numbers (exact arithmetic) and every `p` in
`[0, 100]`, `percentile(data, p)` of `group_sampler.go` and `calculatePercentile(data, p)` of
`group_sampler_advanced.go` return the same value: the hand-written bubble sort yields the
same slice as `sort.Float64s`, and both functions interpolate at `p/100·(n−1)`. -/
theorem C34_percentile_implementations_agree (data : List ℚ) (p : ℚ) (hne : data ≠ [])
    (hp0 : 0 ≤ p) (hp1 : p ≤ 100) :
    bubbleSort data = sortFloat64s data
      ∧ ∃ v, percentile data p = some (some v) ∧ calculatePercentile data p = some v := by
  refine ⟨bubbleSort_eq_sortFloat64s data, _, percentile_eq_interp data hne p hp0 hp1, ?_⟩
  rw [calculatePercentile_eq_interp data hne p hp0 hp1, bubbleSort_eq_sortFloat64s]

theorem C34_percentile_implementations_agree_witness :
    bubbleSort [3, 1, 2] = sortFloat64s [3, 1, 2]
      ∧ ∃ v, percentile [3, 1, 2] 90 = some (some v)
        ∧ calculatePercentile [3, 1, 2] 90 = some v :=
  C34_percentile_implementations_agree [3, 1, 2] 90 (by simp) (by norm_num) (by norm_num)

/-! ## Every span is visited at most once -/

theorem bfsVisited_nil (lib : GoLib) (nodes : List Node) (fuel : Nat) (seen : List Node) :
    bfsVisited lib nodes fuel [] seen = some seen := by
  cases fuel <;> rfl

theorem bfsVisited_succ_cons (lib : GoLib) (nodes : List Node) (fuel : Nat) (q : Nat)
    (queue : List Nat) (seen : List Node) :
    bfsVisited lib nodes (fuel + 1) (q :: queue) seen
      = bfsVisited lib nodes fuel
          ((lib.sortSlice ((q :: queue).filterMap (spanMapGet nodes))).flatMap
            (fun node => childrenOf nodes node.id))
          (seen ++ lib.sortSlice ((q :: queue).filterMap (spanMapGet nodes))) := rfl

/-- The label path is the list of the labels of the visited spans. -/
theorem bfsLoop_eq_visited (lib : GoLib) (nodes : List Node) :
    ∀ (fuel : Nat) (queue : List Nat) (seen : List Node),
      bfsLoop lib nodes fuel queue (seen.map (fun n => n.label))
        = (bfsVisited lib nodes fuel queue seen).map (fun r => r.map (fun n => n.label)) := by
  intro fuel
  induction fuel with
  | zero =>
    intro queue seen
    cases queue <;> rfl
  | succ fuel ih =>
    intro queue seen
    cases queue with
    | nil => rfl
    | cons q queue =>
      rw [bfsLoop_succ_cons, bfsVisited_succ_cons, ← List.map_append, ih]

theorem bfsVisited_spec (lib : GoLib) (hsort : SortsByLabel lib) (nodes : List Node)
    (hd : DistinctIDs nodes) :
    ∀ (fuel : Nat) (visited queue : List Nat) (seen : List Node),
      queue.Nodup →
      (∀ x ∈ queue, x ∉ visited ∧ ∃ n ∈ nodes, n.id = x) →
      (∀ z, z ∈ visited ∨ z ∈ queue → ∀ n ∈ nodes, n.id = z → n.parent = 0 ∨ n.parent ∈ visited) →
      (nodes.filter (fun n => decide (n.id ∉ visited))).length ≤ fuel →
      seen.Nodup → (∀ n ∈ seen, n ∈ nodes ∧ n.id ∈ visited) →
      ∃ r, bfsVisited lib nodes fuel queue seen = some r ∧ r.Nodup ∧ ∀ n ∈ r, n ∈ nodes := by
  intro fuel
  induction fuel with
  | zero =>
    intro visited queue seen _ hq _ hlen hsn hs
    cases queue with
    | nil => exact ⟨seen, rfl, hsn, fun n hn => (hs n hn).1⟩
    | cons x xs =>
      obtain ⟨hx, n, hn, hid⟩ := hq x (List.mem_cons_self _ _)
      have hmem : n ∈ nodes.filter (fun n => decide (n.id ∉ visited)) :=
        List.mem_filter.2 ⟨hn, by simpa [hid] using hx⟩
      have := List.length_pos_of_mem hmem
      omega
  | succ fuel ih =>
    intro visited queue seen hqn hq hpar hlen hsn hs
    cases queue with
    | nil => exact ⟨seen, bfsVisited_nil _ _ _ _, hsn, fun n hn => (hs n hn).1⟩
    | cons x xs =>
      rw [bfsVisited_succ_cons]
      have hlevel : ∀ n ∈ lib.sortSlice ((x :: xs).filterMap (spanMapGet nodes)),
          n ∈ nodes ∧ n.id ∈ x :: xs := by
        intro n hn
        have hn2 := ((hsort _).1.mem_iff).1 hn
        rw [List.mem_filterMap] at hn2
        obtain ⟨y, hy, hget⟩ := hn2
        obtain ⟨h1, h2⟩ := spanMapGet_some hget
        exact ⟨h1, h2 ▸ hy⟩
      have hlevelnd : (lib.sortSlice ((x :: xs).filterMap (spanMapGet nodes))).Nodup := by
        rw [(hsort _).1.nodup_iff]
        apply List.Nodup.filterMap _ hqn
        intro a a2 b hb hb2
        have h1 := (spanMapGet_some (Option.mem_def.1 hb)).2
        have h2 := (spanMapGet_some (Option.mem_def.1 hb2)).2
        exact h1.symm.trans h2
      apply ih (visited ++ (x :: xs))
      · rw [List.nodup_flatMap]
        refine ⟨fun n _ => childrenOf_nodup hd n.id, ?_⟩
        apply List.Pairwise.imp_of_mem _ hlevelnd
        intro a b ha hb hab
        intro y hya hyb
        obtain ⟨_, m, hm, hp, hmid⟩ := mem_childrenOf hya
        obtain ⟨_, m2, hm2, hp2, hmid2⟩ := mem_childrenOf hyb
        have hmm : m = m2 := List.inj_on_of_nodup_map hd hm hm2 (hmid.trans hmid2.symm)
        have hids : a.id = b.id := by rw [← hp, ← hp2, hmm]
        exact hab (List.inj_on_of_nodup_map hd (hlevel a ha).1 (hlevel b hb).1 hids)
      · intro y hy
        obtain ⟨x2, hx2, hx20, m, hm, hp, hmid⟩ := mem_next_level hsort hy
        refine ⟨?_, m, hm, hmid⟩
        intro hyv
        have hcase : y ∈ visited ∨ y ∈ x :: xs := List.mem_append.1 hyv
        rcases hpar y hcase m hm hmid with h1 | h1
        · exact hx20 (hp.symm.trans h1)
        · rw [hp] at h1
          exact (hq x2 hx2).1 h1
      · intro z hz n hn hid
        rcases hz with hz | hz
        · rcases hpar z (List.mem_append.1 hz) n hn hid with h1 | h1
          · exact Or.inl h1
          · exact Or.inr (List.mem_append_left _ h1)
        · obtain ⟨x2, hx2, -, m, hm, hp, hmid⟩ := mem_next_level hsort hz
          have : n = m := List.inj_on_of_nodup_map hd hn hm (hid.trans hmid.symm)
          rw [this, hp]
          exact Or.inr (List.mem_append_right _ hx2)
      · obtain ⟨hx, n, hn, hid⟩ := hq x (List.mem_cons_self _ _)
        have e : nodes.filter (fun n => decide (n.id ∉ visited ++ (x :: xs)))
            = (nodes.filter (fun n => decide (n.id ∉ visited))).filter
                (fun n => decide (n.id ∉ x :: xs)) := by
          rw [List.filter_filter]
          apply List.filter_congr
          intro m _
          simp only [List.mem_append, not_or, Bool.decide_and, Bool.and_comm]
        rw [e]
        have hlt : ((nodes.filter (fun n => decide (n.id ∉ visited))).filter
            (fun n => decide (n.id ∉ x :: xs))).length
            < (nodes.filter (fun n => decide (n.id ∉ visited))).length := by
          rw [List.length_filter_lt_length_iff_exists]
          refine ⟨n, List.mem_filter.2 ⟨hn, by simpa [hid] using hx⟩, ?_⟩
          simp [hid]
        omega
      · rw [List.nodup_append]
        refine ⟨hsn, hlevelnd, ?_⟩
        intro n hn1 hn2
        exact (hq n.id (hlevel n hn2).2).1 (hs n hn1).2
      · intro n hn
        rcases List.mem_append.1 hn with h | h
        · exact ⟨(hs n h).1, List.mem_append_left _ (hs n h).2⟩
        · exact ⟨(hlevel n h).1, List.mem_append_right _ (hlevel n h).2⟩

theorem nodup_of_distinctIDs {nodes : List Node} (hd : DistinctIDs nodes) : nodes.Nodup :=
  List.Nodup.of_map _ hd

/-- With distinct span ids and a root, the traversal ends after at most as many levels as
there are spans, no span is visited twice, and the path has at most one label per span. -/
theorem labelPath_visits_once (lib : GoLib) (hsort : SortsByLabel lib) (nodes : List Node)
    (hd : DistinctIDs nodes) (h : rootIDOf nodes ≠ 0) :
    ∃ visited, bfsVisited lib nodes nodes.length [rootIDOf nodes] [] = some visited
      ∧ labelPath lib nodes = some (visited.map (fun n => n.label))
      ∧ visited.Nodup ∧ (∀ n ∈ visited, n ∈ nodes) ∧ visited.length ≤ nodes.length := by
  have hroot : nodes.filter (fun n => decide (n.parent = 0)) ≠ [] := by
    intro h0
    exact h (rootIDOf_of_no_root h0)
  obtain ⟨r, hr, hp, hid⟩ := rootIDOf_node hroot
  obtain ⟨visited, hv, hnd, hsub⟩ := bfsVisited_spec lib hsort nodes hd nodes.length []
    [rootIDOf nodes] [] (List.nodup_singleton _)
    (by
      intro x hx
      rw [List.mem_singleton] at hx
      exact ⟨by simp, r, hr, hid.trans hx.symm⟩)
    (by
      intro z hz n hn hnid
      rcases hz with hz | hz
      · simp at hz
      · rw [List.mem_singleton] at hz
        have : n = r := List.inj_on_of_nodup_map hd hn hr (hnid.trans (hz.trans hid.symm))
        rw [this]
        exact Or.inl hp)
    (List.length_filter_le _ _) List.nodup_nil (by simp)
  refine ⟨visited, hv, ?_, hnd, hsub, ?_⟩
  · unfold labelPath
    have := bfsLoop_eq_visited lib nodes nodes.length [rootIDOf nodes] []
    rw [List.map_nil] at this
    rw [this, hv]
    rfl
  · exact (List.subperm_of_subset hnd hsub).length_le

/-- C38. For every trace whose span ids are pairwise distinct (and a `sort.Slice` that sorts),
`Encode` returns: either there is no root with a span id and the loop is not entered, or the
loop ends after at most as many levels as the trace has spans, every span is visited at most
once, and the label path, one label per visited span, has at most as many labels as the trace
has spans. -/
theorem C38_traversal_terminates (lib : GoLib) (hsort : SortsByLabel lib) (e : BFSEncoder)
    (trace : Traces) (hd : DistinctIDs (nodesOf trace)) :
    (∃ r, (e.Encode lib trace).result = some r)
      ∧ (rootIDOf (nodesOf trace) ≠ 0 →
          ∃ visited, bfsVisited lib (nodesOf trace) (nodesOf trace).length
                [rootIDOf (nodesOf trace)] [] = some visited
            ∧ labelPath lib (nodesOf trace) = some (visited.map (fun n => n.label))
            ∧ visited.Nodup ∧ (∀ n ∈ visited, n ∈ nodesOf trace)
            ∧ (visited.map (fun n => n.label)).length ≤ (encSpans trace).length) := by
  have hpart : rootIDOf (nodesOf trace) ≠ 0 →
      ∃ visited, bfsVisited lib (nodesOf trace) (nodesOf trace).length
            [rootIDOf (nodesOf trace)] [] = some visited
        ∧ labelPath lib (nodesOf trace) = some (visited.map (fun n => n.label))
        ∧ visited.Nodup ∧ (∀ n ∈ visited, n ∈ nodesOf trace)
        ∧ (visited.map (fun n => n.label)).length ≤ (encSpans trace).length := by
    intro h
    obtain ⟨visited, hv, hpath, hnd, hsub, hlen⟩ :=
      labelPath_visits_once lib hsort (nodesOf trace) hd h
    refine ⟨visited, hv, hpath, hnd, hsub, ?_⟩
    rw [List.length_map]
    have : (nodesOf trace).length = (encSpans trace).length := by
      unfold nodesOf
      rw [List.length_map]
    omega
  refine ⟨?_, hpart⟩
  have hid := encode_typeID lib e trace
  by_cases h : rootIDOf (nodesOf trace) = 0
  · have ht : typeIDOf lib (nodesOf trace) = some "empty_root" := by
      unfold typeIDOf
      rw [if_pos h]
    rw [ht] at hid
    cases hr : (e.Encode lib trace).result with
    | none => rw [hr] at hid; exact absurd hid (by simp)
    | some r => exact ⟨r, rfl⟩
  · obtain ⟨visited, _, hpath, _⟩ := hpart h
    have ht : typeIDOf lib (nodesOf trace)
        = some (lib.sha1hex (String.intercalate "->" (visited.map (fun n => n.label)))) := by
      unfold typeIDOf
      rw [if_neg h, hpath]
      rfl
    rw [ht] at hid
    cases hr : (e.Encode lib trace).result with
    | none => rw [hr] at hid; exact absurd hid (by simp)
    | some r => exact ⟨r, rfl⟩

theorem C38_traversal_terminates_witness :
    ∃ visited, bfsVisited exactLib (nodesOf siblingTrace) (nodesOf siblingTrace).length
          [rootIDOf (nodesOf siblingTrace)] [] = some visited
      ∧ labelPath exactLib (nodesOf siblingTrace) = some (visited.map (fun n => n.label))
      ∧ visited.Nodup ∧ (∀ n ∈ visited, n ∈ nodesOf siblingTrace)
      ∧ (visited.map (fun n => n.label)).length ≤ (encSpans siblingTrace).length :=
  (C38_traversal_terminates exactLib exactLib_sorts (NewBFSEncoder (NewHistPool 1000))
    siblingTrace (by decide!)).2 (by decide!)

/-! ## The cells of the latency matrix -/

theorem range_map_getD (l : List Cell) :
    (List.range l.length).map (fun j => l.getD j none) = l := by
  apply List.ext_getElem
  · simp
  · intro n h1 h2
    simp [List.getD_eq_getElem?_getD, List.getElem?_eq_getElem h2]

theorem specCell_cons (label2idx : GoMap) (s : Span) (rest : List Span) (j : Nat) :
    specCell label2idx (s :: rest) j
      = (specCell label2idx rest j).or
          (if mapHas label2idx (getSpanLabel s) = true
              ∧ mapGet label2idx (getSpanLabel s) = (j : Int)
            then some (durationMilliseconds (spanDuration s)) else none) := by
  unfold specCell
  by_cases hp : mapHas label2idx (getSpanLabel s) = true
      ∧ mapGet label2idx (getSpanLabel s) = (j : Int)
  · rw [if_pos hp, List.filter_cons_of_pos (by simp [hp.1, hp.2]), List.getLast?_cons]
    cases (List.filter (fun s => mapHas label2idx (getSpanLabel s)
      && decide (mapGet label2idx (getSpanLabel s) = (j : Int))) rest).getLast? <;> rfl
  · rw [if_neg hp, List.filter_cons_of_neg (by simpa using hp)]
    cases (List.filter (fun s => mapHas label2idx (getSpanLabel s)
      && decide (mapGet label2idx (getSpanLabel s) = (j : Int))) rest).getLast? <;> rfl

/-- The row written by the span loops: every cell holds the duration of the last span mapped
to its column, or what it held before when there is no such span. -/
theorem fillRow_eq {label2idx : GoMap} {width : Nat}
    (hidx : ∀ k, mapHas label2idx k = true →
      0 ≤ mapGet label2idx k ∧ mapGet label2idx k < (width : Int)) :
    ∀ (spans : List Span) (row : List Cell), row.length = width →
      fillRow label2idx spans row
        = some ((List.range width).map
            (fun j => (specCell label2idx spans j).or (row.getD j none))) := by
  intro spans
  induction spans with
  | nil =>
    intro row h
    have : (fun j => (specCell label2idx [] j).or (row.getD j none))
        = fun j => row.getD j none := by
      funext j
      rfl
    rw [this, ← h, range_map_getD]
    rfl
  | cons sp rest ih =>
    intro row h
    by_cases hh : mapHas label2idx (getSpanLabel sp) = true
    · obtain ⟨h0, h1⟩ := hidx _ hh
      have hset : setCell row (mapGet label2idx (getSpanLabel sp))
          (some (durationMilliseconds (spanDuration sp)))
          = some (row.set (mapGet label2idx (getSpanLabel sp)).toNat
              (some (durationMilliseconds (spanDuration sp)))) := by
        unfold setCell
        rw [h]
        simp [h0, h1]
      have hstep : fillRow label2idx (sp :: rest) row
          = fillRow label2idx rest (row.set (mapGet label2idx (getSpanLabel sp)).toNat
              (some (durationMilliseconds (spanDuration sp)))) := by
        simp only [fillRow, hh, if_true, hset]
      rw [hstep, ih _ (by simp [h])]
      congr 1
      apply List.map_congr_left
      intro j hj
      rw [List.mem_range] at hj
      rw [specCell_cons]
      cases specCell label2idx rest j with
      | some v => rfl
      | none =>
        simp only [Option.or, hh, true_and]
        have hi : (mapGet label2idx (getSpanLabel sp)).toNat < row.length := by omega
        by_cases hji : mapGet label2idx (getSpanLabel sp) = (j : Int)
        · rw [if_pos hji]
          have : (mapGet label2idx (getSpanLabel sp)).toNat = j := by omega
          rw [this] at hi ⊢
          simp [List.getD_eq_getElem?_getD, List.getElem?_set, hi]
        · rw [if_neg hji]
          have : (mapGet label2idx (getSpanLabel sp)).toNat ≠ j := by omega
          simp [List.getD_eq_getElem?_getD, List.getElem?_set, this]
    · have hstep : fillRow label2idx (sp :: rest) row = fillRow label2idx rest row := by
        simp only [fillRow, hh]
        simp
      rw [hstep, ih row h]
      congr 1
      apply List.map_congr_left
      intro j _
      rw [specCell_cons, if_neg (fun hc => hh hc.1)]
      cases specCell label2idx rest j <;> rfl

theorem fillRow_filter_mapped (label2idx : GoMap) :
    ∀ (spans : List Span) (row : List Cell),
      fillRow label2idx
          (spans.filter (fun s => mapHas label2idx (getSpanLabel s))) row
        = fillRow label2idx spans row := by
  intro spans
  induction spans with
  | nil => intro row; rfl
  | cons sp rest ih =>
    intro row
    by_cases hh : mapHas label2idx (getSpanLabel sp) = true
    · rw [List.filter_cons, if_pos hh]
      simp only [fillRow, hh, if_true]
      cases setCell row (mapGet label2idx (getSpanLabel sp))
          (some (durationMilliseconds (spanDuration sp))) with
      | none => rfl
      | some row1 => exact ih row1
    · rw [List.filter_cons, if_neg hh, ih row]
      simp only [fillRow, hh]
      simp

theorem buildLatencyMatrix_eq_spec {label2idx : GoMap} {allLabels : List String}
    (hidx : ∀ k, mapHas label2idx k = true →
      0 ≤ mapGet label2idx k ∧ mapGet label2idx k < (allLabels.length : Int)) :
    ∀ traces : List Traces,
      buildLatencyMatrix traces label2idx allLabels
        = some (specMatrix traces label2idx allLabels) := by
  intro traces
  induction traces with
  | nil => rfl
  | cons tr rest ih =>
    have hrow := fillRow_eq hidx (spansOf tr) (List.replicate allLabels.length none) (by simp)
    have hcell : (fun j => (specCell label2idx (spansOf tr) j).or
          ((List.replicate allLabels.length (none : Cell)).getD j none))
        = specCell label2idx (spansOf tr) := by
      funext j
      have : (List.replicate allLabels.length (none : Cell)).getD j none = none := by
        by_cases hjl : j < allLabels.length <;>
          simp [List.getD_eq_getElem?_getD, List.getElem?_replicate, hjl]
      rw [this]
      cases specCell label2idx (spansOf tr) j <;> rfl
    rw [hcell] at hrow
    simp only [buildLatencyMatrix, hrow, ih]
    rfl

/-- C36. For every list of traces and every label-to-column map whose values are columns of
the matrix (indices of `allLabels`), `buildLatencyMatrix` returns one row per trace of length
`len(allLabels)`; the cell of column `j` is the whole-millisecond duration of the last span,
in resource then scope then span order, whose label maps to `j`, and `NaN` when the trace has
no such span; the spans whose label is not in the map can be left out without changing a
row. -/
theorem C36_latency_matrix_cells (traces : List Traces) (label2idx : GoMap)
    (allLabels : List String)
    (hidx : ∀ k, mapHas label2idx k = true →
      0 ≤ mapGet label2idx k ∧ mapGet label2idx k < (allLabels.length : Int)) :
    buildLatencyMatrix traces label2idx allLabels
        = some (specMatrix traces label2idx allLabels)
      ∧ (specMatrix traces label2idx allLabels).length = traces.length
      ∧ (∀ row ∈ specMatrix traces label2idx allLabels, row.length = allLabels.length)
      ∧ (∀ (i j : Nat) (trace : Traces), traces[i]? = some trace → j < allLabels.length →
          ((specMatrix traces label2idx allLabels)[i]?).bind (fun row => row[j]?)
            = some (specCell label2idx (spansOf trace) j))
      ∧ (∀ (spans : List Span) (row : List Cell),
          fillRow label2idx
              (spans.filter (fun s => mapHas label2idx (getSpanLabel s))) row
            = fillRow label2idx spans row) := by
  refine ⟨buildLatencyMatrix_eq_spec hidx traces, by simp [specMatrix], ?_, ?_,
    fillRow_filter_mapped label2idx⟩
  · intro row hrow
    unfold specMatrix at hrow
    rw [List.mem_map] at hrow
    obtain ⟨tr, _, rfl⟩ := hrow
    simp
  · intro i j trace ht hj
    unfold specMatrix
    rw [List.getElem?_map, ht]
    simp [hj]

theorem C36_latency_matrix_cells_witness :
    buildLatencyMatrix [repeatedLabelTrace, errorTrace]
        (getAllLabelsAndMap [("t", [repeatedLabelTrace])] []).2
        (getAllLabelsAndMap [("t", [repeatedLabelTrace])] []).1
      = some [[some 9, some 7], [none, none]] :=
  (C36_latency_matrix_cells [repeatedLabelTrace, errorTrace]
    (getAllLabelsAndMap [("t", [repeatedLabelTrace])] []).2
    (getAllLabelsAndMap [("t", [repeatedLabelTrace])] []).1
    (getAllLabelsAndMap_range [("t", [repeatedLabelTrace])] [])).1.trans (by decide!)

/-! ## The label columns of a batch -/

theorem indexFrom_get : ∀ (labels : List String) (i k : Nat) (l : String),
    labels.Nodup → labels[k]? = some l →
      mapHas (indexFrom i labels) l = true ∧ mapGet (indexFrom i labels) l = ((i + k : Nat) : Int) := by
  intro labels
  induction labels with
  | nil => intro i k l _ h; simp at h
  | cons a rest ih =>
    intro i k l hnd h
    rw [List.nodup_cons] at hnd
    simp only [indexFrom]
    rw [mapHas_cons, mapGet_cons]
    cases k with
    | zero =>
      simp only [List.getElem?_cons_zero, Option.some.injEq] at h
      rw [if_pos h.symm, if_pos h.symm]
      exact ⟨rfl, rfl⟩
    | succ k =>
      rw [List.getElem?_cons_succ] at h
      have hmem : l ∈ rest := by
        rw [List.getElem?_eq_some] at h
        obtain ⟨hlt, heq⟩ := h
        exact heq ▸ List.getElem_mem hlt
      have hne : ¬ l = a := fun e => hnd.1 (e ▸ hmem)
      rw [if_neg hne, if_neg hne]
      obtain ⟨h1, h2⟩ := ih (i + 1) k l hnd.2 h
      refine ⟨h1, ?_⟩
      rw [h2]
      congr 1
      omega

theorem indexFrom_has : ∀ (labels : List String) (i : Nat) (l : String),
    mapHas (indexFrom i labels) l = true ↔ l ∈ labels := by
  intro labels
  induction labels with
  | nil => intro i l; simp [indexFrom, mapHas]
  | cons a rest ih =>
    intro i l
    simp only [indexFrom]
    rw [mapHas_cons]
    by_cases h : l = a
    · simp [h]
    · simp [h, ih (i + 1) l]

/-- What `getAllLabelsAndMap` returns: the sorted duplicate-free list of the labels of the
normal traces, and the map from the `i`-th label to `i`. -/
theorem getAllLabelsAndMap_spec (normalTraces : List (String × List Traces))
    (abnormalTraces : List Traces) :
    (getAllLabelsAndMap normalTraces abnormalTraces).1.Sorted (fun a b => a ≤ b)
      ∧ (getAllLabelsAndMap normalTraces abnormalTraces).1.Nodup
      ∧ (∀ l, l ∈ (getAllLabelsAndMap normalTraces abnormalTraces).1
          ↔ l ∈ normalLabels normalTraces)
      ∧ (∀ (i : Nat) (l : String),
          (getAllLabelsAndMap normalTraces abnormalTraces).1[i]? = some l →
            mapHas (getAllLabelsAndMap normalTraces abnormalTraces).2 l = true
              ∧ mapGet (getAllLabelsAndMap normalTraces abnormalTraces).2 l = (i : Int))
      ∧ (∀ l, mapHas (getAllLabelsAndMap normalTraces abnormalTraces).2 l = true
          ↔ l ∈ normalLabels normalTraces) := by
  have hperm : (getAllLabelsAndMap normalTraces abnormalTraces).1.Perm
      (normalLabels normalTraces).dedup := by
    unfold getAllLabelsAndMap sortStrings normalLabels
    exact List.perm_insertionSort _ _
  have hnd : (getAllLabelsAndMap normalTraces abnormalTraces).1.Nodup :=
    hperm.nodup_iff.mpr (List.nodup_dedup _)
  have hmem : ∀ l, l ∈ (getAllLabelsAndMap normalTraces abnormalTraces).1
      ↔ l ∈ normalLabels normalTraces := by
    intro l
    rw [hperm.mem_iff, List.mem_dedup]
  refine ⟨?_, hnd, hmem, ?_, ?_⟩
  · unfold getAllLabelsAndMap sortStrings
    exact List.sorted_insertionSort _ _
  · intro i l h
    have := indexFrom_get _ 0 i l hnd h
    rw [Nat.zero_add] at this
    exact this
  · intro l
    rw [← hmem l]
    exact indexFrom_has _ 0 l

/-- C37. The labels returned by `getAllLabelsAndMap` are the sorted duplicate-free labels of
the spans of the normal traces only, and `label2idx` maps the `i`-th of them to column `i`;
the abnormal traces are not read, so a label that occurs only in an abnormal trace has no
column: with one normal trace of labels `svc:a`, `svc:b` and one abnormal trace of label
`svc:c`, the label list is `[svc:a, svc:b]`, `svc:c` is not a key of the map and the row of
the abnormal trace in the latency matrix holds `NaN` only. -/
theorem C37_abnormal_labels_have_no_column :
    (∀ (normalTraces : List (String × List Traces)) (abnormalTraces : List Traces),
        getAllLabelsAndMap normalTraces abnormalTraces = getAllLabelsAndMap normalTraces []
          ∧ (getAllLabelsAndMap normalTraces abnormalTraces).1.Sorted (fun a b => a ≤ b)
          ∧ (getAllLabelsAndMap normalTraces abnormalTraces).1.Nodup
          ∧ (∀ l, l ∈ (getAllLabelsAndMap normalTraces abnormalTraces).1
              ↔ l ∈ normalLabels normalTraces)
          ∧ (∀ (i : Nat) (l : String),
              (getAllLabelsAndMap normalTraces abnormalTraces).1[i]? = some l →
                mapHas (getAllLabelsAndMap normalTraces abnormalTraces).2 l = true
                  ∧ mapGet (getAllLabelsAndMap normalTraces abnormalTraces).2 l = (i : Int)))
      ∧ abnormalLabels [errorTrace] = ["svc:c"]
      ∧ (getAllLabelsAndMap [("t", [repeatedLabelTrace])] [errorTrace]).1 = ["svc:a", "svc:b"]
      ∧ mapHas (getAllLabelsAndMap [("t", [repeatedLabelTrace])] [errorTrace]).2 "svc:c" = false
      ∧ buildLatencyMatrix [errorTrace]
          (getAllLabelsAndMap [("t", [repeatedLabelTrace])] [errorTrace]).2
          (getAllLabelsAndMap [("t", [repeatedLabelTrace])] [errorTrace]).1
        = some [[none, none]] := by
  refine ⟨?_, by decide!, by decide!, by decide!, by decide!⟩
  intro normalTraces abnormalTraces
  obtain ⟨h1, h2, h3, h4, _⟩ := getAllLabelsAndMap_spec normalTraces abnormalTraces
  exact ⟨rfl, h1, h2, h3, h4⟩


/-! ## Percentiles of data that may hold `NaN` -/

theorem nanCount_add_finite (data : List Flt) :
    nanCount data + (finiteEntries data).length = data.length := by
  unfold nanCount finiteEntries
  induction data with
  | nil => rfl
  | cons a rest ih =>
    cases a with
    | none =>
      rw [List.filter_cons_of_pos (by rfl), List.filterMap_cons_none (by rfl)]
      simp only [List.length_cons]
      omega
    | some v =>
      rw [List.filter_cons_of_neg (by simp), List.filterMap_cons_some (by rfl)]
      simp only [List.length_cons]
      omega

theorem sortFloat64sFlt_length (data : List Flt) :
    (sortFloat64sFlt data).length = data.length := by
  unfold sortFloat64sFlt
  rw [List.length_append, List.length_replicate, List.length_map, sortFloat64s_length]
  exact nanCount_add_finite data

theorem sliceGetFlt_nan (data : List Flt) (i : Int) (h0 : 0 ≤ i)
    (hlt : i.toNat < nanCount data) : sliceGetFlt (sortFloat64sFlt data) i = some none := by
  unfold sliceGetFlt sortFloat64sFlt
  rw [if_neg (by omega), List.getElem?_append_left (by simpa using hlt),
    List.getElem?_replicate, if_pos hlt]

theorem sliceGetFlt_finite (data : List Flt) (i : Int) (h0 : 0 ≤ i)
    (hk : nanCount data ≤ i.toNat) (hlt : i.toNat < data.length) :
    sliceGetFlt (sortFloat64sFlt data) i
      = some (some ((sortFloat64s (finiteEntries data)).getD (i.toNat - nanCount data) 0)) := by
  have hlen := nanCount_add_finite data
  have hin : i.toNat - nanCount data < (sortFloat64s (finiteEntries data)).length := by
    rw [sortFloat64s_length]; omega
  unfold sliceGetFlt sortFloat64sFlt
  rw [if_neg (by omega), List.getElem?_append_right (by simpa using hk),
    List.length_replicate, List.getElem?_map, List.getElem?_eq_getElem hin,
    List.getD_eq_getElem _ _ hin]
  rfl

theorem floor_sub_natCast (x : ℚ) (k : Nat) : ⌊x - (k : ℚ)⌋ = ⌊x⌋ - (k : Int) := by
  have : x - (k : ℚ) = x - ((k : Int) : ℚ) := by push_cast; rfl
  rw [this, Int.floor_sub_int]

/-- What `percentile` returns without rounding on data with `NaN` entries: `NaN` while the
lower index lies among the `NaN` entries that the sort put first, and otherwise the
interpolation of the sorted other entries at the position shifted by the number of `NaN`
entries. -/
theorem percentileFlt_eq (data : List Flt) (p : ℚ) (hne : data ≠ []) (hp0 : 0 ≤ p)
    (hp1 : p ≤ 100) (hfin : finiteEntries data ≠ []) :
    percentileFlt data p
      = some (if ⌊p / 100 * ((data.length : ℚ) - 1)⌋ < (nanCount data : Int) then none
          else some (interp (sortFloat64s (finiteEntries data))
            (p / 100 * ((data.length : ℚ) - 1) - (nanCount data : ℚ)))) := by
  have hlen : 0 < data.length := List.length_pos.2 hne
  have hm : 0 < (finiteEntries data).length := List.length_pos.2 hfin
  have hkm := nanCount_add_finite data
  obtain ⟨hi0, hi1⟩ := index_range _ hlen p hp0 hp1
  obtain ⟨hf0, hf1, hfi, hflt, hw0, hw1, hend⟩ := floor_facts _ _ hi0 hi1
  have hfs := floor_sub_natCast (p / 100 * ((data.length : ℚ) - 1)) (nanCount data)
  have hw : p / 100 * ((data.length : ℚ) - 1) - (nanCount data : ℚ)
      - ((⌊p / 100 * ((data.length : ℚ) - 1) - (nanCount data : ℚ)⌋ : Int) : ℚ)
      = p / 100 * ((data.length : ℚ) - 1) - (⌊p / 100 * ((data.length : ℚ) - 1)⌋ : ℚ) := by
    rw [hfs]; push_cast; ring
  unfold percentileFlt
  rw [if_neg hne, sortFloat64sFlt_length]
  by_cases hz : p = 0
  · rw [if_pos hz]
    subst hz
    simp only [zero_div, zero_mul, Int.floor_zero]
    by_cases hk : 0 < nanCount data
    · rw [sliceGetFlt_nan data 0 (le_refl _) (by simpa using hk),
        if_pos (by exact_mod_cast hk)]
    · have hk0 : nanCount data = 0 := by omega
      rw [sliceGetFlt_finite data 0 (le_refl _) (by simp [hk0]) (by simpa using hlen),
        if_neg (by simp [hk0])]
      simp [hk0, interp]
  · rw [if_neg hz]
    by_cases hc : p = 100
    · rw [if_pos hc]
      subst hc
      have hidx : (100 : ℚ) / 100 * ((data.length : ℚ) - 1)
          = (((data.length : Int) - 1 : Int) : ℚ) := by
        push_cast; ring
      have hfl : ⌊(100 : ℚ) / 100 * ((data.length : ℚ) - 1)⌋ = (data.length : Int) - 1 := by
        rw [hidx, Int.floor_intCast]
      rw [sliceGetFlt_finite data _ (by omega) (by omega) (by omega), hfl,
        if_neg (by omega), interp_of_int _ _ (by rw [hw, hfl, hidx]; push_cast; ring), hfs, hfl]
      congr 3
      omega
    · rw [if_neg hc]
      by_cases hk : ⌊p / 100 * ((data.length : ℚ) - 1)⌋ < (nanCount data : Int)
      · rw [if_pos hk]
        have hnan := sliceGetFlt_nan data _ hf0 (by omega)
        by_cases hfc : ⌊p / 100 * ((data.length : ℚ) - 1)⌋
            = ⌈p / 100 * ((data.length : ℚ) - 1)⌉
        · rw [if_pos hfc, hnan]
        · rw [if_neg hfc, hnan]
          have hceil : ⌈p / 100 * ((data.length : ℚ) - 1)⌉
              = ⌊p / 100 * ((data.length : ℚ) - 1)⌋ + 1 := by
            have h1 := Int.ceil_le_floor_add_one (p / 100 * ((data.length : ℚ) - 1))
            have h2 := Int.floor_le_ceil (p / 100 * ((data.length : ℚ) - 1))
            omega
          have hcle : ⌈p / 100 * ((data.length : ℚ) - 1)⌉ ≤ (data.length : Int) - 1 := by
            rw [Int.ceil_le]
            push_cast
            exact hi1
          rw [hceil] at hcle ⊢
          by_cases hk2 : (⌊p / 100 * ((data.length : ℚ) - 1)⌋ + 1).toNat < nanCount data
          · rw [sliceGetFlt_nan data _ (by omega) hk2]
            rfl
          · rw [sliceGetFlt_finite data _ (by omega) (by omega) (by omega)]
            rfl
      · rw [if_neg hk]
        have hfinlo := sliceGetFlt_finite data _ hf0 (by omega) hflt
        by_cases hfc : ⌊p / 100 * ((data.length : ℚ) - 1)⌋
            = ⌈p / 100 * ((data.length : ℚ) - 1)⌉
        · rw [if_pos hfc, hfinlo]
          have hle := Int.le_ceil (p / 100 * ((data.length : ℚ) - 1))
          rw [← hfc] at hle
          rw [interp_of_int _ _ (by rw [hw]; linarith), hfs]
          congr 3
          omega
        · rw [if_neg hfc]
          have hceil : ⌈p / 100 * ((data.length : ℚ) - 1)⌉
              = ⌊p / 100 * ((data.length : ℚ) - 1)⌋ + 1 := by
            have h1 := Int.ceil_le_floor_add_one (p / 100 * ((data.length : ℚ) - 1))
            have h2 := Int.floor_le_ceil (p / 100 * ((data.length : ℚ) - 1))
            omega
          have hcle : ⌈p / 100 * ((data.length : ℚ) - 1)⌉ ≤ (data.length : Int) - 1 := by
            rw [Int.ceil_le]
            push_cast
            exact hi1
          rw [hceil] at hcle ⊢
          rw [hfinlo, sliceGetFlt_finite data _ (by omega) (by omega) (by omega)]
          simp only [fltAdd, fltMul]
          unfold interp
          rw [hw, hfs]
          congr 5
          · omega
          · omega

theorem finiteEntries_map_some (data : List ℚ) : finiteEntries (data.map some) = data := by
  unfold finiteEntries
  induction data with
  | nil => rfl
  | cons a rest ih => rw [List.map_cons, List.filterMap_cons_some (by rfl), ih]

theorem nanCount_map_some (data : List ℚ) : nanCount (data.map some) = 0 := by
  have h := nanCount_add_finite (data.map some)
  rw [finiteEntries_map_some, List.length_map] at h
  omega

theorem nanCount_eq_zero_iff (data : List Flt) :
    nanCount data = 0 ↔ data = (finiteEntries data).map some := by
  unfold nanCount finiteEntries
  induction data with
  | nil => simp
  | cons a rest ih =>
    cases a with
    | none =>
      rw [List.filter_cons_of_pos (by rfl), List.filterMap_cons_none (by rfl)]
      constructor
      · intro h; simp at h
      · intro h
        have := congrArg List.length h
        have hle := List.length_filterMap_le id rest
        simp only [List.length_cons, List.length_map] at this
        omega
    | some v =>
      rw [List.filter_cons_of_neg (by simp), List.filterMap_cons_some (by rfl), List.map_cons]
      constructor
      · intro h
        rw [← ih.1 h]
      · intro h
        exact ih.2 (List.cons.inj h).2

/-- On data without `NaN` entries the function is `percentile` on exact rationals. -/
theorem percentileFlt_of_finite (data : List Flt) (p : ℚ) (hp0 : 0 ≤ p) (hp1 : p ≤ 100)
    (hfin : finiteEntries data ≠ []) (hk : nanCount data = 0) :
    percentileFlt data p = percentile (finiteEntries data) p := by
  have hne : data ≠ [] := by
    intro h
    rw [h] at hfin
    exact hfin rfl
  have hlen := nanCount_add_finite data
  rw [percentileFlt_eq data p hne hp0 hp1 hfin, percentile_eq_interp _ hfin p hp0 hp1, hk,
    sortFloat64s_length]
  rw [hk, Nat.zero_add] at hlen
  rw [hlen]
  have h0 : 0 ≤ ⌊p / 100 * ((data.length : ℚ) - 1)⌋ :=
    Int.floor_nonneg.2 (index_range _ (List.length_pos.2 hne) p hp0 hp1).1
  simp [h0]

/-! ## The realised sample of a genome -/

theorem NewSampleProblem_ok_combCount {rawDist abDist : List (List Cell)}
    {quotas bases : List Int} {combCount M : Int} {rng rng1 : Rng} {problem : SampleProblem}
    (h : NewSampleProblem rawDist abDist quotas bases combCount M rng
      = GoResult.ok (problem, rng1)) : 2 ≤ combCount := by
  by_contra hc
  unfold NewSampleProblem at h
  rw [if_pos (by omega)] at h
  cases h

theorem NewSampleProblemAdvanced_ok_combCount {rawDist abDist : List (List Cell)}
    {quotas bases : List Int} {combCount : Int} {rng rng1 : Rng}
    {problem : SampleProblemAdvanced}
    (h : NewSampleProblemAdvanced rawDist abDist quotas bases combCount rng
      = GoResult.ok (problem, rng1)) : 2 ≤ combCount := by
  by_contra hc
  unfold NewSampleProblemAdvanced at h
  rw [if_pos (by omega)] at h
  cases h

/-- A table with at least one row that was built for quotas not above the bases: no base is
negative. -/
theorem bases_nonneg_of_table {quotas bases : List Int} {combCount : Int}
    {allCombs : List (List (List Int))} (htable : TableSpec quotas bases combCount allCombs)
    (hcc : 1 ≤ combCount) (hqb : List.Forall₂ (fun (q b : Int) => q ≤ b) quotas bases) :
    ∀ b ∈ bases, 0 ≤ b := by
  have hrows : 0 < allCombs.length := by
    have := htable.1
    omega
  obtain ⟨hrl, hrow⟩ := htable.2 allCombs[0] (List.getElem_mem hrows)
  intro b hb
  obtain ⟨i, hi, hget⟩ := List.getElem_of_mem hb
  obtain ⟨q, hq, hle⟩ := forall₂_getElem? hqb i b (by rw [List.getElem?_eq_getElem hi, hget])
  have hiq : i < quotas.length := by
    rw [List.getElem?_eq_some] at hq
    exact hq.1
  have hir : i < allCombs[0].length := by omega
  have hspec := hrow i q allCombs[0][i] hq (List.getElem?_eq_getElem hir)
  have h0 : 0 ≤ q := by
    rw [← hspec.1]
    exact Int.natCast_nonneg _
  omega

/-- The indices a valid genome selects from a table, from position `j` on. -/
theorem getIdxsFrom_table {quotas bases : List Int} {combCount : Int}
    {allCombs : List (List (List Int))} (htable : TableSpec quotas bases combCount allCombs)
    (hnn : ∀ b ∈ bases, 0 ≤ b) :
    ∀ (genes : List Int) (j : Nat), genes.length + j = quotas.length →
      (∀ g ∈ genes, 0 ≤ g ∧ g < combCount) →
      ∃ idxs, getIdxsFrom allCombs j genes = some idxs
        ∧ getIdxsAdvancedFrom allCombs j genes = idxs
        ∧ idxs = (genomeCombs allCombs j genes).flatten
        ∧ (idxs.length : Int) = (quotas.drop j).sum
        ∧ idxs.Nodup
        ∧ (∀ x ∈ idxs, rangeLo bases j ≤ x ∧ x < rangeLo bases quotas.length)
        ∧ ∀ (i : Nat) (q : Int), quotas[i]? = some q →
            ((idxs.filter (inTypeRange bases i)).length : Int) = if j ≤ i then q else 0 := by
  intro genes
  induction genes with
  | nil =>
    intro j hj _
    refine ⟨[], rfl, rfl, rfl, ?_, List.nodup_nil, by simp, ?_⟩
    · simp only [List.length_nil, Nat.zero_add] at hj
      rw [List.drop_eq_nil_of_le (by omega)]
      rfl
    · intro i q hq
      have hi : i < quotas.length := by
        rw [List.getElem?_eq_some] at hq
        exact hq.1
      simp only [List.length_nil, Nat.zero_add] at hj
      rw [if_neg (by omega)]
      rfl
  | cons g rest ih =>
    intro j hj hg
    simp only [List.length_cons] at hj
    have hg0 := hg g (List.mem_cons_self _ _)
    have hgl : g.toNat < allCombs.length := by
      have := htable.1
      omega
    have hjq : j < quotas.length := by omega
    obtain ⟨hrl, hrow⟩ := htable.2 allCombs[g.toNat] (List.getElem_mem hgl)
    have hjr : j < allCombs[g.toNat].length := by omega
    obtain ⟨hclen, hcnd, hcrange⟩ := hrow j quotas[j] allCombs[g.toNat][j]
      (List.getElem?_eq_getElem hjq) (List.getElem?_eq_getElem hjr)
    obtain ⟨more, hmore, hadv, hspec, hmlen, hmnd, hmrange, hmcount⟩ :=
      ih (j + 1) (by omega) (fun g hg2 => hg g (List.mem_cons_of_mem _ hg2))
    have hneg : ¬ g < 0 := by omega
    have hlo1 : rangeLo bases j ≤ rangeLo bases (j + 1) := rangeLo_le_succ hnn j
    have hhi : rangeHi bases j = rangeLo bases (j + 1) := rfl
    have hend : rangeLo bases (j + 1) ≤ rangeLo bases quotas.length :=
      rangeLo_mono hnn (by omega)
    refine ⟨allCombs[g.toNat][j] ++ more, ?_, ?_, ?_, ?_, ?_, ?_, ?_⟩
    · simp only [getIdxsFrom, hneg, if_false, List.getElem?_eq_getElem hgl,
        List.getElem?_eq_getElem hjr, hmore]
    · simp only [getIdxsAdvancedFrom, hg0.1, if_true, List.getElem?_eq_getElem hgl,
        List.getElem?_eq_getElem hjr, hadv, Option.getD_some]
    · unfold genomeCombs at hspec ⊢
      rw [List.enumFrom_cons, List.map_cons, List.flatten_cons, ← hspec]
      simp only [List.getD_eq_getElem?_getD, List.getElem?_eq_getElem hgl,
        List.getElem?_eq_getElem hjr, Option.getD_some]
    · rw [List.drop_eq_getElem_cons hjq, List.sum_cons, List.length_append, Nat.cast_add,
        hclen, hmlen]
    · rw [List.nodup_append]
      refine ⟨hcnd, hmnd, ?_⟩
      intro x hx1 hx2
      have h1 := (hcrange x hx1).2
      have h2 := (hmrange x hx2).1
      omega
    · intro x hx
      rcases List.mem_append.1 hx with h | h
      · have := hcrange x h
        omega
      · have := hmrange x h
        omega
    · intro i q hq
      have hi : i < quotas.length := by
        rw [List.getElem?_eq_some] at hq
        exact hq.1
      rw [List.filter_append, List.length_append, Nat.cast_add, hmcount i q hq]
      rcases Nat.lt_trichotomy i j with hij | hij | hij
      · have hfil : (allCombs[g.toNat][j]).filter (inTypeRange bases i) = [] := by
          rw [List.filter_eq_nil_iff]
          intro x hx
          have h1 := (hcrange x hx).1
          have h2 : rangeHi bases i ≤ rangeLo bases j := rangeLo_mono hnn (by omega)
          simp only [inTypeRange, decide_eq_true_eq, not_and, not_lt]
          intro _
          omega
        rw [hfil, if_neg (by omega), if_neg (by omega)]
        rfl
      · subst hij
        have hfil : (allCombs[g.toNat][i]).filter (inTypeRange bases i)
            = allCombs[g.toNat][i] := by
          rw [List.filter_eq_self]
          intro x hx
          have := hcrange x hx
          simp only [inTypeRange, decide_eq_true_eq]
          exact this
        rw [List.getElem?_eq_getElem hjq] at hq
        simp only [Option.some.injEq] at hq
        rw [hfil, if_neg (by omega), if_pos (le_refl _), hclen, hq, add_zero]
      · have hfil : (allCombs[g.toNat][j]).filter (inTypeRange bases i) = [] := by
          rw [List.filter_eq_nil_iff]
          intro x hx
          have h1 := (hcrange x hx).2
          have h2 : rangeLo bases (j + 1) ≤ rangeLo bases i := rangeLo_mono hnn (by omega)
          simp only [inTypeRange, decide_eq_true_eq, not_and, not_lt]
          intro h3
          omega
        rw [hfil, if_pos (by omega), if_pos (by omega)]
        simp

/-- The realised sample of a valid genome on a table built for quotas not above the bases. -/
theorem selection_of_table {quotas bases : List Int} {combCount : Int}
    {allCombs : List (List (List Int))} (htable : TableSpec quotas bases combCount allCombs)
    (hcc : 1 ≤ combCount) (hqb : List.Forall₂ (fun (q b : Int) => q ≤ b) quotas bases)
    (genes : List Int) (hlen : genes.length = quotas.length)
    (hg : ∀ g ∈ genes, 0 ≤ g ∧ g < combCount) :
    ∃ idxs, getIdxsFrom allCombs 0 genes = some idxs
      ∧ getIdxsAdvancedFrom allCombs 0 genes = idxs
      ∧ SelectionSpec quotas bases allCombs genes idxs := by
  have hnn := bases_nonneg_of_table htable hcc hqb
  obtain ⟨idxs, h1, h2, h3, h4, h5, h6, h7⟩ :=
    getIdxsFrom_table htable hnn genes 0 (by omega) hg
  refine ⟨idxs, h1, h2, h3, by rw [h4, List.drop_zero], h5, ?_, ?_⟩
  · intro x hx
    have := h6 x hx
    have hl : rangeLo bases quotas.length = bases.sum := by
      rw [hqb.length_eq, rangeLo_length]
    have h0 : rangeLo bases 0 = 0 := rfl
    omega
  · intro i q hq
    rw [h7 i q hq, if_pos (Nat.zero_le _)]

/-- C31. For every problem built with `quotas[i] ≤ bases[i]`, by `NewSampleProblem` or by
`NewSampleProblemAdvanced`, and every genome of length `numTypes` with every gene in
`[0, combCount)`, `GetIdxsByVar` reads no index out of range and returns the concatenation
over the types `j` of `AllCombs[g[j]][j]`: exactly `C = sum(quotas)` pairwise distinct
indices, all in `[0, sum(bases))`, of which exactly `quotas[j]` lie in the range of type
`j`. -/
theorem C31_genome_selects_quota_per_type (rawDist abDist : List (List Cell))
    (quotas bases : List Int) (combCount M : Int) (rng rng1 rngA rngA1 : Rng)
    (problem : SampleProblem) (problemA : SampleProblemAdvanced) (genes : List Int)
    (hqb : List.Forall₂ (fun (q b : Int) => q ≤ b) quotas bases)
    (h : NewSampleProblem rawDist abDist quotas bases combCount M rng
      = GoResult.ok (problem, rng1))
    (hA : NewSampleProblemAdvanced rawDist abDist quotas bases combCount rngA
      = GoResult.ok (problemA, rngA1))
    (hlen : genes.length = quotas.length) (hg : ∀ g ∈ genes, 0 ≤ g ∧ g < combCount) :
    (∃ idxs, problem.GetIdxsByVar genes = some idxs
        ∧ SelectionSpec quotas bases problem.AllCombs genes idxs)
      ∧ SelectionSpec quotas bases problemA.AllCombs genes (problemA.GetIdxsByVar genes)
      ∧ problem.C = quotas.sum ∧ problemA.C = quotas.sum := by
  obtain ⟨idxs, h1, _, h3⟩ := selection_of_table (NewSampleProblem_table h)
    (by have := NewSampleProblem_ok_combCount h; omega) hqb genes hlen hg
  obtain ⟨idxsA, _, h2A, h3A⟩ := selection_of_table (NewSampleProblemAdvanced_table hA)
    (by have := NewSampleProblemAdvanced_ok_combCount hA; omega) hqb genes hlen hg
  refine ⟨⟨idxs, h1, h3⟩, ?_, ?_, ?_⟩
  · unfold SampleProblemAdvanced.GetIdxsByVar
    rw [h2A]
    exact h3A
  · unfold NewSampleProblem at h
    split at h
    · cases h
    · split at h
      · cases h
      · split at h
        · cases h
        · split at h
          · simp only [GoResult.ok.injEq, Prod.mk.injEq] at h
            rw [← h.1]
          · cases h
  · unfold NewSampleProblemAdvanced at hA
    split at hA
    · cases hA
    · split at hA
      · cases hA
      · split at hA
        · cases hA
        · cases hA
        · split at hA
          · simp only [GoResult.ok.injEq, Prod.mk.injEq] at hA
            rw [← hA.1]
          · cases hA

theorem C31_genome_selects_quota_per_type_witness :
    ∃ (problem : SampleProblem) (problemA : SampleProblemAdvanced),
      (∃ idxs, problem.GetIdxsByVar [1, 0] = some idxs
          ∧ SelectionSpec [1, 1] [2, 1] problem.AllCombs [1, 0] idxs)
        ∧ SelectionSpec [1, 1] [2, 1] problemA.AllCombs [1, 0]
            (problemA.GetIdxsByVar [1, 0])
        ∧ problem.C = 2 ∧ problemA.C = 2 := by
  have hqb : List.Forall₂ (fun (q b : Int) => 0 ≤ q ∧ q ≤ b) [1, 1] [2, 1] :=
    List.Forall₂.cons ⟨by decide, by decide⟩
      (List.Forall₂.cons ⟨by decide, by decide⟩ List.Forall₂.nil)
  have hraw : ∀ r ∈ ([[some 1], [some 2], [none]] : List (List Cell)), r.length = 1 := by
    intro r hr
    simp at hr
    rcases hr with h | h | h <;> rw [h] <;> rfl
  have hab : ∀ r ∈ ([] : List (List Cell)), r.length = 1 := by
    intro r hr
    simp at hr
  obtain ⟨problem, rng1, h⟩ :=
    @NewSampleProblem_isOk [[some 1], [some 2], [none]] [] [1, 1] [2, 1] 2 1 (fun k => k) 1
      (by decide) (by simp) hqb hraw hab
  obtain ⟨problemA, rngA1, hA⟩ :=
    @NewSampleProblemAdvanced_isOk [[some 1], [some 2], [none]] [] [1, 1] [2, 1] 2
      (fun k => k) 1 (by decide) (by simp) hqb hraw hab
  exact ⟨problem, problemA,
    C31_genome_selects_quota_per_type [[some 1], [some 2], [none]] [] [1, 1] [2, 1] 2 1
      (fun k => k) rng1 (fun k => k) rngA1 problem problemA [1, 0]
      (List.Forall₂.cons (by decide) (List.Forall₂.cons (by decide) List.Forall₂.nil))
      h hA rfl (by decide)⟩

/-! ## The genetic operators keep genomes valid -/

theorem NewSampleProblem_ok_bounds {rawDist abDist : List (List Cell)}
    {quotas bases : List Int} {combCount M : Int} {rng rng1 : Rng} {problem : SampleProblem}
    (h : NewSampleProblem rawDist abDist quotas bases combCount M rng
      = GoResult.ok (problem, rng1)) :
    2 ≤ combCount ∧ problem.Dim = quotas.length
      ∧ problem.Lb = List.replicate quotas.length 0
      ∧ problem.Ub = List.replicate quotas.length (combCount - 1) := by
  refine ⟨NewSampleProblem_ok_combCount h, ?_⟩
  unfold NewSampleProblem at h
  split at h
  · cases h
  · split at h
    · cases h
    · split at h
      · cases h
      · split at h
        · simp only [GoResult.ok.injEq, Prod.mk.injEq] at h
          rw [← h.1]
          exact ⟨rfl, rfl, rfl⟩
        · cases h

theorem take_set_self (l : List Int) (i : Nat) (x : Int) : (l.set i x).take i = l.take i :=
  List.ext_getElem? fun k => by
    rw [List.getElem?_take, List.getElem?_take]
    split
    · rw [List.getElem?_set_ne (by omega)]
    · rfl

/-- The swap loop from `i` to the end exchanges the tails of the two genomes. -/
theorem crossLoop_eq : ∀ (todo : Nat) (a b : List Int) (i : Nat), a.length = b.length →
    i + todo = a.length →
      crossLoop a b todo i = (a.take i ++ b.drop i, b.take i ++ a.drop i) := by
  intro todo
  induction todo with
  | zero =>
    intro a b i hab hi
    simp only [crossLoop]
    rw [List.take_of_length_le (by omega), List.take_of_length_le (by omega),
      List.drop_of_length_le (by omega), List.drop_of_length_le (by omega),
      List.append_nil, List.append_nil]
  | succ todo ih =>
    intro a b i hab hi
    have hia : i < a.length := by omega
    have hib : i < b.length := by omega
    simp only [crossLoop]
    rw [ih _ _ (i + 1) (by simp [hab]) (by simp; omega)]
    have h1 : ∀ (l : List Int) (x : Int), i < l.length →
        (l.set i x).take (i + 1) = l.take i ++ [x] := by
      intro l x hl
      rw [List.take_succ, take_set_self, List.getElem?_set_self hl]
      rfl
    rw [h1 a _ hia, h1 b _ hib, List.drop_set_of_lt _ _ (by omega),
      List.drop_set_of_lt _ _ (by omega), List.getD_eq_getElem _ _ hia,
      List.getD_eq_getElem _ _ hib, List.append_assoc, List.append_assoc,
      List.singleton_append, List.singleton_append, ← List.drop_eq_getElem_cons hib,
      ← List.drop_eq_getElem_cons hia]

theorem validGenome_set {n : Nat} {combCount : Int} {genes : List Int}
    (h : ValidGenome n combCount genes) (i : Nat) {x : Int} (hx : 0 ≤ x ∧ x < combCount) :
    ValidGenome n combCount (genes.set i x) := by
  refine ⟨by rw [List.length_set]; exact h.1, ?_⟩
  intro g hg
  rcases List.mem_or_eq_of_mem_set hg with h1 | h1
  · exact h.2 g h1
  · rw [h1]; exact hx

theorem differAtMostOne_set (genes : List Int) (i : Nat) (x : Int) :
    DifferAtMostOne (genes.set i x) genes :=
  ⟨List.length_set _ _ _, i, fun _ hk => List.getElem?_set_ne (fun e => hk e.symm)⟩

/-- Both `Mutate` methods on a valid genome of a problem with the bounds `0` and
`combCount - 1`: one gene is replaced by a draw from `[0, combCount)`. -/
theorem mutate_valid (problem : SampleProblem) (n : Nat) (combCount : Int)
    (hcc : 2 ≤ combCount) (hlb : problem.Lb = List.replicate n 0)
    (hub : problem.Ub = List.replicate n (combCount - 1)) (genes : List Int) (rng : Rng)
    (hv : ValidGenome n combCount genes) :
    (∃ r, SampleVectorSimple.Mutate problem genes rng = some r
        ∧ ValidGenome n combCount r.1 ∧ DifferAtMostOne r.1 genes)
      ∧ ∃ r, SampleVector.Mutate problem genes rng = some r
        ∧ ValidGenome n combCount r.1 ∧ DifferAtMostOne r.1 genes := by
  by_cases h0 : genes.length = 0
  · constructor
    · refine ⟨(genes, rng), ?_, hv, rfl, 0, fun _ _ => rfl⟩
      unfold SampleVectorSimple.Mutate
      rw [if_pos h0]
    · refine ⟨(genes, rng), ?_, hv, rfl, 0, fun _ _ => rfl⟩
      unfold SampleVector.Mutate
      rw [if_neg (by omega)]
  · have hidx : (Intn rng genes.length).1 < n := by
      have := Intn_lt rng (show 0 < genes.length by omega)
      have h2 := hv.1
      omega
    have hl : problem.Lb[(Intn rng genes.length).1]? = some 0 := by
      rw [hlb, List.getElem?_replicate, if_pos hidx]
    have hu : problem.Ub[(Intn rng genes.length).1]? = some (combCount - 1) := by
      rw [hub, List.getElem?_replicate, if_pos hidx]
    have hpos : ¬ (combCount - 1 - 0 + 1 ≤ 0) := by omega
    have hdraw : ((Intn (Intn rng genes.length).2 (combCount - 1 - 0 + 1).toNat).1 : Int)
        < combCount := by
      have := Intn_lt (Intn rng genes.length).2 (show 0 < (combCount - 1 - 0 + 1).toNat by omega)
      omega
    constructor
    · refine ⟨(genes.set (Intn rng genes.length).1
          (0 + ((Intn (Intn rng genes.length).2 (combCount - 1 - 0 + 1).toNat).1 : Int)),
          (Intn (Intn rng genes.length).2 (combCount - 1 - 0 + 1).toNat).2), ?_,
        validGenome_set hv _ ⟨by omega, by omega⟩, differAtMostOne_set _ _ _⟩
      unfold SampleVectorSimple.Mutate
      rw [if_neg h0]
      simp only [hl, hu]
      rw [if_neg hpos]
    · refine ⟨(genes.set (Intn rng genes.length).1
          (((Intn (Intn rng genes.length).2 (combCount - 1 - 0 + 1).toNat).1 : Int) + 0),
          (Intn (Intn rng genes.length).2 (combCount - 1 - 0 + 1).toNat).2), ?_,
        validGenome_set hv _ ⟨by omega, by omega⟩, differAtMostOne_set _ _ _⟩
      unfold SampleVector.Mutate
      rw [if_pos (by omega)]
      simp only [hl, hu]
      rw [if_neg hpos]

/-- The method `Crossover` on two valid genomes: one cut point, the genes before it are kept,
the genes from it on are exchanged. -/
theorem crossover_valid (n : Nat) (combCount : Int) (a b : List Int) (rng : Rng)
    (ha : ValidGenome n combCount a) (hb : ValidGenome n combCount b) :
    ∃ c, c ≤ n
      ∧ (Crossover a b rng).1 = (a.take c ++ b.drop c, b.take c ++ a.drop c)
      ∧ ValidGenome n combCount (Crossover a b rng).1.1
      ∧ ValidGenome n combCount (Crossover a b rng).1.2 := by
  have hmix : ∀ (x y : List Int) (c : Nat), ValidGenome n combCount x →
      ValidGenome n combCount y → ValidGenome n combCount (x.take c ++ y.drop c) := by
    intro x y c hx hy
    refine ⟨?_, ?_⟩
    · rw [List.length_append, List.length_take, List.length_drop, hx.1, hy.1]
      omega
    · intro g hg
      rcases List.mem_append.1 hg with h | h
      · exact hx.2 g (List.mem_of_mem_take h)
      · exact hy.2 g (List.mem_of_mem_drop h)
  have hlen : a.length = b.length := by rw [ha.1, hb.1]
  by_cases h1 : a.length > 1
  · have hc : (Intn rng a.length).1 < a.length := Intn_lt rng (by omega)
    have heq : (Crossover a b rng).1
        = (a.take (Intn rng a.length).1 ++ b.drop (Intn rng a.length).1,
            b.take (Intn rng a.length).1 ++ a.drop (Intn rng a.length).1) := by
      unfold Crossover
      rw [if_neg (by simpa using hlen), if_pos h1]
      exact crossLoop_eq _ a b _ hlen (by omega)
    refine ⟨(Intn rng a.length).1, by rw [← ha.1]; omega, heq, ?_, ?_⟩
    · rw [heq]; exact hmix a b _ ha hb
    · rw [heq]; exact hmix b a _ hb ha
  · have heq : (Crossover a b rng).1 = (a, b) := by
      unfold Crossover
      rw [if_neg (by simpa using hlen), if_neg h1]
    refine ⟨n, le_refl _, ?_, by rw [heq]; exact ha, by rw [heq]; exact hb⟩
    have h2 := ha.1
    have h3 := hb.1
    rw [heq, List.take_of_length_le (by omega), List.take_of_length_le (by omega),
      List.drop_of_length_le (by omega), List.drop_of_length_le (by omega),
      List.append_nil, List.append_nil]

/-- C32. For a problem built by `NewSampleProblem` with `numTypes` types and genomes of length
`numTypes` with every gene in `[0, combCount)`: `Mutate` (of `SampleVectorSimple` and of
`SampleVector`, any random outcome) returns, changes at most one coordinate and leaves every
gene in `[0, combCount − 1]`; `Crossover` of two such genomes picks one cut point, keeps the
genes before it and exchanges the genes from it on (for fewer than two genes nothing is
exchanged: the cut point is the end), so both results are valid; and the genome of
`NewSampleVectorSimple` is valid when `Dim > 0`. -/
theorem C32_genetic_operators_keep_validity (rawDist abDist : List (List Cell))
    (quotas bases : List Int) (combCount M : Int) (rng rng1 : Rng) (problem : SampleProblem)
    (a b : List Int) (r : Rng)
    (h : NewSampleProblem rawDist abDist quotas bases combCount M rng
      = GoResult.ok (problem, rng1))
    (ha : ValidGenome quotas.length combCount a) (hb : ValidGenome quotas.length combCount b) :
    (∃ m, SampleVectorSimple.Mutate problem a r = some m
        ∧ ValidGenome quotas.length combCount m.1 ∧ DifferAtMostOne m.1 a)
      ∧ (∃ m, SampleVector.Mutate problem a r = some m
        ∧ ValidGenome quotas.length combCount m.1 ∧ DifferAtMostOne m.1 a)
      ∧ (∃ c, c ≤ quotas.length
        ∧ (Crossover a b r).1 = (a.take c ++ b.drop c, b.take c ++ a.drop c)
        ∧ ValidGenome quotas.length combCount (Crossover a b r).1.1
        ∧ ValidGenome quotas.length combCount (Crossover a b r).1.2)
      ∧ (0 < problem.Dim →
          ValidGenome quotas.length combCount (NewSampleVectorSimple problem r).1) := by
  obtain ⟨hcc, hdim, hlb, hub⟩ := NewSampleProblem_ok_bounds h
  obtain ⟨hm1, hm2⟩ := mutate_valid problem quotas.length combCount hcc hlb hub a r ha
  refine ⟨hm1, hm2, crossover_valid quotas.length combCount a b r ha hb, ?_⟩
  intro hpos
  have := simpleGenome_valid hcc (by omega) hdim hlb hub r GAOutcome.createFailed
    (fun genes hc => by cases hc)
  exact this

theorem C32_genetic_operators_keep_validity_witness :
    ∃ (problem : SampleProblem),
      (∃ m, SampleVectorSimple.Mutate problem [1, 0] (fun k => k + 1) = some m
          ∧ ValidGenome 2 2 m.1 ∧ DifferAtMostOne m.1 [1, 0])
        ∧ (∃ m, SampleVector.Mutate problem [1, 0] (fun k => k + 1) = some m
          ∧ ValidGenome 2 2 m.1 ∧ DifferAtMostOne m.1 [1, 0])
        ∧ (∃ c, c ≤ 2
          ∧ (Crossover [1, 0] [0, 1] (fun k => k + 1)).1
              = (List.take c [1, 0] ++ List.drop c [0, 1],
                  List.take c [0, 1] ++ List.drop c [1, 0])
          ∧ ValidGenome 2 2 (Crossover [1, 0] [0, 1] (fun k => k + 1)).1.1
          ∧ ValidGenome 2 2 (Crossover [1, 0] [0, 1] (fun k => k + 1)).1.2)
        ∧ (0 < problem.Dim →
            ValidGenome 2 2 (NewSampleVectorSimple problem (fun k => k + 1)).1) := by
  have hqb : List.Forall₂ (fun (q b : Int) => 0 ≤ q ∧ q ≤ b) [1, 1] [2, 1] :=
    List.Forall₂.cons ⟨by decide, by decide⟩
      (List.Forall₂.cons ⟨by decide, by decide⟩ List.Forall₂.nil)
  have hraw : ∀ r ∈ ([[some 1], [some 2], [none]] : List (List Cell)), r.length = 1 := by
    intro r hr
    simp at hr
    rcases hr with h | h | h <;> rw [h] <;> rfl
  have hab : ∀ r ∈ ([] : List (List Cell)), r.length = 1 := by
    intro r hr
    simp at hr
  obtain ⟨problem, rng1, h⟩ :=
    @NewSampleProblem_isOk [[some 1], [some 2], [none]] [] [1, 1] [2, 1] 2 1 (fun k => k) 1
      (by decide) (by simp) hqb hraw hab
  exact ⟨problem,
    C32_genetic_operators_keep_validity [[some 1], [some 2], [none]] [] [1, 1] [2, 1] 2 1
      (fun k => k) rng1 problem [1, 0] [0, 1] (fun k => k + 1) h
      ⟨rfl, by decide⟩ ⟨rfl, by decide⟩⟩

/-! ## The fitness of the simple optimizer -/

theorem penaltyFrom_eq_zero (lb ub : List Int) :
    ∀ (genes : List Int) (i : Nat),
      (∀ g ∈ genes, (∀ l ∈ lb, l ≤ g) ∧ ∀ u ∈ ub, g ≤ u) → penaltyFrom lb ub i genes = 0 := by
  intro genes
  induction genes with
  | nil => intro i _; rfl
  | cons g rest ih =>
    intro i h
    obtain ⟨hl, hu⟩ := h g (List.mem_cons_self _ _)
    simp only [penaltyFrom]
    rw [ih (i + 1) (fun x hx => h x (List.mem_cons_of_mem _ hx))]
    have h1 : (match lb[i]? with
        | some l => if g < l then (10 : ℚ) else 0
        | none => 0) = 0 := by
      cases hget : lb[i]? with
      | none => rfl
      | some l =>
        have hmem : l ∈ lb := by
          rw [List.getElem?_eq_some] at hget
          obtain ⟨hlt, heq⟩ := hget
          exact heq ▸ List.getElem_mem hlt
        have := hl l hmem
        simp only []
        rw [if_neg (by omega)]
    have h2 : (match ub[i]? with
        | some u => if g > u then (10 : ℚ) else 0
        | none => 0) = 0 := by
      cases hget : ub[i]? with
      | none => rfl
      | some u =>
        have hmem : u ∈ ub := by
          rw [List.getElem?_eq_some] at hget
          obtain ⟨hlt, heq⟩ := hget
          exact heq ▸ List.getElem_mem hlt
        have := hu u hmem
        simp only []
        rw [if_neg (by omega)]
    rw [h1, h2]
    norm_num

/-- The fitness of `SampleVectorSimple.Evaluate` for a non-empty genome within the bounds of
its problem: the sum of the genes, whatever the latency data of the problem. -/
theorem evaluate_eq_gene_sum (problem : SampleProblem) (n : Nat) (combCount : Int)
    (hlb : problem.Lb = List.replicate n 0)
    (hub : problem.Ub = List.replicate n (combCount - 1)) (genes : List Int)
    (hne : genes ≠ []) (hv : ValidGenome n combCount genes) :
    SampleVectorSimple.Evaluate problem genes
      = (genes.map (fun (gene : Int) => (gene : ℚ))).sum := by
  unfold SampleVectorSimple.Evaluate
  rw [if_neg (by simpa using hne), penaltyFrom_eq_zero, sub_zero]
  intro g hg
  have := hv.2 g hg
  rw [hlb, hub]
  constructor
  · intro l hl
    rw [List.eq_of_mem_replicate hl]
    exact this.1
  · intro u hu
    rw [List.eq_of_mem_replicate hu]
    omega

/-- C33. The fitness `SampleVectorSimple.Evaluate`, which the optimizer used by the processor
minimises, is not the percentile-profile score `SampleProblem.EvalVars`: for a non-empty
genome within the bounds it is the sum of the genes, whatever the latencies are. For the
problem built from two traces of 5 ms (one type, quota 1, two combinations, all draws `0`)
the genomes `[0]` and `[1]` select the same trace and `EvalVars` scores both with `0`, but
`Evaluate` returns `0` for `[0]` and `1` for `[1]`. -/
theorem C33_simple_fitness_is_gene_sum :
    (∃ rng1, NewSampleProblem [[some 5], [some 5]] [] [1] [2] 2 1 (fun _ => 0)
        = GoResult.ok (flatProblem, rng1))
      ∧ flatProblem.GetIdxsByVar [0] = some [1]
      ∧ flatProblem.GetIdxsByVar [1] = some [1]
      ∧ flatProblem.EvalVars [[0], [1]] = some [some 0, some 0]
      ∧ SampleVectorSimple.Evaluate flatProblem [0] = 0
      ∧ SampleVectorSimple.Evaluate flatProblem [1] = 1
      ∧ spreadProblem.EvalVars [[0]] ≠ some [some (SampleVectorSimple.Evaluate spreadProblem [0])]
      ∧ ∀ (problem : SampleProblem) (n : Nat) (combCount : Int) (genes : List Int),
          problem.Lb = List.replicate n 0 → problem.Ub = List.replicate n (combCount - 1) →
          genes ≠ [] → ValidGenome n combCount genes →
          SampleVectorSimple.Evaluate problem genes
            = (genes.map (fun (gene : Int) => (gene : ℚ))).sum := by
  refine ⟨⟨_, rfl⟩, by decide!, by decide!, by decide!, by decide!, by decide!, by decide!, ?_⟩
  intro problem n combCount genes hlb hub hne hv
  exact evaluate_eq_gene_sum problem n combCount hlb hub genes hne hv

/-! ## Rounding to `float64`: order and error -/

theorem pow2_eq (e : Int) : pow2 e = (2 : ℚ) ^ e := by
  unfold pow2
  split
  · rename_i h
    obtain ⟨n, rfl⟩ := Int.eq_ofNat_of_zero_le h
    simp
  · rename_i h
    have h1 : 0 ≤ -e := by omega
    obtain ⟨n, hn⟩ := Int.eq_ofNat_of_zero_le h1
    have he : e = -(n : Int) := by omega
    rw [hn, he]
    simp

theorem pow2_pos (e : Int) : 0 < pow2 e := by
  rw [pow2_eq]; positivity

theorem pow2_add (a b : Int) : pow2 (a + b) = pow2 a * pow2 b := by
  simp only [pow2_eq]
  exact zpow_add₀ (by norm_num) a b

theorem pow2_le {a b : Int} (h : a ≤ b) : pow2 a ≤ pow2 b := by
  simp only [pow2_eq]
  exact zpow_le_zpow_right₀ (by norm_num) h

theorem pow2_lt {a b : Int} (h : a < b) : pow2 a < pow2 b := by
  simp only [pow2_eq]
  exact zpow_lt_zpow_right₀ (by norm_num) h

theorem pow2_natCast (n : Nat) : pow2 (n : Int) = ((2 ^ n : Nat) : ℚ) := by
  unfold pow2
  simp

theorem log2Nat_spec : ∀ (fuel n : Nat), 1 ≤ n → n ≤ fuel →
    2 ^ log2Nat fuel n ≤ n ∧ n < 2 ^ (log2Nat fuel n + 1)
  | 0, n, h1, h2 => by omega
  | fuel + 1, n, h1, h2 => by
    unfold log2Nat
    split
    · rename_i h
      simp
      omega
    · rename_i h
      have ih := log2Nat_spec fuel (n / 2) (by omega) (by omega)
      constructor
      · rw [pow_succ]; omega
      · rw [pow_succ]; omega


theorem pow2_sub_natCast (a b : Nat) :
    pow2 ((a : Int) - (b : Int)) = ((2 ^ a : Nat) : ℚ) / ((2 ^ b : Nat) : ℚ) := by
  rw [pow2_eq, zpow_sub₀ (by norm_num : (2 : ℚ) ≠ 0)]
  simp

theorem log2Floor_spec {q : ℚ} (hq : 0 < q) :
    pow2 (log2Floor q) ≤ q ∧ q < pow2 (log2Floor q + 1) := by
  have hnum : 0 < q.num := Rat.num_pos.mpr hq
  have ha1 : 1 ≤ q.num.toNat := by omega
  have hb1 : 1 ≤ q.den := q.den_pos
  obtain ⟨hal, hau⟩ := log2Nat_spec q.num.toNat q.num.toNat ha1 (le_refl _)
  obtain ⟨hbl, hbu⟩ := log2Nat_spec q.den q.den hb1 (le_refl _)
  have hqa : q = (q.num.toNat : ℚ) / (q.den : ℚ) := by
    have h1 : ((q.num.toNat : Int) : ℚ) = (q.num : ℚ) := by
      rw [Int.toNat_of_nonneg (le_of_lt hnum)]
    rw [← Int.cast_natCast, h1]
    exact (Rat.num_div_den q).symm
  have hbpos : (0 : ℚ) < (q.den : ℚ) := by exact_mod_cast hb1
  have hal' : ((2 ^ log2Nat q.num.toNat q.num.toNat : Nat) : ℚ) ≤ (q.num.toNat : ℚ) := by
    exact_mod_cast hal
  have hau' : (q.num.toNat : ℚ) < ((2 ^ (log2Nat q.num.toNat q.num.toNat + 1) : Nat) : ℚ) := by
    exact_mod_cast hau
  have hbl' : ((2 ^ log2Nat q.den q.den : Nat) : ℚ) ≤ (q.den : ℚ) := by
    exact_mod_cast hbl
  have hbu' : (q.den : ℚ) < ((2 ^ (log2Nat q.den q.den + 1) : Nat) : ℚ) := by
    exact_mod_cast hbu
  have hpa : (0 : ℚ) < ((2 ^ log2Nat q.num.toNat q.num.toNat : Nat) : ℚ) := by positivity
  have hpb : (0 : ℚ) < ((2 ^ log2Nat q.den q.den : Nat) : ℚ) := by positivity
  have hpb1 : (0 : ℚ) < ((2 ^ (log2Nat q.den q.den + 1) : Nat) : ℚ) := by positivity
  have hupper : q < pow2 ((log2Nat q.num.toNat q.num.toNat : Int)
      - (log2Nat q.den q.den : Int) + 1) := by
    have : ((log2Nat q.num.toNat q.num.toNat : Int) - (log2Nat q.den q.den : Int) + 1)
        = (((log2Nat q.num.toNat q.num.toNat + 1 : Nat) : Int) - (log2Nat q.den q.den : Int)) := by
      push_cast; ring
    rw [this, pow2_sub_natCast]
    refine lt_of_eq_of_lt hqa ?_
    rw [div_lt_div_iff₀ hbpos hpb]
    calc (q.num.toNat : ℚ) * ((2 ^ log2Nat q.den q.den : Nat) : ℚ)
        < ((2 ^ (log2Nat q.num.toNat q.num.toNat + 1) : Nat) : ℚ)
            * ((2 ^ log2Nat q.den q.den : Nat) : ℚ) := mul_lt_mul_of_pos_right hau' hpb
      _ ≤ ((2 ^ (log2Nat q.num.toNat q.num.toNat + 1) : Nat) : ℚ) * (q.den : ℚ) :=
          mul_le_mul_of_nonneg_left hbl' (by positivity)
  have hlower : pow2 ((log2Nat q.num.toNat q.num.toNat : Int)
      - (log2Nat q.den q.den : Int) - 1) ≤ q := by
    have : ((log2Nat q.num.toNat q.num.toNat : Int) - (log2Nat q.den q.den : Int) - 1)
        = ((log2Nat q.num.toNat q.num.toNat : Int) - ((log2Nat q.den q.den + 1 : Nat) : Int)) := by
      push_cast; ring
    rw [this, pow2_sub_natCast]
    refine le_of_le_of_eq ?_ hqa.symm
    rw [div_le_div_iff₀ hpb1 hbpos]
    calc ((2 ^ log2Nat q.num.toNat q.num.toNat : Nat) : ℚ) * (q.den : ℚ)
        ≤ (q.num.toNat : ℚ) * (q.den : ℚ) := mul_le_mul_of_nonneg_right hal' (le_of_lt hbpos)
      _ ≤ (q.num.toNat : ℚ) * ((2 ^ (log2Nat q.den q.den + 1) : Nat) : ℚ) :=
          mul_le_mul_of_nonneg_left (le_of_lt hbu') (by positivity)
  unfold log2Floor
  split
  · rename_i h
    exact ⟨h, hupper⟩
  · rename_i h
    refine ⟨hlower, ?_⟩
    rw [sub_add_cancel]
    exact lt_of_not_le h

theorem log2Floor_unique {q : ℚ} {e : Int} (h1 : pow2 e ≤ q) (h2 : q < pow2 (e + 1)) :
    log2Floor q = e := by
  have hq : 0 < q := lt_of_lt_of_le (pow2_pos e) h1
  obtain ⟨h3, h4⟩ := log2Floor_spec hq
  by_contra hne
  rcases lt_or_gt_of_ne hne with h | h
  · have : pow2 (log2Floor q + 1) ≤ pow2 e := pow2_le (by omega)
    linarith
  · have : pow2 (e + 1) ≤ pow2 (log2Floor q) := pow2_le (by omega)
    linarith

theorem log2Floor_mono {x y : ℚ} (hx : 0 < x) (hxy : x ≤ y) : log2Floor x ≤ log2Floor y := by
  obtain ⟨h1, _⟩ := log2Floor_spec hx
  obtain ⟨_, h4⟩ := log2Floor_spec (lt_of_lt_of_le hx hxy)
  by_contra h
  have : pow2 (log2Floor y + 1) ≤ pow2 (log2Floor x) := pow2_le (by omega)
  linarith


theorem floor_le_roundHalfEven (m : ℚ) : ⌊m⌋ ≤ roundHalfEven m := by
  unfold roundHalfEven
  split
  · exact le_refl _
  · split
    · omega
    · split <;> omega

theorem roundHalfEven_le_floor_succ (m : ℚ) : roundHalfEven m ≤ ⌊m⌋ + 1 := by
  unfold roundHalfEven
  split
  · omega
  · split
    · omega
    · split <;> omega

theorem roundHalfEven_intCast (N : Int) : roundHalfEven (N : ℚ) = N := by
  unfold roundHalfEven
  rw [Int.floor_intCast, sub_self, if_pos (by norm_num)]

theorem roundHalfEven_ge {m : ℚ} {N : Int} (h : (N : ℚ) ≤ m) : N ≤ roundHalfEven m :=
  le_trans (Int.le_floor.mpr h) (floor_le_roundHalfEven m)

theorem roundHalfEven_le {m : ℚ} {N : Int} (h : m ≤ (N : ℚ)) : roundHalfEven m ≤ N := by
  rcases eq_or_lt_of_le h with h1 | h1
  · rw [h1, roundHalfEven_intCast]
  · have : ⌊m⌋ < N := Int.floor_lt.mpr h1
    have := roundHalfEven_le_floor_succ m
    omega

theorem roundHalfEven_mono {m1 m2 : ℚ} (h : m1 ≤ m2) : roundHalfEven m1 ≤ roundHalfEven m2 := by
  have hf := Int.floor_le_floor h
  rcases eq_or_lt_of_le hf with h1 | h1
  · unfold roundHalfEven
    rw [← h1]
    have hfrac : m1 - ⌊m1⌋ ≤ m2 - ⌊m1⌋ := by linarith
    by_cases c1 : m1 - ⌊m1⌋ < 1 / 2
    · rw [if_pos c1]
      split
      · exact le_refl _
      · split
        · omega
        · split <;> omega
    · rw [if_neg c1]
      have c2 : ¬ m2 - ⌊m1⌋ < 1 / 2 := by
        intro hc
        exact c1 (lt_of_le_of_lt hfrac hc)
      rw [if_neg c2]
      by_cases c3 : 1 / 2 < m1 - ⌊m1⌋
      · rw [if_pos c3, if_pos (lt_of_lt_of_le c3 hfrac)]
      · rw [if_neg c3]
        by_cases c4 : 1 / 2 < m2 - ⌊m1⌋
        · rw [if_pos c4]
          split <;> omega
        · rw [if_neg c4]
  · have h2 := roundHalfEven_le_floor_succ m1
    have h3 := floor_le_roundHalfEven m2
    omega

theorem abs_roundHalfEven_sub_le (m : ℚ) : |(roundHalfEven m : ℚ) - m| ≤ 1 / 2 := by
  have h1 := Int.floor_le m
  have h2 := Int.lt_floor_add_one m
  unfold roundHalfEven
  rw [abs_le]
  split
  · rename_i c
    constructor <;> linarith
  · rename_i c
    split
    · push_cast
      constructor <;> linarith
    · rename_i c2
      split
      · constructor <;> linarith
      · push_cast
        constructor <;> linarith

theorem fl64_zero : fl64 0 = 0 := by
  unfold fl64
  rw [if_pos rfl]

theorem le_fl64_of_grid {x t : ℚ} {k : Int} (ht : t = (k : ℚ) * pow2 (ulpExp x)) (h : t ≤ x) :
    t ≤ fl64 x := by
  unfold fl64
  split
  · rename_i h0
    rw [h0] at h
    exact h
  · have hu := pow2_pos (ulpExp x)
    have hk : (k : ℚ) ≤ x / pow2 (ulpExp x) := by
      rw [le_div_iff₀ hu, ← ht]
      exact h
    have := roundHalfEven_ge hk
    rw [ht]
    exact mul_le_mul_of_nonneg_right (by exact_mod_cast this) (le_of_lt hu)

theorem fl64_le_of_grid {x t : ℚ} {k : Int} (ht : t = (k : ℚ) * pow2 (ulpExp x)) (h : x ≤ t) :
    fl64 x ≤ t := by
  unfold fl64
  split
  · rename_i h0
    rw [h0] at h
    exact h
  · have hu := pow2_pos (ulpExp x)
    have hk : x / pow2 (ulpExp x) ≤ (k : ℚ) := by
      rw [div_le_iff₀ hu, ← ht]
      exact h
    have := roundHalfEven_le hk
    rw [ht]
    exact mul_le_mul_of_nonneg_right (by exact_mod_cast this) (le_of_lt hu)

theorem fl64_nonneg {x : ℚ} (h : 0 ≤ x) : 0 ≤ fl64 x :=
  @le_fl64_of_grid x 0 0 (by simp) h

theorem pow2_grid {a b : Int} (h : a ≤ b) : ∃ k : Int, pow2 b = (k : ℚ) * pow2 a := by
  obtain ⟨n, hn⟩ := Int.eq_ofNat_of_zero_le (by omega : 0 ≤ b - a)
  refine ⟨((2 ^ n : Nat) : Int), ?_⟩
  have : b = (n : Int) + a := by omega
  rw [this, pow2_add, pow2_natCast]
  push_cast
  rfl

theorem ulpExp_of_pos {x : ℚ} (h : 0 < x) : ulpExp x = max (log2Floor x - 52) (-1074) := by
  unfold ulpExp
  rw [abs_of_pos h]

theorem fl64_mono_nonneg {x y : ℚ} (hx : 0 ≤ x) (hxy : x ≤ y) : fl64 x ≤ fl64 y := by
  rcases eq_or_lt_of_le hx with h0 | hpos
  · rw [← h0, fl64_zero]
    exact fl64_nonneg (le_trans hx hxy)
  · have hypos : 0 < y := lt_of_lt_of_le hpos hxy
    have hlog := log2Floor_mono hpos hxy
    have hab : ulpExp x ≤ ulpExp y := by
      rw [ulpExp_of_pos hpos, ulpExp_of_pos hypos]
      exact max_le_max (by omega) (le_refl _)
    rcases eq_or_lt_of_le hab with he | hlt
    · have hxne : x ≠ 0 := ne_of_gt hpos
      have hyne : y ≠ 0 := ne_of_gt hypos
      unfold fl64
      rw [if_neg hxne, if_neg hyne, ← he]
      have hu := pow2_pos (ulpExp x)
      have := roundHalfEven_mono (div_le_div_of_nonneg_right hxy (le_of_lt hu))
      exact mul_le_mul_of_nonneg_right (by exact_mod_cast this) (le_of_lt hu)
    · obtain ⟨_, hxu⟩ := log2Floor_spec hpos
      obtain ⟨hyl, _⟩ := log2Floor_spec hypos
      have hxa : log2Floor x - 52 ≤ ulpExp x := by
        rw [ulpExp_of_pos hpos]; exact le_max_left _ _
      have hyb : ulpExp y = log2Floor y - 52 := by
        have h1 : -1074 ≤ ulpExp x := by
          rw [ulpExp_of_pos hpos]; exact le_max_right _ _
        rw [ulpExp_of_pos hypos] at hlt ⊢
        rcases max_cases (log2Floor y - 52) (-1074) with ⟨h2, _⟩ | ⟨h2, _⟩
        · exact h2
        · rw [h2] at hlt; omega
      obtain ⟨k1, hk1⟩ := pow2_grid (by omega : ulpExp x ≤ ulpExp y + 52)
      obtain ⟨k2, hk2⟩ := pow2_grid (by omega : ulpExp y ≤ ulpExp y + 52)
      have h1 : x ≤ pow2 (ulpExp y + 52) :=
        le_trans (le_of_lt hxu) (pow2_le (by omega))
      have h2 : pow2 (ulpExp y + 52) ≤ y := by
        rw [hyb, sub_add_cancel]; exact hyl
      exact le_trans (fl64_le_of_grid hk1 h1) (le_fl64_of_grid hk2 h2)

theorem ulpExp_nonpos {x : ℚ} (h : |x| < pow2 53) : ulpExp x ≤ 0 := by
  unfold ulpExp
  apply max_le _ (by norm_num)
  rcases eq_or_lt_of_le (abs_nonneg x) with h0 | hpos
  · rw [← h0]
    have : log2Floor 0 = -1 := by decide!
    rw [this]; norm_num
  · obtain ⟨h1, _⟩ := log2Floor_spec hpos
    have : log2Floor |x| < 53 := by
      by_contra hc
      have := pow2_le (by omega : (53 : Int) ≤ log2Floor |x|)
      linarith
    omega

theorem int_grid {x : ℚ} (h : |x| < pow2 53) (N : Int) :
    ∃ k : Int, (N : ℚ) = (k : ℚ) * pow2 (ulpExp x) := by
  obtain ⟨k, hk⟩ := pow2_grid (ulpExp_nonpos h)
  refine ⟨N * k, ?_⟩
  have h1 : pow2 0 = 1 := by decide!
  rw [h1] at hk
  push_cast
  rw [mul_assoc, ← hk, mul_one]

theorem le_fl64_of_int_le {x : ℚ} {N : Int} (h : |x| < pow2 53) (hN : (N : ℚ) ≤ x) :
    (N : ℚ) ≤ fl64 x := by
  obtain ⟨k, hk⟩ := int_grid h N
  exact le_fl64_of_grid hk hN

theorem fl64_le_of_le_int {x : ℚ} {N : Int} (h : |x| < pow2 53) (hN : x ≤ (N : ℚ)) :
    fl64 x ≤ (N : ℚ) := by
  obtain ⟨k, hk⟩ := int_grid h N
  exact fl64_le_of_grid hk hN

theorem fl64_intCast {N : Int} (h : |(N : ℚ)| < pow2 53) : fl64 (N : ℚ) = N :=
  le_antisymm (fl64_le_of_le_int h (le_refl _)) (le_fl64_of_int_le h (le_refl _))

theorem roundHalfEven_neg (m : ℚ) : roundHalfEven (-m) = -roundHalfEven m := by
  by_cases hint : (⌊m⌋ : ℚ) = m
  · rw [← hint, ← Int.cast_neg, roundHalfEven_intCast, roundHalfEven_intCast]
  · have h1 : (⌊m⌋ : ℚ) < m := lt_of_le_of_ne (Int.floor_le m) hint
    have h2 := Int.lt_floor_add_one m
    have hc : ⌈m⌉ = ⌊m⌋ + 1 := by
      rw [Int.ceil_eq_iff]
      push_cast
      constructor <;> linarith
    have hf : ⌊-m⌋ = -⌊m⌋ - 1 := by
      rw [Int.floor_neg, hc]; ring
    unfold roundHalfEven
    rw [hf]
    push_cast
    by_cases c1 : m - ⌊m⌋ < 1 / 2
    · rw [if_pos c1, if_neg (by linarith), if_pos (by linarith)]
      ring
    · rw [if_neg c1]
      by_cases c2 : 1 / 2 < m - ⌊m⌋
      · rw [if_pos c2, if_pos (by linarith)]
        ring
      · rw [if_neg c2, if_neg (by linarith), if_neg (by linarith)]
        by_cases c3 : ⌊m⌋ % 2 = 0
        · rw [if_pos c3, if_neg (by omega)]
          ring
        · rw [if_neg c3, if_pos (by omega)]
          ring

theorem ulpExp_neg (q : ℚ) : ulpExp (-q) = ulpExp q := by
  unfold ulpExp
  rw [abs_neg]

theorem fl64_neg (q : ℚ) : fl64 (-q) = -fl64 q := by
  unfold fl64
  by_cases h : q = 0
  · simp [h]
  · rw [if_neg h, if_neg (neg_ne_zero.mpr h), ulpExp_neg, neg_div, roundHalfEven_neg]
    push_cast
    ring

theorem fl64_mono {x y : ℚ} (hxy : x ≤ y) : fl64 x ≤ fl64 y := by
  rcases le_total 0 x with hx | hx
  · exact fl64_mono_nonneg hx hxy
  · rcases le_total 0 y with hy | hy
    · have h1 : fl64 x ≤ 0 := by
        have := fl64_nonneg (neg_nonneg.mpr hx)
        rw [fl64_neg] at this
        linarith
      exact le_trans h1 (fl64_nonneg hy)
    · have := fl64_mono_nonneg (neg_nonneg.mpr hy) (neg_le_neg hxy)
      rw [fl64_neg, fl64_neg] at this
      linarith

theorem abs_fl64 (q : ℚ) : |fl64 q| = fl64 |q| := by
  rcases le_total 0 q with h | h
  · rw [abs_of_nonneg h, abs_of_nonneg (fl64_nonneg h)]
  · have h1 : fl64 q ≤ 0 := by
      have := fl64_nonneg (neg_nonneg.mpr h)
      rw [fl64_neg] at this
      linarith
    rw [abs_of_nonpos h, abs_of_nonpos h1, fl64_neg]

theorem fl64_pow2 {e : Int} (he : -1074 ≤ e) : fl64 (pow2 e) = pow2 e := by
  have hlog : log2Floor (pow2 e) = e :=
    log2Floor_unique (le_refl _) (pow2_lt (by omega))
  have hu : ulpExp (pow2 e) ≤ e := by
    rw [ulpExp_of_pos (pow2_pos e), hlog]
    exact max_le (by omega) he
  obtain ⟨k, hk⟩ := pow2_grid hu
  exact le_antisymm (fl64_le_of_grid hk (le_refl _)) (le_fl64_of_grid hk (le_refl _))

theorem pow2_ulpExp_le {z V : ℚ} (hV : 1 ≤ V) (hz : |z| ≤ V) :
    pow2 (ulpExp z) ≤ V * pow2 (-52) := by
  unfold ulpExp
  rcases max_cases (log2Floor |z| - 52) (-1074) with ⟨h, _⟩ | ⟨h, _⟩
  · rw [h]
    rcases eq_or_lt_of_le (abs_nonneg z) with h0 | hpos
    · rw [← h0]
      have e1 : log2Floor 0 = -1 := by decide!
      rw [e1]
      have e2 : pow2 (-1 - 52) ≤ 1 * pow2 (-52) := by decide!
      exact le_trans e2 (mul_le_mul_of_nonneg_right hV (le_of_lt (pow2_pos _)))
    · obtain ⟨h1, _⟩ := log2Floor_spec hpos
      rw [sub_eq_add_neg, pow2_add]
      exact mul_le_mul_of_nonneg_right (le_trans h1 hz) (le_of_lt (pow2_pos _))
  · rw [h]
    have e2 : pow2 (-1074) ≤ 1 * pow2 (-52) := by
      rw [one_mul]; exact pow2_le (by norm_num)
    exact le_trans e2 (mul_le_mul_of_nonneg_right hV (le_of_lt (pow2_pos _)))

theorem fl64_err {z V : ℚ} (hV : 1 ≤ V) (hz : |z| ≤ V) : |fl64 z - z| ≤ V * pow2 (-53) := by
  by_cases h0 : z = 0
  · rw [h0, fl64_zero, sub_zero, abs_zero]
    exact mul_nonneg (by linarith) (le_of_lt (pow2_pos _))
  · have hu := pow2_pos (ulpExp z)
    have hr := abs_roundHalfEven_sub_le (z / pow2 (ulpExp z))
    have hle := pow2_ulpExp_le hV hz
    unfold fl64
    rw [if_neg h0]
    have e : (roundHalfEven (z / pow2 (ulpExp z)) : ℚ) * pow2 (ulpExp z) - z
        = ((roundHalfEven (z / pow2 (ulpExp z)) : ℚ) - z / pow2 (ulpExp z)) * pow2 (ulpExp z) := by
      field_simp
    rw [e, abs_mul, abs_of_pos hu]
    have h53 : pow2 (-53) = 1 / 2 * pow2 (-52) := by decide!
    rw [h53]
    calc |(roundHalfEven (z / pow2 (ulpExp z)) : ℚ) - z / pow2 (ulpExp z)| * pow2 (ulpExp z)
        ≤ 1 / 2 * pow2 (ulpExp z) := mul_le_mul_of_nonneg_right hr (le_of_lt hu)
      _ ≤ 1 / 2 * (V * pow2 (-52)) := mul_le_mul_of_nonneg_left hle (by norm_num)
      _ = V * (1 / 2 * pow2 (-52)) := by ring

theorem fl64_sub_self (v : ℚ) : fl64 (v - v) = 0 := by
  rw [sub_self, fl64_zero]

/-! ## The DP table in `float64` -/

theorem fadd64_some_iff {p : F64} {c v : ℚ} :
    fadd64 p (some c) = some v ↔ ∃ w, p = some w ∧ v = fl64 (w + c) := by
  cases p with
  | none => simp [fadd64]
  | some w =>
    simp only [fadd64, Option.some.injEq, exists_eq_left']
    exact eq_comm

theorem dpCell64_attained {ub b : Int} {average : ℚ} {prev : List F64} {s : Nat} {v : ℚ}
    (h : dpCell64 ub b average prev s = some v) :
    ∃ x, x < loopBound ub s ∧ ∃ w, prev.getD (s - x) none = some w
      ∧ v = fl64 (w + costAt64 x b average) := by
  unfold dpCell64 at h
  rcases fmin_foldl_attained _ _ _ _ h with h0 | ⟨x, hx, hfx⟩
  · simp at h0
  · exact ⟨x, List.mem_range.mp hx, fadd64_some_iff.mp hfx⟩

theorem dpCell64_le {ub b : Int} {average : ℚ} {prev : List F64} {s x : Nat} {w : ℚ}
    (hx : x < loopBound ub s) (hw : prev.getD (s - x) none = some w) :
    ∃ v, dpCell64 ub b average prev s = some v ∧ v ≤ fl64 (w + costAt64 x b average) := by
  unfold dpCell64
  exact fmin_foldl_le _ _ _ _
    (Or.inr ⟨x, List.mem_range.mpr hx, fadd64_some_iff.mpr ⟨w, hw, rfl⟩⟩)

theorem dpRow64_getD {ub b : Int} {average : ℚ} {Q : Nat} {prev : List F64} {s : Nat}
    (hs : s ≤ Q) : (dpRow64 ub b average Q prev).getD s none = dpCell64 ub b average prev s := by
  unfold dpRow64
  rw [List.getD_eq_getElem?_getD, List.getElem?_map, List.getElem?_range (by omega)]
  rfl

theorem dpRows64_cons (average : ℚ) (Q : Nat) (t : Int × Int) (rest : List (Int × Int)) :
    dpRows64 average Q (t :: rest)
      = dpRow64 t.1 t.2 average Q (rowOf64 average Q rest) :: dpRows64 average Q rest := rfl

theorem dpRows64_eq_rowOf64_cons (average : ℚ) (Q : Nat) (ts : List (Int × Int)) :
    ∃ tab, dpRows64 average Q ts = rowOf64 average Q ts :: tab := by
  cases ts with
  | nil => exact ⟨[], rfl⟩
  | cons t rest => exact ⟨dpRows64 average Q rest, rfl⟩

theorem rowOf64_nil (average : ℚ) (Q : Nat) : rowOf64 average Q [] = dpInit Q := rfl

theorem rowOf64_cons (average : ℚ) (Q : Nat) (t : Int × Int) (rest : List (Int × Int)) :
    rowOf64 average Q (t :: rest) = dpRow64 t.1 t.2 average Q (rowOf64 average Q rest) := rfl

theorem recon64_cons (average : ℚ) (Q : Nat) (t : Int × Int) (rest : List (Int × Int))
    (s : Nat) :
    recon64 average (t :: rest) (dpRows64 average Q (t :: rest)) s
      = (pickX64 (rowOf64 average Q (t :: rest)) (rowOf64 average Q rest) t.1 t.2 average
            s).getD 0
        :: recon64 average rest (dpRows64 average Q rest)
            (s - (pickX64 (rowOf64 average Q (t :: rest)) (rowOf64 average Q rest) t.1 t.2
              average s).getD 0) := by
  obtain ⟨tab, htab⟩ := dpRows64_eq_rowOf64_cons average Q rest
  rw [dpRows64_cons, htab]
  rfl

theorem recon64_nil (average : ℚ) (tab : List (List F64)) (s : Nat) :
    recon64 average [] tab s = [] := by
  unfold recon64
  rfl

theorem closeTo64_iff {a b : F64} :
    closeTo64 a b = true
      ↔ ∃ v w, a = some v ∧ b = some w ∧ |fl64 (v - w)| < fl64 (1 / 1000000000) := by
  cases a with
  | none => simp [closeTo64]
  | some a =>
    cases b with
    | none => simp [closeTo64]
    | some b => simp [closeTo64]

theorem closeTo64_self (v : ℚ) : closeTo64 (some v) (some v) = true := by
  rw [closeTo64_iff]
  refine ⟨v, v, rfl, rfl, ?_⟩
  rw [sub_self, fl64_zero, abs_zero]
  decide!

theorem abs_lt_of_closeTo64 {v w : ℚ} (h : |fl64 (v - w)| < fl64 (1 / 1000000000)) :
    |v - w| < pow2 (-29) := by
  by_contra hc
  have h1 : pow2 (-29) ≤ |v - w| := not_lt.mp hc
  have h2 := fl64_mono h1
  rw [fl64_pow2 (by norm_num), ← abs_fl64] at h2
  have h3 : fl64 (1 / 1000000000) < pow2 (-29) := by decide!
  linarith

theorem pickX64_lt {cur prev : List F64} {ub b : Int} {average : ℚ} {s x : Nat}
    (h : pickX64 cur prev ub b average s = some x) : (x : Int) ≤ ub ∧ x ≤ s := by
  unfold pickX64 at h
  exact loopBound_lt_iff.mp (List.mem_range.mp (List.mem_of_find?_eq_some h))

theorem pickX64_getD_le {cur prev : List F64} {ub b : Int} {average : ℚ} {s : Nat} :
    (pickX64 cur prev ub b average s).getD 0 ≤ s := by
  cases h : pickX64 cur prev ub b average s with
  | none => simp
  | some x => simpa using (pickX64_lt h).2

theorem recon64_sum_le (average : ℚ) (Q : Nat) (ts : List (Int × Int)) :
    ∀ s : Nat, (recon64 average ts (dpRows64 average Q ts) s).sum ≤ s := by
  induction ts with
  | nil => intro s; simp [recon64_nil]
  | cons t rest ih =>
    intro s
    rw [recon64_cons, List.sum_cons]
    have h1 := @pickX64_getD_le (rowOf64 average Q (t :: rest)) (rowOf64 average Q rest)
      t.1 t.2 average s
    have h2 := ih (s - (pickX64 (rowOf64 average Q (t :: rest)) (rowOf64 average Q rest)
      t.1 t.2 average s).getD 0)
    omega

theorem recon64_bounded (average : ℚ) (Q : Nat) (ts : List (Int × Int)) :
    ∀ s : Nat, List.Forall₂ (fun (t : Int × Int) (x : Nat) => x = 0 ∨ (x : Int) ≤ t.1) ts
      (recon64 average ts (dpRows64 average Q ts) s) := by
  induction ts with
  | nil => intro s; rw [recon64_nil]; exact List.Forall₂.nil
  | cons t rest ih =>
    intro s
    rw [recon64_cons]
    refine List.Forall₂.cons ?_ (ih _)
    cases h : pickX64 (rowOf64 average Q (t :: rest)) (rowOf64 average Q rest) t.1 t.2
        average s with
    | none => left; rfl
    | some x => right; simpa using (pickX64_lt h).1

/-! ## The `float64` table stays close to the exact costs -/

theorem rowOf64_bounds (average : ℚ) (Q : Nat) (C : Int) (S ε : ℚ) (hC : 0 ≤ C)
    (hS : S < pow2 53) :
    ∀ ts : List (Int × Int),
      (∀ t ∈ ts, ∀ x : Nat, x ≤ Q → 0 ≤ costAt64 x t.2 average ∧ costAt64 x t.2 average ≤ C
        ∧ |costAt64 x t.2 average - costAt x t.2 average| ≤ ε) →
      (ts.length : ℚ) * C ≤ S →
      ∀ (s : Nat) (v : ℚ), s ≤ Q → (rowOf64 average Q ts).getD s none = some v →
        0 ≤ v ∧ v ≤ (ts.length : ℚ) * C := by
  intro ts
  induction ts with
  | nil =>
    intro _ _ s v _ h
    rw [rowOf64_nil] at h
    obtain ⟨_, hv⟩ := dpInit_getD_some h
    rw [hv]
    simp
  | cons t rest ih =>
    intro hcost hlen s v hs h
    have hCq : (0 : ℚ) ≤ (C : ℚ) := by exact_mod_cast hC
    have hlen2 : (rest.length : ℚ) * C ≤ S := by
      simp only [List.length_cons, Nat.cast_add, Nat.cast_one] at hlen
      nlinarith
    rw [rowOf64_cons, dpRow64_getD hs] at h
    obtain ⟨x, hx, w, hw, hv⟩ := dpCell64_attained h
    obtain ⟨_, hxs⟩ := loopBound_lt_iff.mp hx
    obtain ⟨hw0, hw1⟩ := ih (fun t ht => hcost t (List.mem_cons_of_mem _ ht)) hlen2
      (s - x) w (by omega) hw
    obtain ⟨hc0, hc1, _⟩ := hcost t (List.mem_cons_self _ _) x (by omega)
    have hsum0 : 0 ≤ w + costAt64 x t.2 average := by linarith
    have hsum1 : w + costAt64 x t.2 average ≤ (((rest.length + 1 : Nat) : Int) * C : Int) := by
      push_cast
      linarith
    have hlt : |w + costAt64 x t.2 average| < pow2 53 := by
      rw [abs_of_nonneg hsum0]
      simp only [List.length_cons, Nat.cast_add, Nat.cast_one] at hlen
      push_cast at hsum1
      linarith
    rw [hv]
    refine ⟨fl64_nonneg hsum0, ?_⟩
    have := fl64_le_of_le_int hlt hsum1
    simp only [List.length_cons]
    push_cast at this ⊢
    exact this

theorem fl64_add_err {S w c : ℚ} (hS1 : 1 ≤ S) (h0 : 0 ≤ w + c) (h1 : w + c ≤ S) :
    |fl64 (w + c) - (w + c)| ≤ S * pow2 (-53) :=
  fl64_err hS1 (by rw [abs_of_nonneg h0]; exact h1)

theorem rowOf64_le_of_within (average : ℚ) (Q : Nat) (C : Int) (S ε : ℚ) (hC : 0 ≤ C)
    (hS1 : 1 ≤ S) (hS : S < pow2 53) {ts : List (Int × Int)} {xs : List Nat}
    (h : Within ts xs) :
    (∀ t ∈ ts, ∀ x : Nat, x ≤ Q → 0 ≤ costAt64 x t.2 average ∧ costAt64 x t.2 average ≤ C
      ∧ |costAt64 x t.2 average - costAt x t.2 average| ≤ ε) →
    (ts.length : ℚ) * C ≤ S → xs.sum ≤ Q →
    ∃ v, (rowOf64 average Q ts).getD xs.sum none = some v
      ∧ v ≤ allocCost average ts xs + (ts.length : ℚ) * (ε + S * pow2 (-53)) := by
  unfold Within at h
  induction h with
  | nil =>
    intro _ _ _
    exact ⟨0, rfl, by simp [allocCost]⟩
  | @cons t x ts xs htx _ ih =>
    intro hcost hlen hs
    have hCq : (0 : ℚ) ≤ (C : ℚ) := by exact_mod_cast hC
    have hlen2 : (ts.length : ℚ) * C ≤ S := by
      simp only [List.length_cons, Nat.cast_add, Nat.cast_one] at hlen
      nlinarith
    have hcost2 := fun t ht => hcost t (List.mem_cons_of_mem _ ht)
    simp only [List.sum_cons] at hs ⊢
    obtain ⟨w, hw, hle⟩ := ih hcost2 hlen2 (by omega)
    obtain ⟨hw0, hw1⟩ := rowOf64_bounds average Q C S ε hC hS ts hcost2 hlen2 xs.sum w
      (by omega) hw
    obtain ⟨hc0, hc1, hc2⟩ := hcost t (List.mem_cons_self _ _) x (by omega)
    have hx : x < loopBound t.1 (x + xs.sum) := loopBound_lt_iff.mpr ⟨htx, by omega⟩
    have hw2 : (rowOf64 average Q ts).getD (x + xs.sum - x) none = some w := by
      rw [Nat.add_sub_cancel_left]; exact hw
    obtain ⟨v, hv, hvle⟩ := @dpCell64_le t.1 t.2 average _ _ _ _ hx hw2
    have herr := fl64_add_err hS1 (by linarith : 0 ≤ w + costAt64 x t.2 average)
      (by
        simp only [List.length_cons, Nat.cast_add, Nat.cast_one] at hlen
        linarith)
    rw [abs_le] at herr hc2
    refine ⟨v, ?_, ?_⟩
    · rw [rowOf64_cons, dpRow64_getD hs]; exact hv
    · simp only [allocCost, List.length_cons, Nat.cast_add, Nat.cast_one]
      linarith [herr.2, hc2.2]

theorem rowOf64_attained (average : ℚ) (Q : Nat) (C : Int) (S ε : ℚ) (hC : 0 ≤ C)
    (hS1 : 1 ≤ S) (hS : S < pow2 53) :
    ∀ ts : List (Int × Int),
      (∀ t ∈ ts, ∀ x : Nat, x ≤ Q → 0 ≤ costAt64 x t.2 average ∧ costAt64 x t.2 average ≤ C
        ∧ |costAt64 x t.2 average - costAt x t.2 average| ≤ ε) →
      (ts.length : ℚ) * C ≤ S →
      ∀ (s : Nat) (v : ℚ), s ≤ Q → (rowOf64 average Q ts).getD s none = some v →
        ∃ xs, Within ts xs ∧ xs.sum = s
          ∧ allocCost average ts xs ≤ v + (ts.length : ℚ) * (ε + S * pow2 (-53)) := by
  intro ts
  induction ts with
  | nil =>
    intro _ _ s v _ h
    rw [rowOf64_nil] at h
    obtain ⟨hs, hv⟩ := dpInit_getD_some h
    exact ⟨[], List.Forall₂.nil, by simp [hs], by simp [allocCost, hv]⟩
  | cons t rest ih =>
    intro hcost hlen s v hs h
    have hCq : (0 : ℚ) ≤ (C : ℚ) := by exact_mod_cast hC
    have hlen2 : (rest.length : ℚ) * C ≤ S := by
      simp only [List.length_cons, Nat.cast_add, Nat.cast_one] at hlen
      nlinarith
    have hcost2 := fun t ht => hcost t (List.mem_cons_of_mem _ ht)
    rw [rowOf64_cons, dpRow64_getD hs] at h
    obtain ⟨x, hx, w, hw, hv⟩ := dpCell64_attained h
    obtain ⟨hxu, hxs⟩ := loopBound_lt_iff.mp hx
    obtain ⟨hw0, hw1⟩ := rowOf64_bounds average Q C S ε hC hS rest hcost2 hlen2 (s - x) w
      (by omega) hw
    obtain ⟨hc0, hc1, hc2⟩ := hcost t (List.mem_cons_self _ _) x (by omega)
    obtain ⟨xs, hwi, hsum, hcostxs⟩ := ih hcost2 hlen2 (s - x) w (by omega) hw
    have herr := fl64_add_err hS1 (by linarith : 0 ≤ w + costAt64 x t.2 average)
      (by
        simp only [List.length_cons, Nat.cast_add, Nat.cast_one] at hlen
        linarith)
    rw [abs_le] at herr hc2
    refine ⟨x :: xs, List.Forall₂.cons hxu hwi, ?_, ?_⟩
    · simp only [List.sum_cons, hsum]; omega
    · simp only [allocCost, List.length_cons, Nat.cast_add, Nat.cast_one]
      rw [hv]
      linarith [herr.1, hc2.1]

theorem recon64_spec (average : ℚ) (Q : Nat) (C : Int) (S ε : ℚ) (hC : 0 ≤ C)
    (hS1 : 1 ≤ S) (hS : S < pow2 53) :
    ∀ ts : List (Int × Int),
      (∀ t ∈ ts, ∀ x : Nat, x ≤ Q → 0 ≤ costAt64 x t.2 average ∧ costAt64 x t.2 average ≤ C
        ∧ |costAt64 x t.2 average - costAt x t.2 average| ≤ ε) →
      (ts.length : ℚ) * C ≤ S →
      ∀ (s : Nat) (v : ℚ), s ≤ Q → (rowOf64 average Q ts).getD s none = some v →
        Within ts (recon64 average ts (dpRows64 average Q ts) s)
          ∧ (recon64 average ts (dpRows64 average Q ts) s).sum = s
          ∧ allocCost average ts (recon64 average ts (dpRows64 average Q ts) s)
              ≤ v + (ts.length : ℚ) * (ε + S * pow2 (-53) + pow2 (-29)) := by
  intro ts
  induction ts with
  | nil =>
    intro _ _ s v _ h
    rw [rowOf64_nil] at h
    obtain ⟨hs, hv⟩ := dpInit_getD_some h
    rw [recon64_nil]
    exact ⟨List.Forall₂.nil, by simp [hs], by simp [allocCost, hv]⟩
  | cons t rest ih =>
    intro hcost hlen s v hs h
    have hCq : (0 : ℚ) ≤ (C : ℚ) := by exact_mod_cast hC
    have hlen2 : (rest.length : ℚ) * C ≤ S := by
      simp only [List.length_cons, Nat.cast_add, Nat.cast_one] at hlen
      nlinarith
    have hcost2 := fun t ht => hcost t (List.mem_cons_of_mem _ ht)
    rw [recon64_cons]
    have hcell := h
    rw [rowOf64_cons, dpRow64_getD hs] at hcell
    obtain ⟨x0, hx0, w0, hw0, hv0⟩ := dpCell64_attained hcell
    have hfound : pickX64 (rowOf64 average Q (t :: rest)) (rowOf64 average Q rest) t.1 t.2
        average s ≠ none := by
      unfold pickX64
      intro hnone
      rw [List.find?_eq_none] at hnone
      apply hnone x0 (List.mem_range.mpr hx0)
      rw [h, fadd64_some_iff.mpr ⟨w0, hw0, rfl⟩, ← hv0]
      exact closeTo64_self v
    obtain ⟨x, hpick⟩ := Option.ne_none_iff_exists'.mp hfound
    have hclose := List.find?_some (by unfold pickX64 at hpick; exact hpick)
    obtain ⟨hxu, hxs⟩ := pickX64_lt hpick
    rw [hpick, Option.getD_some]
    rw [h] at hclose
    obtain ⟨v1, g, hv1, hg, habs⟩ := closeTo64_iff.mp hclose
    obtain ⟨w, hw, hgeq⟩ := fadd64_some_iff.mp hg
    have hv1eq : v1 = v := (Option.some.inj hv1).symm
    subst hv1eq
    obtain ⟨hwi, hsum, hcostr⟩ := ih hcost2 hlen2 (s - x) w (by omega) hw
    obtain ⟨hwl, hwu⟩ := rowOf64_bounds average Q C S ε hC hS rest hcost2 hlen2 (s - x) w
      (by omega) hw
    obtain ⟨hc0, hc1, hc2⟩ := hcost t (List.mem_cons_self _ _) x (by omega)
    have herr := fl64_add_err hS1 (by linarith : 0 ≤ w + costAt64 x t.2 average)
      (by
        simp only [List.length_cons, Nat.cast_add, Nat.cast_one] at hlen
        linarith)
    have hclose2 := abs_lt_of_closeTo64 habs
    rw [abs_le] at herr hc2
    rw [abs_lt] at hclose2
    refine ⟨List.Forall₂.cons hxu hwi, ?_, ?_⟩
    · simp only [List.sum_cons, hsum]; omega
    · simp only [allocCost, List.length_cons, Nat.cast_add, Nat.cast_one]
      rw [hgeq] at hclose2
      linarith [herr.1, hc2.1, hclose2.1]

theorem fl64_sq_err (M : Int) (hM1 : 1 ≤ M) (hM2 : M ≤ 2 ^ 25) {d : ℚ} (hd : |d| ≤ (M : ℚ)) :
    0 ≤ fl64 (fl64 d ^ 2) ∧ fl64 (fl64 d ^ 2) ≤ (M : ℚ) * (M : ℚ)
      ∧ |fl64 (fl64 d ^ 2) - d ^ 2| ≤ 3 * ((M : ℚ) * (M : ℚ)) * pow2 (-53) := by
  have hp : pow2 53 = 9007199254740992 := by decide!
  have hu : (0 : ℚ) < pow2 (-53) := pow2_pos _
  have hMq1 : (1 : ℚ) ≤ (M : ℚ) := by exact_mod_cast hM1
  have hMq2 : (M : ℚ) ≤ 33554432 := by exact_mod_cast hM2
  have hdlt : |d| < pow2 53 := by
    rw [hp]; linarith
  have hyerr := fl64_err hMq1 hd
  have hy1 : fl64 d ≤ (M : ℚ) := fl64_le_of_le_int hdlt (le_trans (le_abs_self _) hd)
  have hy0 : -(M : ℚ) ≤ fl64 d := by
    have := @le_fl64_of_int_le d (-M) hdlt (by
      push_cast
      have := neg_abs_le d
      linarith)
    push_cast at this
    exact this
  have hsq0 : 0 ≤ fl64 d ^ 2 := sq_nonneg _
  have hsq1 : fl64 d ^ 2 ≤ (M : ℚ) * (M : ℚ) := by nlinarith
  have hMM1 : (1 : ℚ) ≤ (M : ℚ) * (M : ℚ) := by nlinarith
  have hMM2 : (M : ℚ) * (M : ℚ) < pow2 53 := by
    rw [hp]; nlinarith
  have hsqlt : |fl64 d ^ 2| < pow2 53 := by
    rw [abs_of_nonneg hsq0]; linarith
  have hsqabs : |fl64 d ^ 2| ≤ (M : ℚ) * (M : ℚ) := by
    rw [abs_of_nonneg hsq0]; exact hsq1
  have hcerr := fl64_err hMM1 hsqabs
  have hc1 : fl64 (fl64 d ^ 2) ≤ (M : ℚ) * (M : ℚ) := by
    have := @fl64_le_of_le_int (fl64 d ^ 2) (M * M) hsqlt (by push_cast; exact hsq1)
    push_cast at this
    exact this
  have hdiff : |fl64 d ^ 2 - d ^ 2| ≤ 2 * ((M : ℚ) * (M : ℚ)) * pow2 (-53) := by
    have e : fl64 d ^ 2 - d ^ 2 = (fl64 d - d) * (fl64 d + d) := by ring
    rw [e, abs_mul]
    have h2 : |fl64 d + d| ≤ 2 * (M : ℚ) := by
      rw [abs_le] at hd ⊢
      constructor <;> linarith [hd.1, hd.2]
    calc |fl64 d - d| * |fl64 d + d|
        ≤ ((M : ℚ) * pow2 (-53)) * (2 * (M : ℚ)) :=
          mul_le_mul hyerr h2 (abs_nonneg _) (by positivity)
      _ = 2 * ((M : ℚ) * (M : ℚ)) * pow2 (-53) := by ring
  refine ⟨fl64_nonneg hsq0, hc1, ?_⟩
  rw [abs_le] at hcerr hdiff ⊢
  constructor <;> linarith [hcerr.1, hcerr.2, hdiff.1, hdiff.2]

theorem costAt64_err (M : Int) (hM1 : 1 ≤ M) (hM2 : M ≤ 2 ^ 25) (x b : Int) (a : ℚ)
    (hk : 0 ≤ x + b ∧ x + b ≤ M) (ha : 0 ≤ a ∧ a ≤ (M : ℚ)) :
    0 ≤ costAt64 x b a ∧ costAt64 x b a ≤ ((M * M : Int) : ℚ)
      ∧ |costAt64 x b a - costAt x b a| ≤ 3 * ((M * M : Int) : ℚ) * pow2 (-53) := by
  have hp : pow2 53 = 9007199254740992 := by decide!
  have hMq2 : (M : ℚ) ≤ 33554432 := by exact_mod_cast hM2
  have hk0 : (0 : ℚ) ≤ ((x + b : Int) : ℚ) := by exact_mod_cast hk.1
  have hk1 : ((x + b : Int) : ℚ) ≤ (M : ℚ) := by exact_mod_cast hk.2
  have hkq : |((x + b : Int) : ℚ)| < pow2 53 := by
    rw [abs_of_nonneg hk0, hp]; linarith
  have hd : |((x + b : Int) : ℚ) - a| ≤ (M : ℚ) := by
    rw [abs_le]; constructor <;> linarith [ha.1, ha.2]
  have h := fl64_sq_err M hM1 hM2 hd
  unfold costAt64 costAt
  rw [fl64_intCast hkq, Int.cast_mul]
  exact h

theorem average64_bounds (bases : List Int) (n : Nat) (totalQuota : Int) (hn : 1 ≤ n)
    (hn2 : (n : Int) ≤ 2 ^ 25) (hM1 : 0 ≤ totalQuota + bases.sum)
    (hM2 : totalQuota + bases.sum ≤ 2 ^ 25) :
    0 ≤ average64 bases n totalQuota
      ∧ average64 bases n totalQuota ≤ ((totalQuota + bases.sum : Int) : ℚ) := by
  have hp : pow2 53 = 9007199254740992 := by decide!
  have hMq0 : (0 : ℚ) ≤ ((totalQuota + bases.sum : Int) : ℚ) := by exact_mod_cast hM1
  have hMq2 : ((totalQuota + bases.sum : Int) : ℚ) ≤ 33554432 := by exact_mod_cast hM2
  have hnq1 : (1 : ℚ) ≤ (n : ℚ) := by exact_mod_cast hn
  have hnq2 : (n : ℚ) ≤ 33554432 := by exact_mod_cast hn2
  have e1 : fl64 ((totalQuota + bases.sum : Int) : ℚ) = ((totalQuota + bases.sum : Int) : ℚ) :=
    fl64_intCast (by rw [abs_of_nonneg hMq0, hp]; linarith)
  have e2 : fl64 (n : ℚ) = (n : ℚ) := by
    have := @fl64_intCast (n : Int) (by
      rw [abs_of_nonneg (by positivity), hp]
      push_cast
      linarith)
    simpa using this
  unfold average64
  rw [e1, e2]
  have hq0 : 0 ≤ ((totalQuota + bases.sum : Int) : ℚ) / (n : ℚ) := div_nonneg hMq0 (by linarith)
  have hq1 : ((totalQuota + bases.sum : Int) : ℚ) / (n : ℚ)
      ≤ ((totalQuota + bases.sum : Int) : ℚ) := div_le_self hMq0 hnq1
  refine ⟨fl64_nonneg hq0, fl64_le_of_le_int ?_ hq1⟩
  rw [abs_of_nonneg hq0, hp]
  linarith

/-! ## The `float64` solution is optimal while the rounding stays below the integer gaps -/

theorem allocCost_le_of_lt_one {ts : List (Int × Int)} {xs ys : List Nat} (a average : ℚ)
    (hx : Within ts xs) (hy : Within ts ys) (hsum : xs.sum = ys.sum)
    (h : allocCost a ts xs < allocCost a ts ys + 1) :
    allocCost average ts xs ≤ allocCost average ts ys := by
  rw [allocCost_eq_sqSum a hx, allocCost_eq_sqSum a hy, hsum] at h
  rw [allocCost_eq_sqSum average hx, allocCost_eq_sqSum average hy, hsum]
  have h1 : (sqSum ts xs : ℚ) < (sqSum ts ys : ℚ) + 1 := by linarith
  have h2 : sqSum ts xs < sqSum ts ys + 1 := by exact_mod_cast h1
  have h3 : (sqSum ts xs : ℚ) ≤ (sqSum ts ys : ℚ) := by
    have : sqSum ts xs ≤ sqSum ts ys := by omega
    exact_mod_cast this
  linarith

theorem solveQuota64_eq (codes : List String) (typeCounts historicalCounts : GoMap)
    (totalQuota : Int) :
    solveQuota64 (codes.map (mapGet typeCounts)) (codes.map (mapGet historicalCounts)) totalQuota
      = (recon64 (average64 (codes.map (mapGet historicalCounts)) codes.length totalQuota)
          (typesOf codes typeCounts historicalCounts).reverse
          (dpRows64 (average64 (codes.map (mapGet historicalCounts)) codes.length totalQuota)
            totalQuota.toNat (typesOf codes typeCounts historicalCounts).reverse)
          totalQuota.toNat).reverse := by
  unfold solveQuota64
  simp only [zip_typesOf, List.length_map]

theorem solveQuota64_sum_le (codes : List String) (typeCounts historicalCounts : GoMap)
    (totalQuota : Int) :
    (solveQuota64 (codes.map (mapGet typeCounts)) (codes.map (mapGet historicalCounts))
      totalQuota).sum ≤ totalQuota.toNat := by
  rw [solveQuota64_eq, List.sum_reverse]
  exact recon64_sum_le _ _ _ _

theorem solveQuota64_bounded (codes : List String) (typeCounts historicalCounts : GoMap)
    (totalQuota : Int) :
    List.Forall₂ (fun (c : String) (x : Nat) => x = 0 ∨ (x : Int) ≤ mapGet typeCounts c) codes
      (solveQuota64 (codes.map (mapGet typeCounts)) (codes.map (mapGet historicalCounts))
        totalQuota) := by
  rw [solveQuota64_eq]
  have h := recon64_bounded
    (average64 (codes.map (mapGet historicalCounts)) codes.length totalQuota) totalQuota.toNat
    (typesOf codes typeCounts historicalCounts).reverse totalQuota.toNat
  have h2 := List.forall₂_reverse_iff.mpr h
  rw [List.reverse_reverse] at h2
  unfold typesOf at h2
  rw [List.forall₂_map_left_iff] at h2
  exact h2

theorem solveQuota64_has (codes : List String) (typeCounts historicalCounts : GoMap)
    (totalQuota : Int) :
    List.Forall₂ (fun (c : String) (x : Nat) => x = 0 ∨ mapHas typeCounts c = true) codes
      (solveQuota64 (codes.map (mapGet typeCounts)) (codes.map (mapGet historicalCounts))
        totalQuota) := by
  refine List.Forall₂.imp ?_ (solveQuota64_bounded codes typeCounts historicalCounts totalQuota)
  intro c x hcx
  rcases hcx with h | h
  · exact Or.inl h
  · by_cases hx : x = 0
    · exact Or.inl hx
    · right
      apply mapHas_of_pos
      have : 0 < x := Nat.pos_of_ne_zero hx
      omega

theorem solveQuota64_optimal (codes : List String) (typeCounts historicalCounts : GoMap)
    (totalQuota : Int) (hQ : 0 < totalQuota)
    (hb : ∀ c ∈ codes, 0 ≤ mapGet historicalCounts c)
    (hsize : ((codes.length : Int) + 3) * (totalQuota + (codes.map (mapGet historicalCounts)).sum)
      ≤ 2 ^ 25)
    (ys : List Nat) (hy : Within (typesOf codes typeCounts historicalCounts) ys)
    (hsum : ys.sum = totalQuota.toNat) (average : ℚ) :
    Within (typesOf codes typeCounts historicalCounts)
        (solveQuota64 (codes.map (mapGet typeCounts)) (codes.map (mapGet historicalCounts))
          totalQuota)
      ∧ (solveQuota64 (codes.map (mapGet typeCounts)) (codes.map (mapGet historicalCounts))
          totalQuota).sum = totalQuota.toNat
      ∧ allocCost average (typesOf codes typeCounts historicalCounts)
          (solveQuota64 (codes.map (mapGet typeCounts)) (codes.map (mapGet historicalCounts))
            totalQuota)
        ≤ allocCost average (typesOf codes typeCounts historicalCounts) ys := by
  have hne : 1 ≤ codes.length := by
    rcases Nat.eq_zero_or_pos codes.length with h0 | h0
    · have hnil : codes = [] := List.length_eq_zero.mp h0
      rw [hnil] at hy
      unfold typesOf Within at hy
      simp only [List.map_nil, List.forall₂_nil_left_iff] at hy
      rw [hy] at hsum
      simp only [List.sum_nil] at hsum
      omega
    · exact h0
  have hT0 : 0 ≤ (codes.map (mapGet historicalCounts)).sum :=
    List.sum_nonneg (by
      intro x hx
      rw [List.mem_map] at hx
      obtain ⟨c, hc, rfl⟩ := hx
      exact hb c hc)
  have hM1 : 1 ≤ totalQuota + (codes.map (mapGet historicalCounts)).sum := by omega
  have hM2 : totalQuota + (codes.map (mapGet historicalCounts)).sum ≤ 2 ^ 25 := by nlinarith
  have hn2 : (codes.length : Int) ≤ 2 ^ 25 := by nlinarith
  obtain ⟨ha0, ha1⟩ := average64_bounds (codes.map (mapGet historicalCounts)) codes.length
    totalQuota hne hn2 (by omega) hM2
  have hp : pow2 53 = 9007199254740992 := by decide!
  have hu : pow2 (-53) = 1 / 9007199254740992 := by decide!
  have htau : pow2 (-29) = 1 / 536870912 := by decide!
  have hnq1 : (1 : ℚ) ≤ (codes.length : ℚ) := by exact_mod_cast hne
  have hMq1 : (1 : ℚ) ≤ ((totalQuota + (codes.map (mapGet historicalCounts)).sum : Int) : ℚ) := by
    exact_mod_cast hM1
  have hPq : ((codes.length : ℚ) + 3)
      * ((totalQuota + (codes.map (mapGet historicalCounts)).sum : Int) : ℚ) ≤ 33554432 := by
    exact_mod_cast hsize
  rw [solveQuota64_eq]
  generalize hMdef : totalQuota + (codes.map (mapGet historicalCounts)).sum = M at *
  generalize hadef : average64 (codes.map (mapGet historicalCounts)) codes.length totalQuota
    = a at *
  have hlenr : (typesOf codes typeCounts historicalCounts).reverse.length = codes.length := by
    unfold typesOf
    rw [List.length_reverse, List.length_map]
  have hcost : ∀ t ∈ (typesOf codes typeCounts historicalCounts).reverse, ∀ x : Nat,
      x ≤ totalQuota.toNat → 0 ≤ costAt64 x t.2 a ∧ costAt64 x t.2 a ≤ ((M * M : Int) : ℚ)
        ∧ |costAt64 x t.2 a - costAt x t.2 a| ≤ 3 * ((M * M : Int) : ℚ) * pow2 (-53) := by
    intro t ht x hx
    rw [List.mem_reverse] at ht
    unfold typesOf at ht
    rw [List.mem_map] at ht
    obtain ⟨c, hc, rfl⟩ := ht
    have hbc := hb c hc
    have hle : mapGet historicalCounts c ≤ (codes.map (mapGet historicalCounts)).sum :=
      List.single_le_sum (by
        intro y hy
        rw [List.mem_map] at hy
        obtain ⟨c2, hc2, rfl⟩ := hy
        exact hb c2 hc2) _ (List.mem_map_of_mem _ hc)
    exact costAt64_err M hM1 hM2 x (mapGet historicalCounts c) a
      ⟨by show 0 ≤ (x : Int) + mapGet historicalCounts c; omega,
       by show (x : Int) + mapGet historicalCounts c ≤ M; omega⟩ ⟨ha0, ha1⟩
  have hMM0 : (0 : Int) ≤ M * M := by nlinarith
  have hMMq : (1 : ℚ) ≤ ((M * M : Int) : ℚ) := by
    push_cast; nlinarith
  have hS1 : (1 : ℚ) ≤ (codes.length : ℚ) * ((M * M : Int) : ℚ) := by nlinarith
  have hnM : (codes.length : ℚ) * (M : ℚ) ≤ 33554432 := by nlinarith
  have hSle : (codes.length : ℚ) * ((M * M : Int) : ℚ) ≤ 1125899906842624 := by
    push_cast
    nlinarith
  have hS : (codes.length : ℚ) * ((M * M : Int) : ℚ) < pow2 53 := by
    rw [hp]; linarith
  have hlen : ((typesOf codes typeCounts historicalCounts).reverse.length : ℚ)
      * ((M * M : Int) : ℚ) ≤ (codes.length : ℚ) * ((M * M : Int) : ℚ) := by
    rw [hlenr]
  have hyr : Within (typesOf codes typeCounts historicalCounts).reverse ys.reverse :=
    List.forall₂_reverse_iff.mpr hy
  obtain ⟨v, hv, hvle⟩ := rowOf64_le_of_within a totalQuota.toNat (M * M)
    ((codes.length : ℚ) * ((M * M : Int) : ℚ)) (3 * ((M * M : Int) : ℚ) * pow2 (-53))
    hMM0 hS1 hS hyr hcost hlen (by rw [List.sum_reverse, hsum])
  rw [List.sum_reverse, hsum] at hv
  obtain ⟨hwi, hs, hcostr⟩ := recon64_spec a totalQuota.toNat (M * M)
    ((codes.length : ℚ) * ((M * M : Int) : ℚ)) (3 * ((M * M : Int) : ℚ) * pow2 (-53))
    hMM0 hS1 hS (typesOf codes typeCounts historicalCounts).reverse hcost hlen
    totalQuota.toNat v (le_refl _) hv
  rw [hlenr] at hvle hcostr
  have hgap : allocCost a (typesOf codes typeCounts historicalCounts).reverse
      (recon64 a (typesOf codes typeCounts historicalCounts).reverse
        (dpRows64 a totalQuota.toNat (typesOf codes typeCounts historicalCounts).reverse)
        totalQuota.toNat)
      < allocCost a (typesOf codes typeCounts historicalCounts).reverse ys.reverse + 1 := by
    have hE : (codes.length : ℚ) * (3 * ((M * M : Int) : ℚ) * pow2 (-53)
          + (codes.length : ℚ) * ((M * M : Int) : ℚ) * pow2 (-53))
        + (codes.length : ℚ) * (3 * ((M * M : Int) : ℚ) * pow2 (-53)
          + (codes.length : ℚ) * ((M * M : Int) : ℚ) * pow2 (-53) + pow2 (-29)) < 1 := by
      rw [hu, htau]
      push_cast
      have h1 : (codes.length : ℚ) * ((codes.length : ℚ) + 3) * ((M : ℚ) * (M : ℚ))
          ≤ 1125899906842624 := by
        calc (codes.length : ℚ) * ((codes.length : ℚ) + 3) * ((M : ℚ) * (M : ℚ))
            = ((codes.length : ℚ) * (M : ℚ)) * (((codes.length : ℚ) + 3) * (M : ℚ)) := by ring
          _ ≤ 33554432 * 33554432 := mul_le_mul hnM hPq (by positivity) (by norm_num)
          _ = 1125899906842624 := by norm_num
      have h2 : (codes.length : ℚ) ≤ 33554432 :=
        le_trans (le_mul_of_one_le_right (by positivity) hMq1) hnM
      have key : (codes.length : ℚ) * (3 * ((M : ℚ) * (M : ℚ)) * (1 / 9007199254740992)
            + (codes.length : ℚ) * ((M : ℚ) * (M : ℚ)) * (1 / 9007199254740992))
          + (codes.length : ℚ) * (3 * ((M : ℚ) * (M : ℚ)) * (1 / 9007199254740992)
            + (codes.length : ℚ) * ((M : ℚ) * (M : ℚ)) * (1 / 9007199254740992) + 1 / 536870912)
          = 2 * ((codes.length : ℚ) * ((codes.length : ℚ) + 3) * ((M : ℚ) * (M : ℚ)))
              / 9007199254740992 + (codes.length : ℚ) / 536870912 := by ring
      rw [key]
      linarith
    linarith
  have hopt := allocCost_le_of_lt_one a average hwi hyr (by rw [hs, List.sum_reverse, hsum]) hgap
  have hwi2 := List.forall₂_reverse_iff.mpr hwi
  rw [List.reverse_reverse] at hwi2
  refine ⟨hwi2, by rw [List.sum_reverse, hs], ?_⟩
  have hc := allocCost_reverse average hwi
  rw [List.reverse_reverse] at hc
  rw [hc]
  rw [allocCost_reverse average hy] at hopt
  exact hopt

/-! ## Sum and bounds of the `float64` solution (no condition on the magnitudes) -/

theorem AllocateQuota64_eq_buildQuotas {codes : List String} (typeCounts historicalCounts : GoMap)
    {totalQuota : Int} (hQ : 0 < totalQuota) (hne : codes ≠ []) :
    AllocateQuota64 codes typeCounts historicalCounts totalQuota
      = buildQuotas typeCounts codes
          (solveQuota64 (codes.map (mapGet typeCounts)) (codes.map (mapGet historicalCounts))
            totalQuota) := by
  unfold AllocateQuota64
  have h1 : ¬ totalQuota ≤ 0 := by omega
  have h2 : ¬ codes.length = 0 := by
    intro h
    exact hne (List.length_eq_zero.mp h)
  simp only [h1, h2, if_false]

theorem AllocateQuota64_nil (typeCounts historicalCounts : GoMap) (totalQuota : Int) :
    AllocateQuota64 [] typeCounts historicalCounts totalQuota = [] := by
  unfold AllocateQuota64
  simp

theorem allocate64_entry_bounded (codes : List String) (typeCounts historicalCounts : GoMap)
    (totalQuota : Int) (k : String) (q : Int)
    (h : (k, q) ∈ AllocateQuota64 codes typeCounts historicalCounts totalQuota) :
    mapHas typeCounts k = true ∧ 1 ≤ q ∧ q ≤ mapGet typeCounts k := by
  by_cases hQ : 0 < totalQuota
  · by_cases hne : codes = []
    · subst hne
      rw [AllocateQuota64_nil] at h
      simp at h
    · rw [AllocateQuota64_eq_buildQuotas _ _ hQ hne] at h
      obtain ⟨hhas, x, hx, rfl, hmem⟩ := mem_buildQuotas h
      have hb := List.forall₂_zip
        (solveQuota64_bounded codes typeCounts historicalCounts totalQuota) hmem
      refine ⟨hhas, by omega, ?_⟩
      rcases hb with hb | hb
      · omega
      · exact hb
  · unfold AllocateQuota64 at h
    have : totalQuota ≤ 0 := by omega
    simp [this] at h

theorem allocate64_get_bounds (codes : List String) (typeCounts historicalCounts : GoMap)
    (totalQuota : Int) (t : String) (h0 : 0 ≤ mapGet typeCounts t) :
    0 ≤ mapGet (AllocateQuota64 codes typeCounts historicalCounts totalQuota) t
      ∧ mapGet (AllocateQuota64 codes typeCounts historicalCounts totalQuota) t
          ≤ mapGet typeCounts t := by
  by_cases hz : mapGet (AllocateQuota64 codes typeCounts historicalCounts totalQuota) t = 0
  · rw [hz]; exact ⟨le_refl _, h0⟩
  · have := allocate64_entry_bounded codes typeCounts historicalCounts totalQuota t _
      (mem_of_mapGet_ne_zero hz)
    omega

theorem allocate64_sum_le (codes : List String) (typeCounts historicalCounts : GoMap)
    (totalQuota : Int) (hQ : 0 ≤ totalQuota) :
    0 ≤ mapSum (AllocateQuota64 codes typeCounts historicalCounts totalQuota)
      ∧ mapSum (AllocateQuota64 codes typeCounts historicalCounts totalQuota) ≤ totalQuota := by
  by_cases h1 : 0 < totalQuota
  · by_cases h2 : codes = []
    · subst h2
      rw [AllocateQuota64_nil]
      simp [mapSum]
      omega
    · rw [AllocateQuota64_eq_buildQuotas _ _ h1 h2, mapSum_buildQuotas (solveQuota64_has _ _ _ _)]
      have := solveQuota64_sum_le codes typeCounts historicalCounts totalQuota
      omega
  · unfold AllocateQuota64
    have : totalQuota ≤ 0 := by omega
    simp [this, mapSum]
    omega

theorem allocate64_get_of_not_key (codes : List String) (normal : List (String × List Traces))
    (historicalCounts : GoMap) (totalQuota : Int) (t : String)
    (h : t ∉ batchSortedTypes normal) :
    mapGet (AllocateQuota64 codes (batchTypeCounts normal) historicalCounts totalQuota) t = 0 := by
  by_contra hne
  have hb := allocate64_entry_bounded codes (batchTypeCounts normal) historicalCounts totalQuota
    t _ (mem_of_mapGet_ne_zero hne)
  have hk := (mapHas_iff_mem_keys _ _).1 hb.1
  have hkeys : (batchTypeCounts normal).map Prod.fst = normal.map Prod.fst := by
    unfold batchTypeCounts
    simp [List.map_map, Function.comp_def]
  rw [hkeys] at hk
  exact h ((batchSortedTypes_perm normal).mem_iff.mpr hk)

/-! ## Optimality of `AllocateQuota` in `float64` -/

/-- C6 (counterexample). With `typeCounts = {A:5, B:5, C:5}`, `historicalCounts = {B:10^9}` and
`Q = 3` the costs are of the order `10^17`, where neighbouring `float64` values are 16 and more
apart: for every order in which the keys can be enumerated, the allocation returned by
`AllocateQuota` (all three units to the first of `A` and `C` in table order) has a larger
objective than the feasible vector `{A:2, C:1}`, by 4; for the order `A, B, C` it is
`{A:3}`. -/
theorem C6_float_rounding_loses_minimum :
    AllocateQuota64 ["A", "B", "C"] [("A", 5), ("B", 5), ("C", 5)] [("B", 1000000000)] 3
        = [("A", 3)]
      ∧ (∀ c ∈ ["A", "B", "C"], 0 ≤ mapGet [("A", 2), ("C", 1)] c
          ∧ mapGet [("A", 2), ("C", 1)] c ≤ mapGet [("A", 5), ("B", 5), ("C", 5)] c)
      ∧ (["A", "B", "C"].map (mapGet [("A", 2), ("C", 1)])).sum = 3
      ∧ ∀ codes ∈ ["A", "B", "C"].permutations,
          EnumeratesKeys codes [("A", 5), ("B", 5), ("C", 5)] [("B", 1000000000)]
            ∧ objective codes [("B", 1000000000)] 3 (mapGet [("A", 2), ("C", 1)]) + 4
              = objective codes [("B", 1000000000)] 3
                  (mapGet (AllocateQuota64 codes [("A", 5), ("B", 5), ("C", 5)]
                    [("B", 1000000000)] 3)) := by
  decide!

/-- C6 (amended). For non-negative historical counts, an enumeration `codes` of the keys
(`n` of them), `Q > 0` and magnitudes with `(n + 3) · (Q + T) ≤ 2^25`, where `T` is the sum of
the historical counts, the allocation returned by `AllocateQuota`, computed in `float64`, is
within the bounds `0 ≤ x ≤ u` with sum `Q`, and its objective `Σ (x + b − avg)²` is at most
that of every integer vector `y` over the codes with `0 ≤ y ≤ u` and `Σ y = Q`. -/
theorem C6_allocate_minimises_within_precision (codes : List String)
    (typeCounts historicalCounts : GoMap) (totalQuota : Int)
    (henum : EnumeratesKeys codes typeCounts historicalCounts) (hQ : 0 < totalQuota)
    (hb : ∀ c ∈ codes, 0 ≤ mapGet historicalCounts c)
    (hsize : ((codes.length : Int) + 3)
      * (totalQuota + (codes.map (mapGet historicalCounts)).sum) ≤ 2 ^ 25)
    (y : String → Int) (hy : ∀ c ∈ codes, 0 ≤ y c ∧ y c ≤ mapGet typeCounts c)
    (hsum : (codes.map y).sum = totalQuota) :
    (∀ c ∈ codes, 0 ≤ mapGet (AllocateQuota64 codes typeCounts historicalCounts totalQuota) c
        ∧ mapGet (AllocateQuota64 codes typeCounts historicalCounts totalQuota) c
            ≤ mapGet typeCounts c)
      ∧ (codes.map (mapGet (AllocateQuota64 codes typeCounts historicalCounts totalQuota))).sum
          = totalQuota
      ∧ objective codes historicalCounts totalQuota
          (mapGet (AllocateQuota64 codes typeCounts historicalCounts totalQuota))
        ≤ objective codes historicalCounts totalQuota y := by
  obtain ⟨hnd, _, _, _⟩ := henum
  have hne : codes ≠ [] := by
    rintro rfl
    simp only [List.map_nil, List.sum_nil] at hsum
    omega
  have hyW : Within (typesOf codes typeCounts historicalCounts)
      (codes.map (fun c => (y c).toNat)) := by
    unfold Within typesOf
    rw [List.forall₂_map_left_iff, List.forall₂_map_right_iff, List.forall₂_same]
    intro c hc
    have := hy c hc
    show (((y c).toNat : Nat) : Int) ≤ mapGet typeCounts c
    omega
  have hysum : (codes.map (fun c => (y c).toNat)).sum = totalQuota.toNat := by
    have := sum_map_toNat y codes (fun c hc => (hy c hc).1)
    omega
  obtain ⟨hW, hS, hC⟩ := solveQuota64_optimal codes typeCounts historicalCounts totalQuota hQ hb
    hsize _ hyW hysum (quotaAverage codes historicalCounts totalQuota)
  have hmap := map_mapGet_buildQuotas hnd
    (solveQuota64_has codes typeCounts historicalCounts totalQuota)
  rw [← AllocateQuota64_eq_buildQuotas typeCounts historicalCounts hQ hne] at hmap
  have hmapy : codes.map y = (codes.map (fun c => (y c).toNat)).map (fun n : Nat => (n : Int)) := by
    rw [List.map_map]
    apply List.map_congr_left
    intro c hc
    have := (hy c hc).1
    show y c = (((y c).toNat : Nat) : Int)
    omega
  refine ⟨?_, ?_, ?_⟩
  · intro c hc
    exact allocate64_get_bounds codes typeCounts historicalCounts totalQuota c
      (le_trans (hy c hc).1 (hy c hc).2)
  · rw [hmap]
    have : ((solveQuota64 (codes.map (mapGet typeCounts)) (codes.map (mapGet historicalCounts))
        totalQuota).map (fun n : Nat => (n : Int))).sum
        = (((solveQuota64 (codes.map (mapGet typeCounts)) (codes.map (mapGet historicalCounts))
          totalQuota).sum : Nat) : Int) := by
      rw [Nat.cast_list_sum]
    rw [this, hS]
    omega
  · unfold objective
    rw [sum_costAt_eq_allocCost _ typeCounts historicalCounts _ codes _ hmap,
      sum_costAt_eq_allocCost _ typeCounts historicalCounts _ codes _ hmapy]
    exact hC

theorem C6_allocate_minimises_within_precision_witness :
    EnumeratesKeys ["A", "B", "C"] [("A", 10), ("B", 10), ("C", 10)] [("A", 100)]
      ∧ objective ["A", "B", "C"] [("A", 100)] 15
          (mapGet (AllocateQuota64 ["A", "B", "C"] [("A", 10), ("B", 10), ("C", 10)]
            [("A", 100)] 15))
        ≤ objective ["A", "B", "C"] [("A", 100)] 15 (mapGet [("B", 7), ("C", 8)]) :=
  ⟨by decide, (C6_allocate_minimises_within_precision ["A", "B", "C"]
    [("A", 10), ("B", 10), ("C", 10)] [("A", 100)] 15
    (by decide) (by decide) (by decide) (by decide) (mapGet [("B", 7), ("C", 8)])
    (by decide) (by decide)).2.2⟩

/-! ## `runBatchSampling` in `float64` -/

theorem fl64_natCast {n : Nat} (h : n < 2 ^ 53) : fl64 (n : ℚ) = (n : ℚ) := by
  have hp : pow2 53 = 9007199254740992 := by decide!
  have h1 : (n : ℚ) < 9007199254740992 := by exact_mod_cast h
  have := @fl64_intCast (n : Int) (by
    rw [abs_of_nonneg (by positivity), hp]
    push_cast
    exact h1)
  simpa using this

theorem fl64_natCast_sub_one {n : Nat} (h0 : 0 < n) (h : n < 2 ^ 53) :
    fl64 ((n : ℚ) - 1) = (n : ℚ) - 1 := by
  have := @fl64_natCast (n - 1) (by omega)
  rw [Nat.cast_sub (by omega)] at this
  simpa using this

theorem fl64_one : fl64 1 = 1 := by decide!

theorem index64_eq {p : ℚ} {len : Nat} (h0 : 0 < len) (h : len < 2 ^ 53) :
    index64 p len = fl64 (fl64 (p / 100) * ((len : ℚ) - 1)) := by
  unfold index64
  rw [fl64_natCast h, fl64_natCast_sub_one h0 h]

theorem indexAdvanced64_eq {p : ℚ} {len : Nat} (h0 : 0 < len) (h : len < 2 ^ 53) :
    indexAdvanced64 p len = index64 p len := by
  rw [index64_eq h0 h]
  unfold indexAdvanced64
  have : ((((len : Int) - 1 : Int)) : ℚ) = (len : ℚ) - 1 := by push_cast; ring
  rw [this, fl64_natCast_sub_one h0 h]

theorem index64_zero {len : Nat} (h0 : 0 < len) (h : len < 2 ^ 53) : index64 0 len = 0 := by
  rw [index64_eq h0 h, zero_div, fl64_zero, zero_mul, fl64_zero]

theorem index64_hundred {len : Nat} (h0 : 0 < len) (h : len < 2 ^ 53) :
    index64 100 len = (len : ℚ) - 1 := by
  rw [index64_eq h0 h, div_self (by norm_num), fl64_one, one_mul, fl64_natCast_sub_one h0 h]

theorem index64_mono {p q : ℚ} {len : Nat} (h0 : 0 < len) (h : len < 2 ^ 53) (hpq : p ≤ q) :
    index64 p len ≤ index64 q len := by
  rw [index64_eq h0 h, index64_eq h0 h]
  have hn1 : (0 : ℚ) ≤ (len : ℚ) - 1 := by
    have : (1 : ℚ) ≤ (len : ℚ) := by exact_mod_cast h0
    linarith
  exact fl64_mono (mul_le_mul_of_nonneg_right
    (fl64_mono (div_le_div_of_nonneg_right hpq (by norm_num))) hn1)

theorem index64_range {p : ℚ} {len : Nat} (h0 : 0 < len) (h : len < 2 ^ 53) (hp0 : 0 ≤ p)
    (hp1 : p ≤ 100) : 0 ≤ index64 p len ∧ index64 p len ≤ (len : ℚ) - 1 := by
  constructor
  · have := index64_mono h0 h hp0
    rw [index64_zero h0 h] at this
    exact this
  · have := index64_mono h0 h hp1
    rw [index64_hundred h0 h] at this
    exact this

theorem interpolate64_nan (hi : Flt) (w : ℚ) : interpolate64 none hi w = none := rfl

theorem interpolate64_some (lo hi w : ℚ) :
    interpolate64 (some lo) (some hi) w
      = some (fl64 (fl64 (lo * fl64 (1 - w)) + fl64 (hi * w))) := rfl

/-- What `percentile` returns in `float64` on data with `NaN` entries: `NaN` while the lower
index lies among the `NaN` entries that the sort put first, and otherwise the entry or the
rounded interpolation of the sorted other entries at the positions shifted by the number of
`NaN` entries. -/
theorem percentile64_eq (data : List Flt) (p : ℚ) (hp0 : 0 ≤ p) (hp1 : p ≤ 100)
    (hfin : finiteEntries data ≠ []) (hcap : data.length < 2 ^ 53) :
    percentile64 data p
      = some (if ⌊index64 p data.length⌋ < (nanCount data : Int) then none
          else if ⌊index64 p data.length⌋ = ⌈index64 p data.length⌉ then
            some ((sortFloat64s (finiteEntries data)).getD
              (⌊index64 p data.length⌋.toNat - nanCount data) 0)
          else interpolate64
            (some ((sortFloat64s (finiteEntries data)).getD
              (⌊index64 p data.length⌋.toNat - nanCount data) 0))
            (some ((sortFloat64s (finiteEntries data)).getD
              (⌈index64 p data.length⌉.toNat - nanCount data) 0))
            (weight64 (index64 p data.length) ⌊index64 p data.length⌋)) := by
  have hne : data ≠ [] := by
    intro h
    rw [h] at hfin
    exact hfin rfl
  have hlen : 0 < data.length := List.length_pos.2 hne
  have hm : 0 < (finiteEntries data).length := List.length_pos.2 hfin
  have hkm := nanCount_add_finite data
  obtain ⟨hi0, hi1⟩ := index64_range hlen hcap hp0 hp1
  obtain ⟨hf0, hf1, hfi, hflt, hw0, hw1, hend⟩ := floor_facts _ _ hi0 hi1
  unfold percentile64
  rw [if_neg hne, sortFloat64sFlt_length]
  by_cases hz : p = 0
  · rw [if_pos hz]
    subst hz
    rw [index64_zero hlen hcap]
    simp only [Int.floor_zero, Int.ceil_zero, if_true, Int.toNat_zero, Nat.zero_sub]
    by_cases hk : 0 < nanCount data
    · rw [sliceGetFlt_nan data 0 (le_refl _) (by simpa using hk),
        if_pos (by exact_mod_cast hk)]
    · have hk0 : nanCount data = 0 := by omega
      rw [sliceGetFlt_finite data 0 (le_refl _) (by simp [hk0]) (by simpa using hlen),
        if_neg (by simp [hk0])]
      simp [hk0]
  · rw [if_neg hz]
    by_cases hc : p = 100
    · rw [if_pos hc]
      subst hc
      have hidx : index64 100 data.length = (((data.length : Int) - 1 : Int) : ℚ) := by
        rw [index64_hundred hlen hcap]; push_cast; ring
      rw [hidx, Int.floor_intCast, Int.ceil_intCast,
        sliceGetFlt_finite data _ (by omega) (by omega) (by omega), if_neg (by omega),
        if_pos rfl]
    · rw [if_neg hc]
      have hceil : ⌊index64 p data.length⌋ ≠ ⌈index64 p data.length⌉ →
          ⌈index64 p data.length⌉ = ⌊index64 p data.length⌋ + 1 := by
        intro hfc
        have h1 := Int.ceil_le_floor_add_one (index64 p data.length)
        have h2 := Int.floor_le_ceil (index64 p data.length)
        omega
      have hcle : ⌈index64 p data.length⌉ ≤ (data.length : Int) - 1 := by
        rw [Int.ceil_le]
        push_cast
        exact hi1
      by_cases hk : ⌊index64 p data.length⌋ < (nanCount data : Int)
      · rw [if_pos hk]
        have hnan := sliceGetFlt_nan data _ hf0 (by omega)
        by_cases hfc : ⌊index64 p data.length⌋ = ⌈index64 p data.length⌉
        · rw [if_pos hfc, hnan]
        · rw [if_neg hfc, hnan]
          have hc1 := hceil hfc
          rw [hc1] at hcle ⊢
          by_cases hk2 : (⌊index64 p data.length⌋ + 1).toNat < nanCount data
          · rw [sliceGetFlt_nan data _ (by omega) hk2]
            rfl
          · rw [sliceGetFlt_finite data _ (by omega) (by omega) (by omega)]
            rfl
      · rw [if_neg hk]
        have hfinlo := sliceGetFlt_finite data _ hf0 (by omega) hflt
        by_cases hfc : ⌊index64 p data.length⌋ = ⌈index64 p data.length⌉
        · rw [if_pos hfc, hfinlo, if_pos hfc]
        · rw [if_neg hfc, if_neg hfc]
          have hc1 := hceil hfc
          rw [hc1] at hcle
          rw [hfinlo, sliceGetFlt_finite data ⌈index64 p data.length⌉ (by omega) (by omega)
            (by omega)]

theorem bubblePassFlt_map_some : ∀ (k : Nat) (l : List ℚ),
    bubblePassFlt k (l.map some) = (bubblePass k l).map some
  | 0, l => by
    cases l with
    | nil => rfl
    | cons a rest =>
      cases rest with
      | nil => rfl
      | cons b rest => rfl
  | k + 1, [] => rfl
  | k + 1, [a] => rfl
  | k + 1, a :: b :: rest => by
    simp only [List.map_cons, bubblePassFlt, bubblePass, fltGt]
    by_cases h : a > b
    · have ih := bubblePassFlt_map_some k (a :: rest)
      simp only [List.map_cons] at ih
      simp [h, ih]
    · have ih := bubblePassFlt_map_some k (b :: rest)
      simp only [List.map_cons] at ih
      simp [h, ih]

theorem bubbleSortFlt_map_some (l : List ℚ) :
    bubbleSortFlt (l.map some) = (bubbleSort l).map some := by
  unfold bubbleSortFlt bubbleSort
  rw [List.length_map]
  generalize List.range l.length = idxs
  generalize hn : l.length = n
  clear hn
  induction idxs generalizing l with
  | nil => rfl
  | cons i rest ih =>
    simp only [List.foldl_cons]
    rw [bubblePassFlt_map_some, ih]

theorem sortFloat64sFlt_of_finite (data : List Flt) (hk : nanCount data = 0) :
    sortFloat64sFlt data = (sortFloat64s (finiteEntries data)).map some := by
  unfold sortFloat64sFlt
  rw [hk]
  rfl

theorem bubbleSortFlt_of_finite (data : List Flt) (hk : nanCount data = 0) :
    bubbleSortFlt data = sortFloat64sFlt data := by
  rw [sortFloat64sFlt_of_finite data hk]
  have h := (nanCount_eq_zero_iff data).1 hk
  rw [h, bubbleSortFlt_map_some, bubbleSort_eq_sortFloat64s, finiteEntries_map_some]

theorem ceil_eq_floor_of_whole {x : ℚ} (h : ((⌊x⌋ : Int) : ℚ) = x) : ⌈x⌉ = ⌊x⌋ := by
  rw [← h, Int.ceil_intCast, Int.floor_intCast]

theorem percentile64_whole (data : List Flt) (p : ℚ) (hp0 : 0 ≤ p) (hp1 : p ≤ 100)
    (hfin : finiteEntries data ≠ []) (hk : nanCount data = 0) (hcap : data.length < 2 ^ 53)
    (hw : ((⌊index64 p data.length⌋ : Int) : ℚ) = index64 p data.length) :
    percentile64 data p
      = some (some ((sortFloat64s (finiteEntries data)).getD
          ⌊index64 p data.length⌋.toNat 0)) := by
  have hne : data ≠ [] := by
    intro h
    rw [h] at hfin
    exact hfin rfl
  have h0 : 0 ≤ ⌊index64 p data.length⌋ :=
    Int.floor_nonneg.2 (index64_range (List.length_pos.2 hne) hcap hp0 hp1).1
  rw [percentile64_eq data p hp0 hp1 hfin hcap, hk, if_neg (by simpa using h0),
    if_pos (ceil_eq_floor_of_whole hw).symm, Nat.sub_zero]

theorem getD_sortFloat64s_mem (l : List ℚ) (i : Nat) (hi : i < l.length) :
    (sortFloat64s l).getD i 0 ∈ l := by
  have hlen : i < (sortFloat64s l).length := by rw [sortFloat64s_length]; exact hi
  rw [List.getD_eq_getElem _ _ hlen]
  exact (List.perm_insertionSort _ l).mem_iff.1 (List.getElem_mem hlen)

theorem calculatePercentile64_whole (data : List Flt) (p : ℚ) (hp0 : 0 ≤ p) (hp1 : p ≤ 100)
    (hfin : finiteEntries data ≠ []) (hk : nanCount data = 0) (hcap : data.length < 2 ^ 53)
    (hfl : ∀ x ∈ finiteEntries data, fl64 x = x)
    (hw : ((⌊index64 p data.length⌋ : Int) : ℚ) = index64 p data.length) :
    calculatePercentile64 data p
      = some (some ((sortFloat64s (finiteEntries data)).getD
          ⌊index64 p data.length⌋.toNat 0)) := by
  have hne : data ≠ [] := by
    intro h
    rw [h] at hfin
    exact hfin rfl
  have hlen : 0 < data.length := List.length_pos.2 hne
  have hkm := nanCount_add_finite data
  obtain ⟨hi0, hi1⟩ := index64_range hlen hcap hp0 hp1
  obtain ⟨hf0, hf1, hfi, hflt, _, _, _⟩ := floor_facts _ _ hi0 hi1
  have hp : pow2 53 = 9007199254740992 := by decide!
  unfold calculatePercentile64
  rw [if_neg hne, bubbleSortFlt_of_finite data hk, sortFloat64sFlt_length,
    indexAdvanced64_eq hlen hcap, truncToInt_of_nonneg hi0]
  by_cases hz : p ≤ 0
  · have hp00 : p = 0 := le_antisymm hz hp0
    rw [if_pos hz, hp00, index64_zero hlen hcap,
      sliceGetFlt_finite data 0 (le_refl _) (by simp [hk]) (by simpa using hlen)]
    simp [hk]
  · rw [if_neg hz]
    by_cases hc : p ≥ 100
    · have hp100 : p = 100 := le_antisymm hp1 hc
      have hidx : index64 100 data.length = (((data.length : Int) - 1 : Int) : ℚ) := by
        rw [index64_hundred hlen hcap]; push_cast; ring
      rw [if_pos hc, hp100, hidx, Int.floor_intCast,
        sliceGetFlt_finite data _ (by omega) (by omega) (by omega), hk, Nat.sub_zero]
    · rw [if_neg hc]
      by_cases hend : ⌊index64 p data.length⌋ + 1 ≥ (data.length : Int)
      · rw [if_pos hend, sliceGetFlt_finite data _ hf0 (by omega) hflt, hk, Nat.sub_zero]
      · rw [if_neg hend, sliceGetFlt_finite data _ hf0 (by omega) hflt,
          sliceGetFlt_finite data (⌊index64 p data.length⌋ + 1) (by omega) (by omega)
            (by omega), hk, Nat.sub_zero, Nat.sub_zero]
        have hflo : fl64 ((⌊index64 p data.length⌋ : Int) : ℚ)
            = ((⌊index64 p data.length⌋ : Int) : ℚ) := by
          apply fl64_intCast
          rw [hw, abs_of_nonneg hi0, hp]
          have : (data.length : ℚ) < 9007199254740992 := by exact_mod_cast hcap
          linarith
        have hwt : weight64 (index64 p data.length) ⌊index64 p data.length⌋ = 0 := by
          unfold weight64
          rw [hflo, hw, sub_self, fl64_zero]
        have hmem := hfl _ (getD_sortFloat64s_mem (finiteEntries data)
          ⌊index64 p data.length⌋.toNat (by omega))
        simp only [hwt, interpolate64_some, sub_zero, fl64_one, mul_one, mul_zero, fl64_zero,
          add_zero, hmem]

theorem interpolate64_err {B lo hi w : ℚ} (hB : 1 ≤ B) (hlo : |lo| ≤ B) (hhi : |hi| ≤ B)
    (hw0 : 0 ≤ w) (hw1 : w ≤ 1) :
    |fl64 (fl64 (lo * fl64 (1 - fl64 w)) + fl64 (hi * fl64 w)) - (lo * (1 - w) + hi * w)|
      ≤ 9 * B * pow2 (-53) := by
  have hp : pow2 53 = 9007199254740992 := by decide!
  have hu : pow2 (-53) = 1 / 9007199254740992 := by decide!
  have hwabs : |w| ≤ 1 := by rw [abs_of_nonneg hw0]; exact hw1
  have hwlt : |w| < pow2 53 := by rw [hp]; linarith
  have e1 := fl64_err (le_refl (1 : ℚ)) hwabs
  have hv0 : 0 ≤ fl64 w := fl64_nonneg hw0
  have hv1 : fl64 w ≤ 1 := by
    have := @fl64_le_of_le_int w 1 hwlt (by simpa using hw1)
    simpa using this
  have hc0 : 0 ≤ 1 - fl64 w := by linarith
  have hc1 : 1 - fl64 w ≤ 1 := by linarith
  have hcabs : |1 - fl64 w| ≤ 1 := by rw [abs_of_nonneg hc0]; exact hc1
  have hclt : |1 - fl64 w| < pow2 53 := by rw [hp]; linarith
  have e2 := fl64_err (le_refl (1 : ℚ)) hcabs
  have ha0 : 0 ≤ fl64 (1 - fl64 w) := fl64_nonneg hc0
  have ha1 : fl64 (1 - fl64 w) ≤ 1 := by
    have := @fl64_le_of_le_int (1 - fl64 w) 1 hclt (by simpa using hc1)
    simpa using this
  have hB0 : 0 ≤ B := by linarith
  have hp1 : |lo * fl64 (1 - fl64 w)| ≤ B := by
    rw [abs_mul, abs_of_nonneg ha0]
    calc |lo| * fl64 (1 - fl64 w) ≤ B * 1 := mul_le_mul hlo ha1 ha0 hB0
      _ = B := mul_one B
  have hp2 : |hi * fl64 w| ≤ B := by
    rw [abs_mul, abs_of_nonneg hv0]
    calc |hi| * fl64 w ≤ B * 1 := mul_le_mul hhi hv1 hv0 hB0
      _ = B := mul_one B
  have e3 := fl64_err hB hp1
  have e4 := fl64_err hB hp2
  have hupos : (0 : ℚ) ≤ pow2 (-53) := le_of_lt (pow2_pos _)
  have hu1 : pow2 (-53) ≤ 1 := by rw [hu]; norm_num
  have ht1 : |fl64 (lo * fl64 (1 - fl64 w))| ≤ 2 * B := by
    have := abs_sub_abs_le_abs_sub (fl64 (lo * fl64 (1 - fl64 w))) (lo * fl64 (1 - fl64 w))
    nlinarith
  have ht2 : |fl64 (hi * fl64 w)| ≤ 2 * B := by
    have := abs_sub_abs_le_abs_sub (fl64 (hi * fl64 w)) (hi * fl64 w)
    nlinarith
  have hsum : |fl64 (lo * fl64 (1 - fl64 w)) + fl64 (hi * fl64 w)| ≤ 4 * B :=
    le_trans (abs_add _ _) (by linarith)
  have e5 := fl64_err (by linarith : (1 : ℚ) ≤ 4 * B) hsum
  have d1 : |lo * fl64 (1 - fl64 w) - lo * (1 - w)| ≤ B * (2 * pow2 (-53)) := by
    rw [← mul_sub, abs_mul]
    have : |fl64 (1 - fl64 w) - (1 - w)| ≤ 2 * pow2 (-53) := by
      rw [abs_le] at e1 e2 ⊢
      constructor <;> linarith [e1.1, e1.2, e2.1, e2.2]
    exact mul_le_mul hlo this (abs_nonneg _) hB0
  have d2 : |hi * fl64 w - hi * w| ≤ B * (1 * pow2 (-53)) := by
    rw [← mul_sub, abs_mul]
    exact mul_le_mul hhi e1 (abs_nonneg _) hB0
  rw [abs_le] at e3 e4 e5 d1 d2 ⊢
  constructor <;> linarith [e3.1, e3.2, e4.1, e4.2, e5.1, e5.2, d1.1, d1.2, d2.1, d2.2]

theorem whole_of_floor_eq_ceil {x : ℚ} (h : ⌊x⌋ = ⌈x⌉) : x - (⌊x⌋ : ℚ) = 0 := by
  have h1 := Int.floor_le x
  have h2 := Int.le_ceil x
  rw [← h] at h2
  linarith

theorem getD_sortFloat64s_abs_le {l : List ℚ} {B : ℚ} (hB : ∀ x ∈ l, |x| ≤ B) (h0 : 0 ≤ B)
    (i : Nat) : |(sortFloat64s l).getD i 0| ≤ B := by
  by_cases hi : i < l.length
  · exact hB _ (getD_sortFloat64s_mem l i hi)
  · have hlen : (sortFloat64s l).length ≤ i := by rw [sortFloat64s_length]; omega
    rw [List.getD_eq_default _ _ hlen, abs_zero]
    exact h0

theorem weight64_floor {x : ℚ} {n : Nat} (h0 : 0 ≤ x) (h1 : x ≤ (n : ℚ) - 1) (hn : n < 2 ^ 53) :
    weight64 x ⌊x⌋ = fl64 (x - (⌊x⌋ : ℚ)) := by
  have hp : pow2 53 = 9007199254740992 := by decide!
  have hf0 : (0 : ℚ) ≤ (⌊x⌋ : ℚ) := by exact_mod_cast Int.floor_nonneg.2 h0
  have hf1 := Int.floor_le x
  have hnq : (n : ℚ) < 9007199254740992 := by exact_mod_cast hn
  unfold weight64
  rw [fl64_intCast (by rw [abs_of_nonneg hf0, hp]; linarith)]

/-- In `float64` the result of `percentile` on data without `NaN` is within nine rounding
units of the exact linear interpolation at the `float64` index. -/
theorem percentile64_near_interp (data : List Flt) (p B : ℚ) (hp0 : 0 ≤ p) (hp1 : p ≤ 100)
    (hfin : finiteEntries data ≠ []) (hk : nanCount data = 0) (hcap : data.length < 2 ^ 53)
    (hB1 : 1 ≤ B) (hB : ∀ x ∈ finiteEntries data, |x| ≤ B) :
    ∃ r, percentile64 data p = some (some r)
      ∧ |r - interp (sortFloat64s (finiteEntries data)) (index64 p data.length)|
          ≤ 9 * B * pow2 (-53) := by
  have hne : data ≠ [] := by
    intro h
    rw [h] at hfin
    exact hfin rfl
  have hlen : 0 < data.length := List.length_pos.2 hne
  obtain ⟨hi0, hi1⟩ := index64_range hlen hcap hp0 hp1
  obtain ⟨hf0, hf1, hfi, hflt, hw0, hw1, hend⟩ := floor_facts _ _ hi0 hi1
  have hBu : 0 ≤ 9 * B * pow2 (-53) :=
    mul_nonneg (by linarith) (le_of_lt (pow2_pos _))
  rw [percentile64_eq data p hp0 hp1 hfin hcap, hk, if_neg (by simpa using hf0)]
  by_cases hfc : ⌊index64 p data.length⌋ = ⌈index64 p data.length⌉
  · rw [if_pos hfc, Nat.sub_zero]
    refine ⟨_, rfl, ?_⟩
    rw [interp_of_int _ _ (whole_of_floor_eq_ceil hfc), sub_self, abs_zero]
    exact hBu
  · rw [if_neg hfc, Nat.sub_zero, Nat.sub_zero, interpolate64_some]
    refine ⟨_, rfl, ?_⟩
    have hceil : ⌈index64 p data.length⌉.toNat = ⌊index64 p data.length⌋.toNat + 1 := by
      have h1 := Int.ceil_le_floor_add_one (index64 p data.length)
      have h2 := Int.floor_le_ceil (index64 p data.length)
      omega
    rw [hceil, weight64_floor hi0 hi1 hcap]
    unfold interp
    exact interpolate64_err hB1 (getD_sortFloat64s_abs_le hB (by linarith) _)
      (getD_sortFloat64s_abs_le hB (by linarith) _) hw0 (le_of_lt hw1)

/-- In `float64` the result of `calculatePercentile` on data without `NaN` is within nine
rounding units of the exact linear interpolation at the `float64` index. -/
theorem calculatePercentile64_near_interp (data : List Flt) (p B : ℚ) (hp0 : 0 ≤ p)
    (hp1 : p ≤ 100) (hfin : finiteEntries data ≠ []) (hk : nanCount data = 0)
    (hcap : data.length < 2 ^ 53) (hB1 : 1 ≤ B) (hB : ∀ x ∈ finiteEntries data, |x| ≤ B) :
    ∃ r, calculatePercentile64 data p = some (some r)
      ∧ |r - interp (sortFloat64s (finiteEntries data)) (index64 p data.length)|
          ≤ 9 * B * pow2 (-53) := by
  have hne : data ≠ [] := by
    intro h
    rw [h] at hfin
    exact hfin rfl
  have hlen : 0 < data.length := List.length_pos.2 hne
  have hkm := nanCount_add_finite data
  obtain ⟨hi0, hi1⟩ := index64_range hlen hcap hp0 hp1
  obtain ⟨hf0, hf1, hfi, hflt, hw0, hw1, hend⟩ := floor_facts _ _ hi0 hi1
  have hBu : 0 ≤ 9 * B * pow2 (-53) :=
    mul_nonneg (by linarith) (le_of_lt (pow2_pos _))
  unfold calculatePercentile64
  rw [if_neg hne, bubbleSortFlt_of_finite data hk, sortFloat64sFlt_length,
    indexAdvanced64_eq hlen hcap, truncToInt_of_nonneg hi0]
  by_cases hz : p ≤ 0
  · have hp00 : p = 0 := le_antisymm hz hp0
    rw [if_pos hz, hp00, index64_zero hlen hcap,
      sliceGetFlt_finite data 0 (le_refl _) (by simp [hk]) (by simpa using hlen)]
    refine ⟨_, rfl, ?_⟩
    rw [interp_of_int _ _ (by simp)]
    simp only [hk, Int.toNat_zero, Nat.sub_zero, Int.floor_zero, sub_self, abs_zero]
    exact hBu
  · rw [if_neg hz]
    by_cases hc : p ≥ 100
    · have hp100 : p = 100 := le_antisymm hp1 hc
      have hidx : index64 100 data.length = (((data.length : Int) - 1 : Int) : ℚ) := by
        rw [index64_hundred hlen hcap]; push_cast; ring
      rw [if_pos hc, hp100, sliceGetFlt_finite data _ (by omega) (by omega) (by omega)]
      refine ⟨_, rfl, ?_⟩
      rw [hidx, interp_of_int _ _ (by rw [Int.floor_intCast]; simp), Int.floor_intCast, hk,
        Nat.sub_zero, sub_self, abs_zero]
      exact hBu
    · rw [if_neg hc]
      by_cases hendc : ⌊index64 p data.length⌋ + 1 ≥ (data.length : Int)
      · rw [if_pos hendc, sliceGetFlt_finite data _ hf0 (by omega) hflt, hk, Nat.sub_zero]
        refine ⟨_, rfl, ?_⟩
        rw [interp_of_int _ _ (hend (by omega)), sub_self, abs_zero]
        exact hBu
      · rw [if_neg hendc, sliceGetFlt_finite data _ hf0 (by omega) hflt,
          sliceGetFlt_finite data (⌊index64 p data.length⌋ + 1) (by omega) (by omega)
            (by omega), hk, Nat.sub_zero, Nat.sub_zero]
        refine ⟨_, rfl, ?_⟩
        have hsucc : (⌊index64 p data.length⌋ + 1).toNat
            = ⌊index64 p data.length⌋.toNat + 1 := by omega
        rw [hsucc, weight64_floor hi0 hi1 hcap]
        unfold interp
        exact interpolate64_err hB1 (getD_sortFloat64s_abs_le hB (by linarith) _)
          (getD_sortFloat64s_abs_le hB (by linarith) _) hw0 (le_of_lt hw1)

/-! ## Monotonicity of the percentiles in `float64` -/

/-- C24 (counterexample). For the data `[3, 3]` the index of `p = 1` is `0.01`, the weights
`1 - 0.01` and `0.01` are rounded, and `3*(1-0.01) + 3*0.01` is `2.9999999999999996` in
`float64`: `percentile` and `calculatePercentile` return `3` for `p = 0` and a smaller value
for `p = 1`. For the data `[NaN, 1]`, `percentile` returns `NaN` for `p = 0`, which is not
below or equal to the value `1` it returns for `p = 100`. -/
theorem C24_rounded_interpolation_not_monotone :
    percentile64 [some 3, some 3] 0 = some (some 3)
      ∧ percentile64 [some 3, some 3] 1
          = some (some (6755399441055743 / 2251799813685248))
      ∧ calculatePercentile64 [some 3, some 3] 0 = some (some 3)
      ∧ calculatePercentile64 [some 3, some 3] 1
          = some (some (6755399441055743 / 2251799813685248))
      ∧ (6755399441055743 / 2251799813685248 : ℚ) < 3
      ∧ percentile64 [none, some 1] 0 = some none
      ∧ percentile64 [none, some 1] 100 = some (some 1) := by
  decide!

/-- C24 (amended). For data without `NaN` entries (at least one entry, fewer than `2^53`, all
of absolute value at most `B` with `B ≥ 1`) and `0 ≤ p ≤ q ≤ 100`, both `percentile` and
`calculatePercentile`, computed in `float64`, return numbers with
`percentile(data, p) ≤ percentile(data, q) + B · 2^-48`; and when the entries are `float64`
values and the `float64` indexes of `p` and `q` are whole numbers, no interpolation is rounded
and `percentile(data, p) ≤ percentile(data, q)` holds exactly, for both functions. -/
theorem C24_percentile_monotone_up_to_rounding (data : List Flt) (p q B : ℚ)
    (hfin : finiteEntries data ≠ []) (hk : nanCount data = 0) (hcap : data.length < 2 ^ 53)
    (hB1 : 1 ≤ B) (hB : ∀ x ∈ finiteEntries data, |x| ≤ B)
    (hp0 : 0 ≤ p) (hpq : p ≤ q) (hq1 : q ≤ 100) :
    (∃ a b, percentile64 data p = some (some a) ∧ percentile64 data q = some (some b)
        ∧ a ≤ b + B * pow2 (-48))
      ∧ (∃ a b, calculatePercentile64 data p = some (some a)
          ∧ calculatePercentile64 data q = some (some b) ∧ a ≤ b + B * pow2 (-48))
      ∧ ((∀ x ∈ finiteEntries data, fl64 x = x) →
          ((⌊index64 p data.length⌋ : Int) : ℚ) = index64 p data.length →
          ((⌊index64 q data.length⌋ : Int) : ℚ) = index64 q data.length →
          (∃ a b, percentile64 data p = some (some a) ∧ percentile64 data q = some (some b)
              ∧ a ≤ b)
            ∧ (∃ a b, calculatePercentile64 data p = some (some a)
                ∧ calculatePercentile64 data q = some (some b) ∧ a ≤ b)) := by
  have hne : data ≠ [] := by
    intro h
    rw [h] at hfin
    exact hfin rfl
  have hlen : 0 < data.length := List.length_pos.2 hne
  have hkm := nanCount_add_finite data
  have hp1 : p ≤ 100 := le_trans hpq hq1
  have hq0 : 0 ≤ q := le_trans hp0 hpq
  obtain ⟨hip0, _⟩ := index64_range hlen hcap hp0 hp1
  obtain ⟨_, hiq1⟩ := index64_range hlen hcap hq0 hq1
  have himono := index64_mono hlen hcap hpq
  have hslen : ((sortFloat64s (finiteEntries data)).length : ℚ) = (data.length : ℚ) := by
    rw [sortFloat64s_length]
    have : (finiteEntries data).length = data.length := by omega
    rw [this]
  have hinterp := interp_mono (sortFloat64s (finiteEntries data)) (sortFloat64s_sorted _)
    (index64 p data.length) (index64 q data.length) hip0 himono (by rw [hslen]; exact hiq1)
  have h48 : B * pow2 (-48) = 2 * (9 * B * pow2 (-53)) + 14 * B * pow2 (-53) := by
    have e1 : pow2 (-48) = 1 / 281474976710656 := by decide!
    have e2 : pow2 (-53) = 1 / 9007199254740992 := by decide!
    rw [e1, e2]; ring
  have hslack : 0 ≤ 14 * B * pow2 (-53) :=
    mul_nonneg (by linarith) (le_of_lt (pow2_pos _))
  refine ⟨?_, ?_, ?_⟩
  · obtain ⟨a, ha, hae⟩ := percentile64_near_interp data p B hp0 hp1 hfin hk hcap hB1 hB
    obtain ⟨b, hb, hbe⟩ := percentile64_near_interp data q B hq0 hq1 hfin hk hcap hB1 hB
    refine ⟨a, b, ha, hb, ?_⟩
    rw [abs_le] at hae hbe
    linarith [hae.2, hbe.1]
  · obtain ⟨a, ha, hae⟩ := calculatePercentile64_near_interp data p B hp0 hp1 hfin hk hcap
      hB1 hB
    obtain ⟨b, hb, hbe⟩ := calculatePercentile64_near_interp data q B hq0 hq1 hfin hk hcap
      hB1 hB
    refine ⟨a, b, ha, hb, ?_⟩
    rw [abs_le] at hae hbe
    linarith [hae.2, hbe.1]
  · intro hfl hwp hwq
    have hfloor : ⌊index64 p data.length⌋.toNat ≤ ⌊index64 q data.length⌋.toNat :=
      Int.toNat_le_toNat (Int.floor_le_floor himono)
    obtain ⟨_, _, _, hqlt, _, _, _⟩ := floor_facts data.length _
      (le_trans hip0 himono) hiq1
    have hle := sorted_getD_le (sortFloat64s_sorted (finiteEntries data)) hfloor
      (by rw [sortFloat64s_length]; omega)
    exact ⟨⟨_, _, percentile64_whole data p hp0 hp1 hfin hk hcap hwp,
        percentile64_whole data q hq0 hq1 hfin hk hcap hwq, hle⟩,
      ⟨_, _, calculatePercentile64_whole data p hp0 hp1 hfin hk hcap hfl hwp,
        calculatePercentile64_whole data q hq0 hq1 hfin hk hcap hfl hwq, hle⟩⟩

theorem C24_percentile_monotone_up_to_rounding_witness :
    (∃ a b, percentile64 [some 3, some 1, some 2] 25 = some (some a)
        ∧ percentile64 [some 3, some 1, some 2] 90 = some (some b)
        ∧ a ≤ b + 3 * pow2 (-48))
      ∧ (∃ a b, calculatePercentile64 [some 3, some 1, some 2] 25 = some (some a)
          ∧ calculatePercentile64 [some 3, some 1, some 2] 90 = some (some b)
          ∧ a ≤ b + 3 * pow2 (-48))
      ∧ (∃ a b, percentile64 [some 3, some 1, some 2] 50 = some (some a)
          ∧ percentile64 [some 3, some 1, some 2] 100 = some (some b) ∧ a ≤ b)
      ∧ (∃ a b, calculatePercentile64 [some 3, some 1, some 2] 50 = some (some a)
          ∧ calculatePercentile64 [some 3, some 1, some 2] 100 = some (some b) ∧ a ≤ b) :=
  ⟨(C24_percentile_monotone_up_to_rounding [some 3, some 1, some 2] 25 90 3 (by decide)
      (by decide) (by decide) (by decide!) (by decide!) (by decide!) (by decide!)
      (by decide!)).1,
    (C24_percentile_monotone_up_to_rounding [some 3, some 1, some 2] 25 90 3 (by decide)
      (by decide) (by decide) (by decide!) (by decide!) (by decide!) (by decide!)
      (by decide!)).2.1,
    (C24_percentile_monotone_up_to_rounding [some 3, some 1, some 2] 50 100 3 (by decide)
      (by decide) (by decide) (by decide!) (by decide!) (by decide!) (by decide!)
      (by decide!)).2.2 (by decide!) (by decide!) (by decide!)⟩

/-! ## Percentiles of data with `NaN` entries in `float64` -/

/-- C35 (counterexample). The data `[NaN, 1]` has a non-`NaN` entry; `sort.Float64s` puts the
`NaN` first, so `percentile` returns `NaN` for `p = 0` and for `p = 50`, while the list
without its `NaN` entry, `[1]`, has the percentiles `1`. -/
theorem C35_nan_entry_gives_nan_percentile :
    percentile64 [none, some 1] 0 = some none
      ∧ percentile64 [none, some 1] 50 = some none
      ∧ percentile64 (List.map some (finiteEntries [none, some 1])) 0 = some (some 1)
      ∧ percentile64 (List.map some (finiteEntries [none, some 1])) 50 = some (some 1) := by
  decide!

/-- C35 (amended). Percentiles do not ignore NaNs: for every data list with `k` `NaN` entries
and at least one other entry (fewer than `2^53` entries in all) and every `p` in `[0, 100]`,
with `i` the index `p/100·(len(data)−1)` as `float64` computes it, `percentile(data, p)` is
`NaN` when `⌊i⌋ < k`; otherwise it is the sorted non-`NaN` entry number `⌊i⌋ − k` when `i` is
whole, and the `float64` interpolation of the sorted non-`NaN` entries number `⌊i⌋ − k` and
`⌈i⌉ − k` with the weight `i − ⌊i⌋` when it is not; it equals `percentile` of the list with its
`NaN` entries removed when `k = 0`. -/
theorem C35_percentile_with_nan_entries (data : List Flt) (p : ℚ) (hp0 : 0 ≤ p)
    (hp1 : p ≤ 100) (hfin : finiteEntries data ≠ []) (hcap : data.length < 2 ^ 53) :
    percentile64 data p
        = some (if ⌊index64 p data.length⌋ < (nanCount data : Int) then none
            else if ⌊index64 p data.length⌋ = ⌈index64 p data.length⌉ then
              some ((sortFloat64s (finiteEntries data)).getD
                (⌊index64 p data.length⌋.toNat - nanCount data) 0)
            else interpolate64
              (some ((sortFloat64s (finiteEntries data)).getD
                (⌊index64 p data.length⌋.toNat - nanCount data) 0))
              (some ((sortFloat64s (finiteEntries data)).getD
                (⌈index64 p data.length⌉.toNat - nanCount data) 0))
              (weight64 (index64 p data.length) ⌊index64 p data.length⌋))
      ∧ (nanCount data = 0 →
          percentile64 data p = percentile64 ((finiteEntries data).map some) p) := by
  refine ⟨percentile64_eq data p hp0 hp1 hfin hcap, ?_⟩
  intro hk
  rw [← (nanCount_eq_zero_iff data).1 hk]

theorem C35_percentile_with_nan_entries_witness :
    percentile64 (List.replicate 29 none ++ List.replicate 72 (some 1)) 29 = some none
      ∧ percentile64 [none, some 1, some 3, some 7] 75 = some (some 4) :=
  ⟨(C35_percentile_with_nan_entries (List.replicate 29 none ++ List.replicate 72 (some 1)) 29
      (by norm_num) (by norm_num) (by decide) (by decide)).1.trans (by decide!),
    (C35_percentile_with_nan_entries [none, some 1, some 3, some 7] 75 (by norm_num)
      (by norm_num) (by decide) (by decide)).1.trans (by decide!)⟩

end TraceCollector
